import Mathlib

/-!
Shallow embedding of `set.h` and `bimap.h`.

Memory is an explicit heap of `node_base` records.  A paired-storage node
(`binode`) with identity `i` owns two `node_base` subobjects, addressed
`⟨Side.left, i⟩` and `⟨Side.right, i⟩`; the cast between the two role views
of one `binode` changes the `over` component and keeps `i`.  A `bimap` object
with identity `b` owns the two sentinels `⟨Side.left, b⟩`, `⟨Side.right, b⟩`.

Every function returns `Option`: `none` stands for undefined behaviour (a null
pointer dereferenced, a value read from a node that has none) or for a loop
that did not finish within `fuel` iterations.
-/

namespace Bimap

/-- The role tags `map_detail::left` and `map_detail::right`. -/
inductive Side where
  | left
  | right
deriving DecidableEq

/-- The opposite role (`opposite_over` in `iterator_base`). -/
def Side.opp : Side → Side
  | .left => .right
  | .right => .left

/-- Address of one `node_base` subobject. -/
structure Ptr where
  over : Side
  id : Nat
deriving DecidableEq

/-- A `node_base*`: `none` is `nullptr`. -/
abbrev NPtr := Option Ptr

/-- The class `node_base`: three raw links, all null by default. -/
structure node_base where
  _left : NPtr
  _right : NPtr
  _parent : NPtr
deriving DecidableEq

/-- A default-constructed `node_base`. -/
def node_base.null : node_base := ⟨none, none, none⟩

/-- The heap of `node_base` subobjects. -/
abbrev Heap := Ptr → node_base

/-- Which child field of a node a `node_base**` designates. -/
inductive Slot where
  | _left
  | _right
deriving DecidableEq

/-- A `node_base**` pointing at a child field of `owner`. -/
structure FieldPtr where
  owner : Ptr
  slot : Slot
deriving DecidableEq

/-- The struct `node_placement`. -/
structure node_placement where
  attach_to : NPtr
  place : FieldPtr
deriving DecidableEq

/-- Assignment `p->_left = v`. -/
def Heap.set_left (h : Heap) (p : Ptr) (v : NPtr) : Heap :=
  fun q => if q = p then { h p with _left := v } else h q

/-- Assignment `p->_right = v`. -/
def Heap.set_right (h : Heap) (p : Ptr) (v : NPtr) : Heap :=
  fun q => if q = p then { h p with _right := v } else h q

/-- Assignment `p->_parent = v`. -/
def Heap.set_parent (h : Heap) (p : Ptr) (v : NPtr) : Heap :=
  fun q => if q = p then { h p with _parent := v } else h q

/-- Assignment `*place = v` through a `node_base**`. -/
def Heap.store (h : Heap) (place : FieldPtr) (v : NPtr) : Heap :=
  match place.slot with
  | ._left => h.set_left place.owner v
  | ._right => h.set_right place.owner v

/-- The method `node_base::clear`. -/
def clear (h : Heap) (p : Ptr) : Heap :=
  fun q => if q = p then node_base.null else h q

/-- Loop of `node_base::leftmost`. -/
def leftmost_loop : Nat → Heap → Ptr → Option Ptr
  | 0, _, _ => none
  | fuel + 1, h, n =>
    match (h n)._left with
    | some l => leftmost_loop fuel h l
    | none => some n

/-- The method `node_base::leftmost`, callable on a null `this`. -/
def leftmost (fuel : Nat) (h : Heap) (this : NPtr) : Option NPtr :=
  match this with
  | none => some none
  | some n => (leftmost_loop fuel h n).map some

/-- Loop of `node_base::rightmost`. -/
def rightmost_loop : Nat → Heap → Ptr → Option Ptr
  | 0, _, _ => none
  | fuel + 1, h, n =>
    match (h n)._right with
    | some r => rightmost_loop fuel h r
    | none => some n

/-- The method `node_base::rightmost`, callable on a null `this`. -/
def rightmost (fuel : Nat) (h : Heap) (this : NPtr) : Option NPtr :=
  match this with
  | none => some none
  | some n => (rightmost_loop fuel h n).map some

namespace set_over

/-- Static `set_over::is_sentinel`. -/
def is_sentinel (h : Heap) (n : Ptr) : Bool :=
  (h n)._parent.isNone

/-- The climbing loop of `set_over::next_node`; returns the final `n`. -/
def next_node_loop : Nat → Heap → Ptr → Option Ptr
  | 0, _, _ => none
  | fuel + 1, h, n =>
    match (h n)._parent with
    | none => none
    | some p =>
      if !(is_sentinel h p) && decide ((h p)._right = some n) then
        next_node_loop fuel h p
      else some n

/-- Static `set_over::next_node`. -/
def next_node (fuel : Nat) (h : Heap) (n : Ptr) : Option NPtr :=
  match (h n)._right with
  | some r => leftmost fuel h (some r)
  | none =>
    match next_node_loop fuel h n with
    | none => none
    | some n1 => some (h n1)._parent

/-- The climbing loop of `set_over::prev_node`; returns the final `n`. -/
def prev_node_loop : Nat → Heap → Ptr → Option Ptr
  | 0, _, _ => none
  | fuel + 1, h, n =>
    match (h n)._parent with
    | none => none
    | some p =>
      if !(is_sentinel h p) && decide ((h p)._left = some n) then
        prev_node_loop fuel h p
      else some n

/-- Static `set_over::prev_node`. -/
def prev_node (fuel : Nat) (h : Heap) (n : Ptr) : Option NPtr :=
  if is_sentinel h n then rightmost fuel h (h n)._right
  else
    match (h n)._left with
    | some l => rightmost fuel h (some l)
    | none =>
      match prev_node_loop fuel h n with
      | none => none
      | some n1 => some (h n1)._parent

/-- Static `set_over::get_service`. -/
def get_service (h : Heap) (n : Ptr) : NPtr :=
  if is_sentinel h n then (h n)._left else none

/-- Static `set_over::place_node`. -/
def place_node (h : Heap) (placement : node_placement) (n : Ptr) : Heap × Ptr :=
  ((h.set_parent n placement.attach_to).store placement.place (some n), n)

/-- The descent loop of `set_over::find_place` over the locals `p` and `m`. -/
def find_place_loop {K : Type} (comparator : K → K → Bool) (get_over : Ptr → Option K)
    (key : K) : Nat → Heap → NPtr → NPtr → Option NPtr
  | 0, _, _, _ => none
  | fuel + 1, h, p, m =>
    match m with
    | none => some p
    | some m1 =>
      match get_over m1 with
      | none => none
      | some v =>
        if comparator key v then find_place_loop comparator get_over key fuel h (some m1) (h m1)._left
        else find_place_loop comparator get_over key fuel h (some m1) (h m1)._right

/-- The method `set_over::find_place`; `sentinel` is the address of the member. -/
def find_place {K : Type} (comparator : K → K → Bool) (get_over : Ptr → Option K)
    (fuel : Nat) (h : Heap) (sentinel : Ptr) (key : K) : Option node_placement :=
  if (h sentinel)._right = none then
    some ⟨some sentinel, ⟨sentinel, ._right⟩⟩
  else
    match find_place_loop comparator get_over key fuel h none (h sentinel)._right with
    | none => none
    | some none => none
    | some (some p) =>
      match get_over p with
      | none => none
      | some v =>
        if comparator key v then some ⟨some p, ⟨p, ._left⟩⟩
        else some ⟨some p, ⟨p, ._right⟩⟩

/-- The method `set_over::root`. -/
def root (h : Heap) (sentinel : Ptr) : NPtr :=
  (h sentinel)._right

/-- Static `set_over::replace_parent`. -/
def replace_parent (h : Heap) (to_n : Ptr) (with_n : NPtr) : Option Heap :=
  match (h to_n)._parent with
  | none => none
  | some p =>
    if (h p)._left = some to_n then some (h.set_left p with_n)
    else some (h.set_right p with_n)

/-- Static `set_over::reparent`. -/
def reparent (h : Heap) (old_p new_p : Ptr) : Heap :=
  let h1 :=
    match (h old_p)._left with
    | some l => if !(is_sentinel h new_p) && !(is_sentinel h old_p) then h.set_parent l (some new_p) else h
    | none => h
  match (h1 old_p)._right with
  | some r => h1.set_parent r (some new_p)
  | none => h1

/-- Lines 242 to 250 of `set_over::swap_nodes`: the two `reparent` calls and the
six final assignments, given the values of the six locals. -/
def swap_nodes_tail (h : Heap) (n1 n2 : Ptr)
    (n1_parent n2_parent n1_left n2_left n1_right n2_right : NPtr) : Heap :=
  let h1 := reparent h n1 n2
  let h2 := reparent h1 n2 n1
  let h3 := h2.set_parent n1 n1_parent
  let h4 := h3.set_left n1 n1_left
  let h5 := h4.set_right n1 n1_right
  let h6 := h5.set_parent n2 n2_parent
  let h7 := h6.set_left n2 n2_left
  h7.set_right n2 n2_right

/-- Static `set_over::swap_nodes`. -/
def swap_nodes (h : Heap) (n1 n2 : Ptr) : Option Heap :=
  let n1_parent := (h n2)._parent
  let n2_parent := (h n1)._parent
  let n1_left := (h n2)._left
  let n2_left := (h n1)._left
  let n1_right := (h n2)._right
  let n2_right := (h n1)._right
  if some n2 = (h n1)._parent then
    match replace_parent h n2 (some n1) with
    | none => none
    | some h1 =>
      if (h n2)._left = some n1 then
        some (swap_nodes_tail h1 n1 n2 n1_parent (some n1) (some n2) n2_left n1_right n2_right)
      else
        some (swap_nodes_tail h1 n1 n2 n1_parent (some n1) n1_left n2_left (some n2) n2_right)
  else if some n1 = (h n2)._parent then
    match replace_parent h n1 (some n2) with
    | none => none
    | some h1 =>
      if (h n1)._left = some n2 then
        some (swap_nodes_tail h1 n1 n2 (some n2) n2_parent n1_left (some n1) n1_right n2_right)
      else
        some (swap_nodes_tail h1 n1 n2 (some n2) n2_parent n1_left n2_left n1_right (some n1))
  else if (h n1)._parent ≠ none ∧ (h n2)._parent ≠ none then
    match replace_parent h n1 (some n2) with
    | none => none
    | some h1 =>
      match replace_parent h1 n2 (some n1) with
      | none => none
      | some h2 =>
        some (swap_nodes_tail h2 n1 n2 n1_parent n2_parent n1_left n2_left n1_right n2_right)
  else
    some (swap_nodes_tail h n1 n2 n1_parent n2_parent n1_left n2_left n1_right n2_right)

/-- The method `set_over::swap_set`, on the sentinels (the comparators are
exchanged by the caller, which owns them). -/
def swap_set (h : Heap) (sentinel other : Ptr) : Option Heap :=
  swap_nodes h sentinel other

/-- Static `set_over::erase`. -/
def erase : Nat → Heap → Ptr → Option (Heap × NPtr)
  | 0, _, _ => none
  | fuel + 1, h, n =>
    match next_node (fuel + 1) h n with
    | none => none
    | some nxt =>
      match (h n)._parent with
      | none => none
      | some par =>
        let placement : FieldPtr :=
          if (h par)._left = some n then ⟨par, ._left⟩ else ⟨par, ._right⟩
        match (h n)._left, (h n)._right with
        | none, none => some (h.store placement none, nxt)
        | some replacer, none =>
          let h1 := h.store placement (some replacer)
          some (h1.set_parent replacer (h1 n)._parent, nxt)
        | none, some replacer =>
          let h1 := h.store placement (some replacer)
          some (h1.set_parent replacer (h1 n)._parent, nxt)
        | some _, some _ =>
          match next_node (fuel + 1) h n with
          | none => none
          | some none => none
          | some (some s) =>
            match swap_nodes h n s with
            | none => none
            | some h1 =>
              match erase fuel h1 n with
              | none => none
              | some (h2, _) => some (h2, nxt)

/-- The method `set_over::end`. -/
def end_node (sentinel : Ptr) : NPtr :=
  some sentinel

/-- The method `set_over::begin`. -/
def begin_node (fuel : Nat) (h : Heap) (sentinel : Ptr) : Option NPtr :=
  match root h sentinel with
  | none =>
    match (h sentinel)._left with
    | none => none
    | some s => some (h s)._left
  | some r => leftmost fuel h (some r)

/-- The descent loop of `set_over::lower_bound` over the locals `n` and `last_left`. -/
def lower_bound_loop {K : Type} (comparator : K → K → Bool) (get_over : Ptr → Option K)
    (key : K) : Nat → Heap → NPtr → NPtr → Option (NPtr × NPtr)
  | 0, _, _, _ => none
  | fuel + 1, h, n, last_left =>
    match n with
    | none => some (none, last_left)
    | some n1 =>
      match get_over n1 with
      | none => none
      | some v =>
        if comparator key v then
          lower_bound_loop comparator get_over key fuel h (h n1)._left (some n1)
        else if comparator v key then
          lower_bound_loop comparator get_over key fuel h (h n1)._right last_left
        else some (some n1, last_left)

/-- The method `set_over::lower_bound`. -/
def lower_bound {K : Type} (comparator : K → K → Bool) (get_over : Ptr → Option K)
    (fuel : Nat) (h : Heap) (sentinel : Ptr) (key : K) : Option NPtr :=
  match lower_bound_loop comparator get_over key fuel h (root h sentinel) none with
  | none => none
  | some (some n, _) => some (some n)
  | some (none, some last_left) => some (some last_left)
  | some (none, none) => some (end_node sentinel)

/-- The method `set_over::find`. -/
def find {K : Type} (comparator : K → K → Bool) (get_over : Ptr → Option K)
    (fuel : Nat) (h : Heap) (sentinel : Ptr) (key : K) : Option NPtr :=
  match lower_bound comparator get_over fuel h sentinel key with
  | none => none
  | some found =>
    if found = end_node sentinel then some found
    else
      match found with
      | none => none
      | some f =>
        match get_over f with
        | none => none
        | some v =>
          if !(comparator v key || comparator key v) then some found
          else some (end_node sentinel)

/-- The method `set_over::upper_bound`; `==` on keys is the key type's own equality. -/
def upper_bound {K : Type} [DecidableEq K] (comparator : K → K → Bool)
    (get_over : Ptr → Option K) (fuel : Nat) (h : Heap) (sentinel : Ptr) (key : K) :
    Option NPtr :=
  match lower_bound comparator get_over fuel h sentinel key with
  | none => none
  | some n =>
    if n = end_node sentinel then some (end_node sentinel)
    else
      match n with
      | none => none
      | some n1 =>
        match get_over n1 with
        | none => none
        | some v => if v = key then next_node fuel h n1 else some n

/-- The method `set_over::empty`. -/
def empty (h : Heap) (sentinel : Ptr) : Bool :=
  (h sentinel)._right.isNone

/-- The method `set_over::set_service`. -/
def set_service (h : Heap) (sentinel : Ptr) (n : NPtr) : Heap :=
  h.set_left sentinel n

/-- The move constructor `set_over(set_over&&)`: `sentinel` is the fresh,
default-initialised member of the object under construction. -/
def move_construct (h : Heap) (sentinel other : Ptr) : Option Heap :=
  let h0 := clear h sentinel
  let tmp := (h0 other)._left
  match swap_nodes h0 sentinel other with
  | none => none
  | some h1 => some ((clear h1 other).set_left other tmp)

end set_over

/-- The whole memory: the heap of links, the values held by the paired nodes,
the members `_size` and the comparators of every `bimap` object, and the next
unused identity (a bump allocator: `new` never returns an address in use).
The member `_size` is a natural number: it counts the nodes of the object,
which the address space keeps below `2 ^ 64`, so the `std::size_t` arithmetic
on it does not wrap. -/
structure Mem (α β : Type) where
  heap : Heap
  lval : Nat → Option α
  rval : Nat → Option β
  size : Nat → Nat
  cmpL : Nat → α → α → Bool
  cmpR : Nat → β → β → Bool
  next : Nat

variable {α β : Type}

/-- A memory with nothing allocated. -/
def Mem.init (cl : α → α → Bool) (cr : β → β → Bool) : Mem α β :=
  ⟨fun _ => node_base.null, fun _ => none, fun _ => none, fun _ => 0, fun _ => cl, fun _ => cr, 0⟩

/-- Address of `left_set::sentinel` of the object `this`. -/
def left_sentinel (this : Nat) : Ptr := ⟨.left, this⟩

/-- Address of `right_set::sentinel` of the object `this`. -/
def right_sentinel (this : Nat) : Ptr := ⟨.right, this⟩

/-- Static `left_set::get_over`: the value of a left-role node. -/
def Mem.get_over_left (m : Mem α β) (n : Ptr) : Option α :=
  if n.over = .left then m.lval n.id else none

/-- Static `right_set::get_over`: the value of a right-role node. -/
def Mem.get_over_right (m : Mem α β) (n : Ptr) : Option β :=
  if n.over = .right then m.rval n.id else none

/-- Dereference `*it` of a `left_iterator`. -/
def deref_left (m : Mem α β) (it : NPtr) : Option α :=
  match it with
  | none => none
  | some n => m.get_over_left n

/-- Dereference `*it` of a `right_iterator`. -/
def deref_right (m : Mem α β) (it : NPtr) : Option β :=
  match it with
  | none => none
  | some n => m.get_over_right n

/-- The method `iterator_base::flip`. -/
def flip (h : Heap) (it : NPtr) : Option NPtr :=
  match it with
  | none => none
  | some n =>
    match set_over.get_service h n with
    | some s => some (some s)
    | none => some (some ⟨n.over.opp, n.id⟩)

/-- The prefix `operator++` of `iterator_base`. -/
def increment (fuel : Nat) (h : Heap) (it : NPtr) : Option NPtr :=
  match it with
  | none => none
  | some n => set_over.next_node fuel h n

/-- The prefix `operator--` of `iterator_base`. -/
def decrement (fuel : Nat) (h : Heap) (it : NPtr) : Option NPtr :=
  match it with
  | none => none
  | some n => set_over.prev_node fuel h n

/-- The method `bimap::link_sets`. -/
def link_sets (h : Heap) (this : Nat) : Heap :=
  set_over.set_service (set_over.set_service h (left_sentinel this) (some (right_sentinel this)))
    (right_sentinel this) (some (left_sentinel this))

/-- The constructor `bimap(CompareLeft, CompareRight)`; returns the new object. -/
def construct (m : Mem α β) (compare_left : α → α → Bool) (compare_right : β → β → Bool) :
    Mem α β × Nat :=
  let this := m.next
  let h0 := clear (clear m.heap (left_sentinel this)) (right_sentinel this)
  ({ m with
      heap := link_sets h0 this
      size := fun b => if b = this then 0 else m.size b
      cmpL := fun b => if b = this then compare_left else m.cmpL b
      cmpR := fun b => if b = this then compare_right else m.cmpR b
      next := m.next + 1 }, this)

/-- The method `bimap::begin_left`. -/
def begin_left (fuel : Nat) (m : Mem α β) (this : Nat) : Option NPtr :=
  set_over.begin_node fuel m.heap (left_sentinel this)

/-- The method `bimap::end_left`. -/
def end_left (this : Nat) : NPtr :=
  set_over.end_node (left_sentinel this)

/-- The method `bimap::begin_right`. -/
def begin_right (fuel : Nat) (m : Mem α β) (this : Nat) : Option NPtr :=
  set_over.begin_node fuel m.heap (right_sentinel this)

/-- The method `bimap::end_right`. -/
def end_right (this : Nat) : NPtr :=
  set_over.end_node (right_sentinel this)

/-- The method `bimap::empty`. -/
def empty (m : Mem α β) (this : Nat) : Bool :=
  set_over.empty m.heap (left_sentinel this)

/-- The method `bimap::size`. -/
def size (m : Mem α β) (this : Nat) : Nat :=
  m.size this

/-- The method `bimap::find_left`. -/
def find_left (fuel : Nat) (m : Mem α β) (this : Nat) (left : α) : Option NPtr :=
  set_over.find (m.cmpL this) m.get_over_left fuel m.heap (left_sentinel this) left

/-- The method `bimap::find_right`. -/
def find_right (fuel : Nat) (m : Mem α β) (this : Nat) (right : β) : Option NPtr :=
  set_over.find (m.cmpR this) m.get_over_right fuel m.heap (right_sentinel this) right

/-- The method `bimap::check`. -/
def check (fuel : Nat) (m : Mem α β) (this : Nat) (left : α) (right : β) : Option Bool :=
  match find_left fuel m this left with
  | none => none
  | some fl =>
    if fl = set_over.end_node (left_sentinel this) then
      match find_right fuel m this right with
      | none => none
      | some fr => some (decide (fr = set_over.end_node (right_sentinel this)))
    else some false

/-- The expression `new binode_t(left, right)`: a fresh identity whose two role
views have null links and hold the two values. -/
def new_binode (m : Mem α β) (left : α) (right : β) : Mem α β × Nat :=
  let n := m.next
  ({ m with
      heap := clear (clear m.heap ⟨.left, n⟩) ⟨.right, n⟩
      lval := fun i => if i = n then some left else m.lval i
      rval := fun i => if i = n then some right else m.rval i
      next := m.next + 1 }, n)

/-- The expression `delete` of a paired node: both values are gone. -/
def delete_binode (m : Mem α β) (n : Nat) : Mem α β :=
  { m with
      lval := fun i => if i = n then none else m.lval i
      rval := fun i => if i = n then none else m.rval i }

/-- The method `bimap::forwarding_insert`. -/
def forwarding_insert (fuel : Nat) (m : Mem α β) (this : Nat) (left : α) (right : β)
    (direct : Bool) : Option (Mem α β × NPtr) :=
  match check fuel m this left right with
  | none => none
  | some ok =>
    if !ok && !direct then some (m, end_left this)
    else
      match set_over.find_place (m.cmpL this) m.get_over_left fuel m.heap (left_sentinel this) left,
        set_over.find_place (m.cmpR this) m.get_over_right fuel m.heap (right_sentinel this) right with
      | some left_np, some right_np =>
        let (m1, n) := new_binode m left right
        let h1 := (set_over.place_node m1.heap left_np ⟨.left, n⟩).1
        let h2 := (set_over.place_node h1 right_np ⟨.right, n⟩).1
        some ({ m1 with heap := h2, size := fun b => if b = this then m1.size this + 1 else m1.size b },
          some ⟨.left, n⟩)
      | _, _ => none

/-- The four overloads of `bimap::insert`. -/
def insert (fuel : Nat) (m : Mem α β) (this : Nat) (left : α) (right : β) :
    Option (Mem α β × NPtr) :=
  forwarding_insert fuel m this left right false

/-- The method `bimap::erase_left(left_iterator)`. -/
def erase_left (fuel : Nat) (m : Mem α β) (this : Nat) (it : NPtr) : Option (Mem α β × NPtr) :=
  match flip m.heap it, it with
  | some (some f), some n =>
    match set_over.erase fuel m.heap f with
    | none => none
    | some (h1, _) =>
      match set_over.erase fuel h1 n with
      | none => none
      | some (h2, ret) =>
        let m1 := delete_binode { m with heap := h2 } n.id
        some ({ m1 with size := fun b => if b = this then m1.size this - 1 else m1.size b }, ret)
  | _, _ => none

/-- The method `bimap::erase_right(right_iterator)`. -/
def erase_right (fuel : Nat) (m : Mem α β) (this : Nat) (it : NPtr) : Option (Mem α β × NPtr) :=
  match flip m.heap it, it with
  | some (some f), some n =>
    match set_over.erase fuel m.heap f with
    | none => none
    | some (h1, _) =>
      match set_over.erase fuel h1 n with
      | none => none
      | some (h2, ret) =>
        let m1 := delete_binode { m with heap := h2 } n.id
        some ({ m1 with size := fun b => if b = this then m1.size this - 1 else m1.size b }, ret)
  | _, _ => none

/-- The method `bimap::erase_left(const left_t&)`. -/
def erase_left_key (fuel : Nat) (m : Mem α β) (this : Nat) (left : α) : Option (Mem α β × Bool) :=
  match find_left fuel m this left with
  | none => none
  | some found =>
    if found = end_left this then some (m, false)
    else
      match erase_left fuel m this found with
      | none => none
      | some (m1, _) => some (m1, true)

/-- The method `bimap::erase_right(const right_t&)`. -/
def erase_right_key (fuel : Nat) (m : Mem α β) (this : Nat) (right : β) : Option (Mem α β × Bool) :=
  match find_right fuel m this right with
  | none => none
  | some found =>
    if found = end_right this then some (m, false)
    else
      match erase_right fuel m this found with
      | none => none
      | some (m1, _) => some (m1, true)

/-- The loop of `bimap::erase_left(left_iterator, left_iterator)` over `i`. -/
def erase_left_range_loop (inner : Nat) : Nat → Mem α β → Nat → NPtr → NPtr → Option (Mem α β)
  | 0, _, _, _, _ => none
  | fuel + 1, m, this, i, last =>
    if i = last then some m
    else
      match erase_left inner m this i with
      | none => none
      | some (m1, i1) => erase_left_range_loop inner fuel m1 this i1 last

/-- The method `bimap::erase_left(left_iterator, left_iterator)`. -/
def erase_left_range (fuel : Nat) (m : Mem α β) (this : Nat) (first last : NPtr) :
    Option (Mem α β × NPtr) :=
  match erase_left_range_loop fuel fuel m this first last with
  | none => none
  | some m1 => some (m1, last)

/-- The loop of `bimap::erase_right(right_iterator, right_iterator)` over `i`. -/
def erase_right_range_loop (inner : Nat) : Nat → Mem α β → Nat → NPtr → NPtr → Option (Mem α β)
  | 0, _, _, _, _ => none
  | fuel + 1, m, this, i, last =>
    if i = last then some m
    else
      match erase_right inner m this i with
      | none => none
      | some (m1, i1) => erase_right_range_loop inner fuel m1 this i1 last

/-- The method `bimap::erase_right(right_iterator, right_iterator)`. -/
def erase_right_range (fuel : Nat) (m : Mem α β) (this : Nat) (first last : NPtr) :
    Option (Mem α β × NPtr) :=
  match erase_right_range_loop fuel fuel m this first last with
  | none => none
  | some m1 => some (m1, last)

/-- The method `bimap::at_left`; `Except.error` is the thrown `std::out_of_range`. -/
def at_left (fuel : Nat) (m : Mem α β) (this : Nat) (key : α) : Option (Except String β) :=
  match find_left fuel m this key with
  | none => none
  | some l =>
    if l = end_left this then some (.error "invalid key")
    else
      match flip m.heap l with
      | none => none
      | some f => (deref_right m f).map .ok

/-- The method `bimap::at_right`; `Except.error` is the thrown `std::out_of_range`. -/
def at_right (fuel : Nat) (m : Mem α β) (this : Nat) (key : β) : Option (Except String α) :=
  match find_right fuel m this key with
  | none => none
  | some r =>
    if r = end_right this then some (.error "invalid key")
    else
      match flip m.heap r with
      | none => none
      | some f => (deref_left m f).map .ok

/-- The method `bimap::at_left_or_default`; `default` is `right_t()`. -/
def at_left_or_default [Inhabited β] (fuel : Nat) (m : Mem α β) (this : Nat) (key : α) :
    Option (Mem α β × β) :=
  match find_left fuel m this key with
  | none => none
  | some k =>
    if k ≠ end_left this then
      match flip m.heap k with
      | none => none
      | some f => (deref_right m f).map fun v => (m, v)
    else
      let def_value : β := default
      match find_right fuel m this def_value with
      | none => none
      | some found =>
        if found ≠ end_right this then
          match forwarding_insert fuel m this key def_value true with
          | none => none
          | some (m1, it) =>
            match erase_right fuel m1 this found with
            | none => none
            | some (m2, _) =>
              match flip m2.heap it with
              | none => none
              | some f => (deref_right m2 f).map fun v => (m2, v)
        else
          match insert fuel m this key def_value with
          | none => none
          | some (m1, it) =>
            match flip m1.heap it with
            | none => none
            | some f => (deref_right m1 f).map fun v => (m1, v)

/-- The method `bimap::at_right_or_default`; `default` is `left_t()`. -/
def at_right_or_default [Inhabited α] (fuel : Nat) (m : Mem α β) (this : Nat) (key : β) :
    Option (Mem α β × α) :=
  match find_right fuel m this key with
  | none => none
  | some k =>
    if k ≠ end_right this then
      match flip m.heap k with
      | none => none
      | some f => (deref_left m f).map fun v => (m, v)
    else
      let def_value : α := default
      match find_left fuel m this def_value with
      | none => none
      | some found =>
        if found ≠ end_left this then
          match forwarding_insert fuel m this def_value key true with
          | none => none
          | some (m1, it) =>
            match erase_left fuel m1 this found with
            | none => none
            | some (m2, _) => (deref_left m2 it).map fun v => (m2, v)
        else
          match insert fuel m this def_value key with
          | none => none
          | some (m1, it) => (deref_left m1 it).map fun v => (m1, v)

/-- The method `bimap::lower_bound_left`. -/
def lower_bound_left (fuel : Nat) (m : Mem α β) (this : Nat) (left : α) : Option NPtr :=
  set_over.lower_bound (m.cmpL this) m.get_over_left fuel m.heap (left_sentinel this) left

/-- The method `bimap::lower_bound_right`. -/
def lower_bound_right (fuel : Nat) (m : Mem α β) (this : Nat) (right : β) : Option NPtr :=
  set_over.lower_bound (m.cmpR this) m.get_over_right fuel m.heap (right_sentinel this) right

/-- The method `bimap::upper_bound_left`. -/
def upper_bound_left [DecidableEq α] (fuel : Nat) (m : Mem α β) (this : Nat) (left : α) :
    Option NPtr :=
  set_over.upper_bound (m.cmpL this) m.get_over_left fuel m.heap (left_sentinel this) left

/-- The method `bimap::upper_bound_right`. -/
def upper_bound_right [DecidableEq β] (fuel : Nat) (m : Mem α β) (this : Nat) (right : β) :
    Option NPtr :=
  set_over.upper_bound (m.cmpR this) m.get_over_right fuel m.heap (right_sentinel this) right

/-- The method `bimap::left_equals`. -/
def left_equals (m : Mem α β) (this : Nat) (lhs rhs : α) : Bool :=
  !(m.cmpL this lhs rhs) && !(m.cmpL this rhs lhs)

/-- The method `bimap::right_equals`. -/
def right_equals (m : Mem α β) (this : Nat) (lhs rhs : β) : Bool :=
  !(m.cmpR this lhs rhs) && !(m.cmpR this rhs lhs)

/-- The loop of `operator==` over `lhs_i` and `rhs_i`. -/
def equals_loop (inner : Nat) : Nat → Mem α β → Nat → NPtr → NPtr → Option Bool
  | 0, _, _, _, _ => none
  | fuel + 1, m, lhs, lhs_i, rhs_i =>
    if lhs_i = end_left lhs then some true
    else
      match deref_left m lhs_i, deref_left m rhs_i with
      | some a, some b =>
        if left_equals m lhs a b then
          match flip m.heap lhs_i, flip m.heap rhs_i with
          | some fa, some fb =>
            match deref_right m fa, deref_right m fb with
            | some x, some y =>
              if right_equals m lhs x y then
                match increment inner m.heap lhs_i, increment inner m.heap rhs_i with
                | some i1, some i2 => equals_loop inner fuel m lhs i1 i2
                | _, _ => none
              else some false
            | _, _ => none
          | _, _ => none
        else some false
      | _, _ => none

/-- The friend `operator==(const bimap&, const bimap&)`. -/
def equals (fuel : Nat) (m : Mem α β) (lhs rhs : Nat) : Option Bool :=
  if size m lhs ≠ size m rhs then some false
  else
    match begin_left fuel m lhs, begin_left fuel m rhs with
    | some lhs_i, some rhs_i => equals_loop fuel fuel m lhs lhs_i rhs_i
    | _, _ => none

/-- The friend `operator!=`, defaulted: the negation of `operator==`. -/
def not_equals (fuel : Nat) (m : Mem α β) (lhs rhs : Nat) : Option Bool :=
  (equals fuel m lhs rhs).map not

/-- The friend `swap(bimap&, bimap&)`. -/
def swap (m : Mem α β) (lhs rhs : Nat) : Option (Mem α β) :=
  match set_over.swap_set m.heap (left_sentinel lhs) (left_sentinel rhs) with
  | none => none
  | some h1 =>
    match set_over.swap_set h1 (right_sentinel lhs) (right_sentinel rhs) with
    | none => none
    | some h2 =>
      some { m with
        heap := link_sets (link_sets h2 lhs) rhs
        cmpL := fun b => if b = lhs then m.cmpL rhs else if b = rhs then m.cmpL lhs else m.cmpL b
        cmpR := fun b => if b = lhs then m.cmpR rhs else if b = rhs then m.cmpR lhs else m.cmpR b
        size := fun b => if b = lhs then m.size rhs else if b = rhs then m.size lhs else m.size b }

/-- The loop of the copy constructor over `i`. -/
def copy_loop (inner : Nat) : Nat → Mem α β → Nat → Nat → NPtr → Option (Mem α β)
  | 0, _, _, _, _ => none
  | fuel + 1, m, this, other, i =>
    if i = end_left other then some m
    else
      match deref_left m i, flip m.heap i with
      | some l, some f =>
        match deref_right m f with
        | none => none
        | some r =>
          match insert inner m this l r with
          | none => none
          | some (m1, _) =>
            match increment inner m1.heap i with
            | none => none
            | some i1 => copy_loop inner fuel m1 this other i1
      | _, _ => none

/-- The copy constructor `bimap(const bimap&)`; returns the new object. -/
def copy_construct (fuel : Nat) (m : Mem α β) (other : Nat) : Option (Mem α β × Nat) :=
  let (m0, this) := construct m (m.cmpL other) (m.cmpR other)
  match begin_left fuel m0 other with
  | none => none
  | some i =>
    match copy_loop fuel fuel m0 this other i with
    | none => none
    | some m1 => some (m1, this)

/-- The move constructor `bimap(bimap&&)`; returns the new object. -/
def move_construct (m : Mem α β) (other : Nat) : Option (Mem α β × Nat) :=
  let this := m.next
  match set_over.move_construct m.heap (left_sentinel this) (left_sentinel other) with
  | none => none
  | some h1 =>
    match set_over.move_construct h1 (right_sentinel this) (right_sentinel other) with
    | none => none
    | some h2 =>
      some ({ m with
        heap := link_sets h2 this
        cmpL := fun b => if b = this then m.cmpL other else m.cmpL b
        cmpR := fun b => if b = this then m.cmpR other else m.cmpR b
        size := fun b => if b = other then 0 else if b = this then m.size other else m.size b
        next := m.next + 1 }, this)

/-- The destructor `~bimap`. -/
def destroy (fuel : Nat) (m : Mem α β) (this : Nat) : Option (Mem α β) :=
  match begin_left fuel m this with
  | none => none
  | some b => (erase_left_range fuel m this b (end_left this)).map Prod.fst

/-- The copy assignment `operator=(const bimap&)`. -/
def copy_assign (fuel : Nat) (m : Mem α β) (this other : Nat) : Option (Mem α β) :=
  if this = other then some m
  else
    match copy_construct fuel m other with
    | none => none
    | some (m1, tmp) =>
      match swap m1 this tmp with
      | none => none
      | some m2 => destroy fuel m2 tmp

/-- The move assignment `operator=(bimap&&)`. -/
def move_assign (fuel : Nat) (m : Mem α β) (this other : Nat) : Option (Mem α β) :=
  if this = other then some m
  else
    match move_construct m other with
    | none => none
    | some (m1, tmp) =>
      match swap m1 tmp this with
      | none => none
      | some m2 => destroy fuel m2 tmp

/-- The cursors visited from `i` up to `last` by repeated `operator++`. -/
def cursors_from (inner : Nat) (h : Heap) : Nat → NPtr → NPtr → Option (List NPtr)
  | 0, _, _ => none
  | fuel + 1, i, last =>
    if i = last then some []
    else
      match increment inner h i with
      | none => none
      | some i1 => (cursors_from inner h fuel i1 last).map (fun cs => i :: cs)

/-- The left-order traversal `begin_left() .. end_left()`, as cursors. -/
def left_cursors (fuel : Nat) (m : Mem α β) (this : Nat) : Option (List NPtr) :=
  match begin_left fuel m this with
  | none => none
  | some i => cursors_from fuel m.heap fuel i (end_left this)

/-- The right-order traversal `begin_right() .. end_right()`, as cursors. -/
def right_cursors (fuel : Nat) (m : Mem α β) (this : Nat) : Option (List NPtr) :=
  match begin_right fuel m this with
  | none => none
  | some i => cursors_from fuel m.heap fuel i (end_right this)

/-- The pair a left cursor denotes: `(*it, *it.flip())`. -/
def pair_at_left (m : Mem α β) (it : NPtr) : Option (α × β) :=
  match deref_left m it, flip m.heap it with
  | some l, some f => (deref_right m f).map (fun r => (l, r))
  | _, _ => none

/-- The pair a right cursor denotes: `(*it.flip(), *it)`. -/
def pair_at_right (m : Mem α β) (it : NPtr) : Option (α × β) :=
  match deref_right m it, flip m.heap it with
  | some r, some f => (deref_left m f).map (fun l => (l, r))
  | _, _ => none

/-- The pairs a list of left cursors denotes; `none` if one denotes no pair. -/
def pairs_of_left (m : Mem α β) : List NPtr → Option (List (α × β))
  | [] => some []
  | it :: rest =>
    match pair_at_left m it, pairs_of_left m rest with
    | some p, some ps => some (p :: ps)
    | _, _ => none

/-- The pairs a list of right cursors denotes; `none` if one denotes no pair. -/
def pairs_of_right (m : Mem α β) : List NPtr → Option (List (α × β))
  | [] => some []
  | it :: rest =>
    match pair_at_right m it, pairs_of_right m rest with
    | some p, some ps => some (p :: ps)
    | _, _ => none

/-- The left-order sequence of pairs. -/
def left_pairs (fuel : Nat) (m : Mem α β) (this : Nat) : Option (List (α × β)) :=
  match left_cursors fuel m this with
  | none => none
  | some cs => pairs_of_left m cs

/-- The right-order sequence of pairs. -/
def right_pairs (fuel : Nat) (m : Mem α β) (this : Nat) : Option (List (α × β)) :=
  match right_cursors fuel m this with
  | none => none
  | some cs => pairs_of_right m cs

/-- Shape of one search tree: the identities of its nodes, in position. -/
inductive Tree where
  | nil
  | node (l : Tree) (x : Nat) (r : Tree)
deriving DecidableEq

/-- In-order sequence of the node identities. -/
def Tree.toList : Tree → List Nat
  | .nil => []
  | .node l x r => l.toList ++ x :: r.toList

/-- The pointer to the root of a tree of role `s`, null for the empty tree. -/
def Tree.rootPtr (s : Side) : Tree → NPtr
  | .nil => none
  | .node _ x _ => some ⟨s, x⟩

/-- The heap holds the tree `t` of role `s` below the node `par`: every node
has exactly the links the shape prescribes. -/
def Wf (h : Heap) (s : Side) : Tree → Ptr → Prop
  | .nil, _ => True
  | .node l x r, par =>
    h ⟨s, x⟩ = ⟨l.rootPtr s, r.rootPtr s, some par⟩ ∧ Wf h s l ⟨s, x⟩ ∧ Wf h s r ⟨s, x⟩

/-- Identity of the leftmost node of `t`, or `d` when `t` is empty. -/
def Tree.minId : Tree → Nat → Nat
  | .nil, d => d
  | .node l x _, _ => l.minId x

/-- Number of nodes. -/
def Tree.size : Tree → Nat
  | .nil => 0
  | .node l _ r => l.size + 1 + r.size

/-- The element that follows `x` in a list, if any. -/
def nextIn : List Nat → Nat → Option Nat
  | [], _ => none
  | [_], _ => none
  | a :: b :: rest, x => if a = x then some b else nextIn (b :: rest) x

/-- The node of role `s` after the node `x` in the sequence `L`, or `ans` when
`x` is the last one. -/
def succOr (s : Side) (L : List Nat) (x : Nat) (ans : Ptr) : Ptr :=
  match nextIn L x with
  | some y => ⟨s, y⟩
  | none => ans

/-- The cursor of role `s` after the node `x` in the sequence `L` of the object `b`. -/
def succPtr (s : Side) (b : Nat) (L : List Nat) (x : Nat) : Ptr :=
  succOr s L x ⟨s, b⟩

/-- The cursor of role `s` at the head of the sequence `S`, the end cursor of
the object `b` when `S` is empty. -/
def headPtr (s : Side) (b : Nat) (S : List Nat) : Ptr :=
  match S with
  | [] => ⟨s, b⟩
  | y :: _ => ⟨s, y⟩

/-- The value `next_node` computes when the node has no right child. -/
def climb (fuel : Nat) (h : Heap) (n : Ptr) : Option NPtr :=
  match set_over.next_node_loop fuel h n with
  | none => none
  | some n1 => some (h n1)._parent

/-- The set engine of role `s` inside the object `b` holds the tree `t`: the
sentinel has a null parent, its right slot is the root, its left slot (the
service link) is not a node of this role, and the identities are distinct. -/
structure SetRep (h : Heap) (s : Side) (b : Nat) (t : Tree) : Prop where
  parent : (h ⟨s, b⟩)._parent = none
  root : (h ⟨s, b⟩)._right = t.rootPtr s
  service : ∀ x, (h ⟨s, b⟩)._left ≠ some ⟨s, x⟩
  wf : Wf h s t ⟨s, b⟩
  nodup : t.toList.Nodup
  notin : b ∉ t.toList

/-- Equivalence under a comparator: neither value is less than the other. -/
def equiv {K : Type} (cmp : K → K → Bool) (a b : K) : Bool :=
  !cmp a b && !cmp b a

/-- The comparator contract: a strict weak ordering. -/
structure StrictWeakOrder {K : Type} (cmp : K → K → Bool) : Prop where
  irrefl : ∀ a, cmp a a = false
  trans : ∀ a b c, cmp a b = true → cmp b c = true → cmp a c = true
  equiv_trans : ∀ a b c, equiv cmp a b = true → equiv cmp b c = true → equiv cmp a c = true

/-- Node `x` holds a value less than the value of node `y`. -/
def VLt {K : Type} (cmp : K → K → Bool) (val : Nat → Option K) (x y : Nat) : Prop :=
  ∃ a b, val x = some a ∧ val y = some b ∧ cmp a b = true

/-- The test `pred` applied to the value of a node; false when there is none. -/
def onVal {K : Type} (val : Nat → Option K) (pred : K → Bool) (x : Nat) : Bool :=
  match val x with
  | some v => pred v
  | none => false

/-- Shape after attaching the new node `n` by the descent of `find_place`:
left where `goLeft` holds, right otherwise. -/
def Tree.ins (goLeft : Nat → Bool) (n : Nat) : Tree → Tree
  | .nil => .node .nil n .nil
  | .node l x r => if goLeft x then .node (l.ins goLeft n) x r else .node l x (r.ins goLeft n)

/-- The child field `sl` of a node record. -/
def node_base.getSlot (nb : node_base) : Slot → NPtr
  | ._left => nb._left
  | ._right => nb._right

/-- A node record with the child field `sl` overwritten. -/
def node_base.setSlot (nb : node_base) (sl : Slot) (v : NPtr) : node_base :=
  match sl with
  | ._left => { nb with _left := v }
  | ._right => { nb with _right := v }

/-- The child field of `par` that holds `n`, as `erase` and `replace_parent`
select it. -/
structure SlotOk (h : Heap) (par n : Ptr) (sl : Slot) : Prop where
  pick : (if (h par)._left = some n then Slot._left else Slot._right) = sl
  get : (h par).getSlot sl = some n

/-- A local update: the subtree `t` below `par` became `t1`, the heap changed
only on the nodes of `t` and in the child field `sl` of `par`. -/
structure LocalUpd (h h1 : Heap) (s : Side) (t t1 : Tree) (par : Ptr) (sl : Slot) : Prop where
  wf : Wf h1 s t1 par
  par_eq : h1 par = (h par).setSlot sl (t1.rootPtr s)
  frame : ∀ q, q ≠ par → (∀ y ∈ t.toList, q ≠ ⟨s, y⟩) → h1 q = h q
  sub : ∀ y ∈ t1.toList, y ∈ t.toList

/-- The node below which the descent of `find_place` ends, `d` for the empty tree. -/
def Tree.attach (goLeft : Nat → Bool) : Tree → Nat → Nat
  | .nil, d => d
  | .node l x r, _ => if goLeft x then l.attach goLeft x else r.attach goLeft x

/-- The final value of the local `p` of `find_place`. -/
def Tree.attachPtr (s : Side) (goLeft : Nat → Bool) (t : Tree) (p0 : NPtr) : NPtr :=
  match t with
  | .nil => p0
  | .node l x r => some ⟨s, (Tree.node l x r).attach goLeft x⟩

/-- The placement `find_place` returns for the tree `t` of the object `b`. -/
def placementOf (s : Side) (b : Nat) (goLeft : Nat → Bool) (t : Tree) : node_placement :=
  match t with
  | .nil => ⟨some ⟨s, b⟩, ⟨⟨s, b⟩, ._right⟩⟩
  | .node l x r =>
    let a := (Tree.node l x r).attach goLeft x
    ⟨some ⟨s, a⟩, ⟨⟨s, a⟩, if goLeft a then ._left else ._right⟩⟩

/-- The transposition of the identities `x` and `m`. -/
def transp (x m : Nat) (y : Nat) : Nat :=
  if y = x then m else if y = m then x else y

/-- A tree with its identities renamed. -/
def Tree.map (σ : Nat → Nat) : Tree → Tree
  | .nil => .nil
  | .node l x r => .node (l.map σ) (σ x) (r.map σ)

/-- A pointer of role `s` with its identity renamed. -/
def Ptr.relabel (s : Side) (σ : Nat → Nat) (p : Ptr) : Ptr :=
  if p.over = s then ⟨s, σ p.id⟩ else p

/-- A node record with its three links renamed. -/
def node_base.relabel (s : Side) (σ : Nat → Nat) (nb : node_base) : node_base :=
  ⟨nb._left.map (Ptr.relabel s σ), nb._right.map (Ptr.relabel s σ),
    nb._parent.map (Ptr.relabel s σ)⟩

section invariant
variable {α β : Type}

/-- The structural part of the representation invariant of the object `b`:
its two set engines hold the trees `tl` and `tr` over the same paired nodes,
the sentinels are cross-linked, `_size` counts the nodes and every node has
both values. -/
structure Shape (m : Mem α β) (b : Nat) (tl tr : Tree) : Prop where
  repL : SetRep m.heap .left b tl
  repR : SetRep m.heap .right b tr
  linkL : (m.heap ⟨.left, b⟩)._left = some ⟨.right, b⟩
  linkR : (m.heap ⟨.right, b⟩)._left = some ⟨.left, b⟩
  perm : tl.toList.Perm tr.toList
  size_eq : m.size b = tl.toList.length
  lt_next : ∀ x ∈ tl.toList, x < m.next
  self_lt : b < m.next
  valL : ∀ x ∈ tl.toList, ∃ v, m.lval x = some v
  valR : ∀ x ∈ tl.toList, ∃ v, m.rval x = some v

/-- The representation invariant of the object `b`: the structural part, two
comparators that are strict weak orders, and each tree strictly increasing
under its comparator. -/
structure Inv (m : Mem α β) (b : Nat) (tl tr : Tree) : Prop where
  shape : Shape m b tl tr
  swoL : StrictWeakOrder (m.cmpL b)
  swoR : StrictWeakOrder (m.cmpR b)
  sortedL : tl.toList.Pairwise (VLt (m.cmpL b) m.lval)
  sortedR : tr.toList.Pairwise (VLt (m.cmpR b) m.rval)

/-- The node `find_left` denotes: the stored node whose left value is
equivalent to the key. -/
def lookupL (m : Mem α β) (b : Nat) (tl : Tree) (k : α) : Option Nat :=
  tl.toList.find? (onVal m.lval (fun v => equiv (m.cmpL b) v k))

/-- The node `find_right` denotes: the stored node whose right value is
equivalent to the key. -/
def lookupR (m : Mem α β) (b : Nat) (tr : Tree) (k : β) : Option Nat :=
  tr.toList.find? (onVal m.rval (fun v => equiv (m.cmpR b) v k))

/-- The descent test of `find_place` on the left tree for the key `l`. -/
def goL (m : Mem α β) (b : Nat) (l : α) : Nat → Bool :=
  onVal m.lval (fun v => m.cmpL b l v)

/-- The descent test of `find_place` on the right tree for the key `r`. -/
def goR (m : Mem α β) (b : Nat) (r : β) : Nat → Bool :=
  onVal m.rval (fun v => m.cmpR b r v)

/-- The memory after `forwarding_insert` attached the fresh node `m.next`
holding `(l, r)` to the trees `tl` and `tr` of the object `b`. -/
def Mem.attached (m : Mem α β) (b : Nat) (tl tr : Tree) (l : α) (r : β) : Mem α β where
  heap :=
    (set_over.place_node
      (set_over.place_node (clear (clear m.heap ⟨.left, m.next⟩) ⟨.right, m.next⟩)
        (placementOf .left b (goL m b l) tl) ⟨.left, m.next⟩).1
      (placementOf .right b (goR m b r) tr) ⟨.right, m.next⟩).1
  lval := fun i => if i = m.next then some l else m.lval i
  rval := fun i => if i = m.next then some r else m.rval i
  size := fun c => if c = b then m.size b + 1 else m.size c
  cmpL := m.cmpL
  cmpR := m.cmpR
  next := m.next + 1

/-- The memory after `erase_left` or `erase_right` removed the paired node `x`
of the object `b`, the links being `h2`. -/
def Mem.erased (m : Mem α β) (b x : Nat) (h2 : Heap) : Mem α β where
  heap := h2
  lval := fun i => if i = x then none else m.lval i
  rval := fun i => if i = x then none else m.rval i
  size := fun c => if c = b then m.size b - 1 else m.size c
  cmpL := m.cmpL
  cmpR := m.cmpR
  next := m.next

/-- The pair held by the paired node `x`, if it holds both values. -/
def pairOf (m : Mem α β) (x : Nat) : Option (α × β) :=
  match m.lval x, m.rval x with
  | some l, some r => some (l, r)
  | _, _ => none

/-- The pairs held by a sequence of paired nodes. -/
def pairList (m : Mem α β) (L : List Nat) : List (α × β) :=
  L.filterMap (pairOf m)

/-- Everything the object `b` with the nodes `ids` depends on is the same in
`m1` as in `m`, and nothing allocated was released. -/
structure SameOn (m m1 : Mem α β) (b : Nat) (ids : List Nat) : Prop where
  heap : ∀ p : Ptr, p.id = b ∨ p.id ∈ ids → m1.heap p = m.heap p
  lval : ∀ x ∈ ids, m1.lval x = m.lval x
  rval : ∀ x ∈ ids, m1.rval x = m.rval x
  size : m1.size b = m.size b
  cmpL : m1.cmpL b = m.cmpL b
  cmpR : m1.cmpR b = m.cmpR b
  next : m.next ≤ m1.next

/-- The step from `m` to `m1` touched only the object `b`, its nodes `ids`,
and identities that were not allocated in `m`. -/
def FrameOf (m m1 : Mem α β) (b : Nat) (ids : List Nat) : Prop :=
  ∀ c cs, c < m.next → c ≠ b → c ∉ ids → (∀ y ∈ cs, y < m.next ∧ y ≠ b ∧ y ∉ ids) →
    SameOn m m1 c cs

end invariant

section world
variable {α β : Type}

/-- The invariant of a memory with the live objects `live`: every live object
satisfies its representation invariant with the trees `TL`, `TR`, no object is
a node of a tree, and the trees of two objects share no node. -/
structure WInv (m : Mem α β) (live : List Nat) (TL TR : Nat → Tree) : Prop where
  nodup : live.Nodup
  inv : ∀ b ∈ live, Inv m b (TL b) (TR b)
  notin : ∀ b ∈ live, ∀ c ∈ live, c ∉ (TL b).toList
  disj : ∀ b ∈ live, ∀ c ∈ live, b ≠ c → ∀ y ∈ (TL b).toList, y ∉ (TL c).toList

/-- The memories reachable from an empty one by the public operations of
`bimap`, with the list of the objects alive.  Comparators are strict weak
orders; a cursor passed to an erase denotes a stored element of that object; a
range `[first, last)` is a segment of the traversal; `fuel` covers every loop. -/
inductive Reach [Inhabited α] [Inhabited β] : Mem α β → List Nat → Prop
  | init (cl : α → α → Bool) (cr : β → β → Bool) : Reach (Mem.init cl cr) []
  | construct {m : Mem α β} {live : List Nat} (cl : α → α → Bool) (cr : β → β → Bool) :
      Reach m live → StrictWeakOrder cl → StrictWeakOrder cr →
      Reach (construct m cl cr).1 ((construct m cl cr).2 :: live)
  | copy_construct {m m1 : Mem α β} {live : List Nat} (other this fuel : Nat) :
      Reach m live → other ∈ live → m.size other + 3 ≤ fuel →
      copy_construct fuel m other = some (m1, this) → Reach m1 (this :: live)
  | move_construct {m m1 : Mem α β} {live : List Nat} (other this : Nat) :
      Reach m live → other ∈ live →
      move_construct m other = some (m1, this) → Reach m1 (this :: live)
  | copy_assign {m m1 : Mem α β} {live : List Nat} (this other fuel : Nat) :
      Reach m live → this ∈ live → other ∈ live →
      m.size this + 3 ≤ fuel → m.size other + 3 ≤ fuel →
      copy_assign fuel m this other = some m1 → Reach m1 live
  | move_assign {m m1 : Mem α β} {live : List Nat} (this other fuel : Nat) :
      Reach m live → this ∈ live → other ∈ live → m.size this + 3 ≤ fuel →
      move_assign fuel m this other = some m1 → Reach m1 live
  | swap {m m1 : Mem α β} {live : List Nat} (lhs rhs : Nat) :
      Reach m live → lhs ∈ live → rhs ∈ live → lhs ≠ rhs →
      swap m lhs rhs = some m1 → Reach m1 live
  | destroy {m m1 : Mem α β} {live : List Nat} (this fuel : Nat) :
      Reach m live → this ∈ live → m.size this + 3 ≤ fuel →
      destroy fuel m this = some m1 → Reach m1 (live.erase this)
  | insert {m m1 : Mem α β} {live : List Nat} (this fuel : Nat) (l : α) (r : β) (it : NPtr) :
      Reach m live → this ∈ live → m.size this + 3 ≤ fuel →
      insert fuel m this l r = some (m1, it) → Reach m1 live
  | erase_left {m m1 : Mem α β} {live : List Nat} (this fuel : Nat) (cs : List NPtr)
      (it ret : NPtr) :
      Reach m live → this ∈ live → m.size this + 3 ≤ fuel →
      left_cursors fuel m this = some cs → it ∈ cs →
      erase_left fuel m this it = some (m1, ret) → Reach m1 live
  | erase_right {m m1 : Mem α β} {live : List Nat} (this fuel : Nat) (cs : List NPtr)
      (it ret : NPtr) :
      Reach m live → this ∈ live → m.size this + 3 ≤ fuel →
      right_cursors fuel m this = some cs → it ∈ cs →
      erase_right fuel m this it = some (m1, ret) → Reach m1 live
  | erase_left_key {m m1 : Mem α β} {live : List Nat} (this fuel : Nat) (l : α) (ret : Bool) :
      Reach m live → this ∈ live → m.size this + 3 ≤ fuel →
      erase_left_key fuel m this l = some (m1, ret) → Reach m1 live
  | erase_right_key {m m1 : Mem α β} {live : List Nat} (this fuel : Nat) (r : β) (ret : Bool) :
      Reach m live → this ∈ live → m.size this + 3 ≤ fuel →
      erase_right_key fuel m this r = some (m1, ret) → Reach m1 live
  | erase_left_range {m m1 : Mem α β} {live : List Nat} (this fuel : Nat)
      (before range after : List NPtr) (ret : NPtr) :
      Reach m live → this ∈ live → m.size this + 3 ≤ fuel →
      left_cursors fuel m this = some (before ++ range ++ after) →
      erase_left_range fuel m this ((range ++ after).headD (end_left this))
        (after.headD (end_left this)) = some (m1, ret) → Reach m1 live
  | erase_right_range {m m1 : Mem α β} {live : List Nat} (this fuel : Nat)
      (before range after : List NPtr) (ret : NPtr) :
      Reach m live → this ∈ live → m.size this + 3 ≤ fuel →
      right_cursors fuel m this = some (before ++ range ++ after) →
      erase_right_range fuel m this ((range ++ after).headD (end_right this))
        (after.headD (end_right this)) = some (m1, ret) → Reach m1 live
  | at_left_or_default {m m1 : Mem α β} {live : List Nat} (this fuel : Nat) (key : α) (ret : β) :
      Reach m live → this ∈ live → m.size this + 3 ≤ fuel →
      at_left_or_default fuel m this key = some (m1, ret) → Reach m1 live
  | at_right_or_default {m m1 : Mem α β} {live : List Nat} (this fuel : Nat) (key : β) (ret : α) :
      Reach m live → this ∈ live → m.size this + 3 ≤ fuel →
      at_right_or_default fuel m this key = some (m1, ret) → Reach m1 live

end world

open set_over

/-- The heap after `swap_nodes` on the sentinels `a` and `c` of two set engines
of role `s` holding the trees `ta` and `tc`. -/
def swappedHeap (h : Heap) (s : Side) (a c : Nat) (ta tc : Tree) : Heap :=
  fun p =>
    if p = ⟨s, a⟩ then ⟨(h ⟨s, c⟩)._left, tc.rootPtr s, none⟩
    else if p = ⟨s, c⟩ then ⟨(h ⟨s, a⟩)._left, ta.rootPtr s, none⟩
    else if ta.rootPtr s = some p then { h p with _parent := some ⟨s, c⟩ }
    else if tc.rootPtr s = some p then { h p with _parent := some ⟨s, a⟩ }
    else h p

/-- The trees of the objects after `swap(lhs, rhs)`. -/
def swapTrees (T : Nat → Tree) (lhs rhs : Nat) : Nat → Tree :=
  fun b => if b = lhs then T rhs else if b = rhs then T lhs else T b

/-- The trees of the objects after the move constructor built `this` from `other`. -/
def moveTrees (T : Nat → Tree) (this other : Nat) : Nat → Tree :=
  fun b => if b = this then T other else if b = other then .nil else T b

section memory
variable {α β : Type}

/-- The memory after `swap(lhs, rhs)`, the links being `H`. -/
def Mem.swapped (m : Mem α β) (lhs rhs : Nat) (H : Heap) : Mem α β :=
  { m with
    heap := H
    cmpL := fun b => if b = lhs then m.cmpL rhs else if b = rhs then m.cmpL lhs else m.cmpL b
    cmpR := fun b => if b = lhs then m.cmpR rhs else if b = rhs then m.cmpR lhs else m.cmpR b
    size := fun b => if b = lhs then m.size rhs else if b = rhs then m.size lhs else m.size b }

/-- A step of the object `b`, whose left tree was `tl`: afterwards `b`
satisfies its invariant, nothing outside `b` changed, and the nodes of `b` are
old nodes of `b` or newly allocated ones. -/
def ObjStep (m m1 : Mem α β) (b : Nat) (tl : Tree) : Prop :=
  ∃ tl1 tr1, Inv m1 b tl1 tr1 ∧ FrameOf m m1 b tl.toList ∧
    (∀ y ∈ tl1.toList, y ∈ tl.toList ∨ m.next ≤ y) ∧ m.next ≤ m1.next

/-- A sequence of `insert` calls on the object `this`, one per pair. -/
def insert_all (fuel : Nat) : Mem α β → Nat → List (α × β) → Option (Mem α β)
  | m, _, [] => some m
  | m, this, (l, r) :: rest =>
    match insert fuel m this l r with
    | none => none
    | some (m1, _) => insert_all fuel m1 this rest

end memory

/-- The comparator `std::less<int>` on natural keys. -/
def ltNat (a b : Nat) : Bool := decide (a < b)

/-- The comparator `std::less<int>`. -/
def ltInt (a b : Int) : Bool := decide (a < b)

/-- The comparator `std::less<std::string>`: lexicographic on the characters. -/
def ltString (a b : String) : Bool := decide (a.data < b.data)

/-- The memory of a call that returned, and `d` if it did not. -/
def stateOf {α β γ : Type} (r : Option (Mem α β × γ)) (d : Mem α β) : Mem α β :=
  match r with
  | some (m, _) => m
  | none => d

/-- An empty `bimap<int, std::string>`, the object `0`. -/
def scene0 : Mem Nat String := (construct (Mem.init ltNat ltString) ltNat ltString).1

/-- The memory after `insert(1, "a")`. -/
def scene1 : Mem Nat String := stateOf (insert 8 scene0 0 1 "a") scene0

/-- The memory after `insert(1, "a"); insert(2, "b")`. -/
def scene2 : Mem Nat String := stateOf (insert 8 scene1 0 2 "b") scene1

/-- The memory after `insert(1, "a"); insert(2, "b"); erase_left(1)`. -/
def scene3 : Mem Nat String := stateOf (erase_left_key 8 scene2 0 1) scene2

/-- The memory after the object `3` was move-constructed from the object `0`
of `scene2`. -/
def scene4 : Mem Nat String := stateOf (move_construct scene2 0) scene2

/-- An empty `bimap<int, int>`, the object `0`. -/
def tally0 : Mem Int Int := (construct (Mem.init ltInt ltInt) ltInt ltInt).1

/-- The memory after `insert(5, 50)`. -/
def tally1 : Mem Int Int := stateOf (insert 12 tally0 0 5 50) tally0

/-- The memory after `insert(3, 70)`. -/
def tally2 : Mem Int Int := stateOf (insert 12 tally1 0 3 70) tally1

/-- The memory after `insert(8, 20)`. -/
def tally3 : Mem Int Int := stateOf (insert 12 tally2 0 8 20) tally2

/-- The memory after `insert(4, 10)`. -/
def tally4 : Mem Int Int := stateOf (insert 12 tally3 0 4 10) tally3

/-- The memory after `insert(9, 60)`. -/
def tally5 : Mem Int Int := stateOf (insert 12 tally4 0 9 60) tally4

/-- The memory after `erase_left(5)`, which removes a node with two children. -/
def tally6 : Mem Int Int := stateOf (erase_left_key 12 tally5 0 5) tally5

/-- The memory after `at_left_or_default(7)`. -/
def tally7 : Mem Int Int := stateOf (at_left_or_default 12 tally6 0 7) tally6

/-- The left traversal of `tally5`: the cursors of 3, 4, 5, 8, 9. -/
def tally5_left : List NPtr :=
  [some ⟨.left, 2⟩, some ⟨.left, 4⟩, some ⟨.left, 1⟩, some ⟨.left, 3⟩, some ⟨.left, 5⟩]

/-- The right traversal of `tally5`: the cursors of 10, 20, 50, 60, 70. -/
def tally5_right : List NPtr :=
  [some ⟨.right, 4⟩, some ⟨.right, 3⟩, some ⟨.right, 1⟩, some ⟨.right, 5⟩, some ⟨.right, 2⟩]

/-- The memory after `at_left_or_default(1)` on an empty `bimap<int, int>`. -/
def ledger1 : Mem Int Int := stateOf (at_left_or_default 8 tally0 0 1) tally0

/-- The memory after `at_left_or_default(1); at_left_or_default(2)`. -/
def ledger2 : Mem Int Int := stateOf (at_left_or_default 8 ledger1 0 2) ledger1

/-- The memory after `at_right_or_default(5)` on `ledger1`, which holds `(1, 0)`. -/
def ledger3 : Mem Int Int := stateOf (at_right_or_default 8 ledger1 0 5) ledger1

/-- The links read in a mirror: the left and right slots of every node exchanged. -/
def mirrorHeap (h : Heap) : Heap :=
  fun p => ⟨(h p)._right, (h p)._left, (h p)._parent⟩

/-- The mirror image of a tree shape. -/
def Tree.mirror : Tree → Tree
  | .nil => .nil
  | .node l x r => .node r.mirror x l.mirror

section mutation
variable {α β : Type}

/-- One call of `insert` or of an overload of `erase_left` or `erase_right` on
the object `b`, from the memory `m`; a cursor passed to an erase is a cursor
of the traversal, a range a segment of it. -/
inductive Mutation (fuel : Nat) (m : Mem α β) (b : Nat) : Mem α β → Prop
  | insert (l : α) (r : β) (m1 : Mem α β) (it : NPtr) :
      insert fuel m b l r = some (m1, it) → Mutation fuel m b m1
  | erase_left (cs : List NPtr) (it ret : NPtr) (m1 : Mem α β) :
      left_cursors fuel m b = some cs → it ∈ cs →
      erase_left fuel m b it = some (m1, ret) → Mutation fuel m b m1
  | erase_right (cs : List NPtr) (it ret : NPtr) (m1 : Mem α β) :
      right_cursors fuel m b = some cs → it ∈ cs →
      erase_right fuel m b it = some (m1, ret) → Mutation fuel m b m1
  | erase_left_key (k : α) (ret : Bool) (m1 : Mem α β) :
      erase_left_key fuel m b k = some (m1, ret) → Mutation fuel m b m1
  | erase_right_key (k : β) (ret : Bool) (m1 : Mem α β) :
      erase_right_key fuel m b k = some (m1, ret) → Mutation fuel m b m1
  | erase_left_range (before range after : List NPtr) (ret : NPtr) (m1 : Mem α β) :
      left_cursors fuel m b = some (before ++ range ++ after) →
      erase_left_range fuel m b ((range ++ after).headD (end_left b))
        (after.headD (end_left b)) = some (m1, ret) → Mutation fuel m b m1
  | erase_right_range (before range after : List NPtr) (ret : NPtr) (m1 : Mem α β) :
      right_cursors fuel m b = some (before ++ range ++ after) →
      erase_right_range fuel m b ((range ++ after).headD (end_right b))
        (after.headD (end_right b)) = some (m1, ret) → Mutation fuel m b m1

end mutation

/-- A comparator that orders the keys by their tens: a strict weak ordering
under which `12` and `15` are equivalent and not equal. -/
def ltTens (a b : Nat) : Bool := decide (a / 10 < b / 10)

/-- An empty `bimap<unsigned, unsigned, ByTens>`, the object `0`. -/
def decade0 : Mem Nat Nat := (construct (Mem.init ltTens ltNat) ltTens ltNat).1

/-- The memory after `insert(15, 1)`. -/
def decade1 : Mem Nat Nat := stateOf (insert 8 decade0 0 15 1) decade0

/-- The memory after `insert(15, 1); insert(27, 2)`. -/
def decade2 : Mem Nat Nat := stateOf (insert 8 decade1 0 27 2) decade1

/-- The memory of `scene2` with a second, empty bimap, the object `3`. -/
def duo0 : Mem Nat String := (construct scene2 ltNat ltString).1

/-- The memory after `insert(7, "x")` on the second bimap. -/
def duo1 : Mem Nat String := stateOf (insert 8 duo0 3 7 "x") duo0

/-- The memory after `swap` of the two bimaps. -/
def duo2 : Mem Nat String := (swap duo1 0 3).getD duo1

/-- The memory after a second `swap` of the two bimaps. -/
def duo3 : Mem Nat String := (swap duo2 0 3).getD duo2

/-- The memory after `insert(2, "b")` on the second bimap of `duo0`. -/
def twin1 : Mem Nat String := stateOf (insert 8 duo0 3 2 "b") duo0

/-- The memory after `insert(2, "b"); insert(1, "a")` on the second bimap of
`duo0`: the two bimaps hold the same pairs. -/
def twin2 : Mem Nat String := stateOf (insert 8 twin1 3 1 "a") twin1

/-- The memory after `erase_left(first, last)` on `tally5`, from the cursor of
`4` up to the cursor of `8`: the pairs `(4, 10)` and `(5, 50)` are erased. -/
def tally8 : Mem Int Int :=
  stateOf (erase_left_range 12 tally5 0 (some ⟨.left, 4⟩) (some ⟨.left, 3⟩)) tally5

/-- The memory after `erase_right(first, last)` on `tally5`, from the cursor of
`20` up to `end_right()`: the pairs of `20`, `50`, `60` and `70` are erased. -/
def tally9 : Mem Int Int :=
  stateOf (erase_right_range 12 tally5 0 (some ⟨.right, 3⟩) (end_right 0)) tally5

/-- The memory after the copy construction of a bimap, the object `5`, from
the first bimap of `duo1`. -/
def copy1 : Mem Nat String := stateOf (copy_construct 8 duo1 0) duo1

/-- The memory after `insert(9, "z")` on the copy. -/
def copy2 : Mem Nat String := stateOf (insert 8 copy1 5 9 "z") copy1

/-- The memory after `erase_left(1)` on the source of the copy. -/
def copy3 : Mem Nat String := stateOf (erase_left_key 8 copy1 0 1) copy1

/-- The memory after the copy assignment of the first bimap of `duo1` to the second. -/
def assign1 : Mem Nat String := (copy_assign 8 duo1 3 0).getD duo1

/-- The left tree of `tally4`: the node `1` (value 5) at the root, its left
child `2` (value 3) with the right child `4` (value 4), its right child `3`
(value 8). -/
def tally4_tree : Tree :=
  .node (.node .nil 2 (.node .nil 4 .nil)) 1 (.node .nil 3 .nil)

/-- The memory of `tally4` after `left_set::swap_nodes(n1, n2)` on the left
nodes `n1` and `n2`. -/
def sibling_swap (n1 n2 : Nat) : Option (Mem Int Int) :=
  (set_over.swap_nodes tally4.heap ⟨.left, n1⟩ ⟨.left, n2⟩).map
    (fun h1 => { tally4 with heap := h1 })

@[simp] theorem set_left_same (h : Heap) (p : Ptr) (v : NPtr) :
    h.set_left p v p = { h p with _left := v } := by simp [Heap.set_left]

@[simp] theorem set_right_same (h : Heap) (p : Ptr) (v : NPtr) :
    h.set_right p v p = { h p with _right := v } := by simp [Heap.set_right]

@[simp] theorem set_parent_same (h : Heap) (p : Ptr) (v : NPtr) :
    h.set_parent p v p = { h p with _parent := v } := by simp [Heap.set_parent]

theorem set_left_other (h : Heap) (p q : Ptr) (v : NPtr) (hq : q ≠ p) :
    h.set_left p v q = h q := by simp [Heap.set_left, hq]

theorem set_right_other (h : Heap) (p q : Ptr) (v : NPtr) (hq : q ≠ p) :
    h.set_right p v q = h q := by simp [Heap.set_right, hq]

theorem set_parent_other (h : Heap) (p q : Ptr) (v : NPtr) (hq : q ≠ p) :
    h.set_parent p v q = h q := by simp [Heap.set_parent, hq]

@[simp] theorem Tree.rootPtr_nil (s : Side) : Tree.nil.rootPtr s = none := rfl

@[simp] theorem Tree.rootPtr_node (s : Side) (l r : Tree) (x : Nat) :
    (Tree.node l x r).rootPtr s = some ⟨s, x⟩ := rfl

@[simp] theorem Tree.attachPtr_nil (s : Side) (g : Nat → Bool) (p0 : NPtr) :
    Tree.nil.attachPtr s g p0 = p0 := rfl

@[simp] theorem Tree.attachPtr_node (s : Side) (g : Nat → Bool) (p0 : NPtr) (l r : Tree) (x : Nat) :
    (Tree.node l x r).attachPtr s g p0 = some ⟨s, (Tree.node l x r).attach g x⟩ := rfl

theorem Tree.mem_node_self (l r : Tree) (x : Nat) : x ∈ (Tree.node l x r).toList := by
  simp [Tree.toList]

theorem Tree.mem_node_left {l : Tree} (r : Tree) (x : Nat) {y : Nat} (hy : y ∈ l.toList) :
    y ∈ (Tree.node l x r).toList := by
  simp [Tree.toList, hy]

theorem Tree.mem_node_right (l : Tree) {r : Tree} (x : Nat) {y : Nat} (hy : y ∈ r.toList) :
    y ∈ (Tree.node l x r).toList := by
  simp [Tree.toList, hy]

theorem Tree.rootPtr_eq_none {s : Side} {t : Tree} : t.rootPtr s = none ↔ t = .nil := by
  cases t <;> simp [Tree.rootPtr]

theorem Tree.rootPtr_over {s : Side} {t : Tree} {p : Ptr} (hp : t.rootPtr s = some p) :
    p.over = s ∧ p.id ∈ t.toList := by
  cases t with
  | nil => simp [Tree.rootPtr] at hp
  | node l x r =>
    simp [Tree.rootPtr] at hp
    subst hp
    simp [Tree.toList]

/-- A heap that agrees with `h` on the nodes of `t` holds `t` as well. -/
theorem Wf.congr {h h1 : Heap} {s : Side} {t : Tree} {par : Ptr}
    (hw : Wf h s t par) (heq : ∀ x ∈ t.toList, h1 ⟨s, x⟩ = h ⟨s, x⟩) : Wf h1 s t par := by
  induction t generalizing par with
  | nil => trivial
  | node l x r ihl ihr =>
    obtain ⟨hx, hl, hr⟩ := hw
    refine ⟨?_, ihl hl ?_, ihr hr ?_⟩
    · rw [heq x (by simp [Tree.toList]), hx]
    · intro y hy; exact heq y (by simp [Tree.toList, hy])
    · intro y hy; exact heq y (by simp [Tree.toList, hy])

theorem Tree.size_eq_length (t : Tree) : t.size = t.toList.length := by
  induction t with
  | nil => rfl
  | node l x r ihl ihr => simp [Tree.size, Tree.toList, ihl, ihr]; omega

theorem Tree.toList_node_head (l r : Tree) (x : Nat) :
    (Tree.node l x r).toList.head? = some (l.minId x) := by
  induction l generalizing x with
  | nil => simp [Tree.toList, Tree.minId]
  | node ll y lr ihl _ =>
    have := ihl y
    simp only [Tree.toList, Tree.minId] at this ⊢
    simp only [List.append_assoc, List.head?_append] at this ⊢
    cases hh : ll.toList.head? with
    | none => rw [hh] at this; simpa using this
    | some v => rw [hh] at this; simpa using this

theorem Tree.minId_mem (l r : Tree) (x : Nat) : l.minId x ∈ (Tree.node l x r).toList := by
  have h := Tree.toList_node_head l r x
  exact List.mem_of_mem_head? h

theorem leftmost_loop_spec {h : Heap} {s : Side} {l r : Tree} {x : Nat} {par : Ptr}
    (hw : Wf h s (.node l x r) par) {fuel : Nat} (hf : l.size < fuel) :
    leftmost_loop fuel h ⟨s, x⟩ = some ⟨s, l.minId x⟩ := by
  induction l generalizing x r par fuel with
  | nil =>
    obtain ⟨hx, -, -⟩ := hw
    cases fuel with
    | zero => omega
    | succ f => simp [leftmost_loop, hx, Tree.rootPtr, Tree.minId]
  | node ll y lr ihl _ =>
    obtain ⟨hx, hl, -⟩ := hw
    cases fuel with
    | zero => omega
    | succ f =>
      simp only [Tree.size] at hf
      simp only [leftmost_loop, hx, Tree.rootPtr, Tree.minId]
      exact ihl hl (by omega)

theorem nextIn_append_not_mem {l1 : List Nat} (l2 : List Nat) {x : Nat} (hx : x ∉ l1) :
    nextIn (l1 ++ l2) x = nextIn l2 x := by
  induction l1 with
  | nil => rfl
  | cons a t ih =>
    simp only [List.mem_cons, not_or] at hx
    have hax : a ≠ x := fun e => hx.1 e.symm
    cases t with
    | nil =>
      cases l2 with
      | nil => simp [nextIn]
      | cons b l2 => simp [nextIn, hax]
    | cons b t =>
      have := ih hx.2
      simp only [List.cons_append, nextIn, hax, if_false] at this ⊢
      exact this

theorem nextIn_append_mem {l1 : List Nat} (l2 : List Nat) {x : Nat} (hx : x ∈ l1) :
    nextIn (l1 ++ l2) x = (nextIn l1 x).orElse (fun _ => l2.head?) := by
  induction l1 with
  | nil => simp at hx
  | cons a t ih =>
    cases t with
    | nil =>
      simp only [List.mem_singleton] at hx
      subst hx
      cases l2 with
      | nil => simp [nextIn]
      | cons b l2 => simp [nextIn]
    | cons b t =>
      by_cases hax : a = x
      · simp [nextIn, hax]
      · have hx1 : x ∈ b :: t := by
          rcases List.mem_cons.1 hx with e | e
          · exact absurd e.symm hax
          · exact e
        have := ih hx1
        simp only [List.cons_append, nextIn, hax, if_false] at this ⊢
        exact this

theorem climb_right_child {h : Heap} {c y : Ptr} (hc : (h c)._parent = some y)
    (hy : (h y)._parent ≠ none) (hr : (h y)._right = some c) (fuel : Nat) :
    climb (fuel + 1) h c = climb fuel h y := by
  have : is_sentinel h y = false := by
    simp only [is_sentinel]
    cases hp : (h y)._parent with
    | none => exact absurd hp hy
    | some _ => rfl
  simp [climb, next_node_loop, hc, this, hr]

theorem climb_stop {h : Heap} {c y : Ptr} (hc : (h c)._parent = some y)
    (hstop : (h y)._parent = none ∨ (h y)._right ≠ some c) (fuel : Nat) :
    climb (fuel + 1) h c = some (some y) := by
  rcases hstop with hs | hs
  · have : is_sentinel h y = true := by simp [is_sentinel, hs]
    simp [climb, next_node_loop, hc, this]
  · simp [climb, next_node_loop, hc, hs]

theorem next_node_eq_climb {h : Heap} {n : Ptr} (hr : (h n)._right = none) (fuel : Nat) :
    next_node fuel h n = climb fuel h n := by
  simp only [next_node, climb, hr]

theorem next_node_sub {h : Heap} {s : Side} {t : Tree} {par : Ptr} {ans : Ptr} {N : Nat}
    (hw : Wf h s t par) (hnd : t.toList.Nodup) {x : Nat} (hx : x ∈ t.toList)
    (hcont : ∀ p, t.rootPtr s = some p → ∀ f, N ≤ f → climb f h p = some (some ans))
    {fuel : Nat} (hf : N + t.size ≤ fuel) :
    next_node fuel h ⟨s, x⟩ = some (some (succOr s t.toList x ans)) := by
  induction t generalizing par ans N fuel with
  | nil => simp [Tree.toList] at hx
  | node l y r ihl ihr =>
    obtain ⟨hy, hl, hr⟩ := hw
    simp only [Tree.toList, succOr] at hx hnd ⊢
    have hnd' := hnd
    rw [List.nodup_append] at hnd
    obtain ⟨hndl, hndyr, hdisj⟩ := hnd
    rw [List.nodup_cons] at hndyr
    obtain ⟨hyr, hndr⟩ := hndyr
    have hyl : y ∉ l.toList := fun hm => hdisj hm (List.mem_cons_self _ _)
    simp only [Tree.size] at hf
    have hypar : (h ⟨s, y⟩)._parent ≠ none := by rw [hy]; simp
    by_cases hxl : x ∈ l.toList
    · -- the node lies in the left subtree
      have hc : ∀ p, l.rootPtr s = some p → ∀ f, 1 ≤ f → climb f h p = some (some ⟨s, y⟩) := by
        intro p hp f hf1
        cases l with
        | nil => simp [Tree.rootPtr] at hp
        | node ll z lr =>
          simp only [Tree.rootPtr, Option.some.injEq] at hp
          subst hp
          obtain ⟨hz, -, -⟩ := hl
          obtain ⟨f, rfl⟩ : ∃ g, f = g + 1 := ⟨f - 1, by omega⟩
          apply climb_stop (by rw [hz])
          right
          rw [hy]
          cases r with
          | nil => simp [Tree.rootPtr]
          | node rl w rr =>
            simp only [Tree.rootPtr, ne_eq, Option.some.injEq, Ptr.mk.injEq, true_and]
            intro e
            subst e
            exact hdisj (a := w) (by simp [Tree.toList]) (List.mem_cons_of_mem _ (by simp [Tree.toList]))
      rw [ihl hl hndl hxl hc (by omega), nextIn_append_mem _ hxl]
      simp only [succOr]
      cases nextIn l.toList x <;> simp
    · by_cases hxy : x = y
      · subst hxy
        rw [nextIn_append_not_mem _ hxl]
        cases r with
        | nil =>
          have hrn : (h ⟨s, x⟩)._right = none := by rw [hy]; rfl
          rw [next_node_eq_climb hrn, hcont _ rfl fuel (by omega)]
          simp [Tree.toList, nextIn]
        | node rl w rr =>
          have hrn : (h ⟨s, x⟩)._right = some ⟨s, w⟩ := by rw [hy]; rfl
          have hlm := leftmost_loop_spec hr (by simp only [Tree.size] at hf; omega : _ < fuel)
          have hhead := Tree.toList_node_head rl rr w
          simp only [next_node, hrn, leftmost, hlm, Option.map_some']
          cases hrl : (Tree.node rl w rr).toList with
          | nil => simp [Tree.toList] at hrl
          | cons a rest =>
            rw [hrl] at hhead
            simp only [List.head?_cons, Option.some.injEq] at hhead
            simp [nextIn, hhead]
      · have hxr : x ∈ r.toList := by
          rcases List.mem_append.1 hx with e | e
          · exact absurd e hxl
          · rcases List.mem_cons.1 e with e | e
            · exact absurd e hxy
            · exact e
        have hc : ∀ p, r.rootPtr s = some p → ∀ f, N + 1 ≤ f → climb f h p = some (some ans) := by
          intro p hp f hf1
          cases r with
          | nil => simp [Tree.rootPtr] at hp
          | node rl w rr =>
            simp only [Tree.rootPtr, Option.some.injEq] at hp
            subst hp
            obtain ⟨hz, -, -⟩ := hr
            obtain ⟨f, rfl⟩ : ∃ g, f = g + 1 := ⟨f - 1, by omega⟩
            rw [climb_right_child (by rw [hz]) hypar (by rw [hy]; rfl)]
            exact hcont _ rfl f (by omega)
        rw [ihr hr hndr hxr hc (by omega), nextIn_append_not_mem _ hxl]
        have : nextIn (y :: r.toList) x = nextIn r.toList x := by
          cases hrl : r.toList with
          | nil => rw [hrl] at hxr; simp at hxr
          | cons a rest => simp [nextIn, Ne.symm hxy]
        rw [this, succOr]

theorem next_node_spec {h : Heap} {s : Side} {b : Nat} {t : Tree} (hr : SetRep h s b t)
    {x : Nat} (hx : x ∈ t.toList) {fuel : Nat} (hf : t.size < fuel) :
    next_node fuel h ⟨s, x⟩ = some (some (succPtr s b t.toList x)) := by
  refine next_node_sub (N := 1) hr.wf hr.nodup hx ?_ (by omega)
  intro p hp f hf1
  cases t with
  | nil => simp [Tree.rootPtr] at hp
  | node l y r =>
    simp only [Tree.rootPtr, Option.some.injEq] at hp
    subst hp
    obtain ⟨hy, -, -⟩ := hr.wf
    obtain ⟨f, rfl⟩ : ∃ g, f = g + 1 := ⟨f - 1, by omega⟩
    exact climb_stop (by rw [hy]) (Or.inl hr.parent) f

theorem begin_node_spec {h : Heap} {s : Side} {b : Nat} {t : Tree} (hr : SetRep h s b t)
    {o : Ptr} (hl : (h ⟨s, b⟩)._left = some o) (ho : (h o)._left = some ⟨s, b⟩)
    {fuel : Nat} (hf : t.size < fuel) :
    begin_node fuel h ⟨s, b⟩ = some (some (headPtr s b t.toList)) := by
  cases t with
  | nil => simp [begin_node, root, hr.root, Tree.rootPtr, hl, ho, Tree.toList, headPtr]
  | node l y r =>
    have := leftmost_loop_spec hr.wf
      (by simp only [Tree.size] at hf; omega : _ < fuel)
    have hh := Tree.toList_node_head l r y
    simp only [begin_node, root, hr.root, Tree.rootPtr, leftmost, this, Option.map_some']
    cases hL : (Tree.node l y r).toList with
    | nil => rw [hL] at hh; simp at hh
    | cons a L => rw [hL] at hh; simp at hh; simp [headPtr, hh]

section order
variable {K : Type} {cmp : K → K → Bool}

theorem StrictWeakOrder.asymm (hs : StrictWeakOrder cmp) {a b : K} (hab : cmp a b = true) :
    cmp b a = false := by
  cases hba : cmp b a with
  | false => rfl
  | true =>
    have := hs.trans a b a hab hba
    rw [hs.irrefl] at this
    exact absurd this (by simp)

theorem StrictWeakOrder.equiv_symm {a b : K} (hab : equiv cmp a b = true) :
    equiv cmp b a = true := by
  simp only [equiv, Bool.and_eq_true, Bool.not_eq_true'] at hab ⊢
  exact ⟨hab.2, hab.1⟩

theorem StrictWeakOrder.lt_of_lt_of_equiv (hs : StrictWeakOrder cmp) {a b c : K}
    (hab : cmp a b = true) (hbc : equiv cmp b c = true) : cmp a c = true := by
  cases hac : cmp a c with
  | true => rfl
  | false =>
    exfalso
    cases hca : cmp c a with
    | true =>
      have := hs.trans c a b hca hab
      simp [equiv, this] at hbc
    | false =>
      have hE : equiv cmp a c = true := by simp [equiv, hac, hca]
      have := hs.equiv_trans a c b hE (StrictWeakOrder.equiv_symm hbc)
      simp [equiv, hab] at this

theorem StrictWeakOrder.lt_of_equiv_of_lt (hs : StrictWeakOrder cmp) {a b c : K}
    (hab : equiv cmp a b = true) (hbc : cmp b c = true) : cmp a c = true := by
  cases hac : cmp a c with
  | true => rfl
  | false =>
    exfalso
    cases hca : cmp c a with
    | true =>
      have := hs.trans b c a hbc hca
      simp [equiv, this] at hab
    | false =>
      have hE : equiv cmp a c = true := by simp [equiv, hac, hca]
      have := hs.equiv_trans b a c (StrictWeakOrder.equiv_symm hab) hE
      simp [equiv, hbc] at this

end order

section lower
variable {K : Type} {cmp : K → K → Bool} {get_over : Ptr → Option K}

theorem find?_eq_none_of_forall {p : Nat → Bool} {l : List Nat} (hp : ∀ x ∈ l, p x = false) :
    l.find? p = none := by
  rw [List.find?_eq_none]
  intro x hx
  simp [hp x hx]

theorem lower_bound_loop_spec (hs : StrictWeakOrder cmp) {h : Heap} {s : Side} {t : Tree}
    {par : Ptr} (key : K) (hw : Wf h s t par)
    (hval : ∀ x ∈ t.toList, ∃ v, get_over ⟨s, x⟩ = some v)
    (hsorted : t.toList.Pairwise (VLt cmp (fun x => get_over ⟨s, x⟩)))
    (ll : NPtr) {fuel : Nat} (hf : t.size < fuel) :
    ∃ res ll1, lower_bound_loop cmp get_over key fuel h (t.rootPtr s) ll = some (res, ll1) ∧
      res.or ll1 =
        ((t.toList.find? (onVal (fun x => get_over ⟨s, x⟩) (fun v => !cmp v key))).map
          (Ptr.mk s)).or ll := by
  induction t generalizing par ll fuel with
  | nil =>
    obtain ⟨f, rfl⟩ : ∃ g, fuel = g + 1 := ⟨fuel - 1, by omega⟩
    exact ⟨none, ll, by simp [lower_bound_loop, Tree.rootPtr], by simp [Tree.toList]⟩
  | node l x r ihl ihr =>
    obtain ⟨hx, hl, hr⟩ := hw
    obtain ⟨f, rfl⟩ : ∃ g, fuel = g + 1 := ⟨fuel - 1, by omega⟩
    simp only [Tree.size] at hf
    simp only [Tree.toList] at hval hsorted ⊢
    obtain ⟨v, hv⟩ := hval x (by simp)
    rw [List.pairwise_append] at hsorted
    obtain ⟨hsl, hsxr, hlx⟩ := hsorted
    rw [List.pairwise_cons] at hsxr
    obtain ⟨hxr, hsr⟩ := hsxr
    have hlv : ∀ y ∈ l.toList, ∃ w, get_over ⟨s, y⟩ = some w ∧ cmp w v = true := by
      intro y hy
      obtain ⟨a, c, ha, hc, hac⟩ := hlx y hy x (by simp)
      have hc2 : get_over ⟨s, x⟩ = some c := hc
      have ha2 : get_over ⟨s, y⟩ = some a := ha
      rw [hv] at hc2
      cases hc2
      exact ⟨a, ha2, hac⟩
    simp only [lower_bound_loop, Tree.rootPtr, hv, hx]
    by_cases h1 : cmp key v = true
    · -- descend to the left, remembering this node
      obtain ⟨res, ll1, he, ho⟩ := ihl hl
        (fun y hy => hval y (by simp [hy])) hsl (some ⟨s, x⟩) (by omega : _ < f)
      refine ⟨res, ll1, by simpa [h1] using he, ?_⟩
      rw [ho, List.find?_append]
      have : onVal (fun x => get_over ⟨s, x⟩) (fun v => !cmp v key) x = true := by
        simp [onVal, hv, hs.asymm h1]
      rw [List.find?_cons_of_pos _ this]
      cases l.toList.find? (onVal (fun x => get_over ⟨s, x⟩) (fun v => !cmp v key)) <;> simp
    · have h1' : cmp key v = false := by simpa using h1
      by_cases h2 : cmp v key = true
      · obtain ⟨res, ll1, he, ho⟩ := ihr hr
          (fun y hy => hval y (by simp [hy])) hsr ll (by omega : _ < f)
        refine ⟨res, ll1, by simpa [h1', h2] using he, ?_⟩
        rw [ho, List.find?_append]
        have hnl : l.toList.find? (onVal (fun x => get_over ⟨s, x⟩) (fun v => !cmp v key)) = none := by
          apply find?_eq_none_of_forall
          intro y hy
          obtain ⟨w, hw1, hw2⟩ := hlv y hy
          simp [onVal, hw1, hs.trans w v key hw2 h2]
        have hnx : onVal (fun x => get_over ⟨s, x⟩) (fun v => !cmp v key) x = false := by
          simp [onVal, hv, h2]
        rw [hnl, List.find?_cons_of_neg _ (by simp [hnx])]
        simp
      · have h2' : cmp v key = false := by simpa using h2
        refine ⟨some ⟨s, x⟩, ll, by simp [h1', h2'], ?_⟩
        rw [List.find?_append]
        have hE : equiv cmp v key = true := by simp [equiv, h1', h2']
        have hnl : l.toList.find? (onVal (fun x => get_over ⟨s, x⟩) (fun v => !cmp v key)) = none := by
          apply find?_eq_none_of_forall
          intro y hy
          obtain ⟨w, hw1, hw2⟩ := hlv y hy
          simp [onVal, hw1, hs.lt_of_lt_of_equiv hw2 hE]
        have : onVal (fun x => get_over ⟨s, x⟩) (fun v => !cmp v key) x = true := by
          simp [onVal, hv, h2']
        rw [hnl, List.find?_cons_of_pos _ this]
        simp

/-- What `lower_bound` returns: the first node whose value is not less than
the key, or the sentinel. -/
theorem lower_bound_spec (hs : StrictWeakOrder cmp) {h : Heap} {s : Side} {b : Nat} {t : Tree}
    (key : K) (hr : SetRep h s b t)
    (hval : ∀ x ∈ t.toList, ∃ v, get_over ⟨s, x⟩ = some v)
    (hsorted : t.toList.Pairwise (VLt cmp (fun x => get_over ⟨s, x⟩)))
    {fuel : Nat} (hf : t.size < fuel) :
    lower_bound cmp get_over fuel h ⟨s, b⟩ key =
      some (some (match t.toList.find? (onVal (fun x => get_over ⟨s, x⟩) (fun v => !cmp v key)) with
        | some y => ⟨s, y⟩
        | none => ⟨s, b⟩)) := by
  obtain ⟨res, ll1, he, ho⟩ := lower_bound_loop_spec hs key hr.wf hval hsorted none hf
  simp only [lower_bound, root, hr.root, he]
  cases hF : t.toList.find? (onVal (fun x => get_over ⟨s, x⟩) (fun v => !cmp v key)) with
  | none =>
    rw [hF] at ho
    cases res <;> cases ll1 <;> simp_all [end_node]
  | some y =>
    rw [hF] at ho
    cases res <;> cases ll1 <;> simp_all

/-- The node `find` must return: the stored node equivalent to the key. -/
theorem find_spec_mem (hs : StrictWeakOrder cmp) {h : Heap} {s : Side} {b : Nat} {t : Tree}
    (key : K) (hr : SetRep h s b t)
    (hval : ∀ x ∈ t.toList, ∃ v, get_over ⟨s, x⟩ = some v)
    (hsorted : t.toList.Pairwise (VLt cmp (fun x => get_over ⟨s, x⟩)))
    {fuel : Nat} (hf : t.size < fuel) {x : Nat} (hx : x ∈ t.toList) {v : K}
    (hv : get_over ⟨s, x⟩ = some v) (hE : equiv cmp v key = true) :
    find cmp get_over fuel h ⟨s, b⟩ key = some (some ⟨s, x⟩) := by
  have hlb := lower_bound_spec hs key hr hval hsorted hf
  have hpx : onVal (fun x => get_over ⟨s, x⟩) (fun v => !cmp v key) x = true := by
    simp only [equiv, Bool.and_eq_true, Bool.not_eq_true'] at hE
    simp [onVal, hv, hE.1]
  have hF : t.toList.find? (onVal (fun x => get_over ⟨s, x⟩) (fun v => !cmp v key)) = some x := by
    obtain ⟨as, bs, hsplit⟩ := List.append_of_mem hx
    rw [hsplit] at hsorted ⊢
    rw [List.pairwise_append] at hsorted
    rw [List.find?_append, find?_eq_none_of_forall, List.find?_cons_of_pos _ hpx]
    · simp
    · intro y hy
      obtain ⟨a, c, ha, hc, hac⟩ := hsorted.2.2 y hy x (by simp)
      have hc2 : get_over ⟨s, x⟩ = some c := hc
      have ha2 : get_over ⟨s, y⟩ = some a := ha
      rw [hv] at hc2
      cases hc2
      simp [onVal, ha2, hs.lt_of_lt_of_equiv hac hE]
  rw [hF] at hlb
  have hne : x ≠ b := fun e => hr.notin (e ▸ hx)
  simp only [equiv, Bool.and_eq_true, Bool.not_eq_true'] at hE
  simp [find, hlb, end_node, hne, hv, hE.1, hE.2]

theorem find_spec_not_mem (hs : StrictWeakOrder cmp) {h : Heap} {s : Side} {b : Nat} {t : Tree}
    (key : K) (hr : SetRep h s b t)
    (hval : ∀ x ∈ t.toList, ∃ v, get_over ⟨s, x⟩ = some v)
    (hsorted : t.toList.Pairwise (VLt cmp (fun x => get_over ⟨s, x⟩)))
    {fuel : Nat} (hf : t.size < fuel)
    (hno : ∀ x ∈ t.toList, ∀ v, get_over ⟨s, x⟩ = some v → equiv cmp v key = false) :
    find cmp get_over fuel h ⟨s, b⟩ key = some (some ⟨s, b⟩) := by
  have hlb := lower_bound_spec hs key hr hval hsorted hf
  cases hF : t.toList.find? (onVal (fun x => get_over ⟨s, x⟩) (fun v => !cmp v key)) with
  | none =>
    rw [hF] at hlb
    simp [find, hlb, end_node]
  | some y =>
    rw [hF] at hlb
    have hy := List.mem_of_find?_eq_some hF
    have hne : y ≠ b := fun e => hr.notin (e ▸ hy)
    obtain ⟨v, hv⟩ := hval y hy
    have := hno y hy v hv
    have hp := List.find?_some hF
    simp only [onVal, hv, Bool.not_eq_true'] at hp
    simp only [equiv, hp, Bool.not_false, Bool.true_and, Bool.not_eq_false'] at this
    simp [find, hlb, end_node, hne, hv, hp, this]

end lower

theorem Tree.attach_mem_cons (g : Nat → Bool) (t : Tree) (d : Nat) :
    t.attach g d ∈ d :: t.toList := by
  induction t generalizing d with
  | nil => simp [Tree.attach]
  | node l x r ihl ihr =>
    simp only [Tree.attach, Tree.toList]
    by_cases hx : g x
    · simp only [hx, if_true]
      have := ihl x
      simp only [List.mem_cons, List.mem_append] at this ⊢
      rcases this with e | e
      · exact Or.inr (Or.inr (Or.inl e))
      · exact Or.inr (Or.inl e)
    · simp only [hx, Bool.false_eq_true, if_false]
      have := ihr x
      simp only [List.mem_cons, List.mem_append] at this ⊢
      rcases this with e | e
      · exact Or.inr (Or.inr (Or.inl e))
      · exact Or.inr (Or.inr (Or.inr e))

theorem Tree.attach_mem (g : Nat → Bool) (l r : Tree) (x d : Nat) :
    (Tree.node l x r).attach g d ∈ (Tree.node l x r).toList := by
  simp only [Tree.attach, Tree.toList]
  by_cases hx : g x
  · simp only [hx, if_true]
    have := Tree.attach_mem_cons g l x
    simp only [List.mem_cons, List.mem_append] at this ⊢
    rcases this with e | e
    · exact Or.inr (Or.inl e)
    · exact Or.inl e
  · simp only [hx, Bool.false_eq_true, if_false]
    have := Tree.attach_mem_cons g r x
    simp only [List.mem_cons, List.mem_append] at this ⊢
    rcases this with e | e
    · exact Or.inr (Or.inl e)
    · exact Or.inr (Or.inr e)

theorem Tree.ins_rootPtr (g : Nat → Bool) (n : Nat) (s : Side) (l r : Tree) (x : Nat) :
    ((Tree.node l x r).ins g n).rootPtr s = some ⟨s, x⟩ := by
  simp only [Tree.ins]
  split <;> rfl

theorem Tree.ins_mem (g : Nat → Bool) (n : Nat) (t : Tree) (y : Nat) :
    y ∈ (t.ins g n).toList ↔ y = n ∨ y ∈ t.toList := by
  induction t with
  | nil => simp [Tree.ins, Tree.toList]
  | node l x r ihl ihr =>
    simp only [Tree.ins]
    split
    · simp only [Tree.toList, List.mem_append, List.mem_cons, ihl]; tauto
    · simp only [Tree.toList, List.mem_append, List.mem_cons, ihr]; tauto

section ins
variable {K : Type} {cmp : K → K → Bool} {get_over : Ptr → Option K}

theorem find_place_loop_spec {h : Heap} {s : Side} {t : Tree} {par : Ptr} (key : K)
    (hw : Wf h s t par) (hval : ∀ x ∈ t.toList, ∃ v, get_over ⟨s, x⟩ = some v)
    (p0 : NPtr) {fuel : Nat} (hf : t.size < fuel) :
    find_place_loop cmp get_over key fuel h p0 (t.rootPtr s) =
      some (t.attachPtr s (onVal (fun x => get_over ⟨s, x⟩) (fun v => cmp key v)) p0) := by
  induction t generalizing par p0 fuel with
  | nil =>
    obtain ⟨f, rfl⟩ : ∃ g, fuel = g + 1 := ⟨fuel - 1, by omega⟩
    simp [find_place_loop]
  | node l x r ihl ihr =>
    obtain ⟨hx, hl, hr⟩ := hw
    obtain ⟨f, rfl⟩ : ∃ g, fuel = g + 1 := ⟨fuel - 1, by omega⟩
    simp only [Tree.size] at hf
    obtain ⟨v, hv⟩ := hval x (by simp [Tree.toList])
    simp only [find_place_loop, Tree.rootPtr_node, hv, hx, Tree.attachPtr_node, Tree.attach, onVal]
    by_cases hc : cmp key v = true
    · simp only [hc, if_true]
      rw [ihl hl (fun y hy => hval y (by simp [Tree.toList, hy])) _ (by omega)]
      cases l with
      | nil => simp [Tree.attach]
      | node ll y lr => simp [Tree.attach, onVal]
    · simp only [hc, Bool.false_eq_true, if_false]
      rw [ihr hr (fun y hy => hval y (by simp [Tree.toList, hy])) _ (by omega)]
      cases r with
      | nil => simp [Tree.attach]
      | node rl y rr => simp [Tree.attach, onVal]

theorem find_place_spec {h : Heap} {s : Side} {b : Nat} {t : Tree} (key : K)
    (hr : SetRep h s b t) (hval : ∀ x ∈ t.toList, ∃ v, get_over ⟨s, x⟩ = some v)
    {fuel : Nat} (hf : t.size < fuel) :
    find_place cmp get_over fuel h ⟨s, b⟩ key =
      some (placementOf s b (onVal (fun x => get_over ⟨s, x⟩) (fun v => cmp key v)) t) := by
  cases t with
  | nil => simp [find_place, hr.root, Tree.rootPtr, placementOf]
  | node l x r =>
    have := @find_place_loop_spec _ cmp _ _ _ _ _ key hr.wf hval none _ hf
    have hm := Tree.attach_mem (onVal (fun x => get_over ⟨s, x⟩) (fun v => cmp key v)) l r x x
    obtain ⟨v, hv⟩ := hval _ hm
    rw [Tree.rootPtr_node] at this
    simp only [find_place, hr.root, Tree.rootPtr_node, this, Tree.attachPtr_node, placementOf, hv]
    simp only [onVal, hv]
    simp
    split <;> simp_all

end ins

theorem Tree.nodup_node {l r : Tree} {x : Nat} (hnd : (Tree.node l x r).toList.Nodup) :
    l.toList.Nodup ∧ r.toList.Nodup ∧ x ∉ l.toList ∧ x ∉ r.toList ∧
      ∀ y, y ∈ l.toList → y ∈ r.toList → False := by
  simp only [Tree.toList] at hnd
  rw [List.nodup_append] at hnd
  obtain ⟨hl, hxr, hd⟩ := hnd
  rw [List.nodup_cons] at hxr
  exact ⟨hl, hxr.2, fun hm => hd hm (List.mem_cons_self _ _), hxr.1,
    fun y h1 h2 => hd h1 (List.mem_cons_of_mem _ h2)⟩

/-- Attaching the fresh node `n` below the attachment point of `t` yields the
tree `t.ins g n`. -/
theorem Wf.ins {h h1 : Heap} {s : Side} {t : Tree} {par : Ptr} (g : Nat → Bool)
    {n : Nat} (hw : Wf h s t par) (hne : t ≠ .nil) (hn : n ∉ t.toList)
    (hnd : t.toList.Nodup) (d : Nat)
    (h1n : h1 ⟨s, n⟩ = ⟨none, none, some ⟨s, t.attach g d⟩⟩)
    (h1a : h1 ⟨s, t.attach g d⟩ =
      (h ⟨s, t.attach g d⟩).setSlot (if g (t.attach g d) then ._left else ._right) (some ⟨s, n⟩))
    (h1o : ∀ y ∈ t.toList, y ≠ t.attach g d → h1 ⟨s, y⟩ = h ⟨s, y⟩) :
    Wf h1 s (t.ins g n) par := by
  induction t generalizing par d with
  | nil => exact absurd rfl hne
  | node l x r ihl ihr =>
    obtain ⟨hx, hl, hr⟩ := hw
    obtain ⟨hndl, hndr, hxl, hxr, hdisj⟩ := Tree.nodup_node hnd
    simp only [Tree.toList, List.mem_append, List.mem_cons, not_or] at hn
    obtain ⟨hnl, hnx, hnr⟩ := hn
    simp only [Tree.attach] at h1n h1a h1o
    simp only [Tree.ins]
    by_cases hg : g x = true
    · simp only [hg, if_true] at h1n h1a h1o ⊢
      have hrw : Wf h1 s r ⟨s, x⟩ := by
        refine hr.congr fun y hy => h1o y (by simp [Tree.toList, hy]) ?_
        intro e
        have := Tree.attach_mem_cons g l x
        rw [← e] at this
        rcases List.mem_cons.1 this with e1 | e1
        · exact hxr (e1 ▸ hy)
        · exact hdisj y e1 hy
      cases l with
      | nil =>
        simp only [Tree.attach, hg, if_true] at h1n h1a h1o
        refine ⟨?_, ?_, hrw⟩
        · rw [h1a, hx]; simp [node_base.setSlot, Tree.ins]
        · simp only [Tree.ins]
          exact ⟨by rw [h1n]; simp, trivial, trivial⟩
      | node ll y lr =>
        have hm := Tree.attach_mem g ll lr y x
        have hax : (Tree.node ll y lr).attach g x ≠ x := fun e => hxl (e ▸ hm)
        refine ⟨?_, ?_, hrw⟩
        · rw [h1o x (by simp [Tree.toList]) (Ne.symm hax), hx, Tree.ins_rootPtr]; simp
        · exact ihl hl (by simp) hnl hndl x h1n h1a
            (fun z hz hne => h1o z (by simp [Tree.toList] at hz ⊢; tauto) hne)
    · simp only [hg, Bool.false_eq_true, if_false] at h1n h1a h1o ⊢
      have hlw : Wf h1 s l ⟨s, x⟩ := by
        refine hl.congr fun y hy => h1o y (by simp [Tree.toList, hy]) ?_
        intro e
        have := Tree.attach_mem_cons g r x
        rw [← e] at this
        rcases List.mem_cons.1 this with e1 | e1
        · exact hxl (e1 ▸ hy)
        · exact hdisj y hy e1
      cases r with
      | nil =>
        simp only [Tree.attach, hg, Bool.false_eq_true, if_false] at h1n h1a h1o
        refine ⟨?_, hlw, ?_⟩
        · rw [h1a, hx]; simp [node_base.setSlot, Tree.ins]
        · simp only [Tree.ins]
          exact ⟨by rw [h1n]; simp, trivial, trivial⟩
      | node rl y rr =>
        have hm := Tree.attach_mem g rl rr y x
        have hax : (Tree.node rl y rr).attach g x ≠ x := fun e => hxr (e ▸ hm)
        refine ⟨?_, hlw, ?_⟩
        · rw [h1o x (by simp [Tree.toList]) (Ne.symm hax), hx, Tree.ins_rootPtr]; simp
        · exact ihr hr (by simp) hnr hndr x h1n h1a
            (fun z hz hne => h1o z (by simp [Tree.toList] at hz ⊢; tauto) hne)

theorem Tree.toList_ins (g : Nat → Bool) (n : Nat) (t : Tree)
    (hmono : t.toList.Pairwise (fun a b => g a = true → g b = true)) :
    (t.ins g n).toList = t.toList.filter (fun y => !g y) ++ n :: t.toList.filter g := by
  induction t with
  | nil => simp [Tree.ins, Tree.toList]
  | node l x r ihl ihr =>
    simp only [Tree.toList] at hmono
    rw [List.pairwise_append] at hmono
    obtain ⟨hl, hxr, hlx⟩ := hmono
    rw [List.pairwise_cons] at hxr
    obtain ⟨hxr, hr⟩ := hxr
    simp only [Tree.ins]
    by_cases hg : g x = true
    · have hrall : ∀ y ∈ r.toList, g y = true := fun y hy => hxr y hy hg
      simp only [hg, if_true, Tree.toList, ihl hl, List.filter_append, List.filter_cons,
        Bool.not_true, Bool.false_eq_true, if_false, List.append_assoc, List.cons_append]
      have e1 : r.toList.filter (fun y => !g y) = [] :=
        List.filter_eq_nil_iff.2 (fun y hy => by simp [hrall y hy])
      have e2 : r.toList.filter g = r.toList := List.filter_eq_self.2 hrall
      rw [e1, e2]
      simp
    · have hlall : ∀ y ∈ l.toList, g y = false := by
        intro y hy
        cases hgy : g y with
        | false => rfl
        | true => exact absurd (hlx y hy x (List.mem_cons_self _ _) hgy) hg
      have hg' : g x = false := by simpa using hg
      simp only [hg', Bool.false_eq_true, if_false, Tree.toList, ihr hr, List.filter_append,
        List.filter_cons, Bool.not_false, if_true, List.append_assoc, List.cons_append]
      have e1 : l.toList.filter g = [] :=
        List.filter_eq_nil_iff.2 (fun y hy => by simp [hlall y hy])
      have e2 : l.toList.filter (fun y => !g y) = l.toList :=
        List.filter_eq_self.2 (fun y hy => by simp [hlall y hy])
      rw [e1, e2]
      simp

theorem store_apply (h : Heap) (p : Ptr) (sl : Slot) (v : NPtr) (q : Ptr) :
    h.store ⟨p, sl⟩ v q = if q = p then (h p).setSlot sl v else h q := by
  cases sl <;> simp [Heap.store, Heap.set_left, Heap.set_right, node_base.setSlot]

/-- Placing a fresh node where `find_place` said: the set holds `t.ins g n`,
and only the new node and its attachment point changed. -/
theorem set_insert_spec {h : Heap} {s : Side} {b : Nat} {t : Tree} (hr : SetRep h s b t)
    (g : Nat → Bool) {n : Nat} (hnb : n ≠ b) (hn : n ∉ t.toList)
    (hnull : h ⟨s, n⟩ = node_base.null) :
    SetRep (place_node h (placementOf s b g t) ⟨s, n⟩).1 s b (t.ins g n) ∧
    (∀ q, q ≠ ⟨s, n⟩ → q ≠ ⟨s, b⟩ → (∀ y ∈ t.toList, q ≠ ⟨s, y⟩) →
      (place_node h (placementOf s b g t) ⟨s, n⟩).1 q = h q) ∧
    ((place_node h (placementOf s b g t) ⟨s, n⟩).1 ⟨s, b⟩)._left = (h ⟨s, b⟩)._left := by
  have hnb' : (⟨s, b⟩ : Ptr) ≠ ⟨s, n⟩ := by simp [Ne.symm hnb]
  have hndi : (t.ins g n).toList.Nodup ∧ b ∉ (t.ins g n).toList := by
    constructor
    · clear hnull
      have hnd := hr.nodup
      clear hr
      induction t with
      | nil => simp [Tree.ins, Tree.toList]
      | node l x r ihl ihr =>
        obtain ⟨hndl, hndr, hxl, hxr, hdisj⟩ := Tree.nodup_node hnd
        simp only [Tree.toList, List.mem_append, List.mem_cons, not_or] at hn
        simp only [Tree.ins]
        split
        · simp only [Tree.toList]
          rw [List.nodup_append]
          refine ⟨ihl hn.1 hndl, List.nodup_cons.2 ⟨hxr, hndr⟩, ?_⟩
          intro y hy hy2
          rw [Tree.ins_mem] at hy
          rcases hy with e | e
          · subst e; rcases List.mem_cons.1 hy2 with e | e
            · exact hn.2.1 e
            · exact hn.2.2 e
          · rcases List.mem_cons.1 hy2 with e2 | e2
            · exact hxl (e2 ▸ e)
            · exact hdisj y e e2
        · simp only [Tree.toList]
          rw [List.nodup_append]
          refine ⟨hndl, List.nodup_cons.2 ⟨?_, ihr hn.2.2 hndr⟩, ?_⟩
          · rw [Tree.ins_mem]; intro e
            rcases e with e | e
            · exact hn.2.1 e.symm
            · exact hxr e
          · intro y hy hy2
            rcases List.mem_cons.1 hy2 with e2 | e2
            · exact hxl (e2 ▸ hy)
            · rw [Tree.ins_mem] at e2
              rcases e2 with e2 | e2
              · exact hn.1 (e2 ▸ hy)
              · exact hdisj y hy e2
    · rw [Tree.ins_mem]; intro e
      rcases e with e | e
      · exact hnb e.symm
      · exact hr.notin e
  cases t with
  | nil =>
    refine ⟨⟨?_, ?_, ?_, ?_, hndi.1, hndi.2⟩, ?_, ?_⟩
    · simp [place_node, placementOf, store_apply, node_base.setSlot, Heap.set_parent, Ne.symm hnb,
        hr.parent]
    · simp [place_node, placementOf, store_apply, node_base.setSlot, Tree.ins]
    · intro x
      simp only [place_node, placementOf, store_apply, node_base.setSlot, if_true, Heap.set_parent,
        hnb', if_false]
      exact hr.service x
    · simp only [Tree.ins]
      refine ⟨?_, trivial, trivial⟩
      simp [place_node, placementOf, store_apply, Heap.set_parent, Ne.symm hnb', hnull,
        node_base.null]
    · intro q hq1 hq2 _
      simp [place_node, placementOf, store_apply, Heap.set_parent, hq1, hq2]
    · simp [place_node, placementOf, store_apply, node_base.setSlot, Heap.set_parent, Ne.symm hnb]
  | node l x r =>
    have hm := Tree.attach_mem g l r x x
    have hab : (Tree.node l x r).attach g x ≠ b := fun e => hr.notin (e ▸ hm)
    have han : (Tree.node l x r).attach g x ≠ n := fun e => hn (e ▸ hm)
    have key : ∀ q, q ≠ ⟨s, n⟩ → q ≠ ⟨s, (Tree.node l x r).attach g x⟩ →
        (place_node h (placementOf s b g (Tree.node l x r)) ⟨s, n⟩).1 q = h q := by
      intro q hq1 hq2
      simp [place_node, placementOf, store_apply, Heap.set_parent, hq1, hq2]
    have hsent := key ⟨s, b⟩ hnb' (by simp [Ne.symm hab])
    refine ⟨⟨?_, ?_, ?_, ?_, hndi.1, hndi.2⟩, ?_, ?_⟩
    · rw [hsent]; exact hr.parent
    · rw [hsent, hr.root, Tree.ins_rootPtr]; rfl
    · rw [hsent]; exact hr.service
    · refine Wf.ins g hr.wf (by simp) hn hr.nodup x ?_ ?_ ?_
      · simp [place_node, placementOf, store_apply, Heap.set_parent, Ne.symm han, hnull,
          node_base.null]
      · simp [place_node, placementOf, store_apply, Heap.set_parent, han]
      · intro y hy hya
        exact key _ (by simp; intro e; exact hn (e ▸ hy)) (by simp [hya])
    · intro q hq1 _ hq3
      exact key q hq1 (hq3 _ hm)
    · rw [hsent]

theorem setSlot_getSlot (nb : node_base) (sl : Slot) : nb.setSlot sl (nb.getSlot sl) = nb := by
  cases sl <;> rfl

theorem Wf.root_eq {h : Heap} {s : Side} {l r : Tree} {x : Nat} {par : Ptr}
    (hw : Wf h s (.node l x r) par) : h ⟨s, x⟩ = ⟨l.rootPtr s, r.rootPtr s, some par⟩ := hw.1

/-- The same subtree hung below another parent: only the root's parent link differs. -/
theorem Wf.reparent {h h1 : Heap} {s : Side} {t : Tree} {par par1 : Ptr}
    (hw : Wf h s t par) (hnd : t.toList.Nodup)
    (hroot : ∀ p, t.rootPtr s = some p → h1 p = { h p with _parent := some par1 })
    (hrest : ∀ y ∈ t.toList, t.rootPtr s ≠ some ⟨s, y⟩ → h1 ⟨s, y⟩ = h ⟨s, y⟩) :
    Wf h1 s t par1 := by
  cases t with
  | nil => trivial
  | node l x r =>
    obtain ⟨hx, hl, hr⟩ := hw
    obtain ⟨hndl, hndr, hxl, hxr, hdisj⟩ := Tree.nodup_node hnd
    refine ⟨by rw [hroot _ rfl, hx], hl.congr ?_, hr.congr ?_⟩
    · intro y hy
      exact hrest y (by simp [Tree.toList, hy]) (by simp; intro e; exact hxl (e ▸ hy))
    · intro y hy
      exact hrest y (by simp [Tree.toList, hy]) (by simp; intro e; exact hxr (e ▸ hy))

theorem LocalUpd.lift_left {h h1 : Heap} {s : Side} {l l1 r : Tree} {y : Nat} {par : Ptr}
    (hw : Wf h s (.node l y r) par) (hnd : (Tree.node l y r).toList.Nodup)
    (hpar : ∀ z ∈ (Tree.node l y r).toList, par ≠ ⟨s, z⟩) (sl : Slot)
    (hsl : (h par).getSlot sl = some ⟨s, y⟩)
    (hu : LocalUpd h h1 s l l1 ⟨s, y⟩ ._left) :
    LocalUpd h h1 s (.node l y r) (.node l1 y r) par sl := by
  obtain ⟨hy, hl, hr⟩ := hw
  obtain ⟨hndl, hndr, hyl, hyr, hdisj⟩ := Tree.nodup_node hnd
  have hpy : par ≠ ⟨s, y⟩ := hpar y (by simp [Tree.toList])
  refine ⟨⟨?_, hu.wf, hr.congr ?_⟩, ?_, ?_, ?_⟩
  · rw [hu.par_eq, hy]; rfl
  · intro z hz
    refine hu.frame _ (by simp; intro e; exact hyr (e ▸ hz)) ?_
    intro w hw e
    simp only [Ptr.mk.injEq, true_and] at e
    exact hdisj w hw (e ▸ hz)
  · rw [hu.frame par hpy (fun w hw => hpar w (by simp [Tree.toList, hw])), Tree.rootPtr_node,
      ← hsl, setSlot_getSlot]
  · intro q hq1 hq2
    exact hu.frame q (hq2 y (by simp [Tree.toList])) (fun w hw => hq2 w (by simp [Tree.toList, hw]))
  · intro z hz
    simp only [Tree.toList, List.mem_append, List.mem_cons] at hz ⊢
    rcases hz with e | e | e
    · exact Or.inl (hu.sub z e)
    · exact Or.inr (Or.inl e)
    · exact Or.inr (Or.inr e)

theorem LocalUpd.lift_right {h h1 : Heap} {s : Side} {l r r1 : Tree} {y : Nat} {par : Ptr}
    (hw : Wf h s (.node l y r) par) (hnd : (Tree.node l y r).toList.Nodup)
    (hpar : ∀ z ∈ (Tree.node l y r).toList, par ≠ ⟨s, z⟩) (sl : Slot)
    (hsl : (h par).getSlot sl = some ⟨s, y⟩)
    (hu : LocalUpd h h1 s r r1 ⟨s, y⟩ ._right) :
    LocalUpd h h1 s (.node l y r) (.node l y r1) par sl := by
  obtain ⟨hy, hl, hr⟩ := hw
  obtain ⟨hndl, hndr, hyl, hyr, hdisj⟩ := Tree.nodup_node hnd
  have hpy : par ≠ ⟨s, y⟩ := hpar y (by simp [Tree.toList])
  refine ⟨⟨?_, hl.congr ?_, hu.wf⟩, ?_, ?_, ?_⟩
  · rw [hu.par_eq, hy]; rfl
  · intro z hz
    refine hu.frame _ (by simp; intro e; exact hyl (e ▸ hz)) ?_
    intro w hw e
    simp only [Ptr.mk.injEq, true_and] at e
    exact hdisj z hz (e ▸ hw)
  · rw [hu.frame par hpy (fun w hw => hpar w (by simp [Tree.toList, hw])), Tree.rootPtr_node,
      ← hsl, setSlot_getSlot]
  · intro q hq1 hq2
    exact hu.frame q (hq2 y (by simp [Tree.toList])) (fun w hw => hq2 w (by simp [Tree.toList, hw]))
  · intro z hz
    simp only [Tree.toList, List.mem_append, List.mem_cons] at hz ⊢
    rcases hz with e | e | e
    · exact Or.inl e
    · exact Or.inr (Or.inl e)
    · exact Or.inr (Or.inr (hu.sub z e))

/-- Every node of a tree is the root of a subtree that can be updated locally:
the update lifts to the whole tree and changes the in-order sequence in place. -/
theorem Wf.context {h : Heap} {s : Side} {t : Tree} {par : Ptr} {sl : Slot}
    (hw : Wf h s t par) (hnd : t.toList.Nodup) (hpar : ∀ z ∈ t.toList, par ≠ ⟨s, z⟩)
    (hsl : ∀ p, t.rootPtr s = some p → SlotOk h par p sl) {x : Nat} (hx : x ∈ t.toList) :
    ∃ l r px slx A B, Wf h s (.node l x r) px ∧ SlotOk h px ⟨s, x⟩ slx ∧
      (Tree.node l x r).toList.Nodup ∧
      t.toList = A ++ (Tree.node l x r).toList ++ B ∧
      (∀ z ∈ (Tree.node l x r).toList, px ≠ ⟨s, z⟩) ∧
      (px = par ∨ ∃ z ∈ t.toList, px = ⟨s, z⟩) ∧
      ∀ h1 sub1, LocalUpd h h1 s (.node l x r) sub1 px slx →
        ∃ t1, LocalUpd h h1 s t t1 par sl ∧ t1.toList = A ++ sub1.toList ++ B := by
  induction t generalizing par sl with
  | nil => simp [Tree.toList] at hx
  | node l y r ihl ihr =>
    obtain ⟨hy, hl, hr⟩ := id hw
    obtain ⟨hndl, hndr, hyl, hyr, hdisj⟩ := Tree.nodup_node hnd
    by_cases hxy : x = y
    · subst hxy
      exact ⟨l, r, par, sl, [], [], hw, hsl _ rfl, hnd, by simp, hpar, Or.inl rfl,
        fun h1 sub1 hu => ⟨sub1, hu, by simp⟩⟩
    · simp only [Tree.toList, List.mem_append, List.mem_cons] at hx
      rcases hx with hxl | hxl | hxr
      · have hsl' : ∀ p, l.rootPtr s = some p → SlotOk h ⟨s, y⟩ p ._left := by
          intro p hp
          exact ⟨by rw [hy]; simp [hp], by rw [hy]; simpa [node_base.getSlot] using hp⟩
        obtain ⟨l0, r0, px, slx, A, B, h1, h2, h3, h4, h5, h6, h7⟩ :=
          ihl hl hndl
            (fun z hz => by simp; intro e; exact hyl (e ▸ hz)) hsl' hxl
        refine ⟨l0, r0, px, slx, A, B ++ y :: r.toList, h1, h2, h3, ?_, h5, ?_, ?_⟩
        · simp [Tree.toList, h4]
        · right
          rcases h6 with e | ⟨z, hz, e⟩
          · exact ⟨y, by simp [Tree.toList], e⟩
          · exact ⟨z, by simp [Tree.toList, hz], e⟩
        · intro hh sub1 hu
          obtain ⟨t1, hu1, ht1⟩ := h7 hh sub1 hu
          exact ⟨.node t1 y r, hu1.lift_left hw hnd hpar sl (hsl _ rfl).get,
            by simp [Tree.toList, ht1]⟩
      · exact absurd hxl hxy
      · have hsl' : ∀ p, r.rootPtr s = some p → SlotOk h ⟨s, y⟩ p ._right := by
          intro p hp
          refine ⟨?_, by rw [hy]; simpa [node_base.getSlot] using hp⟩
          rw [hy]
          have hp' := Tree.rootPtr_over hp
          have : l.rootPtr s ≠ some p := by
            intro hq
            have hq' := Tree.rootPtr_over hq
            exact hdisj _ hq'.2 hp'.2
          simp [this]
        obtain ⟨l0, r0, px, slx, A, B, h1, h2, h3, h4, h5, h6, h7⟩ :=
          ihr hr hndr
            (fun z hz => by simp; intro e; exact hyr (e ▸ hz)) hsl' hxr
        refine ⟨l0, r0, px, slx, l.toList ++ y :: A, B, h1, h2, h3, ?_, h5, ?_, ?_⟩
        · simp [Tree.toList, h4]
        · right
          rcases h6 with e | ⟨z, hz, e⟩
          · exact ⟨y, by simp [Tree.toList], e⟩
          · exact ⟨z, by simp [Tree.toList, hz], e⟩
        · intro hh sub1 hu
          obtain ⟨t1, hu1, ht1⟩ := h7 hh sub1 hu
          exact ⟨.node l y t1, hu1.lift_right hw hnd hpar sl (hsl _ rfl).get,
            by simp [Tree.toList, ht1]⟩

/-- The three structural cases of `erase` that need no node swap. -/
theorem erase_local {h : Heap} {s : Side} {l r : Tree} {x : Nat} {px : Ptr} {slx : Slot}
    (hw : Wf h s (.node l x r) px) (hsl : SlotOk h px ⟨s, x⟩ slx)
    (hnd : (Tree.node l x r).toList.Nodup)
    (hpx : ∀ z ∈ (Tree.node l x r).toList, px ≠ ⟨s, z⟩)
    (hc : l = .nil ∨ r = .nil) {fuel : Nat} {nxt : NPtr}
    (hnext : next_node (fuel + 1) h ⟨s, x⟩ = some nxt) :
    ∃ h1 sub1, erase (fuel + 1) h ⟨s, x⟩ = some (h1, nxt) ∧
      LocalUpd h h1 s (.node l x r) sub1 px slx ∧ sub1.toList = l.toList ++ r.toList := by
  obtain ⟨hx, hl, hr⟩ := id hw
  obtain ⟨hndl, hndr, hxl, hxr, hdisj⟩ := Tree.nodup_node hnd
  have hpxx : px ≠ ⟨s, x⟩ := hpx x (by simp [Tree.toList])
  have hplace : (if (h px)._left = some ⟨s, x⟩ then (⟨px, ._left⟩ : FieldPtr) else ⟨px, ._right⟩)
      = ⟨px, slx⟩ := by
    rw [← hsl.pick]; split <;> rfl
  cases l with
  | nil =>
    cases r with
    | nil =>
      refine ⟨h.store ⟨px, slx⟩ none, .nil, ?_, ⟨trivial, ?_, ?_, ?_⟩, by simp [Tree.toList]⟩
      · simp [erase, hnext, hx, hplace]
      · simp [store_apply]
      · intro q hq _
        simp [store_apply, hq]
      · intro y hy; simp [Tree.toList] at hy
    | node rl z rr =>
      have hzx : z ≠ x := fun e => hxr (by simp [Tree.toList, e])
      have hpz : px ≠ ⟨s, z⟩ := hpx z (by simp [Tree.toList])
      refine ⟨(h.store ⟨px, slx⟩ (some ⟨s, z⟩)).set_parent ⟨s, z⟩ (some px), .node rl z rr, ?_,
        ⟨?_, ?_, ?_, ?_⟩, by simp [Tree.toList]⟩
      · simp [erase, hnext, hx, hplace, store_apply, Ne.symm hpxx]
      · refine hr.reparent hndr ?_ ?_
        · intro p hp
          simp only [Tree.rootPtr_node, Option.some.injEq] at hp
          subst hp
          simp [Heap.set_parent, store_apply, Ne.symm hpz]
        · intro y hy hne
          have hyz : y ≠ z := by intro e; exact hne (by simp [e])
          have : px ≠ ⟨s, y⟩ := hpx y (Tree.mem_node_right _ _ hy)
          simp [Heap.set_parent, store_apply, hyz, Ne.symm this]
      · simp [Heap.set_parent, store_apply, hpz]
      · intro q hq1 hq2
        have := hq2 z (by simp [Tree.toList])
        simp [Heap.set_parent, store_apply, hq1, this]
      · intro y hy; exact Tree.mem_node_right _ _ hy
  | node ll z lr =>
    have hrn : r = .nil := by
      rcases hc with e | e
      · cases e
      · exact e
    subst hrn
    have hzx : z ≠ x := fun e => hxl (by simp [Tree.toList, e])
    have hpz : px ≠ ⟨s, z⟩ := hpx z (by simp [Tree.toList])
    refine ⟨(h.store ⟨px, slx⟩ (some ⟨s, z⟩)).set_parent ⟨s, z⟩ (some px), .node ll z lr, ?_,
      ⟨?_, ?_, ?_, ?_⟩, by simp [Tree.toList]⟩
    · simp [erase, hnext, hx, hplace, store_apply, Ne.symm hpxx]
    · refine hl.reparent hndl ?_ ?_
      · intro p hp
        simp only [Tree.rootPtr_node, Option.some.injEq] at hp
        subst hp
        simp [Heap.set_parent, store_apply, Ne.symm hpz]
      · intro y hy hne
        have hyz : y ≠ z := by intro e; exact hne (by simp [e])
        have : px ≠ ⟨s, y⟩ := hpx y (Tree.mem_node_left _ _ hy)
        simp [Heap.set_parent, store_apply, hyz, Ne.symm this]
    · simp [Heap.set_parent, store_apply, hpz]
    · intro q hq1 hq2
      have := hq2 z (by simp [Tree.toList])
      simp [Heap.set_parent, store_apply, hq1, this]
    · intro y hy; exact Tree.mem_node_left _ _ hy

theorem erase_eq_of_nodup {A L1 L2 B : List Nat} {x : Nat}
    (hnd : (A ++ (L1 ++ x :: L2) ++ B).Nodup) :
    (A ++ (L1 ++ x :: L2) ++ B).erase x = A ++ (L1 ++ L2) ++ B := by
  rw [List.append_assoc] at hnd ⊢
  have hA : x ∉ A := fun hm =>
    (List.disjoint_of_nodup_append hnd) hm (by simp)
  have hnd2 : (L1 ++ x :: L2).Nodup := (List.nodup_append.1 (List.nodup_append.1 hnd).2.1).1
  have hL1 : x ∉ L1 := fun hm =>
    (List.disjoint_of_nodup_append hnd2) hm (by simp)
  rw [List.erase_append_right _ hA, List.erase_append_left _ (by simp),
    List.erase_append_right _ hL1, List.erase_cons_head]
  simp

/-- A local update of the whole tree below the sentinel gives a set again. -/
theorem SetRep.of_localUpd {h h1 : Heap} {s : Side} {b : Nat} {t t1 : Tree}
    (hr : SetRep h s b t) (hu : LocalUpd h h1 s t t1 ⟨s, b⟩ ._right)
    (hnd : t1.toList.Nodup) : SetRep h1 s b t1 := by
  refine ⟨?_, ?_, ?_, hu.wf, hnd, fun hm => hr.notin (hu.sub _ hm)⟩
  · rw [hu.par_eq]; exact hr.parent
  · rw [hu.par_eq]; rfl
  · rw [hu.par_eq]; exact hr.service

theorem SetRep.slotOk {h : Heap} {s : Side} {b : Nat} {t : Tree} (hr : SetRep h s b t) :
    ∀ p, t.rootPtr s = some p → SlotOk h ⟨s, b⟩ p ._right := by
  intro p hp
  have hp' := Tree.rootPtr_over hp
  refine ⟨?_, by rw [← hp]; exact hr.root⟩
  have : (h ⟨s, b⟩)._left ≠ some p := by
    obtain ⟨ps, pid⟩ := p
    simp only at hp'
    rw [hp'.1]
    exact hr.service pid
  simp [this]

theorem SetRep.sentinel_ne {h : Heap} {s : Side} {b : Nat} {t : Tree} (hr : SetRep h s b t) :
    ∀ z ∈ t.toList, (⟨s, b⟩ : Ptr) ≠ ⟨s, z⟩ := by
  intro z hz e
  simp only [Ptr.mk.injEq, true_and] at e
  exact hr.notin (e ▸ hz)

/-- Erasing a node with at most one child: the set holds the remaining nodes in
the same order, and the successor computed beforehand is returned. -/
theorem erase_simple_spec {h : Heap} {s : Side} {b : Nat} {t : Tree} (hr : SetRep h s b t)
    {x : Nat} (hx : x ∈ t.toList)
    (hc : (h ⟨s, x⟩)._left = none ∨ (h ⟨s, x⟩)._right = none)
    {fuel : Nat} (hf : t.size < fuel) :
    ∃ h1 t1, erase fuel h ⟨s, x⟩ = some (h1, some (succPtr s b t.toList x)) ∧
      SetRep h1 s b t1 ∧ t1.toList = t.toList.erase x ∧
      (∀ q, q ≠ ⟨s, b⟩ → (∀ y ∈ t.toList, q ≠ ⟨s, y⟩) → h1 q = h q) ∧
      (h1 ⟨s, b⟩)._left = (h ⟨s, b⟩)._left := by
  obtain ⟨f, rfl⟩ : ∃ g, fuel = g + 1 := ⟨fuel - 1, by omega⟩
  obtain ⟨l, r, px, slx, A, B, hw, hsl, hnd, hsplit, hpx, -, hlift⟩ :=
    hr.wf.context hr.nodup hr.sentinel_ne hr.slotOk hx
  have hc' : l = .nil ∨ r = .nil := by
    rw [hw.root_eq] at hc
    simpa [Tree.rootPtr_eq_none] using hc
  obtain ⟨h1, sub1, he, hu, hsub⟩ := erase_local hw hsl hnd hpx hc' (next_node_spec hr hx hf)
  obtain ⟨t1, hu1, ht1⟩ := hlift h1 sub1 hu
  have hlist : t1.toList = t.toList.erase x := by
    rw [ht1, hsub, hsplit]
    have := hr.nodup
    rw [hsplit] at this
    simp only [Tree.toList] at this ⊢
    exact (erase_eq_of_nodup this).symm
  refine ⟨h1, t1, he, hr.of_localUpd hu1 ?_, hlist, hu1.frame, ?_⟩
  · rw [hlist]; exact hr.nodup.erase x
  · rw [hu1.par_eq]; rfl

theorem Tree.map_rootPtr (σ : Nat → Nat) (s : Side) (t : Tree) :
    (t.map σ).rootPtr s = (t.rootPtr s).map (Ptr.relabel s σ) := by
  cases t <;> simp [Tree.map, Ptr.relabel]

theorem Tree.map_toList (σ : Nat → Nat) (t : Tree) : (t.map σ).toList = t.toList.map σ := by
  induction t with
  | nil => rfl
  | node l x r ihl ihr => simp [Tree.map, Tree.toList, ihl, ihr]

/-- A heap that is the renamed image of `h` holds the renamed tree. -/
theorem Wf.relabel {h h1 : Heap} {s : Side} {t : Tree} {par : Ptr} (σ : Nat → Nat)
    (hw : Wf h s t par)
    (hrel : ∀ y ∈ t.toList, h1 ⟨s, σ y⟩ = (h ⟨s, y⟩).relabel s σ) :
    Wf h1 s (t.map σ) (par.relabel s σ) := by
  induction t generalizing par with
  | nil => trivial
  | node l x r ihl ihr =>
    obtain ⟨hx, hl, hr⟩ := hw
    have e : (⟨s, σ x⟩ : Ptr) = Ptr.relabel s σ ⟨s, x⟩ := by simp [Ptr.relabel]
    refine ⟨?_, ?_, ?_⟩
    · rw [hrel x (Tree.mem_node_self _ _ _), hx]
      simp [node_base.relabel, Tree.map_rootPtr]
    · rw [e]; exact ihl hl (fun y hy => hrel y (Tree.mem_node_left _ _ hy))
    · rw [e]; exact ihr hr (fun y hy => hrel y (Tree.mem_node_right _ _ hy))

/-- Links of a node of a well-formed tree: a child points back to it. -/
theorem Wf.child_left {h : Heap} {s : Side} {t : Tree} {par : Ptr} (hw : Wf h s t par)
    {y : Nat} (hy : y ∈ t.toList) {c : Ptr} (hc : (h ⟨s, y⟩)._left = some c) :
    (∃ z ∈ t.toList, c = ⟨s, z⟩) ∧ (h c)._parent = some ⟨s, y⟩ := by
  induction t generalizing par with
  | nil => simp [Tree.toList] at hy
  | node l x r ihl ihr =>
    obtain ⟨hx, hl, hr⟩ := hw
    simp only [Tree.toList, List.mem_append, List.mem_cons] at hy
    rcases hy with hy | hy | hy
    · obtain ⟨⟨z, hz, e⟩, h2⟩ := ihl hl hy
      exact ⟨⟨z, Tree.mem_node_left _ _ hz, e⟩, h2⟩
    · subst hy
      rw [hx] at hc
      simp only at hc
      cases l with
      | nil => simp at hc
      | node ll z lr =>
        simp only [Tree.rootPtr_node, Option.some.injEq] at hc
        subst hc
        exact ⟨⟨z, Tree.mem_node_left _ _ (Tree.mem_node_self _ _ _), rfl⟩, by rw [hl.root_eq]⟩
    · obtain ⟨⟨z, hz, e⟩, h2⟩ := ihr hr hy
      exact ⟨⟨z, Tree.mem_node_right _ _ hz, e⟩, h2⟩

theorem Wf.child_right {h : Heap} {s : Side} {t : Tree} {par : Ptr} (hw : Wf h s t par)
    {y : Nat} (hy : y ∈ t.toList) {c : Ptr} (hc : (h ⟨s, y⟩)._right = some c) :
    (∃ z ∈ t.toList, c = ⟨s, z⟩) ∧ (h c)._parent = some ⟨s, y⟩ := by
  induction t generalizing par with
  | nil => simp [Tree.toList] at hy
  | node l x r ihl ihr =>
    obtain ⟨hx, hl, hr⟩ := hw
    simp only [Tree.toList, List.mem_append, List.mem_cons] at hy
    rcases hy with hy | hy | hy
    · obtain ⟨⟨z, hz, e⟩, h2⟩ := ihl hl hy
      exact ⟨⟨z, Tree.mem_node_left _ _ hz, e⟩, h2⟩
    · subst hy
      rw [hx] at hc
      simp only at hc
      cases r with
      | nil => simp at hc
      | node rl z rr =>
        simp only [Tree.rootPtr_node, Option.some.injEq] at hc
        subst hc
        exact ⟨⟨z, Tree.mem_node_right _ _ (Tree.mem_node_self _ _ _), rfl⟩, by rw [hr.root_eq]⟩
    · obtain ⟨⟨z, hz, e⟩, h2⟩ := ihr hr hy
      exact ⟨⟨z, Tree.mem_node_right _ _ hz, e⟩, h2⟩

/-- The parent link of a node: the parent of the whole tree for the root,
otherwise a node of the tree that holds it in a child field. -/
theorem Wf.parent_link {h : Heap} {s : Side} {t : Tree} {par : Ptr} (hw : Wf h s t par)
    {y : Nat} (hy : y ∈ t.toList) :
    ((h ⟨s, y⟩)._parent = some par ∧ t.rootPtr s = some ⟨s, y⟩) ∨
    ∃ z ∈ t.toList, (h ⟨s, y⟩)._parent = some ⟨s, z⟩ ∧
      ((h ⟨s, z⟩)._left = some ⟨s, y⟩ ∨ (h ⟨s, z⟩)._right = some ⟨s, y⟩) := by
  induction t generalizing par with
  | nil => simp [Tree.toList] at hy
  | node l x r ihl ihr =>
    obtain ⟨hx, hl, hr⟩ := hw
    simp only [Tree.toList, List.mem_append, List.mem_cons] at hy
    rcases hy with hy | hy | hy
    · right
      rcases ihl hl hy with ⟨h1, h2⟩ | ⟨z, hz, h1, h2⟩
      · exact ⟨x, Tree.mem_node_self _ _ _, h1, Or.inl (by rw [hx]; exact h2)⟩
      · exact ⟨z, Tree.mem_node_left _ _ hz, h1, h2⟩
    · subst hy
      left
      exact ⟨by rw [hx], rfl⟩
    · right
      rcases ihr hr hy with ⟨h1, h2⟩ | ⟨z, hz, h1, h2⟩
      · exact ⟨x, Tree.mem_node_self _ _ _, h1, Or.inr (by rw [hx]; exact h2)⟩
      · exact ⟨z, Tree.mem_node_right _ _ hz, h1, h2⟩

/-- The two children of a node are different nodes. -/
theorem Wf.left_ne_right {h : Heap} {s : Side} {t : Tree} {par : Ptr} (hw : Wf h s t par)
    (hnd : t.toList.Nodup) {y : Nat} (hy : y ∈ t.toList) {c : Ptr}
    (hc : (h ⟨s, y⟩)._left = some c) : (h ⟨s, y⟩)._right ≠ some c := by
  induction t generalizing par with
  | nil => simp [Tree.toList] at hy
  | node l x r ihl ihr =>
    obtain ⟨hx, hl, hr⟩ := hw
    obtain ⟨hndl, hndr, hxl, hxr, hdisj⟩ := Tree.nodup_node hnd
    simp only [Tree.toList, List.mem_append, List.mem_cons] at hy
    rcases hy with hy | hy | hy
    · exact ihl hl hndl hy
    · subst hy
      rw [hx] at hc ⊢
      simp only at hc ⊢
      intro e
      exact hdisj _ (Tree.rootPtr_over hc).2 (Tree.rootPtr_over e).2
    · exact ihr hr hndr hy

/-- The leftmost node of a subtree: it has no left child, and it is either
the root or the left child of a node of the subtree. -/
theorem Wf.min_facts {h : Heap} {s : Side} {l r : Tree} {x : Nat} {par : Ptr}
    (hw : Wf h s (.node l x r) par) (hnd : (Tree.node l x r).toList.Nodup) :
    (h ⟨s, l.minId x⟩)._left = none ∧
    ((l = .nil ∧ l.minId x = x) ∨
      (l.minId x ≠ x ∧ ∃ mp ∈ (Tree.node l x r).toList,
        (h ⟨s, l.minId x⟩)._parent = some ⟨s, mp⟩ ∧
        (h ⟨s, mp⟩)._left = some ⟨s, l.minId x⟩)) := by
  induction l generalizing x r par with
  | nil =>
    exact ⟨by show (h ⟨s, x⟩)._left = none; rw [hw.root_eq]; rfl, Or.inl ⟨rfl, rfl⟩⟩
  | node ll y lr ihl _ =>
    obtain ⟨hx, hl, hr⟩ := hw
    obtain ⟨hndl, hndr, hxl, hxr, hdisj⟩ := Tree.nodup_node hnd
    obtain ⟨h1, h2⟩ := ihl hl hndl
    have hm : ll.minId y ∈ (Tree.node ll y lr).toList := Tree.minId_mem _ _ _
    have hne : ll.minId y ≠ x := fun e => hxl (e ▸ hm)
    refine ⟨h1, Or.inr ⟨hne, ?_⟩⟩
    rcases h2 with ⟨e1, e2⟩ | ⟨_, mp, hmp, e1, e2⟩
    · refine ⟨x, Tree.mem_node_self _ _ _, ?_, ?_⟩
      · simp only [Tree.minId] at e2 ⊢
        rw [e2, hl.root_eq]
      · simp only [Tree.minId] at e2 ⊢
        rw [e2, hx]; rfl
    · exact ⟨mp, Tree.mem_node_left _ _ hmp, e1, e2⟩

@[simp] theorem set_parent_left (h : Heap) (p q : Ptr) (v : NPtr) :
    (h.set_parent p v q)._left = (h q)._left := by
  unfold Heap.set_parent; split
  · next e => subst e; rfl
  · rfl

@[simp] theorem set_parent_right (h : Heap) (p q : Ptr) (v : NPtr) :
    (h.set_parent p v q)._right = (h q)._right := by
  unfold Heap.set_parent; split
  · next e => subst e; rfl
  · rfl

theorem set_parent_parent (h : Heap) (p q : Ptr) (v : NPtr) :
    (h.set_parent p v q)._parent = if q = p then v else (h q)._parent := by
  unfold Heap.set_parent; split
  · next e => subst e; rfl
  · rfl

theorem set_left_left (h : Heap) (p q : Ptr) (v : NPtr) :
    (h.set_left p v q)._left = if q = p then v else (h q)._left := by
  unfold Heap.set_left; split
  · next e => subst e; rfl
  · rfl

@[simp] theorem set_left_right (h : Heap) (p q : Ptr) (v : NPtr) :
    (h.set_left p v q)._right = (h q)._right := by
  unfold Heap.set_left; split
  · next e => subst e; rfl
  · rfl

@[simp] theorem set_left_parent (h : Heap) (p q : Ptr) (v : NPtr) :
    (h.set_left p v q)._parent = (h q)._parent := by
  unfold Heap.set_left; split
  · next e => subst e; rfl
  · rfl

@[simp] theorem set_right_left (h : Heap) (p q : Ptr) (v : NPtr) :
    (h.set_right p v q)._left = (h q)._left := by
  unfold Heap.set_right; split
  · next e => subst e; rfl
  · rfl

theorem set_right_right (h : Heap) (p q : Ptr) (v : NPtr) :
    (h.set_right p v q)._right = if q = p then v else (h q)._right := by
  unfold Heap.set_right; split
  · next e => subst e; rfl
  · rfl

@[simp] theorem set_right_parent (h : Heap) (p q : Ptr) (v : NPtr) :
    (h.set_right p v q)._parent = (h q)._parent := by
  unfold Heap.set_right; split
  · next e => subst e; rfl
  · rfl

theorem store_left (h : Heap) (p q : Ptr) (sl : Slot) (v : NPtr) :
    (h.store ⟨p, sl⟩ v q)._left = if q = p ∧ sl = ._left then v else (h q)._left := by
  cases sl <;> simp [Heap.store, set_left_left]

theorem store_right (h : Heap) (p q : Ptr) (sl : Slot) (v : NPtr) :
    (h.store ⟨p, sl⟩ v q)._right = if q = p ∧ sl = ._right then v else (h q)._right := by
  cases sl <;> simp [Heap.store, set_right_right]

@[simp] theorem store_parent (h : Heap) (fp : FieldPtr) (q : Ptr) (v : NPtr) :
    (h.store fp v q)._parent = (h q)._parent := by
  obtain ⟨p, sl⟩ := fp
  cases sl <;> simp [Heap.store]

theorem replace_parent_eq_store {h : Heap} {n px : Ptr} {sl : Slot} (hp : (h n)._parent = some px)
    (hsl : SlotOk h px n sl) (w : NPtr) :
    replace_parent h n w = some (h.store ⟨px, sl⟩ w) := by
  simp only [replace_parent, hp]
  have := hsl.pick
  split at this
  · next e => subst this; simp [e, Heap.store]
  · next e => subst this; simp [e, Heap.store]

theorem node_base.ext_fields {a c : node_base} (h1 : a._left = c._left)
    (h2 : a._right = c._right) (h3 : a._parent = c._parent) : a = c := by
  cases a; cases c; simp_all

theorem relabel_transp_left (s : Side) (x m : Nat) : Ptr.relabel s (transp x m) ⟨s, x⟩ = ⟨s, m⟩ := by
  simp [Ptr.relabel, transp]

theorem relabel_transp_right (s : Side) (x m : Nat) : Ptr.relabel s (transp x m) ⟨s, m⟩ = ⟨s, x⟩ := by
  simp [Ptr.relabel, transp]

theorem relabel_transp_other (s : Side) (x m : Nat) (p : Ptr) (h1 : p ≠ ⟨s, x⟩) (h2 : p ≠ ⟨s, m⟩) :
    Ptr.relabel s (transp x m) p = p := by
  obtain ⟨ps, pid⟩ := p
  simp only [Ptr.relabel]
  split
  · next e =>
    subst e
    simp only [ne_eq, Ptr.mk.injEq, true_and] at h1 h2
    simp [transp, h1, h2]
  · rfl

/-- The heap after lines 242 to 250 of `swap_nodes`, field by field. -/
theorem swap_tail_closed {h : Heap} {X M LZ RY : Ptr} {mr : NPtr}
    (hXl : (h X)._left = some LZ) (hXr : (h X)._right = some RY)
    (hXp : (h X)._parent ≠ none) (hMp : (h M)._parent ≠ none)
    (hMl : (h M)._left = none) (hMr : (h M)._right = mr)
    (p1 p2 l1 l2 r1 r2 : NPtr) :
    (∀ q, (swap_nodes_tail h X M p1 p2 l1 l2 r1 r2 q)._parent =
      if q = M then p2 else if q = X then p1 else if some q = mr then some X
      else if q = RY then some M else if q = LZ then some M else (h q)._parent) ∧
    (∀ q, (swap_nodes_tail h X M p1 p2 l1 l2 r1 r2 q)._left =
      if q = M then l2 else if q = X then l1 else (h q)._left) ∧
    (∀ q, (swap_nodes_tail h X M p1 p2 l1 l2 r1 r2 q)._right =
      if q = M then r2 else if q = X then r1 else (h q)._right) := by
  have s1 : is_sentinel h X = false := by
    simp only [is_sentinel]; cases hp : (h X)._parent with
    | none => exact absurd hp hXp
    | some _ => rfl
  have s2 : is_sentinel h M = false := by
    simp only [is_sentinel]; cases hp : (h M)._parent with
    | none => exact absurd hp hMp
    | some _ => rfl
  subst hMr
  refine ⟨?_, ?_, ?_⟩
  · intro q
    simp only [swap_nodes_tail, reparent, hXl, hXr, hMl, s1, s2, Bool.not_false, Bool.and_self,
      if_true, set_parent_left, set_parent_right, set_left_parent, set_right_parent,
      set_parent_parent]
    cases hmr : (h M)._right with
    | none => simp [set_parent_parent]
    | some mrz => simp only [set_parent_parent, Option.some.injEq]
  · intro q
    simp only [swap_nodes_tail, set_right_left, set_left_left, set_parent_left]
    by_cases e1 : q = M
    · simp [e1]
    · by_cases e2 : q = X
      · simp [e1, e2]
      · simp only [e1, e2, if_false]
        simp only [reparent, hXl, hXr, hMl, s1, s2, Bool.not_false, Bool.and_self,
          if_true, set_parent_left, set_parent_right]
        cases hmr : (h M)._right <;> simp
  · intro q
    simp only [swap_nodes_tail, set_right_right, set_left_right, set_parent_right]
    by_cases e1 : q = M
    · simp [e1]
    · by_cases e2 : q = X
      · simp [e1, e2]
      · simp only [e1, e2, if_false]
        simp only [reparent, hXl, hXr, hMl, s1, s2, Bool.not_false, Bool.and_self,
          if_true, set_parent_left, set_parent_right]
        cases hmr : (h M)._right <;> simp

/-- The heap `swap_nodes` produces when the second node is the leftmost node of
the right subtree of the first, field by field. -/
theorem swap_closed {h : Heap} {s : Side} {x m lz ry : Nat} {px P : Ptr} {slx : Slot} {mr : NPtr}
    (hX : h ⟨s, x⟩ = ⟨some ⟨s, lz⟩, some ⟨s, ry⟩, some px⟩)
    (hM : h ⟨s, m⟩ = ⟨none, mr, some P⟩)
    (hsl : SlotOk h px ⟨s, x⟩ slx) (hxm : x ≠ m) (hlzm : lz ≠ m) (hryx : ry ≠ x)
    (hpxx : px ≠ ⟨s, x⟩) (hpxm : px ≠ ⟨s, m⟩)
    (hP : (P = ⟨s, x⟩ ∧ ry = m) ∨
      (P ≠ ⟨s, x⟩ ∧ P ≠ ⟨s, m⟩ ∧ ry ≠ m ∧ (h P)._left = some ⟨s, m⟩)) :
    ∃ h1, swap_nodes h ⟨s, x⟩ ⟨s, m⟩ = some h1 ∧
      (∀ q, (h1 q)._parent =
        if q = ⟨s, m⟩ then some px
        else if q = ⟨s, x⟩ then some (P.relabel s (transp x m))
        else if some q = mr then some ⟨s, x⟩
        else if q = ⟨s, ry⟩ then some ⟨s, m⟩
        else if q = ⟨s, lz⟩ then some ⟨s, m⟩
        else (h q)._parent) ∧
      (∀ q, (h1 q)._left =
        if q = ⟨s, m⟩ then some ⟨s, lz⟩
        else if q = ⟨s, x⟩ then none
        else if q = P ∧ P ≠ ⟨s, x⟩ then some ⟨s, x⟩
        else if q = px ∧ slx = ._left then some ⟨s, m⟩
        else (h q)._left) ∧
      (∀ q, (h1 q)._right =
        if q = ⟨s, m⟩ then some (Ptr.relabel s (transp x m) ⟨s, ry⟩)
        else if q = ⟨s, x⟩ then mr
        else if q = px ∧ slx = ._right then some ⟨s, m⟩
        else (h q)._right) := by
  have hXp : (h ⟨s, x⟩)._parent = some px := by rw [hX]
  have hMp : (h ⟨s, m⟩)._parent = some P := by rw [hM]
  have hrp := replace_parent_eq_store hXp hsl (some ⟨s, m⟩)
  have c1 : (some (⟨s, m⟩ : Ptr) = (h ⟨s, x⟩)._parent) = False := by
    rw [hXp]; simp [Ne.symm hpxm]
  have hXM : (⟨s, x⟩ : Ptr) ≠ ⟨s, m⟩ := by simp [hxm]
  rcases hP with ⟨hP1, hP2⟩ | ⟨hP1, hP2, hP3, hP4⟩
  · -- the successor is the right child
    subst hP1 hP2
    have hA := @swap_tail_closed (h.store ⟨px, slx⟩ (some ⟨s, ry⟩)) ⟨s, x⟩
      ⟨s, ry⟩ ⟨s, lz⟩ ⟨s, ry⟩ mr
      (by rw [store_left, hX]; simp [Ne.symm hpxx])
      (by rw [store_right, hX]; simp [Ne.symm hpxx])
      (by rw [store_parent, hX]; simp) (by rw [store_parent, hM]; simp)
      (by rw [store_left, hM]; simp [Ne.symm hpxm])
      (by rw [store_right, hM]; simp [Ne.symm hpxm])
      (some ⟨s, ry⟩) (some px) none (some ⟨s, lz⟩) mr (some ⟨s, x⟩)
    refine ⟨swap_nodes_tail (h.store ⟨px, slx⟩ (some ⟨s, ry⟩)) ⟨s, x⟩ ⟨s, ry⟩
      (some ⟨s, ry⟩) (some px) none (some ⟨s, lz⟩) mr (some ⟨s, x⟩), ?_, ?_, ?_, ?_⟩
    · simp [swap_nodes, hX, hM, hrp, Ne.symm hpxm, hlzm]
    · intro q; rw [hA.1 q]
      simp [relabel_transp_left]
    · intro q; rw [hA.2.1 q, store_left]
      simp
    · intro q; rw [hA.2.2 q, store_right]
      simp [relabel_transp_right]
  · have hPM : P ≠ px ∨ True := Or.inr trivial
    have c2 : (some (⟨s, x⟩ : Ptr) = (h ⟨s, m⟩)._parent) = False := by
      rw [hMp]; simp [Ne.symm hP1]
    have hB := @swap_tail_closed
      ((h.store ⟨px, slx⟩ (some ⟨s, m⟩)).set_left P (some ⟨s, x⟩)) ⟨s, x⟩
      ⟨s, m⟩ ⟨s, lz⟩ ⟨s, ry⟩ mr
      (by rw [set_left_left, store_left, hX]; simp [Ne.symm hpxx, Ne.symm hP1])
      (by rw [set_left_right, store_right, hX]; simp [Ne.symm hpxx])
      (by rw [set_left_parent, store_parent, hX]; simp)
      (by rw [set_left_parent, store_parent, hM]; simp)
      (by rw [set_left_left, store_left, hM]; simp [Ne.symm hpxm, Ne.symm hP2])
      (by rw [set_left_right, store_right, hM]; simp [Ne.symm hpxm])
      (some P) (some px) none (some ⟨s, lz⟩) mr (some ⟨s, ry⟩)
    refine ⟨swap_nodes_tail ((h.store ⟨px, slx⟩ (some ⟨s, m⟩)).set_left P (some ⟨s, x⟩))
      ⟨s, x⟩ ⟨s, m⟩ (some P) (some px) none (some ⟨s, lz⟩) mr (some ⟨s, ry⟩), ?_, ?_, ?_, ?_⟩
    · have : replace_parent (h.store ⟨px, slx⟩ (some ⟨s, m⟩)) ⟨s, m⟩ (some ⟨s, x⟩) =
          some ((h.store ⟨px, slx⟩ (some ⟨s, m⟩)).set_left P (some ⟨s, x⟩)) := by
        simp only [replace_parent, store_parent, hMp, store_left, hP4]
        simp
      simp [swap_nodes, hX, hM, hrp, Ne.symm hpxm, Ne.symm hP1, this]
    · intro q; rw [hB.1 q]
      simp [relabel_transp_other s x m P hP1 hP2]
    · intro q; rw [hB.2.1 q, set_left_left, store_left]
      simp [hP1]
    · intro q; rw [hB.2.2 q, set_left_right, store_right]
      rw [relabel_transp_other s x m ⟨s, ry⟩ (by simp [hryx]) (by simp [hP3])]

theorem transp_injective (x m : Nat) : Function.Injective (transp x m) := by
  intro a c hac
  simp only [transp] at hac
  split_ifs at hac <;> omega

theorem map_relabel_of_ne (s : Side) (x m : Nat) (o : NPtr) (h1 : o ≠ some ⟨s, x⟩)
    (h2 : o ≠ some ⟨s, m⟩) : o.map (Ptr.relabel s (transp x m)) = o := by
  cases o with
  | none => rfl
  | some p =>
    simp only [Option.map_some', Option.some.injEq]
    exact relabel_transp_other s x m p (fun e => h1 (by rw [e])) (fun e => h2 (by rw [e]))

/-- Exchanging a node with two children and the leftmost node of its right
subtree renames the two nodes in the tree the set holds. -/
theorem swap_core {h : Heap} {s : Side} {b : Nat} {t : Tree} (hr : SetRep h s b t)
    {x m lz ry : Nat} {px P : Ptr} {slx : Slot} {mr : NPtr}
    (hx : x ∈ t.toList) (hm : m ∈ t.toList)
    (hX : h ⟨s, x⟩ = ⟨some ⟨s, lz⟩, some ⟨s, ry⟩, some px⟩)
    (hM : h ⟨s, m⟩ = ⟨none, mr, some P⟩)
    (hsl : SlotOk h px ⟨s, x⟩ slx) (hxm : x ≠ m) (hlzm : lz ≠ m) (hlzx : lz ≠ x) (hryx : ry ≠ x)
    (hpxt : px = ⟨s, b⟩ ∨ ∃ z ∈ t.toList, px = ⟨s, z⟩)
    (hpxx : px ≠ ⟨s, x⟩) (hpxm : px ≠ ⟨s, m⟩)
    (hP : (P = ⟨s, x⟩ ∧ ry = m) ∨
      (P ≠ ⟨s, x⟩ ∧ P ≠ ⟨s, m⟩ ∧ ry ≠ m ∧ (h P)._left = some ⟨s, m⟩ ∧
        ∃ mp ∈ t.toList, P = ⟨s, mp⟩)) :
    ∃ h1, swap_nodes h ⟨s, x⟩ ⟨s, m⟩ = some h1 ∧
      SetRep h1 s b (t.map (transp x m)) ∧ (h1 ⟨s, x⟩)._left = none ∧
      (∀ q, q ≠ ⟨s, b⟩ → (∀ y ∈ t.toList, q ≠ ⟨s, y⟩) → h1 q = h q) ∧
      (h1 ⟨s, b⟩)._left = (h ⟨s, b⟩)._left := by
  have hP' : (P = ⟨s, x⟩ ∧ ry = m) ∨
      (P ≠ ⟨s, x⟩ ∧ P ≠ ⟨s, m⟩ ∧ ry ≠ m ∧ (h P)._left = some ⟨s, m⟩) := by
    rcases hP with e | ⟨e1, e2, e3, e4, -⟩
    · exact Or.inl e
    · exact Or.inr ⟨e1, e2, e3, e4⟩
  obtain ⟨h1, hsw, hpar, hleft, hright⟩ := swap_closed hX hM hsl hxm hlzm hryx hpxx hpxm hP'
  have hXl : (h ⟨s, x⟩)._left = some ⟨s, lz⟩ := by rw [hX]
  have hXr : (h ⟨s, x⟩)._right = some ⟨s, ry⟩ := by rw [hX]
  have hXp : (h ⟨s, x⟩)._parent = some px := by rw [hX]
  have hMl : (h ⟨s, m⟩)._left = none := by rw [hM]
  have hMr : (h ⟨s, m⟩)._right = mr := by rw [hM]
  have hMp : (h ⟨s, m⟩)._parent = some P := by rw [hM]
  have hXM : (⟨s, x⟩ : Ptr) ≠ ⟨s, m⟩ := by simp [hxm]
  have hxb : x ≠ b := fun e => hr.notin (e ▸ hx)
  have hmb : m ≠ b := fun e => hr.notin (e ▸ hm)
  have hSX : (⟨s, b⟩ : Ptr) ≠ ⟨s, x⟩ := by simp [Ne.symm hxb]
  have hSM : (⟨s, b⟩ : Ptr) ≠ ⟨s, m⟩ := by simp [Ne.symm hmb]
  have hPS : P ≠ ⟨s, b⟩ := by
    rcases hP with ⟨e, -⟩ | ⟨-, -, -, -, mp, hmp, e⟩
    · rw [e]; exact Ne.symm hSX
    · rw [e]; simp; intro e2; exact hr.notin (e2 ▸ hmp)
  have hPM : P ≠ ⟨s, m⟩ := by
    rcases hP with ⟨e, -⟩ | ⟨-, e, -⟩
    · rw [e]; exact hXM
    · exact e
  have hmr_mem : ∀ c, mr = some c → (∃ z ∈ t.toList, c = ⟨s, z⟩) ∧ (h c)._parent = some ⟨s, m⟩ :=
    fun c hc => hr.wf.child_right hm (hMr.trans hc)
  have hmrx : mr ≠ some ⟨s, x⟩ := by
    intro e
    have := (hmr_mem _ e).2
    rw [hXp] at this
    exact hpxm (Option.some.inj this)
  have hmrm : mr ≠ some ⟨s, m⟩ := by
    intro e
    have := (hmr_mem _ e).2
    rw [hMp] at this
    exact hPM (Option.some.inj this)
  have hlz := hr.wf.child_left hx hXl
  have hry := hr.wf.child_right hx hXr
  have hRpx : Ptr.relabel s (transp x m) px = px := relabel_transp_other s x m px hpxx hpxm
  have hRlz : Ptr.relabel s (transp x m) ⟨s, lz⟩ = ⟨s, lz⟩ :=
    relabel_transp_other s x m _ (by simp [hlzx]) (by simp [hlzm])
  -- the nodes other than the two exchanged ones
  have hother : ∀ y ∈ t.toList, y ≠ x → y ≠ m → h1 ⟨s, y⟩ = (h ⟨s, y⟩).relabel s (transp x m) := by
    intro y hy hyx hym
    have hqX : (⟨s, y⟩ : Ptr) ≠ ⟨s, x⟩ := by simp [hyx]
    have hqM : (⟨s, y⟩ : Ptr) ≠ ⟨s, m⟩ := by simp [hym]
    apply node_base.ext_fields
    · -- left
      rw [hleft]
      simp only [hqX, hqM, if_false, node_base.relabel]
      by_cases c1 : (⟨s, y⟩ : Ptr) = P ∧ P ≠ ⟨s, x⟩
      · rcases hP with ⟨e, -⟩ | ⟨-, -, -, e4, -⟩
        · exact absurd e c1.2
        · rw [if_pos c1, c1.1, e4]; simp [relabel_transp_right]
      · rw [if_neg c1]
        by_cases c2 : (⟨s, y⟩ : Ptr) = px ∧ slx = ._left
        · have := hsl.get
          rw [c2.2] at this
          simp only [node_base.getSlot] at this
          rw [if_pos c2, c2.1, this]; simp [relabel_transp_left]
        · rw [if_neg c2, map_relabel_of_ne]
          · intro e
            have hq := (hr.wf.child_left hy e).2
            rw [hXp] at hq
            have hq' : px = ⟨s, y⟩ := Option.some.inj hq
            apply c2
            refine ⟨hq'.symm, ?_⟩
            have := hsl.pick
            rw [hq', e] at this
            simpa using this.symm
          · intro e
            have hq := (hr.wf.child_left hy e).2
            rw [hMp] at hq
            have hq' : P = ⟨s, y⟩ := Option.some.inj hq
            exact c1 ⟨hq'.symm, by rw [hq']; exact hqX⟩
    · -- right
      rw [hright]
      simp only [hqX, hqM, if_false, node_base.relabel]
      by_cases c2 : (⟨s, y⟩ : Ptr) = px ∧ slx = ._right
      · have := hsl.get
        rw [c2.2] at this
        simp only [node_base.getSlot] at this
        rw [if_pos c2, c2.1, this]; simp [relabel_transp_left]
      · rw [if_neg c2, map_relabel_of_ne]
        · intro e
          have hq := (hr.wf.child_right hy e).2
          rw [hXp] at hq
          have hq' : px = ⟨s, y⟩ := Option.some.inj hq
          have hsl2 : slx = ._left := by
            cases hs : slx with
            | _left => rfl
            | _right => exact absurd ⟨hq'.symm, hs⟩ c2
          have := hsl.get
          rw [hsl2, hq'] at this
          simp only [node_base.getSlot] at this
          exact hr.wf.left_ne_right hr.nodup hy this e
        · intro e
          have hq := (hr.wf.child_right hy e).2
          rw [hMp] at hq
          have hq' : P = ⟨s, y⟩ := Option.some.inj hq
          rcases hP with ⟨e1, -⟩ | ⟨-, -, -, e4, -⟩
          · rw [e1] at hq'; exact hqX hq'.symm
          · rw [hq'] at e4
            exact hr.wf.left_ne_right hr.nodup hy e4 e
    · -- parent
      rw [hpar]
      simp only [hqX, hqM, if_false, node_base.relabel]
      by_cases c1 : some (⟨s, y⟩ : Ptr) = mr
      · rw [if_pos c1, (hmr_mem _ c1.symm).2]; simp [relabel_transp_right]
      · rw [if_neg c1]
        by_cases c2 : (⟨s, y⟩ : Ptr) = ⟨s, ry⟩
        · rw [if_pos c2, c2, hry.2]; simp [relabel_transp_left]
        · rw [if_neg c2]
          by_cases c3 : (⟨s, y⟩ : Ptr) = ⟨s, lz⟩
          · rw [if_pos c3, c3, hlz.2]; simp [relabel_transp_left]
          · rw [if_neg c3, map_relabel_of_ne]
            · intro e
              rcases hr.wf.parent_link hy with ⟨e1, -⟩ | ⟨z, hz, e1, e2⟩
              · rw [e] at e1
                exact hSX (Option.some.inj e1).symm
              · rw [e] at e1
                have hzx : x = z := by simpa using e1
                subst hzx
                rcases e2 with e2 | e2
                · rw [hXl] at e2; exact c3 (Option.some.inj e2).symm
                · rw [hXr] at e2; exact c2 (Option.some.inj e2).symm
            · intro e
              rcases hr.wf.parent_link hy with ⟨e1, -⟩ | ⟨z, hz, e1, e2⟩
              · rw [e] at e1
                exact hSM (Option.some.inj e1).symm
              · rw [e] at e1
                have hzx : m = z := by simpa using e1
                subst hzx
                rcases e2 with e2 | e2
                · rw [hMl] at e2; simp at e2
                · rw [hMr] at e2; exact c1 e2.symm
  have hrel : ∀ y ∈ t.toList, h1 ⟨s, transp x m y⟩ = (h ⟨s, y⟩).relabel s (transp x m) := by
    intro y hy
    by_cases hyx : y = x
    · subst hyx
      have : transp y m y = m := by simp [transp]
      rw [this]
      apply node_base.ext_fields
      · rw [hleft, hX]; simp [node_base.relabel, hRlz]
      · rw [hright, hX]; simp [node_base.relabel]
      · rw [hpar, hX]; simp [node_base.relabel, hRpx]
    · by_cases hym : y = m
      · subst hym
        have : transp x y y = x := by simp [transp, hyx]
        rw [this]
        apply node_base.ext_fields
        · rw [hleft, hM]; simp [node_base.relabel, hXM]
        · rw [hright, hM]; simp [node_base.relabel, hXM, map_relabel_of_ne s x y mr hmrx hmrm]
        · rw [hpar, hM]; simp [node_base.relabel, hXM]
      · have : transp x m y = y := by simp [transp, hyx, hym]
        rw [this]
        exact hother y hy hyx hym
  -- the sentinel
  have hSmr : some (⟨s, b⟩ : Ptr) ≠ mr := by
    intro e
    obtain ⟨⟨z, hz, e1⟩, -⟩ := hmr_mem _ e.symm
    simp only [Ptr.mk.injEq, true_and] at e1
    exact hr.notin (e1 ▸ hz)
  have hSry : (⟨s, b⟩ : Ptr) ≠ ⟨s, ry⟩ := by
    obtain ⟨⟨z, hz, e1⟩, -⟩ := hry
    rw [e1]; simp; intro e; exact hr.notin (e ▸ hz)
  have hSlz : (⟨s, b⟩ : Ptr) ≠ ⟨s, lz⟩ := by
    obtain ⟨⟨z, hz, e1⟩, -⟩ := hlz
    rw [e1]; simp; intro e; exact hr.notin (e ▸ hz)
  have hS_left : (h1 ⟨s, b⟩)._left = (h ⟨s, b⟩)._left := by
    rw [hleft]
    simp only [hSX, hSM, if_false]
    rw [if_neg (fun c => hPS c.1.symm), if_neg]
    intro c
    have := hsl.get
    rw [c.2, ← c.1] at this
    exact hr.service x this
  have hS_right : (h1 ⟨s, b⟩)._right = (t.map (transp x m)).rootPtr s := by
    rw [hright, Tree.map_rootPtr, ← hr.root]
    simp only [hSX, hSM, if_false]
    by_cases c : (⟨s, b⟩ : Ptr) = px ∧ slx = ._right
    · have := hsl.get
      rw [c.2, ← c.1] at this
      simp only [node_base.getSlot] at this
      rw [if_pos c, this]; simp [relabel_transp_left]
    · rw [if_neg c, map_relabel_of_ne]
      · intro e
        rw [hr.root] at e
        cases t with
        | nil => simp at e
        | node l z r =>
          simp only [Tree.rootPtr_node, Option.some.injEq, Ptr.mk.injEq, true_and] at e
          subst e
          have hp := hr.wf.root_eq
          rw [hX] at hp
          have hpx : px = ⟨s, b⟩ := by simpa using congrArg node_base._parent hp
          apply c
          refine ⟨hpx.symm, ?_⟩
          have := hsl.pick
          rw [hpx] at this
          rw [if_neg (hr.service z)] at this
          exact this.symm
      · intro e
        rw [hr.root] at e
        cases t with
        | nil => simp at e
        | node l z r =>
          simp only [Tree.rootPtr_node, Option.some.injEq, Ptr.mk.injEq, true_and] at e
          subst e
          have hp := hr.wf.root_eq
          rw [hM] at hp
          have hpx : P = ⟨s, b⟩ := by simpa using congrArg node_base._parent hp
          exact hPS hpx
  have hS_parent : (h1 ⟨s, b⟩)._parent = none := by
    rw [hpar]
    simp only [hSX, hSM, hSmr, hSry, hSlz, if_false]
    exact hr.parent
  have hRS : Ptr.relabel s (transp x m) ⟨s, b⟩ = ⟨s, b⟩ :=
    relabel_transp_other s x m _ hSX hSM
  refine ⟨h1, hsw, ⟨hS_parent, hS_right, ?_, ?_, ?_, ?_⟩, ?_, ?_, hS_left⟩
  · intro z; rw [hS_left]; exact hr.service z
  · have := hr.wf.relabel (transp x m) hrel
    rwa [hRS] at this
  · rw [Tree.map_toList]
    exact hr.nodup.map (transp_injective x m)
  · rw [Tree.map_toList]
    intro hb
    obtain ⟨y, hy, e⟩ := List.mem_map.1 hb
    simp only [transp] at e
    split_ifs at e
    · exact hmb e
    · exact hxb e
    · exact hr.notin (e ▸ hy)
  · rw [hleft]; simp [hXM]
  · intro q hq1 hq2
    have hqX := hq2 x hx
    have hqM := hq2 m hm
    have hqmr : some q ≠ mr := by
      intro e
      obtain ⟨⟨z, hz, e1⟩, -⟩ := hmr_mem _ e.symm
      exact hq2 z hz e1
    have hqry : q ≠ ⟨s, ry⟩ := by
      obtain ⟨⟨z, hz, e1⟩, -⟩ := hry
      rw [e1]; exact hq2 z hz
    have hqlz : q ≠ ⟨s, lz⟩ := by
      obtain ⟨⟨z, hz, e1⟩, -⟩ := hlz
      rw [e1]; exact hq2 z hz
    have hqpx : q ≠ px := by
      rcases hpxt with e | ⟨z, hz, e⟩
      · rw [e]; exact hq1
      · rw [e]; exact hq2 z hz
    have hqP : ¬ (q = P ∧ P ≠ ⟨s, x⟩) := by
      rintro ⟨e1, e2⟩
      rcases hP with ⟨e, -⟩ | ⟨-, -, -, -, mp, hmp, e⟩
      · exact e2 e
      · rw [e] at e1; exact hq2 mp hmp e1
    apply node_base.ext_fields
    · rw [hleft]; simp [hqX, hqM, hqP, hqpx]
    · rw [hright]; simp [hqX, hqM, hqpx]
    · rw [hpar]; simp [hqX, hqM, hqmr, hqry, hqlz]

theorem map_transp_of_not_mem {x m : Nat} {L : List Nat} (hx : x ∉ L) (hm : m ∉ L) :
    L.map (transp x m) = L := by
  induction L with
  | nil => rfl
  | cons a L ih =>
    simp only [List.mem_cons, not_or] at hx hm
    simp only [List.map_cons, ih hx.2 hm.2]
    simp [transp, Ne.symm hx.1, Ne.symm hm.1]

theorem nextIn_adjacent {P Q : List Nat} {x m : Nat} (hx : x ∉ P) :
    nextIn (P ++ x :: m :: Q) x = some m := by
  rw [nextIn_append_not_mem _ hx]
  simp [nextIn]

theorem erase_map_transp {P Q : List Nat} {x m : Nat} (hnd : (P ++ x :: m :: Q).Nodup) :
    ((P ++ x :: m :: Q).map (transp x m)).erase x = (P ++ x :: m :: Q).erase x ∧ x ∉ P := by
  have hd := List.disjoint_of_nodup_append hnd
  have hxP : x ∉ P := fun hh => hd hh (by simp)
  have hmP : m ∉ P := fun hh => hd hh (by simp)
  have h2 := (List.nodup_append.1 hnd).2.1
  rw [List.nodup_cons, List.nodup_cons] at h2
  have hxm : x ≠ m := fun e => h2.1 (by simp [e])
  have hxQ : x ∉ Q := fun hh => h2.1 (by simp [hh])
  have hmQ : m ∉ Q := h2.2.1
  refine ⟨?_, hxP⟩
  rw [List.map_append, List.map_cons, List.map_cons, map_transp_of_not_mem hxP hmP,
    map_transp_of_not_mem hxQ hmQ]
  have e1 : transp x m x = m := by simp [transp]
  have e2 : transp x m m = x := by simp [transp]
  rw [e1, e2, List.erase_append_right _ hxP, List.erase_append_right _ hxP]
  simp [List.erase_cons, hxm, Ne.symm hxm]

/-- The method `erase` on any node of the set: the successor computed before
the removal is returned, the set holds the other nodes in the same order, and
nothing outside the set's own nodes changed. -/
theorem erase_spec {h : Heap} {s : Side} {b : Nat} {t : Tree} (hr : SetRep h s b t)
    {x : Nat} (hx : x ∈ t.toList) {fuel : Nat} (hf : t.size + 1 < fuel) :
    ∃ h1 t1, erase fuel h ⟨s, x⟩ = some (h1, some (succPtr s b t.toList x)) ∧
      SetRep h1 s b t1 ∧ t1.toList = t.toList.erase x ∧
      (∀ q, q ≠ ⟨s, b⟩ → (∀ y ∈ t.toList, q ≠ ⟨s, y⟩) → h1 q = h q) ∧
      (h1 ⟨s, b⟩)._left = (h ⟨s, b⟩)._left := by
  by_cases hc : (h ⟨s, x⟩)._left = none ∨ (h ⟨s, x⟩)._right = none
  · exact erase_simple_spec hr hx hc (by omega)
  · obtain ⟨l, r, px, slx, A, B, hw, hsl, hnd, hsplit, hpx, hpxt, -⟩ :=
      hr.wf.context hr.nodup hr.sentinel_ne hr.slotOk hx
    obtain ⟨hndl, hndr, hxl, hxr, hdisj⟩ := Tree.nodup_node hnd
    have hX := hw.root_eq
    rw [hX] at hc
    simp only [Tree.rootPtr_eq_none, not_or] at hc
    obtain ⟨ll, lz, lr, rfl⟩ : ∃ ll lz lr, l = .node ll lz lr := by
      cases l with
      | nil => exact absurd rfl hc.1
      | node a c d => exact ⟨a, c, d, rfl⟩
    obtain ⟨rl, ry, rr, rfl⟩ : ∃ rl ry rr, r = .node rl ry rr := by
      cases r with
      | nil => exact absurd rfl hc.2
      | node a c d => exact ⟨a, c, d, rfl⟩
    simp only [Tree.rootPtr_node] at hX
    have hsub : ∀ y ∈ (Tree.node (Tree.node ll lz lr) x (Tree.node rl ry rr)).toList,
        y ∈ t.toList := by
      intro y hy; rw [hsplit]; simp [hy]
    have hmr : rl.minId ry ∈ (Tree.node rl ry rr).toList := Tree.minId_mem _ _ _
    have hm : rl.minId ry ∈ t.toList := hsub _ (Tree.mem_node_right _ _ hmr)
    have hlzl : lz ∈ (Tree.node ll lz lr).toList := Tree.mem_node_self _ _ _
    have hxm : x ≠ rl.minId ry := fun e => hxr (e ▸ hmr)
    have hlzm : lz ≠ rl.minId ry := fun e => hdisj _ hlzl (e ▸ hmr)
    have hlzx : lz ≠ x := fun e => hxl (e ▸ hlzl)
    have hryx : ry ≠ x := fun e => hxr (e ▸ Tree.mem_node_self _ _ _)
    obtain ⟨hMl, hmf⟩ := hw.2.2.min_facts hndr
    have hM : h ⟨s, rl.minId ry⟩ =
        ⟨none, (h ⟨s, rl.minId ry⟩)._right, (h ⟨s, rl.minId ry⟩)._parent⟩ :=
      node_base.ext_fields hMl rfl rfl
    have hpxt' : px = ⟨s, b⟩ ∨ ∃ z ∈ t.toList, px = ⟨s, z⟩ := hpxt
    have hP : ∃ P, (h ⟨s, rl.minId ry⟩)._parent = some P ∧
        ((P = ⟨s, x⟩ ∧ ry = rl.minId ry) ∨
        (P ≠ ⟨s, x⟩ ∧ P ≠ ⟨s, rl.minId ry⟩ ∧ ry ≠ rl.minId ry ∧
          (h P)._left = some ⟨s, rl.minId ry⟩ ∧ ∃ mp ∈ t.toList, P = ⟨s, mp⟩)) := by
      rcases hmf with ⟨e1, e2⟩ | ⟨e1, mp, hmp, e2, e3⟩
      · refine ⟨⟨s, x⟩, ?_, Or.inl ⟨rfl, e2.symm⟩⟩
        rw [e2, hw.2.2.root_eq]
      · refine ⟨⟨s, mp⟩, e2, Or.inr ⟨?_, ?_, Ne.symm e1, e3, mp,
          hsub _ (Tree.mem_node_right _ _ hmp), rfl⟩⟩
        · simp; intro e; exact hxr (e ▸ hmp)
        · intro e
          rw [e, hMl] at e3
          simp at e3
    obtain ⟨P, hPp, hP⟩ := hP
    rw [hPp] at hM
    obtain ⟨h1, hsw, hr1, hx1, hfr1, hsv1⟩ := swap_core hr hx hm hX hM hsl hxm hlzm hlzx hryx hpxt'
      (hpx x (Tree.mem_node_self _ _ _)) (hpx _ (Tree.mem_node_right _ _ hmr)) hP
    -- the in-order sequence around the two nodes
    obtain ⟨Q, hQ⟩ : ∃ Q, (Tree.node rl ry rr).toList = rl.minId ry :: Q := by
      have := Tree.toList_node_head rl rr ry
      cases hL : (Tree.node rl ry rr).toList with
      | nil => rw [hL] at this; simp at this
      | cons a Q => rw [hL] at this; simp at this; exact ⟨Q, by rw [this]⟩
    have hlist : t.toList = (A ++ (Tree.node ll lz lr).toList) ++ x :: rl.minId ry :: (Q ++ B) := by
      rw [hsplit]; simp only [Tree.toList] at hQ ⊢; rw [hQ]; simp
    have hnd2 := hr.nodup
    rw [hlist] at hnd2
    obtain ⟨hem, hxP⟩ := erase_map_transp hnd2
    have hnext : nextIn t.toList x = some (rl.minId ry) := by
      rw [hlist]; exact nextIn_adjacent hxP
    have hnn := next_node_spec hr hx (by omega : _ < fuel)
    have hsp : succPtr s b t.toList x = ⟨s, rl.minId ry⟩ := by simp [succPtr, succOr, hnext]
    rw [hsp] at hnn ⊢
    have hx1' : x ∈ (t.map (transp x (rl.minId ry))).toList := by
      rw [Tree.map_toList]
      exact List.mem_map.2 ⟨rl.minId ry, hm, by simp [transp, Ne.symm hxm]⟩
    obtain ⟨f, rfl⟩ : ∃ g, fuel = g + 1 := ⟨fuel - 1, by omega⟩
    have hsz : (t.map (transp x (rl.minId ry))).size < f := by
      rw [Tree.size_eq_length, Tree.map_toList, List.length_map, ← Tree.size_eq_length]; omega
    obtain ⟨h2, t2, he2, hr2, hl2, hfr2, hsv2⟩ := erase_simple_spec hr1 hx1' (Or.inl hx1) hsz
    refine ⟨h2, t2, ?_, hr2, ?_, ?_, by rw [hsv2, hsv1]⟩
    · have hXp : (h ⟨s, x⟩)._parent = some px := by rw [hX]
      have hXl : (h ⟨s, x⟩)._left = some ⟨s, lz⟩ := by rw [hX]
      have hXr : (h ⟨s, x⟩)._right = some ⟨s, ry⟩ := by rw [hX]
      simp only [erase, hnn, hXp, hXl, hXr, hsw, he2]
    · rw [hl2, Tree.map_toList, hlist]; exact hem
    · intro q hq1 hq2
      rw [hfr2 q hq1, hfr1 q hq1 hq2]
      intro y hy
      rw [Tree.map_toList] at hy
      obtain ⟨z, hz, e⟩ := List.mem_map.1 hy
      rw [← e]
      simp only [transp]
      split_ifs
      · exact hq2 _ hm
      · exact hq2 _ hx
      · exact hq2 _ hz

section bimap
variable {α β : Type}

theorem get_over_left_mk (m : Mem α β) (x : Nat) : m.get_over_left ⟨.left, x⟩ = m.lval x := rfl

theorem get_over_right_mk (m : Mem α β) (x : Nat) : m.get_over_right ⟨.right, x⟩ = m.rval x := rfl

theorem Shape.size_left {m : Mem α β} {b : Nat} {tl tr : Tree} (hi : Shape m b tl tr) :
    tl.size = m.size b := by
  rw [Tree.size_eq_length, hi.size_eq]

theorem Shape.size_right {m : Mem α β} {b : Nat} {tl tr : Tree} (hi : Shape m b tl tr) :
    tr.size = m.size b := by
  rw [Tree.size_eq_length, hi.size_eq, hi.perm.length_eq]

theorem Shape.mem_right {m : Mem α β} {b : Nat} {tl tr : Tree} (hi : Shape m b tl tr) {x : Nat} :
    x ∈ tr.toList ↔ x ∈ tl.toList := hi.perm.mem_iff.symm

theorem Shape.ne_self {m : Mem α β} {b : Nat} {tl tr : Tree} (hi : Shape m b tl tr) {x : Nat}
    (hx : x ∈ tl.toList) : x ≠ b := fun e => hi.repL.notin (e ▸ hx)

theorem Shape.valR_right {m : Mem α β} {b : Nat} {tl tr : Tree} (hi : Shape m b tl tr) :
    ∀ x ∈ tr.toList, ∃ v, m.rval x = some v := fun x hx => hi.valR x (hi.mem_right.1 hx)

/-- The structural invariant only reads the object's own sentinels, nodes and fields. -/
theorem Shape.congr_shape {m m1 : Mem α β} {b : Nat} {tl tr : Tree} (hi : Shape m b tl tr)
    (hs : SameOn m m1 b tl.toList) : Shape m1 b tl tr := by
  have hL : ∀ x ∈ tl.toList, m1.heap ⟨.left, x⟩ = m.heap ⟨.left, x⟩ :=
    fun x hx => hs.heap _ (Or.inr hx)
  have hR : ∀ x ∈ tr.toList, m1.heap ⟨.right, x⟩ = m.heap ⟨.right, x⟩ :=
    fun x hx => hs.heap _ (Or.inr (hi.mem_right.1 hx))
  have hSL : m1.heap ⟨.left, b⟩ = m.heap ⟨.left, b⟩ := hs.heap _ (Or.inl rfl)
  have hSR : m1.heap ⟨.right, b⟩ = m.heap ⟨.right, b⟩ := hs.heap _ (Or.inl rfl)
  refine ⟨?_, ?_, ?_, ?_, hi.perm,
    by rw [hs.size]; exact hi.size_eq, fun x hx => lt_of_lt_of_le (hi.lt_next x hx) hs.next,
    lt_of_lt_of_le hi.self_lt hs.next, ?_, ?_⟩
  · exact ⟨by rw [hSL]; exact hi.repL.parent, by rw [hSL]; exact hi.repL.root,
      by rw [hSL]; exact hi.repL.service, hi.repL.wf.congr hL, hi.repL.nodup, hi.repL.notin⟩
  · exact ⟨by rw [hSR]; exact hi.repR.parent, by rw [hSR]; exact hi.repR.root,
      by rw [hSR]; exact hi.repR.service, hi.repR.wf.congr hR, hi.repR.nodup, hi.repR.notin⟩
  · rw [hSL]; exact hi.linkL
  · rw [hSR]; exact hi.linkR
  · intro x hx; rw [hs.lval x hx]; exact hi.valL x hx
  · intro x hx; rw [hs.rval x hx]; exact hi.valR x hx

/-- The invariant only reads the object's own sentinels, nodes and fields. -/
theorem Inv.congr_inv {m m1 : Mem α β} {b : Nat} {tl tr : Tree} (hi : Inv m b tl tr)
    (hs : SameOn m m1 b tl.toList) : Inv m1 b tl tr := by
  refine ⟨hi.shape.congr_shape hs, by rw [hs.cmpL]; exact hi.swoL, by rw [hs.cmpR]; exact hi.swoR,
    ?_, ?_⟩
  · rw [hs.cmpL]
    refine hi.sortedL.imp_of_mem ?_
    intro x y hx hy ⟨a, c, ha, hc, hac⟩
    exact ⟨a, c, by rw [hs.lval x hx]; exact ha, by rw [hs.lval y hy]; exact hc, hac⟩
  · rw [hs.cmpR]
    refine hi.sortedR.imp_of_mem ?_
    intro x y hx hy ⟨a, c, ha, hc, hac⟩
    exact ⟨a, c, by rw [hs.rval x (hi.shape.mem_right.1 hx)]; exact ha,
      by rw [hs.rval y (hi.shape.mem_right.1 hy)]; exact hc, hac⟩

theorem find_left_spec {m : Mem α β} {b : Nat} {tl tr : Tree} (hi : Inv m b tl tr) (k : α)
    {fuel : Nat} (hf : m.size b < fuel) :
    find_left fuel m b k =
      some (some (match lookupL m b tl k with | some x => ⟨.left, x⟩ | none => ⟨.left, b⟩)) := by
  have hf' : tl.size < fuel := by rw [hi.shape.size_left]; exact hf
  cases hl : lookupL m b tl k with
  | none =>
    simp only [lookupL] at hl
    rw [List.find?_eq_none] at hl
    refine find_spec_not_mem hi.swoL k hi.shape.repL hi.shape.valL hi.sortedL hf' ?_
    intro x hx v hv
    have := hl x hx
    rw [get_over_left_mk] at hv
    simpa [onVal, hv] using this
  | some x =>
    simp only [lookupL] at hl
    have hx := List.mem_of_find?_eq_some hl
    have hp := List.find?_some hl
    obtain ⟨v, hv⟩ := hi.shape.valL x hx
    simp only [onVal, hv] at hp
    exact find_spec_mem hi.swoL k hi.shape.repL hi.shape.valL hi.sortedL hf' hx hv hp

theorem find_right_spec {m : Mem α β} {b : Nat} {tl tr : Tree} (hi : Inv m b tl tr) (k : β)
    {fuel : Nat} (hf : m.size b < fuel) :
    find_right fuel m b k =
      some (some (match lookupR m b tr k with | some x => ⟨.right, x⟩ | none => ⟨.right, b⟩)) := by
  have hf' : tr.size < fuel := by rw [hi.shape.size_right]; exact hf
  have hvalR : ∀ x ∈ tr.toList, ∃ v, m.rval x = some v := hi.shape.valR_right
  cases hl : lookupR m b tr k with
  | none =>
    simp only [lookupR] at hl
    rw [List.find?_eq_none] at hl
    refine find_spec_not_mem hi.swoR k hi.shape.repR hvalR hi.sortedR hf' ?_
    intro x hx v hv
    have := hl x hx
    rw [get_over_right_mk] at hv
    simpa [onVal, hv] using this
  | some x =>
    simp only [lookupR] at hl
    have hx := List.mem_of_find?_eq_some hl
    have hp := List.find?_some hl
    obtain ⟨v, hv⟩ := hvalR x hx
    simp only [onVal, hv] at hp
    exact find_spec_mem hi.swoR k hi.shape.repR hvalR hi.sortedR hf' hx hv hp

end bimap

theorem SetRep.congr_rep {h h1 : Heap} {s : Side} {b : Nat} {t : Tree} (hr : SetRep h s b t)
    (hb : h1 ⟨s, b⟩ = h ⟨s, b⟩) (ht : ∀ x ∈ t.toList, h1 ⟨s, x⟩ = h ⟨s, x⟩) :
    SetRep h1 s b t :=
  ⟨by rw [hb]; exact hr.parent, by rw [hb]; exact hr.root, by rw [hb]; exact hr.service,
    hr.wf.congr ht, hr.nodup, hr.notin⟩

theorem clear_other (h : Heap) (p q : Ptr) (hq : q ≠ p) : clear h p q = h q := by
  simp [clear, hq]

theorem clear_same (h : Heap) (p : Ptr) : clear h p p = node_base.null := by
  simp [clear]

section order
variable {K : Type} {cmp : K → K → Bool} {val : Nat → Option K}

theorem sorted_mono_goLeft (hs : StrictWeakOrder cmp) {L : List Nat}
    (hsorted : L.Pairwise (VLt cmp val)) (key : K) :
    L.Pairwise (fun a c => onVal val (fun v => cmp key v) a = true →
      onVal val (fun v => cmp key v) c = true) := by
  refine hsorted.imp ?_
  intro a c ⟨u, w, hu, hw, huw⟩ hg
  simp only [onVal, hu] at hg
  simp only [onVal, hw]
  exact hs.trans _ _ _ hg huw

/-- The in-order sequence after inserting a key equivalent to no stored value
is strictly increasing. -/
theorem sorted_insert (hs : StrictWeakOrder cmp) {L : List Nat}
    (hsorted : L.Pairwise (VLt cmp val)) (hval : ∀ x ∈ L, ∃ v, val x = some v) (key : K)
    {n : Nat} (hn : n ∉ L) {val1 : Nat → Option K} (hv1 : val1 n = some key)
    (hvo : ∀ x ∈ L, val1 x = val x)
    (hno : ∀ x ∈ L, ∀ v, val x = some v → equiv cmp v key = false) :
    (L.filter (fun y => !onVal val (fun v => cmp key v) y) ++
      n :: L.filter (onVal val (fun v => cmp key v))).Pairwise (VLt cmp val1) := by
  have hsub : ∀ {M : List Nat}, M.Sublist L → M.Pairwise (VLt cmp val1) := by
    intro M hM
    refine (hsorted.sublist hM).imp_of_mem ?_
    intro a c ha hc ⟨u, w, hu, hw, huw⟩
    exact ⟨u, w, by rw [hvo a (hM.subset ha)]; exact hu, by rw [hvo c (hM.subset hc)]; exact hw, huw⟩
  have hlow : ∀ a ∈ L.filter (fun y => !onVal val (fun v => cmp key v) y),
      ∃ u, val1 a = some u ∧ cmp u key = true := by
    intro a ha
    rw [List.mem_filter] at ha
    obtain ⟨u, hu⟩ := hval a ha.1
    have h1 := ha.2
    simp only [onVal, hu, Bool.not_eq_true'] at h1
    have h2 := hno a ha.1 u hu
    simp only [equiv, h1, Bool.not_false, Bool.and_true, Bool.not_eq_false'] at h2
    exact ⟨u, by rw [hvo a ha.1]; exact hu, h2⟩
  have hhigh : ∀ c ∈ L.filter (onVal val (fun v => cmp key v)),
      ∃ w, val1 c = some w ∧ cmp key w = true := by
    intro c hc
    rw [List.mem_filter] at hc
    obtain ⟨w, hw⟩ := hval c hc.1
    have h1 := hc.2
    simp only [onVal, hw] at h1
    exact ⟨w, by rw [hvo c hc.1]; exact hw, h1⟩
  rw [List.pairwise_append]
  refine ⟨hsub (List.filter_sublist _), ?_, ?_⟩
  · rw [List.pairwise_cons]
    refine ⟨?_, hsub (List.filter_sublist _)⟩
    intro c hc
    obtain ⟨w, hw, hkw⟩ := hhigh c hc
    exact ⟨key, w, hv1, hw, hkw⟩
  · intro a ha c hc
    obtain ⟨u, hu, huk⟩ := hlow a ha
    rcases List.mem_cons.1 hc with e | e
    · subst e; exact ⟨u, key, hu, hv1, huk⟩
    · obtain ⟨w, hw, hkw⟩ := hhigh c e
      exact ⟨u, w, hu, hw, hs.trans _ _ _ huk hkw⟩

end order

theorem Tree.ins_perm (g : Nat → Bool) (n : Nat) (t : Tree) :
    (t.ins g n).toList.Perm (n :: t.toList) := by
  induction t with
  | nil => simp [Tree.ins, Tree.toList]
  | node l x r ihl ihr =>
    simp only [Tree.ins]
    split
    · simp only [Tree.toList]
      exact (List.Perm.append_right _ ihl).trans (by simp)
    · simp only [Tree.toList]
      refine (List.Perm.append_left _ (List.Perm.cons _ ihr)).trans ?_
      refine (List.Perm.append_left _ (List.Perm.swap _ _ _)).trans ?_
      exact List.perm_middle

section bimap
variable {α β : Type}

theorem check_spec {m : Mem α β} {b : Nat} {tl tr : Tree} (hi : Inv m b tl tr) (l : α) (r : β)
    {fuel : Nat} (hf : m.size b < fuel) :
    check fuel m b l r = some ((lookupL m b tl l).isNone && (lookupR m b tr r).isNone) := by
  simp only [check, find_left_spec hi l hf, find_right_spec hi r hf, end_node, left_sentinel,
    right_sentinel]
  cases hl : lookupL m b tl l with
  | none =>
    cases hr : lookupR m b tr r with
    | none => simp
    | some y =>
      have hy := List.mem_of_find?_eq_some hr
      have : y ≠ b := fun e => hi.shape.repR.notin (e ▸ hy)
      simp [this]
  | some x =>
    have hx := List.mem_of_find?_eq_some hl
    have : x ≠ b := fun e => hi.shape.repL.notin (e ▸ hx)
    simp [this]

/-- A duplicate is rejected without any change. -/
theorem forwarding_insert_reject {m : Mem α β} {b : Nat} {tl tr : Tree} (hi : Inv m b tl tr)
    (l : α) (r : β) {fuel : Nat} (hf : m.size b < fuel)
    (hdup : (lookupL m b tl l).isSome ∨ (lookupR m b tr r).isSome) :
    forwarding_insert fuel m b l r false = some (m, end_left b) := by
  simp only [forwarding_insert, check_spec hi l r hf]
  rcases hdup with h | h
  · cases hl : lookupL m b tl l with
    | none => rw [hl] at h; simp at h
    | some x => simp
  · cases hr : lookupR m b tr r with
    | none => rw [hr] at h; simp at h
    | some x => simp

/-- An accepted (or direct) insertion attaches the fresh node `m.next` in both
trees where the two descents end. -/
theorem forwarding_insert_accept {m : Mem α β} {b : Nat} {tl tr : Tree} (hi : Inv m b tl tr)
    (l : α) (r : β) (direct : Bool) {fuel : Nat} (hf : m.size b < fuel)
    (hok : direct = true ∨ (lookupL m b tl l = none ∧ lookupR m b tr r = none)) :
    forwarding_insert fuel m b l r direct =
        some (m.attached b tl tr l r, some ⟨.left, m.next⟩) ∧
      Shape (m.attached b tl tr l r) b (tl.ins (goL m b l) m.next) (tr.ins (goR m b r) m.next) ∧
      (∀ p : Ptr, p.id ≠ m.next → p.id ≠ b → p.id ∉ tl.toList →
        (m.attached b tl tr l r).heap p = m.heap p) := by
  have hs := hi.shape
  have hnb : m.next ≠ b := fun e => by have := hs.self_lt; omega
  have hnl : m.next ∉ tl.toList := fun hm => by have := hs.lt_next _ hm; omega
  have hnr : m.next ∉ tr.toList := fun hm => hnl (hs.mem_right.1 hm)
  have hfl : tl.size < fuel := by rw [hs.size_left]; exact hf
  have hfr : tr.size < fuel := by rw [hs.size_right]; exact hf
  have hpl := @find_place_spec _ (m.cmpL b) m.get_over_left _ _ _ _ l hs.repL hs.valL _ hfl
  have hpr := @find_place_spec _ (m.cmpR b) m.get_over_right _ _ _ _ r hs.repR
    hs.valR_right _ hfr
  -- the heap after `new`
  have hc : ∀ q : Ptr, q.id ≠ m.next →
      clear (clear m.heap ⟨.left, m.next⟩) ⟨.right, m.next⟩ q = m.heap q := by
    intro q hq
    rw [clear_other _ _ _ (fun e => hq (by rw [e])), clear_other _ _ _ (fun e => hq (by rw [e]))]
  have hrepL0 : SetRep (clear (clear m.heap ⟨.left, m.next⟩) ⟨.right, m.next⟩) .left b tl :=
    hs.repL.congr_rep (hc _ (Ne.symm hnb)) (fun x hx => hc _ (fun e => hnl (e ▸ hx)))
  have hnull0 : clear (clear m.heap ⟨.left, m.next⟩) ⟨.right, m.next⟩ ⟨.left, m.next⟩ =
      node_base.null := by
    rw [clear_other _ _ _ (by simp), clear_same]
  obtain ⟨hL1, hLf, hLs⟩ := set_insert_spec hrepL0 (goL m b l) hnb hnl hnull0
  have hRf1 : ∀ q : Ptr, q.over = .right →
      (place_node (clear (clear m.heap ⟨.left, m.next⟩) ⟨.right, m.next⟩)
        (placementOf .left b (goL m b l) tl) ⟨.left, m.next⟩).1 q =
      clear (clear m.heap ⟨.left, m.next⟩) ⟨.right, m.next⟩ q := by
    intro q hq
    refine hLf q ?_ ?_ ?_
    · intro e; rw [e] at hq; cases hq
    · intro e; rw [e] at hq; cases hq
    · intro y _ e; rw [e] at hq; cases hq
  have hrepR1 : SetRep (place_node (clear (clear m.heap ⟨.left, m.next⟩) ⟨.right, m.next⟩)
      (placementOf .left b (goL m b l) tl) ⟨.left, m.next⟩).1 .right b tr :=
    hs.repR.congr_rep (by rw [hRf1 _ rfl, hc _ (Ne.symm hnb)])
      (fun x hx => by rw [hRf1 _ rfl, hc _ (fun e => hnr (e ▸ hx))])
  have hnull1 : (place_node (clear (clear m.heap ⟨.left, m.next⟩) ⟨.right, m.next⟩)
      (placementOf .left b (goL m b l) tl) ⟨.left, m.next⟩).1 ⟨.right, m.next⟩ =
      node_base.null := by
    rw [hRf1 _ rfl, clear_same]
  obtain ⟨hR2, hRf, hRs⟩ := set_insert_spec hrepR1 (goR m b r) hnb hnr hnull1
  have hLf2 : ∀ q : Ptr, q.over = .left →
      (place_node (place_node (clear (clear m.heap ⟨.left, m.next⟩) ⟨.right, m.next⟩)
        (placementOf .left b (goL m b l) tl) ⟨.left, m.next⟩).1
        (placementOf .right b (goR m b r) tr) ⟨.right, m.next⟩).1 q =
      (place_node (clear (clear m.heap ⟨.left, m.next⟩) ⟨.right, m.next⟩)
        (placementOf .left b (goL m b l) tl) ⟨.left, m.next⟩).1 q := by
    intro q hq
    refine hRf q ?_ ?_ ?_
    · intro e; rw [e] at hq; cases hq
    · intro e; rw [e] at hq; cases hq
    · intro y _ e; rw [e] at hq; cases hq
  have hL2 := hL1.congr_rep (hLf2 _ rfl) (fun x _ => hLf2 ⟨.left, x⟩ rfl)
  have hchk : (!((lookupL m b tl l).isNone && (lookupR m b tr r).isNone) && !direct) = false := by
    rcases hok with e | ⟨e1, e2⟩
    · simp [e]
    · simp [e1, e2]
  have hmemL : ∀ y, y ∈ (tl.ins (goL m b l) m.next).toList ↔ y = m.next ∨ y ∈ tl.toList :=
    Tree.ins_mem _ _ _
  refine ⟨?_, ⟨hL2, hR2, ?_, ?_, ?_, ?_, ?_, ?_, ?_, ?_⟩, ?_⟩
  · simp only [forwarding_insert, check_spec hi l r hf, hchk]
    simp only [left_sentinel, right_sentinel, hpl, hpr, new_binode]
    rfl
  · show ((place_node _ _ _).1 ⟨.left, b⟩)._left = _
    rw [hLf2 _ rfl, hLs, hc _ (Ne.symm hnb)]; exact hs.linkL
  · show ((place_node _ _ _).1 ⟨.right, b⟩)._left = _
    rw [hRs, hRf1 _ rfl, hc _ (Ne.symm hnb)]; exact hs.linkR
  · exact (Tree.ins_perm _ _ _).trans ((List.Perm.cons _ hs.perm).trans (Tree.ins_perm _ _ _).symm)
  · show (if b = b then m.size b + 1 else m.size b) = _
    rw [if_pos rfl, (Tree.ins_perm _ _ _).length_eq, hs.size_eq]; rfl
  · intro x hx
    show x < m.next + 1
    rcases (hmemL x).1 hx with e | e
    · omega
    · have := hs.lt_next x e; omega
  · show b < m.next + 1
    have := hs.self_lt; omega
  · intro x hx
    show ∃ v, (if x = m.next then some l else m.lval x) = some v
    rcases (hmemL x).1 hx with e | e
    · exact ⟨l, by simp [e]⟩
    · split
      · exact ⟨l, rfl⟩
      · exact hs.valL x e
  · intro x hx
    show ∃ v, (if x = m.next then some r else m.rval x) = some v
    rcases (hmemL x).1 hx with e | e
    · exact ⟨r, by simp [e]⟩
    · split
      · exact ⟨r, rfl⟩
      · exact hs.valR x e
  · intro p hp1 hp2 hp3
    show (place_node _ _ _).1 p = _
    have e1 : ∀ k, p ≠ ⟨k, m.next⟩ := fun k e => hp1 (by rw [e])
    have e2 : ∀ k, p ≠ ⟨k, b⟩ := fun k e => hp2 (by rw [e])
    rw [hRf p (e1 _) (e2 _) (fun y hy e => hp3 (by rw [e]; exact hs.mem_right.1 hy)),
      hLf p (e1 _) (e2 _) (fun y hy e => hp3 (by rw [e]; exact hy)), hc p hp1]

end bimap

section bimap
variable {α β : Type}

theorem lookupL_eq_none {m : Mem α β} {b : Nat} {tl : Tree} {k : α}
    (h : lookupL m b tl k = none) :
    ∀ x ∈ tl.toList, ∀ v, m.lval x = some v → equiv (m.cmpL b) v k = false := by
  intro x hx v hv
  simp only [lookupL] at h
  rw [List.find?_eq_none] at h
  simpa [onVal, hv] using h x hx

theorem lookupR_eq_none {m : Mem α β} {b : Nat} {tr : Tree} {k : β}
    (h : lookupR m b tr k = none) :
    ∀ x ∈ tr.toList, ∀ v, m.rval x = some v → equiv (m.cmpR b) v k = false := by
  intro x hx v hv
  simp only [lookupR] at h
  rw [List.find?_eq_none] at h
  simpa [onVal, hv] using h x hx

theorem toList_ins_left {m : Mem α β} {b : Nat} {tl tr : Tree} (hi : Inv m b tl tr) (l : α) :
    (tl.ins (goL m b l) m.next).toList =
      tl.toList.filter (fun y => !goL m b l y) ++ m.next :: tl.toList.filter (goL m b l) :=
  Tree.toList_ins _ _ _ (sorted_mono_goLeft hi.swoL hi.sortedL l)

theorem toList_ins_right {m : Mem α β} {b : Nat} {tl tr : Tree} (hi : Inv m b tl tr) (r : β) :
    (tr.ins (goR m b r) m.next).toList =
      tr.toList.filter (fun y => !goR m b r y) ++ m.next :: tr.toList.filter (goR m b r) :=
  Tree.toList_ins _ _ _ (sorted_mono_goLeft hi.swoR hi.sortedR r)

/-- After an accepted insertion the invariant holds again. -/
theorem insert_inv {m : Mem α β} {b : Nat} {tl tr : Tree} (hi : Inv m b tl tr)
    (l : α) (r : β) (hs1 : Shape (m.attached b tl tr l r) b (tl.ins (goL m b l) m.next)
      (tr.ins (goR m b r) m.next))
    (hl : lookupL m b tl l = none) (hr : lookupR m b tr r = none) :
    Inv (m.attached b tl tr l r) b (tl.ins (goL m b l) m.next) (tr.ins (goR m b r) m.next) := by
  have hs := hi.shape
  have hnl : m.next ∉ tl.toList := fun hm => by have := hs.lt_next _ hm; omega
  have hnr : m.next ∉ tr.toList := fun hm => hnl (hs.mem_right.1 hm)
  refine ⟨hs1, hi.swoL, hi.swoR, ?_, ?_⟩
  · rw [toList_ins_left hi]
    refine sorted_insert hi.swoL hi.sortedL hs.valL l hnl
      (by simp [Mem.attached] : (m.attached b tl tr l r).lval m.next = some l) ?_
      (lookupL_eq_none hl)
    intro x hx
    have : x ≠ m.next := fun e => hnl (e ▸ hx)
    simp [Mem.attached, this]
  · rw [toList_ins_right hi]
    refine sorted_insert hi.swoR hi.sortedR hs.valR_right r hnr
      (by simp [Mem.attached] : (m.attached b tl tr l r).rval m.next = some r) ?_
      (lookupR_eq_none hr)
    intro x hx
    have : x ≠ m.next := fun e => hnr (e ▸ hx)
    simp [Mem.attached, this]

theorem attached_frame {m : Mem α β} {b : Nat} {tl tr : Tree} (l : α) (r : β)
    (hheap : ∀ p : Ptr, p.id ≠ m.next → p.id ≠ b → p.id ∉ tl.toList →
      (m.attached b tl tr l r).heap p = m.heap p) :
    FrameOf m (m.attached b tl tr l r) b tl.toList := by
  intro c cs hc1 hc2 hc3 hcs
  refine ⟨?_, ?_, ?_, ?_, rfl, rfl, ?_⟩
  · intro p hp
    rcases hp with e | e
    · exact hheap p (by rw [e]; omega) (by rw [e]; exact hc2) (by rw [e]; exact hc3)
    · have := hcs _ e
      exact hheap p (by omega) this.2.1 this.2.2
  · intro x hx
    have := hcs _ hx
    have : x ≠ m.next := by omega
    simp [Mem.attached, this]
  · intro x hx
    have := hcs _ hx
    have : x ≠ m.next := by omega
    simp [Mem.attached, this]
  · simp [Mem.attached, hc2]
  · show m.next ≤ m.next + 1
    omega

theorem Wf.parent_ne_none {h : Heap} {s : Side} {t : Tree} {par : Ptr} (hw : Wf h s t par)
    {y : Nat} (hy : y ∈ t.toList) : (h ⟨s, y⟩)._parent ≠ none := by
  rcases hw.parent_link hy with ⟨e, -⟩ | ⟨z, -, e, -⟩ <;> rw [e] <;> simp

theorem flip_node {h : Heap} {s : Side} {b : Nat} {t : Tree} (hr : SetRep h s b t) {x : Nat}
    (hx : x ∈ t.toList) : flip h (some ⟨s, x⟩) = some (some ⟨s.opp, x⟩) := by
  have := hr.wf.parent_ne_none hx
  have hs : is_sentinel h ⟨s, x⟩ = false := by
    simp only [is_sentinel]
    cases hp : (h ⟨s, x⟩)._parent with
    | none => exact absurd hp this
    | some _ => rfl
  simp [flip, get_service, hs]

theorem flip_sentinel {h : Heap} {p o : Ptr} (hp : (h p)._parent = none)
    (hl : (h p)._left = some o) : flip h (some p) = some (some o) := by
  simp [flip, get_service, is_sentinel, hp, hl]

/-- The method `erase_left(it)` on a stored node: both trees lose the node, the
left successor computed beforehand is returned. -/
theorem erase_left_spec {m : Mem α β} {b : Nat} {tl tr : Tree} (hs : Shape m b tl tr)
    {x : Nat} (hx : x ∈ tl.toList) {fuel : Nat} (hf : m.size b + 1 < fuel) :
    ∃ h2 tl1 tr1, erase_left fuel m b (some ⟨.left, x⟩) =
        some (m.erased b x h2, some (succPtr .left b tl.toList x)) ∧
      Shape (m.erased b x h2) b tl1 tr1 ∧
      tl1.toList = tl.toList.erase x ∧ tr1.toList = tr.toList.erase x ∧
      (∀ p : Ptr, p.id ≠ b → p.id ∉ tl.toList → h2 p = m.heap p) := by
  have hxr : x ∈ tr.toList := hs.mem_right.2 hx
  obtain ⟨h1, tr1, he1, hr1, hl1, hf1, hsv1⟩ := erase_spec hs.repR hxr
    (by rw [hs.size_right]; exact hf : _ < fuel)
  have hLf : ∀ q : Ptr, q.over = .left → h1 q = m.heap q := by
    intro q hq
    refine hf1 q ?_ ?_
    · intro e; rw [e] at hq; cases hq
    · intro y _ e; rw [e] at hq; cases hq
  have hrepL1 : SetRep h1 .left b tl := hs.repL.congr_rep (hLf _ rfl) (fun y _ => hLf _ rfl)
  obtain ⟨h2, tl1, he2, hr2, hl2, hf2, hsv2⟩ := erase_spec hrepL1 hx
    (by rw [hs.size_left]; exact hf : _ < fuel)
  have hRf : ∀ q : Ptr, q.over = .right → h2 q = h1 q := by
    intro q hq
    refine hf2 q ?_ ?_
    · intro e; rw [e] at hq; cases hq
    · intro y _ e; rw [e] at hq; cases hq
  have hrepR2 : SetRep h2 .right b tr1 := hr1.congr_rep (hRf _ rfl) (fun y _ => hRf _ rfl)
  have hsub : ∀ y, y ∈ tl.toList.erase x → y ∈ tl.toList ∧ y ≠ x := by
    intro y hy
    exact ⟨List.mem_of_mem_erase hy, fun e => by
      rw [e] at hy; exact (List.Nodup.mem_erase_iff hs.repL.nodup).1 hy |>.1 rfl⟩
  refine ⟨h2, tl1, tr1, ?_, ⟨hr2, hrepR2, ?_, ?_, ?_, ?_, ?_, hs.self_lt, ?_, ?_⟩, hl2, hl1, ?_⟩
  · simp only [erase_left, flip_node hs.repL hx, Side.opp, he1, he2]
    rfl
  · show (h2 ⟨.left, b⟩)._left = _
    rw [hsv2, hLf _ rfl]; exact hs.linkL
  · show (h2 ⟨.right, b⟩)._left = _
    rw [hRf _ rfl, hsv1]; exact hs.linkR
  · rw [hl2, hl1]; exact hs.perm.erase x
  · show (if b = b then m.size b - 1 else m.size b) = _
    rw [if_pos rfl, hl2, List.length_erase_of_mem hx, hs.size_eq]
  · intro y hy
    rw [hl2] at hy
    exact hs.lt_next y (hsub y hy).1
  · intro y hy
    rw [hl2] at hy
    show ∃ v, (if y = x then none else m.lval y) = some v
    rw [if_neg (hsub y hy).2]
    exact hs.valL y (hsub y hy).1
  · intro y hy
    rw [hl2] at hy
    show ∃ v, (if y = x then none else m.rval y) = some v
    rw [if_neg (hsub y hy).2]
    exact hs.valR y (hsub y hy).1
  · intro p hp1 hp2
    have e1 : ∀ k, p ≠ ⟨k, b⟩ := fun k e => hp1 (by rw [e])
    rw [hf2 p (e1 _) (fun y hy e => hp2 (by rw [e]; exact hy)),
      hf1 p (e1 _) (fun y hy e => hp2 (by rw [e]; exact hs.mem_right.1 hy))]

/-- The method `erase_right(it)` on a stored node: both trees lose the node, the
right successor computed beforehand is returned. -/
theorem erase_right_spec {m : Mem α β} {b : Nat} {tl tr : Tree} (hs : Shape m b tl tr)
    {x : Nat} (hx : x ∈ tl.toList) {fuel : Nat} (hf : m.size b + 1 < fuel) :
    ∃ h2 tl1 tr1, erase_right fuel m b (some ⟨.right, x⟩) =
        some (m.erased b x h2, some (succPtr .right b tr.toList x)) ∧
      Shape (m.erased b x h2) b tl1 tr1 ∧
      tl1.toList = tl.toList.erase x ∧ tr1.toList = tr.toList.erase x ∧
      (∀ p : Ptr, p.id ≠ b → p.id ∉ tl.toList → h2 p = m.heap p) := by
  have hxr : x ∈ tr.toList := hs.mem_right.2 hx
  obtain ⟨h1, tl1, he1, hr1, hl1, hf1, hsv1⟩ := erase_spec hs.repL hx
    (by rw [hs.size_left]; exact hf)
  have hRf : ∀ q : Ptr, q.over = .right → h1 q = m.heap q := by
    intro q hq
    refine hf1 q ?_ ?_
    · intro e; rw [e] at hq; cases hq
    · intro y _ e; rw [e] at hq; cases hq
  have hrepR1 : SetRep h1 .right b tr := hs.repR.congr_rep (hRf _ rfl) (fun y _ => hRf _ rfl)
  obtain ⟨h2, tr1, he2, hr2, hl2, hf2, hsv2⟩ := erase_spec hrepR1 hxr
    (by rw [hs.size_right]; exact hf)
  have hLf : ∀ q : Ptr, q.over = .left → h2 q = h1 q := by
    intro q hq
    refine hf2 q ?_ ?_
    · intro e; rw [e] at hq; cases hq
    · intro y _ e; rw [e] at hq; cases hq
  have hrepL2 : SetRep h2 .left b tl1 := hr1.congr_rep (hLf _ rfl) (fun y _ => hLf _ rfl)
  have hsub : ∀ y, y ∈ tl.toList.erase x → y ∈ tl.toList ∧ y ≠ x := by
    intro y hy
    exact ⟨List.mem_of_mem_erase hy, fun e => by
      rw [e] at hy; exact (List.Nodup.mem_erase_iff hs.repL.nodup).1 hy |>.1 rfl⟩
  refine ⟨h2, tl1, tr1, ?_, ⟨hrepL2, hr2, ?_, ?_, ?_, ?_, ?_, hs.self_lt, ?_, ?_⟩, hl1, hl2, ?_⟩
  · simp only [erase_right, flip_node hs.repR hxr, Side.opp, he1, he2]
    rfl
  · show (h2 ⟨.left, b⟩)._left = _
    rw [hLf _ rfl, hsv1]; exact hs.linkL
  · show (h2 ⟨.right, b⟩)._left = _
    rw [hsv2, hRf _ rfl]; exact hs.linkR
  · rw [hl2, hl1]; exact hs.perm.erase x
  · show (if b = b then m.size b - 1 else m.size b) = _
    rw [if_pos rfl, hl1, List.length_erase_of_mem hx, hs.size_eq]
  · intro y hy
    rw [hl1] at hy
    exact hs.lt_next y (hsub y hy).1
  · intro y hy
    rw [hl1] at hy
    show ∃ v, (if y = x then none else m.lval y) = some v
    rw [if_neg (hsub y hy).2]
    exact hs.valL y (hsub y hy).1
  · intro y hy
    rw [hl1] at hy
    show ∃ v, (if y = x then none else m.rval y) = some v
    rw [if_neg (hsub y hy).2]
    exact hs.valR y (hsub y hy).1
  · intro p hp1 hp2
    have e1 : ∀ k, p ≠ ⟨k, b⟩ := fun k e => hp1 (by rw [e])
    rw [hf2 p (e1 _) (fun y hy e => hp2 (by rw [e]; exact hs.mem_right.1 hy)),
      hf1 p (e1 _) (fun y hy e => hp2 (by rw [e]; exact hy))]

end bimap

theorem nextIn_split {P S : List Nat} {y : Nat} (hnd : (P ++ y :: S).Nodup) :
    nextIn (P ++ y :: S) y = S.head? := by
  have hy : y ∉ P := fun hm => List.disjoint_of_nodup_append hnd hm (by simp)
  rw [nextIn_append_not_mem _ hy]
  cases S with
  | nil => simp [nextIn]
  | cons a S => simp [nextIn]

theorem succPtr_split (s : Side) (b : Nat) {P S : List Nat} {y : Nat}
    (hnd : (P ++ y :: S).Nodup) : succPtr s b (P ++ y :: S) y = headPtr s b S := by
  simp only [succPtr, succOr, nextIn_split hnd]
  cases S <;> rfl

theorem headPtr_ne_end {s : Side} {b : Nat} {y : Nat} {S : List Nat} (hb : b ≠ y) :
    (some (headPtr s b (y :: S)) : NPtr) ≠ some ⟨s, b⟩ := by
  simp [headPtr, Ne.symm hb]

/-- The traversal by `operator++` from a node of the set up to the end cursor
visits the rest of the in-order sequence. -/
theorem cursors_from_spec {h : Heap} {s : Side} {b : Nat} {t : Tree} (hr : SetRep h s b t)
    {inner : Nat} (hin : t.size < inner) (P S : List Nat) (hsplit : t.toList = P ++ S)
    {fuel : Nat} (hf : S.length < fuel) :
    cursors_from inner h fuel (some (headPtr s b S)) (some ⟨s, b⟩) =
      some (S.map (fun x => some ⟨s, x⟩)) := by
  induction S generalizing P fuel with
  | nil =>
    obtain ⟨f, rfl⟩ : ∃ g, fuel = g + 1 := ⟨fuel - 1, by omega⟩
    simp [cursors_from, headPtr]
  | cons y S ih =>
    obtain ⟨f, rfl⟩ : ∃ g, fuel = g + 1 := ⟨fuel - 1, by omega⟩
    have hy : y ∈ t.toList := by rw [hsplit]; simp
    have hby : b ≠ y := fun e => hr.notin (e ▸ hy)
    have hnd := hr.nodup
    rw [hsplit] at hnd
    have hnx := next_node_spec hr hy hin
    rw [hsplit, succPtr_split s b hnd] at hnx
    simp only [cursors_from, if_neg (headPtr_ne_end hby)]
    have e : headPtr s b (y :: S) = ⟨s, y⟩ := rfl
    rw [e]
    simp only [increment, hnx]
    rw [ih (P ++ [y]) (by rw [hsplit]; simp) (by simp at hf; omega)]
    simp

section bimap
variable {α β : Type}

theorem left_cursors_spec {m : Mem α β} {b : Nat} {tl tr : Tree} (hs : Shape m b tl tr)
    {fuel : Nat} (hf : m.size b < fuel) :
    left_cursors fuel m b = some (tl.toList.map (fun x => some ⟨.left, x⟩)) := by
  have hsz : tl.size < fuel := by rw [hs.size_left]; exact hf
  have hb := begin_node_spec hs.repL hs.linkL hs.linkR hsz
  simp only [left_cursors, begin_left, left_sentinel, hb, end_left, end_node]
  exact cursors_from_spec hs.repL hsz [] tl.toList rfl (by rw [← Tree.size_eq_length]; exact hsz)

theorem right_cursors_spec {m : Mem α β} {b : Nat} {tl tr : Tree} (hs : Shape m b tl tr)
    {fuel : Nat} (hf : m.size b < fuel) :
    right_cursors fuel m b = some (tr.toList.map (fun x => some ⟨.right, x⟩)) := by
  have hsz : tr.size < fuel := by rw [hs.size_right]; exact hf
  have hb := begin_node_spec hs.repR hs.linkR hs.linkL hsz
  simp only [right_cursors, begin_right, right_sentinel, hb, end_right, end_node]
  exact cursors_from_spec hs.repR hsz [] tr.toList rfl (by rw [← Tree.size_eq_length]; exact hsz)

theorem pair_at_left_node {m : Mem α β} {b : Nat} {tl tr : Tree} (hs : Shape m b tl tr)
    {x : Nat} (hx : x ∈ tl.toList) : pair_at_left m (some ⟨.left, x⟩) = pairOf m x := by
  obtain ⟨l, hl⟩ := hs.valL x hx
  obtain ⟨r, hr⟩ := hs.valR x hx
  simp [pair_at_left, deref_left, get_over_left_mk, hl, flip_node hs.repL hx, Side.opp,
    deref_right, get_over_right_mk, hr, pairOf]

theorem pair_at_right_node {m : Mem α β} {b : Nat} {tl tr : Tree} (hs : Shape m b tl tr)
    {x : Nat} (hx : x ∈ tl.toList) : pair_at_right m (some ⟨.right, x⟩) = pairOf m x := by
  obtain ⟨l, hl⟩ := hs.valL x hx
  obtain ⟨r, hr⟩ := hs.valR x hx
  simp [pair_at_right, deref_left, get_over_left_mk, hl, flip_node hs.repR (hs.mem_right.2 hx),
    Side.opp, deref_right, get_over_right_mk, hr, pairOf]

theorem pairOf_some {m : Mem α β} {b : Nat} {tl tr : Tree} (hs : Shape m b tl tr)
    {x : Nat} (hx : x ∈ tl.toList) : ∃ l r, m.lval x = some l ∧ m.rval x = some r ∧
      pairOf m x = some (l, r) := by
  obtain ⟨l, hl⟩ := hs.valL x hx
  obtain ⟨r, hr⟩ := hs.valR x hx
  exact ⟨l, r, hl, hr, by simp [pairOf, hl, hr]⟩

theorem pairs_of_left_spec {m : Mem α β} {b : Nat} {tl tr : Tree} (hs : Shape m b tl tr)
    (L : List Nat) (hL : ∀ x ∈ L, x ∈ tl.toList) :
    pairs_of_left m (L.map (fun x => some ⟨.left, x⟩)) = some (pairList m L) := by
  induction L with
  | nil => rfl
  | cons x L ih =>
    obtain ⟨l, r, -, -, hp⟩ := pairOf_some hs (hL x (by simp))
    simp only [List.map_cons, pairs_of_left, pair_at_left_node hs (hL x (by simp)), hp,
      ih (fun y hy => hL y (by simp [hy]))]
    simp [pairList, List.filterMap_cons, hp]

theorem pairs_of_right_spec {m : Mem α β} {b : Nat} {tl tr : Tree} (hs : Shape m b tl tr)
    (L : List Nat) (hL : ∀ x ∈ L, x ∈ tl.toList) :
    pairs_of_right m (L.map (fun x => some ⟨.right, x⟩)) = some (pairList m L) := by
  induction L with
  | nil => rfl
  | cons x L ih =>
    obtain ⟨l, r, -, -, hp⟩ := pairOf_some hs (hL x (by simp))
    simp only [List.map_cons, pairs_of_right, pair_at_right_node hs (hL x (by simp)), hp,
      ih (fun y hy => hL y (by simp [hy]))]
    simp [pairList, List.filterMap_cons, hp]

theorem left_pairs_spec {m : Mem α β} {b : Nat} {tl tr : Tree} (hs : Shape m b tl tr)
    {fuel : Nat} (hf : m.size b < fuel) :
    left_pairs fuel m b = some (pairList m tl.toList) := by
  simp only [left_pairs, left_cursors_spec hs hf]
  exact pairs_of_left_spec hs _ (fun _ h => h)

theorem right_pairs_spec {m : Mem α β} {b : Nat} {tl tr : Tree} (hs : Shape m b tl tr)
    {fuel : Nat} (hf : m.size b < fuel) :
    right_pairs fuel m b = some (pairList m tr.toList) := by
  simp only [right_pairs, right_cursors_spec hs hf]
  exact pairs_of_right_spec hs _ (fun _ h => hs.mem_right.1 h)

theorem mem_pairList {m : Mem α β} {L : List Nat} {p : α × β} :
    p ∈ pairList m L ↔ ∃ x ∈ L, m.lval x = some p.1 ∧ m.rval x = some p.2 := by
  simp only [pairList, List.mem_filterMap]
  constructor
  · rintro ⟨x, hx, hp⟩
    refine ⟨x, hx, ?_⟩
    simp only [pairOf] at hp
    split at hp
    · next l r hl hr => cases hp; exact ⟨hl, hr⟩
    · cases hp
  · rintro ⟨x, hx, hl, hr⟩
    exact ⟨x, hx, by simp [pairOf, hl, hr]⟩

end bimap

section order
variable {K : Type} {cmp : K → K → Bool} {val : Nat → Option K}

theorem sorted_erase {L : List Nat} (hsorted : L.Pairwise (VLt cmp val)) (x : Nat)
    {val1 : Nat → Option K} (hvo : ∀ y ∈ L.erase x, val1 y = val y) :
    (L.erase x).Pairwise (VLt cmp val1) := by
  refine (hsorted.sublist (List.erase_sublist x L)).imp_of_mem ?_
  intro a c ha hc ⟨u, w, hu, hw, huw⟩
  exact ⟨u, w, by rw [hvo a ha]; exact hu, by rw [hvo c hc]; exact hw, huw⟩

/-- Where the descent of `find_place` puts a key equivalent to the stored
value of `f`: right after `f`. -/
theorem filter_dup (hs : StrictWeakOrder cmp) {A B : List Nat} {f : Nat}
    (hsorted : (A ++ f :: B).Pairwise (VLt cmp val)) {vf key : K} (hf : val f = some vf)
    (hE : equiv cmp vf key = true) :
    (A ++ f :: B).filter (fun y => !onVal val (fun v => cmp key v) y) = A ++ [f] ∧
    (A ++ f :: B).filter (onVal val (fun v => cmp key v)) = B := by
  rw [List.pairwise_append] at hsorted
  obtain ⟨-, hfB, hAf⟩ := hsorted
  rw [List.pairwise_cons] at hfB
  have hE' := StrictWeakOrder.equiv_symm hE
  have hA : ∀ a ∈ A, onVal val (fun v => cmp key v) a = false := by
    intro a ha
    obtain ⟨u, w, hu, hw, huw⟩ := hAf a ha f (by simp)
    rw [hf] at hw; cases hw
    simp only [onVal, hu]
    exact hs.asymm (hs.lt_of_lt_of_equiv huw hE)
  have hB : ∀ c ∈ B, onVal val (fun v => cmp key v) c = true := by
    intro c hc
    obtain ⟨u, w, hu, hw, huw⟩ := hfB.1 c hc
    rw [hf] at hu; cases hu
    simp only [onVal, hw]
    exact hs.lt_of_equiv_of_lt hE' huw
  have hff : onVal val (fun v => cmp key v) f = false := by
    simp only [onVal, hf]
    simp only [equiv, Bool.and_eq_true, Bool.not_eq_true'] at hE
    exact hE.2
  constructor
  · rw [List.filter_append, List.filter_cons]
    simp only [hff, Bool.not_false, if_true]
    rw [List.filter_eq_self.2 (fun a ha => by simp [hA a ha]),
      List.filter_eq_nil_iff.2 (fun c hc => by simp [hB c hc])]
  · rw [List.filter_append, List.filter_cons]
    simp only [hff, Bool.false_eq_true, if_false]
    rw [List.filter_eq_nil_iff.2 (fun a ha => by simp [hA a ha]),
      List.filter_eq_self.2 (fun c hc => hB c hc)]
    simp

/-- Replacing a stored node by a node with an equivalent value keeps the
sequence strictly increasing. -/
theorem sorted_replace (hs : StrictWeakOrder cmp) {A B : List Nat} {f n : Nat}
    (hsorted : (A ++ f :: B).Pairwise (VLt cmp val)) {vf key : K} (hf : val f = some vf)
    (hE : equiv cmp vf key = true) {val1 : Nat → Option K} (hv1 : val1 n = some key)
    (hvo : ∀ x ∈ A ++ B, val1 x = val x) :
    (A ++ n :: B).Pairwise (VLt cmp val1) := by
  rw [List.pairwise_append] at hsorted ⊢
  obtain ⟨hA, hfB, hAf⟩ := hsorted
  rw [List.pairwise_cons] at hfB ⊢
  have hE' := StrictWeakOrder.equiv_symm hE
  have lift : ∀ {a c}, a ∈ A ++ B → c ∈ A ++ B → VLt cmp val a c → VLt cmp val1 a c := by
    intro a c ha hc ⟨u, w, hu, hw, huw⟩
    exact ⟨u, w, by rw [hvo a ha]; exact hu, by rw [hvo c hc]; exact hw, huw⟩
  refine ⟨hA.imp_of_mem (fun ha hc => lift (by simp [ha]) (by simp [hc])), ⟨?_, ?_⟩, ?_⟩
  · intro c hc
    obtain ⟨u, w, hu, hw, huw⟩ := hfB.1 c hc
    rw [hf] at hu; cases hu
    exact ⟨key, w, hv1, by rw [hvo c (by simp [hc])]; exact hw, hs.lt_of_equiv_of_lt hE' huw⟩
  · exact hfB.2.imp_of_mem (fun ha hc => lift (by simp [ha]) (by simp [hc]))
  · intro a ha c hc
    rcases List.mem_cons.1 hc with e | e
    · subst e
      obtain ⟨u, w, hu, hw, huw⟩ := hAf a ha f (by simp)
      rw [hf] at hw; cases hw
      exact ⟨u, key, by rw [hvo a (by simp [ha])]; exact hu, hv1, hs.lt_of_lt_of_equiv huw hE⟩
    · exact lift (by simp [ha]) (by simp [e]) (hAf a ha c (by simp [e]))

end order

section bimap
variable {α β : Type}

theorem mem_erase_nodup {L : List Nat} (hnd : L.Nodup) {x y : Nat} (hy : y ∈ L.erase x) :
    y ∈ L ∧ y ≠ x :=
  ⟨List.mem_of_mem_erase hy, fun e => by
    rw [e] at hy; exact ((List.Nodup.mem_erase_iff hnd).1 hy).1 rfl⟩

/-- Erasing a node keeps the invariant. -/
theorem erase_inv {m : Mem α β} {b : Nat} {tl tr tl1 tr1 : Tree} (hi : Inv m b tl tr)
    {x : Nat} {h2 : Heap} (hs1 : Shape (m.erased b x h2) b tl1 tr1)
    (hl : tl1.toList = tl.toList.erase x) (hr : tr1.toList = tr.toList.erase x) :
    Inv (m.erased b x h2) b tl1 tr1 := by
  refine ⟨hs1, hi.swoL, hi.swoR, ?_, ?_⟩
  · rw [hl]
    refine sorted_erase hi.sortedL x ?_
    intro y hy
    have := (mem_erase_nodup hi.shape.repL.nodup hy).2
    simp [Mem.erased, this]
  · rw [hr]
    refine sorted_erase hi.sortedR x ?_
    intro y hy
    have := (mem_erase_nodup hi.shape.repR.nodup hy).2
    simp [Mem.erased, this]

theorem erased_frame {m : Mem α β} {b x : Nat} {ids : List Nat} {h2 : Heap} (hx : x ∈ ids)
    (hheap : ∀ p : Ptr, p.id ≠ b → p.id ∉ ids → h2 p = m.heap p) :
    FrameOf m (m.erased b x h2) b ids := by
  intro c cs _ hc2 hc3 hcs
  refine ⟨?_, ?_, ?_, ?_, rfl, rfl, le_refl _⟩
  · intro p hp
    rcases hp with e | e
    · exact hheap p (by rw [e]; exact hc2) (by rw [e]; exact hc3)
    · exact hheap p (hcs _ e).2.1 (hcs _ e).2.2
  · intro y hy
    have : y ≠ x := fun e => (hcs _ hy).2.2 (e ▸ hx)
    simp [Mem.erased, this]
  · intro y hy
    have : y ≠ x := fun e => (hcs _ hy).2.2 (e ▸ hx)
    simp [Mem.erased, this]
  · simp [Mem.erased, hc2]

theorem FrameOf.refl (m : Mem α β) (b : Nat) (ids : List Nat) : FrameOf m m b ids :=
  fun _ _ _ _ _ _ => ⟨fun _ _ => rfl, fun _ _ => rfl, fun _ _ => rfl, rfl, rfl, rfl, le_refl _⟩

theorem SameOn.trans_same {m m1 m2 : Mem α β} {c : Nat} {cs : List Nat} (h1 : SameOn m m1 c cs)
    (h2 : SameOn m1 m2 c cs) : SameOn m m2 c cs :=
  ⟨fun p hp => (h2.heap p hp).trans (h1.heap p hp),
    fun x hx => (h2.lval x hx).trans (h1.lval x hx),
    fun x hx => (h2.rval x hx).trans (h1.rval x hx),
    h2.size.trans h1.size, h2.cmpL.trans h1.cmpL, h2.cmpR.trans h1.cmpR,
    le_trans h1.next h2.next⟩

theorem FrameOf.trans {m m1 m2 : Mem α β} {b : Nat} {ids ids1 : List Nat}
    (h1 : FrameOf m m1 b ids) (h2 : FrameOf m1 m2 b ids1) (hle : m.next ≤ m1.next)
    (hids : ∀ y ∈ ids1, y ∈ ids ∨ m.next ≤ y) : FrameOf m m2 b ids := by
  intro c cs hc1 hc2 hc3 hcs
  refine (h1 c cs hc1 hc2 hc3 hcs).trans_same (h2 c cs (by omega) hc2 ?_ ?_)
  · intro hm
    rcases hids c hm with e | e
    · exact hc3 e
    · omega
  · intro y hy
    have := hcs y hy
    refine ⟨by omega, this.2.1, ?_⟩
    intro hm
    rcases hids y hm with e | e
    · exact this.2.2 e
    · omega

end bimap

section bimap
variable {α β : Type}

theorem lookupL_some {m : Mem α β} {b : Nat} {tl : Tree} {k : α} {x : Nat}
    (h : lookupL m b tl k = some x) :
    x ∈ tl.toList ∧ ∃ v, m.lval x = some v ∧ equiv (m.cmpL b) v k = true := by
  simp only [lookupL] at h
  refine ⟨List.mem_of_find?_eq_some h, ?_⟩
  have hp := List.find?_some h
  simp only [onVal] at hp
  split at hp
  · next v hv => exact ⟨v, hv, hp⟩
  · cases hp

theorem lookupR_some {m : Mem α β} {b : Nat} {tr : Tree} {k : β} {x : Nat}
    (h : lookupR m b tr k = some x) :
    x ∈ tr.toList ∧ ∃ v, m.rval x = some v ∧ equiv (m.cmpR b) v k = true := by
  simp only [lookupR] at h
  refine ⟨List.mem_of_find?_eq_some h, ?_⟩
  have hp := List.find?_some h
  simp only [onVal] at hp
  split at hp
  · next v hv => exact ⟨v, hv, hp⟩
  · cases hp

theorem node_ne_end_left {m : Mem α β} {b : Nat} {tl tr : Tree} (hs : Shape m b tl tr) {x : Nat}
    (hx : x ∈ tl.toList) : (some ⟨.left, x⟩ : NPtr) ≠ end_left b := by
  simp [end_left, end_node, left_sentinel, hs.ne_self hx]

theorem node_ne_end_right {m : Mem α β} {b : Nat} {tl tr : Tree} (hs : Shape m b tl tr) {x : Nat}
    (hx : x ∈ tl.toList) : (some ⟨.right, x⟩ : NPtr) ≠ end_right b := by
  simp [end_right, end_node, right_sentinel, hs.ne_self hx]

/-- The method `at_left`: the partner of the stored node equivalent to the key,
the error when there is none. -/
theorem at_left_spec {m : Mem α β} {b : Nat} {tl tr : Tree} (hi : Inv m b tl tr) (k : α)
    {fuel : Nat} (hf : m.size b < fuel) :
    at_left fuel m b k =
      some (match lookupL m b tl k with
        | some x => (match m.rval x with | some r => .ok r | none => .error "invalid key")
        | none => .error "invalid key") := by
  simp only [at_left, find_left_spec hi k hf]
  cases hl : lookupL m b tl k with
  | none => simp [end_left, end_node, left_sentinel]
  | some x =>
    obtain ⟨hx, -⟩ := lookupL_some hl
    obtain ⟨r, hr⟩ := hi.shape.valR x hx
    simp [node_ne_end_left hi.shape hx, flip_node hi.shape.repL hx, Side.opp, deref_right,
      get_over_right_mk, hr]

theorem at_right_spec {m : Mem α β} {b : Nat} {tl tr : Tree} (hi : Inv m b tl tr) (k : β)
    {fuel : Nat} (hf : m.size b < fuel) :
    at_right fuel m b k =
      some (match lookupR m b tr k with
        | some x => (match m.lval x with | some l => .ok l | none => .error "invalid key")
        | none => .error "invalid key") := by
  simp only [at_right, find_right_spec hi k hf]
  cases hl : lookupR m b tr k with
  | none => simp [end_right, end_node, right_sentinel]
  | some x =>
    obtain ⟨hx, -⟩ := lookupR_some hl
    have hx' := hi.shape.mem_right.1 hx
    obtain ⟨l, hl'⟩ := hi.shape.valL x hx'
    simp [node_ne_end_right hi.shape hx', flip_node hi.shape.repR hx, Side.opp, deref_left,
      get_over_left_mk, hl']

/-- The method `erase_left(it)` on a stored node keeps the invariant. -/
theorem erase_left_inv {m : Mem α β} {b : Nat} {tl tr : Tree} (hi : Inv m b tl tr)
    {x : Nat} (hx : x ∈ tl.toList) {fuel : Nat} (hf : m.size b + 1 < fuel) :
    ∃ h2 tl1 tr1, erase_left fuel m b (some ⟨.left, x⟩) =
        some (m.erased b x h2, some (succPtr .left b tl.toList x)) ∧
      Inv (m.erased b x h2) b tl1 tr1 ∧
      tl1.toList = tl.toList.erase x ∧ tr1.toList = tr.toList.erase x ∧
      (∀ p : Ptr, p.id ≠ b → p.id ∉ tl.toList → h2 p = m.heap p) := by
  obtain ⟨h2, tl1, tr1, he, hs1, e1, e2, hfr⟩ := erase_left_spec hi.shape hx hf
  exact ⟨h2, tl1, tr1, he, erase_inv hi hs1 e1 e2, e1, e2, hfr⟩

/-- The method `erase_right(it)` on a stored node keeps the invariant. -/
theorem erase_right_inv {m : Mem α β} {b : Nat} {tl tr : Tree} (hi : Inv m b tl tr)
    {x : Nat} (hx : x ∈ tl.toList) {fuel : Nat} (hf : m.size b + 1 < fuel) :
    ∃ h2 tl1 tr1, erase_right fuel m b (some ⟨.right, x⟩) =
        some (m.erased b x h2, some (succPtr .right b tr.toList x)) ∧
      Inv (m.erased b x h2) b tl1 tr1 ∧
      tl1.toList = tl.toList.erase x ∧ tr1.toList = tr.toList.erase x ∧
      (∀ p : Ptr, p.id ≠ b → p.id ∉ tl.toList → h2 p = m.heap p) := by
  obtain ⟨h2, tl1, tr1, he, hs1, e1, e2, hfr⟩ := erase_right_spec hi.shape hx hf
  exact ⟨h2, tl1, tr1, he, erase_inv hi hs1 e1 e2, e1, e2, hfr⟩

/-- The method `erase_left(key)` when no stored left value is equivalent. -/
theorem erase_left_key_none {m : Mem α β} {b : Nat} {tl tr : Tree} (hi : Inv m b tl tr) (k : α)
    {fuel : Nat} (hf : m.size b < fuel) (hl : lookupL m b tl k = none) :
    erase_left_key fuel m b k = some (m, false) := by
  simp [erase_left_key, find_left_spec hi k hf, hl, end_left, end_node, left_sentinel]

/-- The method `erase_left(key)` when the node `x` holds an equivalent left value. -/
theorem erase_left_key_some {m : Mem α β} {b : Nat} {tl tr : Tree} (hi : Inv m b tl tr) (k : α)
    {fuel : Nat} (hf : m.size b + 1 < fuel) {x : Nat} (hl : lookupL m b tl k = some x) :
    ∃ h2 tl1 tr1, erase_left_key fuel m b k = some (m.erased b x h2, true) ∧
      Inv (m.erased b x h2) b tl1 tr1 ∧
      tl1.toList = tl.toList.erase x ∧ tr1.toList = tr.toList.erase x ∧
      (∀ p : Ptr, p.id ≠ b → p.id ∉ tl.toList → h2 p = m.heap p) := by
  obtain ⟨hx, -⟩ := lookupL_some hl
  obtain ⟨h2, tl1, tr1, he, hs1, e1, e2, hfr⟩ := erase_left_spec hi.shape hx hf
  refine ⟨h2, tl1, tr1, ?_, erase_inv hi hs1 e1 e2, e1, e2, hfr⟩
  simp [erase_left_key, find_left_spec hi k (by omega : m.size b < fuel), hl,
    node_ne_end_left hi.shape hx, he]

theorem erase_right_key_none {m : Mem α β} {b : Nat} {tl tr : Tree} (hi : Inv m b tl tr) (k : β)
    {fuel : Nat} (hf : m.size b < fuel) (hl : lookupR m b tr k = none) :
    erase_right_key fuel m b k = some (m, false) := by
  simp [erase_right_key, find_right_spec hi k hf, hl, end_right, end_node, right_sentinel]

theorem erase_right_key_some {m : Mem α β} {b : Nat} {tl tr : Tree} (hi : Inv m b tl tr) (k : β)
    {fuel : Nat} (hf : m.size b + 1 < fuel) {x : Nat} (hl : lookupR m b tr k = some x) :
    ∃ h2 tl1 tr1, erase_right_key fuel m b k = some (m.erased b x h2, true) ∧
      Inv (m.erased b x h2) b tl1 tr1 ∧
      tl1.toList = tl.toList.erase x ∧ tr1.toList = tr.toList.erase x ∧
      (∀ p : Ptr, p.id ≠ b → p.id ∉ tl.toList → h2 p = m.heap p) := by
  obtain ⟨hx, -⟩ := lookupR_some hl
  have hx' := hi.shape.mem_right.1 hx
  obtain ⟨h2, tl1, tr1, he, hs1, e1, e2, hfr⟩ := erase_right_spec hi.shape hx' hf
  refine ⟨h2, tl1, tr1, ?_, erase_inv hi hs1 e1 e2, e1, e2, hfr⟩
  simp [erase_right_key, find_right_spec hi k (by omega : m.size b < fuel), hl,
    node_ne_end_right hi.shape hx', he]

end bimap

section bimap
variable {α β : Type}

theorem attached_size (m : Mem α β) (b : Nat) (tl tr : Tree) (l : α) (r : β) :
    (m.attached b tl tr l r).size b = m.size b + 1 := by
  simp [Mem.attached]

theorem attached_next (m : Mem α β) (b : Nat) (tl tr : Tree) (l : α) (r : β) :
    (m.attached b tl tr l r).next = m.next + 1 := rfl

theorem attached_lval_new (m : Mem α β) (b : Nat) (tl tr : Tree) (l : α) (r : β) :
    (m.attached b tl tr l r).lval m.next = some l := by
  simp [Mem.attached]

theorem attached_rval_new (m : Mem α β) (b : Nat) (tl tr : Tree) (l : α) (r : β) :
    (m.attached b tl tr l r).rval m.next = some r := by
  simp [Mem.attached]

theorem attached_lval_old (m : Mem α β) (b : Nat) (tl tr : Tree) (l : α) (r : β) {x : Nat}
    (hx : x ≠ m.next) : (m.attached b tl tr l r).lval x = m.lval x := by
  simp [Mem.attached, hx]

theorem attached_rval_old (m : Mem α β) (b : Nat) (tl tr : Tree) (l : α) (r : β) {x : Nat}
    (hx : x ≠ m.next) : (m.attached b tl tr l r).rval x = m.rval x := by
  simp [Mem.attached, hx]

theorem Shape.next_not_mem {m : Mem α β} {b : Nat} {tl tr : Tree} (hs : Shape m b tl tr) :
    m.next ∉ tl.toList := fun hm => by have := hs.lt_next _ hm; omega

theorem Shape.ne_next {m : Mem α β} {b : Nat} {tl tr : Tree} (hs : Shape m b tl tr) {x : Nat}
    (hx : x ∈ tl.toList) : x ≠ m.next := fun e => hs.next_not_mem (e ▸ hx)

/-- The method `at_left_or_default` when the key is stored: nothing changes. -/
theorem at_left_or_default_found [Inhabited β] {m : Mem α β} {b : Nat} {tl tr : Tree}
    (hi : Inv m b tl tr) (key : α) {fuel : Nat} (hf : m.size b < fuel) {x : Nat}
    (hl : lookupL m b tl key = some x) :
    ∃ r, m.rval x = some r ∧ at_left_or_default fuel m b key = some (m, r) := by
  obtain ⟨hx, -⟩ := lookupL_some hl
  obtain ⟨r, hr⟩ := hi.shape.valR x hx
  refine ⟨r, hr, ?_⟩
  simp [at_left_or_default, find_left_spec hi key hf, hl, node_ne_end_left hi.shape hx,
    flip_node hi.shape.repL hx, Side.opp, deref_right, get_over_right_mk, hr]

/-- The method `at_left_or_default` when neither the key nor the default value
is stored: an ordinary insertion of `(key, default)`. -/
theorem at_left_or_default_fresh [Inhabited β] {m : Mem α β} {b : Nat} {tl tr : Tree}
    (hi : Inv m b tl tr) (key : α) {fuel : Nat} (hf : m.size b < fuel)
    (hl : lookupL m b tl key = none) (hr : lookupR m b tr default = none) :
    at_left_or_default fuel m b key = some (m.attached b tl tr key default, default) ∧
    Inv (m.attached b tl tr key default) b (tl.ins (goL m b key) m.next)
      (tr.ins (goR m b default) m.next) ∧
    (∀ p : Ptr, p.id ≠ m.next → p.id ≠ b → p.id ∉ tl.toList →
      (m.attached b tl tr key default).heap p = m.heap p) := by
  obtain ⟨he, hs1, hfr⟩ := forwarding_insert_accept hi key default false hf (Or.inr ⟨hl, hr⟩)
  have hn : m.next ∈ (tl.ins (goL m b key) m.next).toList := (Tree.ins_mem _ _ _ _).2 (Or.inl rfl)
  refine ⟨?_, insert_inv hi key default hs1 hl hr, hfr⟩
  simp [at_left_or_default, find_left_spec hi key hf, hl, find_right_spec hi default hf, hr,
    end_left, end_right, end_node, left_sentinel, right_sentinel, insert, he,
    flip_node hs1.repL hn, Side.opp, deref_right, get_over_right_mk, attached_rval_new]

/-- The method `at_left_or_default` when the key is absent and the node `f`
holds the default value: `(key, default)` is attached and `f` is erased. -/
theorem at_left_or_default_relocate [Inhabited β] {m : Mem α β} {b : Nat} {tl tr : Tree}
    (hi : Inv m b tl tr) (key : α) {fuel : Nat} (hf : m.size b + 2 < fuel)
    (hl : lookupL m b tl key = none) {f : Nat} (hr : lookupR m b tr default = some f) :
    ∃ h2 tl2 tr2, at_left_or_default fuel m b key =
        some ((m.attached b tl tr key default).erased b f h2, default) ∧
      Inv ((m.attached b tl tr key default).erased b f h2) b tl2 tr2 ∧
      tl2.toList = (tl.ins (goL m b key) m.next).toList.erase f ∧
      tr2.toList = (tr.ins (goR m b default) m.next).toList.erase f ∧
      (∀ p : Ptr, p.id ≠ b → p.id ≠ m.next → p.id ∉ tl.toList → h2 p = m.heap p) := by
  have hs := hi.shape
  obtain ⟨hfr', vf, hvf, hE⟩ := lookupR_some hr
  have hfl : f ∈ tl.toList := hs.mem_right.1 hfr'
  have hfn : f ≠ m.next := hs.ne_next hfl
  obtain ⟨he, hs1, hfr1⟩ := forwarding_insert_accept hi key default true
    (by omega : m.size b < fuel) (Or.inl rfl)
  have hmemL := Tree.ins_mem (goL m b key) m.next tl
  have hf1 : f ∈ (tl.ins (goL m b key) m.next).toList := (hmemL f).2 (Or.inr hfl)
  obtain ⟨h2, tl2, tr2, he2, hs2, e1, e2, hfr2⟩ := erase_right_spec hs1 hf1
    (by rw [attached_size]; omega : _ < fuel)
  have hn2 : m.next ∈ tl2.toList := by
    rw [e1]
    exact (List.mem_erase_of_ne (Ne.symm hfn)).2 ((hmemL _).2 (Or.inl rfl))
  refine ⟨h2, tl2, tr2, ?_, ⟨hs2, hi.swoL, hi.swoR, ?_, ?_⟩, e1, e2, ?_⟩
  · have hrv : ((m.attached b tl tr key default).erased b f h2).rval m.next = some default := by
      simp [Mem.erased, Ne.symm hfn, attached_rval_new]
    simp only [at_left_or_default, find_left_spec hi key (by omega : m.size b < fuel), hl,
      find_right_spec hi default (by omega : m.size b < fuel), hr]
    simp [end_left, end_right, end_node, left_sentinel, right_sentinel, hs.ne_self hfl, he, he2,
      flip_node hs2.repL hn2, Side.opp, deref_right, get_over_right_mk, hrv]
  · -- the left tree: an ordinary insertion, then a removal
    rw [e1]
    have hsl : (tl.ins (goL m b key) m.next).toList.Pairwise
        (VLt (m.cmpL b) (m.attached b tl tr key default).lval) := by
      rw [toList_ins_left hi]
      exact sorted_insert hi.swoL hi.sortedL hs.valL key hs.next_not_mem
        (attached_lval_new m b tl tr key default)
        (fun x hx => attached_lval_old m b tl tr key default (hs.ne_next hx))
        (lookupL_eq_none hl)
    refine sorted_erase hsl f ?_
    intro y hy
    have := (mem_erase_nodup hs1.repL.nodup hy).2
    simp [Mem.erased, this]
  · -- the right tree: the new node takes the place of the erased one
    rw [e2, toList_ins_right hi]
    obtain ⟨A, B, hsplit⟩ := List.append_of_mem hfr'
    have hsorted := hi.sortedR
    rw [hsplit] at hsorted
    have hE' : equiv (m.cmpR b) vf default = true := hE
    obtain ⟨f1, f2⟩ := filter_dup hi.swoR hsorted hvf hE'
    have hnd := hs.repR.nodup
    rw [hsplit] at hnd
    have hfA : f ∉ A := fun hm => List.disjoint_of_nodup_append hnd hm (by simp)
    have hlist : (List.filter (fun y => !goR m b default y) tr.toList ++
        m.next :: List.filter (goR m b default) tr.toList).erase f = A ++ m.next :: B := by
      rw [hsplit]
      show (List.filter (fun y => !onVal m.rval (fun v => m.cmpR b default v) y) (A ++ f :: B) ++
        m.next :: List.filter (onVal m.rval (fun v => m.cmpR b default v)) (A ++ f :: B)).erase f
          = _
      rw [f1, f2, List.append_assoc, List.erase_append_right _ hfA]
      simp
    rw [hlist]
    refine sorted_replace hi.swoR hsorted hvf hE' (n := m.next) ?_ ?_
    · simp [Mem.erased, Ne.symm hfn, attached_rval_new]
    · intro x hx
      have hxr : x ∈ tr.toList := by
        rw [hsplit]
        rcases List.mem_append.1 hx with e | e
        · simp [e]
        · simp [e]
      have hxf : x ≠ f := by
        intro e
        subst e
        rcases List.mem_append.1 hx with e | e
        · exact hfA e
        · exact (List.nodup_cons.1 (List.nodup_append.1 hnd).2.1).1 e
      have hxn : x ≠ m.next := hs.ne_next (hs.mem_right.1 hxr)
      simp [Mem.erased, hxf, attached_rval_old m b tl tr key default hxn]
  · intro p hp1 hp2 hp3
    rw [hfr2 p hp1 (fun hm => by
      rcases (hmemL _).1 hm with e | e
      · exact hp2 e
      · exact hp3 e)]
    exact hfr1 p hp2 hp1 hp3

end bimap

section bimap
variable {α β : Type}

/-- The method `at_right_or_default` when the key is stored: nothing changes. -/
theorem at_right_or_default_found [Inhabited α] {m : Mem α β} {b : Nat} {tl tr : Tree}
    (hi : Inv m b tl tr) (key : β) {fuel : Nat} (hf : m.size b < fuel) {x : Nat}
    (hr : lookupR m b tr key = some x) :
    ∃ l, m.lval x = some l ∧ at_right_or_default fuel m b key = some (m, l) := by
  obtain ⟨hx, -⟩ := lookupR_some hr
  have hx' := hi.shape.mem_right.1 hx
  obtain ⟨l, hl⟩ := hi.shape.valL x hx'
  refine ⟨l, hl, ?_⟩
  simp [at_right_or_default, find_right_spec hi key hf, hr, node_ne_end_right hi.shape hx',
    flip_node hi.shape.repR hx, Side.opp, deref_left, get_over_left_mk, hl]

/-- The method `at_right_or_default` when neither the key nor the default value
is stored: an ordinary insertion of `(default, key)`. -/
theorem at_right_or_default_fresh [Inhabited α] {m : Mem α β} {b : Nat} {tl tr : Tree}
    (hi : Inv m b tl tr) (key : β) {fuel : Nat} (hf : m.size b < fuel)
    (hr : lookupR m b tr key = none) (hl : lookupL m b tl default = none) :
    at_right_or_default fuel m b key = some (m.attached b tl tr default key, default) ∧
    Inv (m.attached b tl tr default key) b (tl.ins (goL m b default) m.next)
      (tr.ins (goR m b key) m.next) ∧
    (∀ p : Ptr, p.id ≠ m.next → p.id ≠ b → p.id ∉ tl.toList →
      (m.attached b tl tr default key).heap p = m.heap p) := by
  obtain ⟨he, hs1, hfr⟩ := forwarding_insert_accept hi default key false hf (Or.inr ⟨hl, hr⟩)
  refine ⟨?_, insert_inv hi default key hs1 hl hr, hfr⟩
  simp [at_right_or_default, find_left_spec hi default hf, hl, find_right_spec hi key hf, hr,
    end_left, end_right, end_node, left_sentinel, right_sentinel, insert, he,
    deref_left, get_over_left_mk, attached_lval_new]

/-- The method `at_right_or_default` when the key is absent and the node `f`
holds the default value: `(default, key)` is attached and `f` is erased. -/
theorem at_right_or_default_relocate [Inhabited α] {m : Mem α β} {b : Nat} {tl tr : Tree}
    (hi : Inv m b tl tr) (key : β) {fuel : Nat} (hf : m.size b + 2 < fuel)
    (hr : lookupR m b tr key = none) {f : Nat} (hl : lookupL m b tl default = some f) :
    ∃ h2 tl2 tr2, at_right_or_default fuel m b key =
        some ((m.attached b tl tr default key).erased b f h2, default) ∧
      Inv ((m.attached b tl tr default key).erased b f h2) b tl2 tr2 ∧
      tl2.toList = (tl.ins (goL m b default) m.next).toList.erase f ∧
      tr2.toList = (tr.ins (goR m b key) m.next).toList.erase f ∧
      (∀ p : Ptr, p.id ≠ b → p.id ≠ m.next → p.id ∉ tl.toList → h2 p = m.heap p) := by
  have hs := hi.shape
  obtain ⟨hfl, vf, hvf, hE⟩ := lookupL_some hl
  have hfn : f ≠ m.next := hs.ne_next hfl
  obtain ⟨he, hs1, hfr1⟩ := forwarding_insert_accept hi default key true
    (by omega : m.size b < fuel) (Or.inl rfl)
  have hmemL := Tree.ins_mem (goL m b default) m.next tl
  have hf1 : f ∈ (tl.ins (goL m b default) m.next).toList := (hmemL f).2 (Or.inr hfl)
  obtain ⟨h2, tl2, tr2, he2, hs2, e1, e2, hfr2⟩ := erase_left_spec hs1 hf1
    (by rw [attached_size]; omega : _ < fuel)
  refine ⟨h2, tl2, tr2, ?_, ⟨hs2, hi.swoL, hi.swoR, ?_, ?_⟩, e1, e2, ?_⟩
  · have hlv : ((m.attached b tl tr default key).erased b f h2).lval m.next = some default := by
      simp [Mem.erased, Ne.symm hfn, attached_lval_new]
    simp only [at_right_or_default, find_left_spec hi default (by omega : m.size b < fuel), hl,
      find_right_spec hi key (by omega : m.size b < fuel), hr]
    simp [end_left, end_right, end_node, left_sentinel, right_sentinel, hs.ne_self hfl, he, he2,
      deref_left, get_over_left_mk, hlv]
  · -- the left tree: the new node takes the place of the erased one
    rw [e1, toList_ins_left hi]
    obtain ⟨A, B, hsplit⟩ := List.append_of_mem hfl
    have hsorted := hi.sortedL
    rw [hsplit] at hsorted
    have hE' : equiv (m.cmpL b) vf default = true := hE
    obtain ⟨f1, f2⟩ := filter_dup hi.swoL hsorted hvf hE'
    have hnd := hs.repL.nodup
    rw [hsplit] at hnd
    have hfA : f ∉ A := fun hm => List.disjoint_of_nodup_append hnd hm (by simp)
    have hlist : (List.filter (fun y => !goL m b default y) tl.toList ++
        m.next :: List.filter (goL m b default) tl.toList).erase f = A ++ m.next :: B := by
      rw [hsplit]
      show (List.filter (fun y => !onVal m.lval (fun v => m.cmpL b default v) y) (A ++ f :: B) ++
        m.next :: List.filter (onVal m.lval (fun v => m.cmpL b default v)) (A ++ f :: B)).erase f
          = _
      rw [f1, f2, List.append_assoc, List.erase_append_right _ hfA]
      simp
    rw [hlist]
    refine sorted_replace hi.swoL hsorted hvf hE' (n := m.next) ?_ ?_
    · simp [Mem.erased, Ne.symm hfn, attached_lval_new]
    · intro x hx
      have hxl : x ∈ tl.toList := by
        rw [hsplit]
        rcases List.mem_append.1 hx with e | e
        · simp [e]
        · simp [e]
      have hxf : x ≠ f := by
        intro e
        subst e
        rcases List.mem_append.1 hx with e | e
        · exact hfA e
        · exact (List.nodup_cons.1 (List.nodup_append.1 hnd).2.1).1 e
      have hxn : x ≠ m.next := hs.ne_next hxl
      simp [Mem.erased, hxf, attached_lval_old m b tl tr default key hxn]
  · -- the right tree: an ordinary insertion, then a removal
    rw [e2]
    have hsr : (tr.ins (goR m b key) m.next).toList.Pairwise
        (VLt (m.cmpR b) (m.attached b tl tr default key).rval) := by
      rw [toList_ins_right hi]
      exact sorted_insert hi.swoR hi.sortedR hs.valR_right key
        (fun hm => hs.next_not_mem (hs.mem_right.1 hm))
        (attached_rval_new m b tl tr default key)
        (fun x hx => attached_rval_old m b tl tr default key (hs.ne_next (hs.mem_right.1 hx)))
        (lookupR_eq_none hr)
    refine sorted_erase hsr f ?_
    intro y hy
    have := (mem_erase_nodup hs1.repR.nodup hy).2
    simp [Mem.erased, this]
  · intro p hp1 hp2 hp3
    rw [hfr2 p hp1 (fun hm => by
      rcases (hmemL _).1 hm with e | e
      · exact hp2 e
      · exact hp3 e)]
    exact hfr1 p hp2 hp1 hp3

end bimap

section world
variable {α β : Type}

/-- A step that touched only the object `b` keeps the invariant of the memory. -/
theorem WInv.step {m m1 : Mem α β} {live : List Nat} {TL TR : Nat → Tree} {b : Nat}
    {tl1 tr1 : Tree} (hw : WInv m live TL TR) (hb : b ∈ live) (hi1 : Inv m1 b tl1 tr1)
    (hfr : FrameOf m m1 b (TL b).toList)
    (hids : ∀ y ∈ tl1.toList, y ∈ (TL b).toList ∨ m.next ≤ y) :
    WInv m1 live (Function.update TL b tl1) (Function.update TR b tr1) := by
  have hlt : ∀ c ∈ live, c < m.next := fun c hc => (hw.inv c hc).shape.self_lt
  have hltn : ∀ c ∈ live, ∀ y ∈ (TL c).toList, y < m.next :=
    fun c hc y hy => (hw.inv c hc).shape.lt_next y hy
  refine ⟨hw.nodup, ?_, ?_, ?_⟩
  · intro c hc
    by_cases hcb : c = b
    · subst hcb; simpa using hi1
    · simp only [Function.update_noteq hcb]
      refine (hw.inv c hc).congr_inv (hfr c _ (hlt c hc) hcb (hw.notin b hb c hc) ?_)
      intro y hy
      exact ⟨hltn c hc y hy, fun e => hw.notin c hc b hb (e ▸ hy),
        fun hm => hw.disj b hb c hc (Ne.symm hcb) y hm hy⟩
  · intro c hc d hd
    by_cases hcb : c = b
    · subst hcb
      simp only [Function.update_same]
      intro hm
      rcases hids d hm with e | e
      · exact hw.notin c hc d hd e
      · have := hlt d hd; omega
    · simp only [Function.update_noteq hcb]
      exact hw.notin c hc d hd
  · intro c hc d hd hcd y hy
    by_cases hcb : c = b
    · subst hcb
      have hdb : d ≠ c := Ne.symm hcd
      simp only [Function.update_same] at hy
      simp only [Function.update_noteq hdb]
      intro hm
      rcases hids y hy with e | e
      · exact hw.disj c hc d hd hcd y e hm
      · have := hltn d hd y hm; omega
    · simp only [Function.update_noteq hcb] at hy
      by_cases hdb : d = b
      · subst hdb
        simp only [Function.update_same]
        intro hm
        rcases hids y hm with e | e
        · exact hw.disj c hc d hd hcd y hy e
        · have := hltn c hc y hy; omega
      · simp only [Function.update_noteq hdb]
        exact hw.disj c hc d hd hcd y hy

theorem WInv.same {m : Mem α β} {live : List Nat} {TL TR : Nat → Tree} {b : Nat}
    (hw : WInv m live TL TR) :
    WInv m live (Function.update TL b (TL b)) (Function.update TR b (TR b)) := by
  simpa using hw

/-- The constructor makes an empty object and leaves the others alone. -/
theorem construct_inv {m : Mem α β} {live : List Nat} {TL TR : Nat → Tree}
    (hw : WInv m live TL TR) (hnext : ∀ c ∈ live, c < m.next) {cl : α → α → Bool}
    {cr : β → β → Bool} (hl : StrictWeakOrder cl) (hr : StrictWeakOrder cr) :
    WInv (construct m cl cr).1 ((construct m cl cr).2 :: live)
      (Function.update TL m.next .nil) (Function.update TR m.next .nil) := by
  have hlive : m.next ∉ live := fun hm => by have := hnext _ hm; omega
  have hheap : ∀ p : Ptr, p.id ≠ m.next → (construct m cl cr).1.heap p = m.heap p := by
    intro p hp
    have e1 : p ≠ ⟨.left, m.next⟩ := fun e => hp (by rw [e])
    have e2 : p ≠ ⟨.right, m.next⟩ := fun e => hp (by rw [e])
    simp [construct, link_sets, set_service, left_sentinel, right_sentinel, Heap.set_left, clear,
      e1, e2]
  have hnew : Inv (construct m cl cr).1 m.next .nil .nil := by
    refine ⟨⟨?_, ?_, ?_, ?_, List.Perm.refl _, ?_, ?_, ?_, ?_, ?_⟩, ?_, ?_, ?_, ?_⟩
    · refine ⟨?_, ?_, ?_, trivial, List.nodup_nil, by simp [Tree.toList]⟩
      · simp [construct, link_sets, set_service, left_sentinel, right_sentinel, Heap.set_left,
          clear, node_base.null]
      · simp [construct, link_sets, set_service, left_sentinel, right_sentinel, Heap.set_left,
          clear, node_base.null]
      · intro x
        simp [construct, link_sets, set_service, left_sentinel, right_sentinel, Heap.set_left,
          clear, node_base.null]
    · refine ⟨?_, ?_, ?_, trivial, List.nodup_nil, by simp [Tree.toList]⟩
      · simp [construct, link_sets, set_service, left_sentinel, right_sentinel, Heap.set_left,
          clear, node_base.null]
      · simp [construct, link_sets, set_service, left_sentinel, right_sentinel, Heap.set_left,
          clear, node_base.null]
      · intro x
        simp [construct, link_sets, set_service, left_sentinel, right_sentinel, Heap.set_left,
          clear, node_base.null]
    · simp [construct, link_sets, set_service, left_sentinel, right_sentinel, Heap.set_left,
        clear, node_base.null]
    · simp [construct, link_sets, set_service, left_sentinel, right_sentinel, Heap.set_left,
        clear, node_base.null]
    · simp [construct, Tree.toList]
    · intro x hx; simp [Tree.toList] at hx
    · simp [construct]
    · intro x hx; simp [Tree.toList] at hx
    · intro x hx; simp [Tree.toList] at hx
    · simpa [construct] using hl
    · simpa [construct] using hr
    · simp [Tree.toList]
    · simp [Tree.toList]
  have hold : ∀ c ∈ live, Inv (construct m cl cr).1 c (TL c) (TR c) := by
    intro c hc
    have hcn : c ≠ m.next := fun e => hlive (e ▸ hc)
    refine (hw.inv c hc).congr_inv ⟨?_, fun _ _ => rfl, fun _ _ => rfl, ?_, ?_, ?_, ?_⟩
    · intro p hp
      apply hheap
      rcases hp with e | e
      · rw [e]; exact hcn
      · have := (hw.inv c hc).shape.lt_next _ e; omega
    · simp [construct, hcn]
    · simp [construct, hcn]
    · simp [construct, hcn]
    · simp [construct]
  refine ⟨List.nodup_cons.2 ⟨hlive, hw.nodup⟩, ?_, ?_, ?_⟩
  · intro c hc
    rcases List.mem_cons.1 hc with e | e
    · subst e; simpa [construct] using hnew
    · have hcn : c ≠ m.next := fun e2 => hlive (e2 ▸ e)
      simp only [Function.update_noteq hcn]
      exact hold c e
  · intro c hc d hd
    rcases List.mem_cons.1 hc with e | e
    · subst e; simp [construct, Tree.toList]
    · have hcn : c ≠ m.next := fun e2 => hlive (e2 ▸ e)
      simp only [Function.update_noteq hcn]
      rcases List.mem_cons.1 hd with e2 | e2
      · subst e2
        intro hm
        have := (hw.inv c e).shape.lt_next _ hm
        simp [construct] at this
      · exact hw.notin c e d e2
  · intro c hc d hd hcd y hy
    rcases List.mem_cons.1 hc with e | e
    · subst e; simp [construct, Tree.toList] at hy
    · have hcn : c ≠ m.next := fun e2 => hlive (e2 ▸ e)
      simp only [Function.update_noteq hcn] at hy
      rcases List.mem_cons.1 hd with e2 | e2
      · subst e2; simp [construct, Tree.toList]
      · have hdn : d ≠ m.next := fun e3 => hlive (e3 ▸ e2)
        simp only [Function.update_noteq hdn]
        exact hw.disj c e d e2 hcd y hy

end world

section bimap
variable {α β : Type}

theorem erased_size (m : Mem α β) (b x : Nat) (h2 : Heap) :
    (m.erased b x h2).size b = m.size b - 1 := by
  simp [Mem.erased]

theorem headPtr_ne_of_nodup {s : Side} {b y : Nat} {S : List Nat} (hyb : y ≠ b) (hyS : y ∉ S) :
    (some ⟨s, y⟩ : NPtr) ≠ some (headPtr s b S) := by
  cases S with
  | nil => simp [headPtr, hyb]
  | cons a S =>
    simp only [headPtr, ne_eq, Option.some.injEq, Ptr.mk.injEq, true_and]
    intro e; exact hyS (by simp [e])

/-- The loop of `erase_left(first, last)` on a segment of the left traversal
removes exactly the nodes of the segment. -/
theorem erase_left_range_loop_spec {m : Mem α β} {b : Nat} {tl tr : Tree} (hi : Inv m b tl tr)
    {inner : Nat} (hin : m.size b + 1 < inner) (P M S : List Nat)
    (hsplit : tl.toList = P ++ M ++ S) {fuel : Nat} (hf : M.length < fuel) :
    ∃ m1 tl1 tr1, erase_left_range_loop inner fuel m b (some (headPtr .left b (M ++ S)))
        (some (headPtr .left b S)) = some m1 ∧
      Inv m1 b tl1 tr1 ∧ tl1.toList = P ++ S ∧ FrameOf m m1 b tl.toList ∧
      m1.next = m.next ∧ m1.size b = m.size b - M.length ∧
      (∀ y ∈ P ++ S, m1.lval y = m.lval y ∧ m1.rval y = m.rval y) := by
  induction M generalizing m tl tr fuel with
  | nil =>
    obtain ⟨f, rfl⟩ : ∃ g, fuel = g + 1 := ⟨fuel - 1, by omega⟩
    exact ⟨m, tl, tr, by simp [erase_left_range_loop], hi, by simpa using hsplit,
      FrameOf.refl _ _ _, rfl, by simp, fun _ _ => ⟨rfl, rfl⟩⟩
  | cons y M ih =>
    obtain ⟨f, rfl⟩ : ∃ g, fuel = g + 1 := ⟨fuel - 1, by omega⟩
    have hs := hi.shape
    have hy : y ∈ tl.toList := by rw [hsplit]; simp
    have hnd := hs.repL.nodup
    rw [hsplit] at hnd
    have hnd' : (P ++ y :: (M ++ S)).Nodup := by simpa using hnd
    have hyS : y ∉ S := by
      intro hm
      have := (List.nodup_append.1 hnd').2.1
      exact (List.nodup_cons.1 this).1 (by simp [hm])
    obtain ⟨h2, tl1, tr1, he, hi1, e1, e2, hfr⟩ :=
      erase_left_inv hi hy hin
    have hsucc : succPtr .left b tl.toList y = headPtr .left b (M ++ S) := by
      rw [hsplit]
      have : P ++ (y :: M) ++ S = P ++ y :: (M ++ S) := by simp
      rw [this]
      exact succPtr_split .left b hnd'
    have hsplit1 : tl1.toList = P ++ M ++ S := by
      rw [e1, hsplit]
      have : P ++ (y :: M) ++ S = P ++ ([] ++ y :: (M ++ S)) ++ [] := by simp
      rw [this, erase_eq_of_nodup (by simpa using hnd')]
      simp
    obtain ⟨m1, tl2, tr2, he2, hi2, e3, hfr2, hn2, hsz2, hv2⟩ := ih hi1
      (by rw [erased_size]; omega) hsplit1 (by simp at hf; omega : _ < f)
    have hfr1 : FrameOf m (m.erased b y h2) b tl.toList := erased_frame hy hfr
    refine ⟨m1, tl2, tr2, ?_, hi2, e3, ?_, by rw [hn2]; rfl, ?_, ?_⟩
    · have e : headPtr .left b ((y :: M) ++ S) = ⟨.left, y⟩ := rfl
      rw [e]
      simp only [erase_left_range_loop, if_neg (headPtr_ne_of_nodup (hs.ne_self hy) hyS), he,
        hsucc]
      exact he2
    · refine hfr1.trans hfr2 (le_refl _) ?_
      intro z hz
      rw [e1] at hz
      exact Or.inl (List.mem_of_mem_erase hz)
    · rw [hsz2, erased_size]; simp; omega
    · intro z hz
      obtain ⟨a1, a2⟩ := hv2 z hz
      have hzy : z ≠ y := by
        intro e
        subst e
        rcases List.mem_append.1 hz with e | e
        · exact List.disjoint_of_nodup_append hnd' e (by simp)
        · exact hyS e
      rw [a1, a2]
      simp [Mem.erased, hzy]

/-- The loop of `erase_right(first, last)` on a segment of the right traversal
removes exactly the nodes of the segment. -/
theorem erase_right_range_loop_spec {m : Mem α β} {b : Nat} {tl tr : Tree} (hi : Inv m b tl tr)
    {inner : Nat} (hin : m.size b + 1 < inner) (P M S : List Nat)
    (hsplit : tr.toList = P ++ M ++ S) {fuel : Nat} (hf : M.length < fuel) :
    ∃ m1 tl1 tr1, erase_right_range_loop inner fuel m b (some (headPtr .right b (M ++ S)))
        (some (headPtr .right b S)) = some m1 ∧
      Inv m1 b tl1 tr1 ∧ tr1.toList = P ++ S ∧ FrameOf m m1 b tl.toList ∧
      m1.next = m.next ∧ m1.size b = m.size b - M.length ∧
      (∀ y ∈ tl1.toList, y ∈ tl.toList) ∧
      (∀ y ∈ P ++ S, m1.lval y = m.lval y ∧ m1.rval y = m.rval y) := by
  induction M generalizing m tl tr fuel with
  | nil =>
    obtain ⟨f, rfl⟩ : ∃ g, fuel = g + 1 := ⟨fuel - 1, by omega⟩
    exact ⟨m, tl, tr, by simp [erase_right_range_loop], hi, by simpa using hsplit,
      FrameOf.refl _ _ _, rfl, by simp, fun _ h => h, fun _ _ => ⟨rfl, rfl⟩⟩
  | cons y M ih =>
    obtain ⟨f, rfl⟩ : ∃ g, fuel = g + 1 := ⟨fuel - 1, by omega⟩
    have hs := hi.shape
    have hyr : y ∈ tr.toList := by rw [hsplit]; simp
    have hy : y ∈ tl.toList := hs.mem_right.1 hyr
    have hnd := hs.repR.nodup
    rw [hsplit] at hnd
    have hnd' : (P ++ y :: (M ++ S)).Nodup := by simpa using hnd
    have hyS : y ∉ S := by
      intro hm
      have := (List.nodup_append.1 hnd').2.1
      exact (List.nodup_cons.1 this).1 (by simp [hm])
    obtain ⟨h2, tl1, tr1, he, hi1, e1, e2, hfr⟩ := erase_right_inv hi hy hin
    have hsucc : succPtr .right b tr.toList y = headPtr .right b (M ++ S) := by
      rw [hsplit]
      have : P ++ (y :: M) ++ S = P ++ y :: (M ++ S) := by simp
      rw [this]
      exact succPtr_split .right b hnd'
    have hsplit1 : tr1.toList = P ++ M ++ S := by
      rw [e2, hsplit]
      have : P ++ (y :: M) ++ S = P ++ ([] ++ y :: (M ++ S)) ++ [] := by simp
      rw [this, erase_eq_of_nodup (by simpa using hnd')]
      simp
    obtain ⟨m1, tl2, tr2, he2, hi2, e3, hfr2, hn2, hsz2, hsub2, hv2⟩ := ih hi1
      (by rw [erased_size]; omega) hsplit1 (by simp at hf; omega : _ < f)
    have hfr1 : FrameOf m (m.erased b y h2) b tl.toList := erased_frame hy hfr
    refine ⟨m1, tl2, tr2, ?_, hi2, e3, ?_, by rw [hn2]; rfl, ?_, ?_, ?_⟩
    · have e : headPtr .right b ((y :: M) ++ S) = ⟨.right, y⟩ := rfl
      rw [e]
      simp only [erase_right_range_loop, if_neg (headPtr_ne_of_nodup (hs.ne_self hy) hyS), he,
        hsucc]
      exact he2
    · refine hfr1.trans hfr2 (le_refl _) ?_
      intro z hz
      rw [e1] at hz
      exact Or.inl (List.mem_of_mem_erase hz)
    · rw [hsz2, erased_size]; simp; omega
    · intro z hz
      have := hsub2 z hz
      rw [e1] at this
      exact List.mem_of_mem_erase this
    · intro z hz
      obtain ⟨a1, a2⟩ := hv2 z hz
      have hzy : z ≠ y := by
        intro e
        subst e
        rcases List.mem_append.1 hz with e | e
        · exact List.disjoint_of_nodup_append hnd' e (by simp)
        · exact hyS e
      rw [a1, a2]
      simp [Mem.erased, hzy]

theorem headD_map_ptr (s : Side) (b : Nat) (L : List Nat) :
    (L.map (fun x => (some ⟨s, x⟩ : NPtr))).headD (some ⟨s, b⟩) = some (headPtr s b L) := by
  cases L <;> rfl

theorem split_map_ptr {s : Side} {L : List Nat} {c1 c2 c3 : List NPtr}
    (h : L.map (fun x => (some ⟨s, x⟩ : NPtr)) = c1 ++ c2 ++ c3) :
    ∃ P M S, L = P ++ M ++ S ∧ c1 = P.map (fun x => some ⟨s, x⟩) ∧
      c2 = M.map (fun x => some ⟨s, x⟩) ∧ c3 = S.map (fun x => some ⟨s, x⟩) := by
  rw [List.map_eq_append_iff] at h
  obtain ⟨PM, S, e1, e2, e3⟩ := h
  rw [List.map_eq_append_iff] at e2
  obtain ⟨P, M, e4, e5, e6⟩ := e2
  exact ⟨P, M, S, by rw [e1, e4], e5.symm, e6.symm, e3.symm⟩

/-- The method `erase_left(first, last)` on a segment of the left traversal. -/
theorem erase_left_range_spec {m : Mem α β} {b : Nat} {tl tr : Tree} (hi : Inv m b tl tr)
    {fuel : Nat} (hf : m.size b + 1 < fuel) {before range after : List NPtr}
    (hcs : left_cursors fuel m b = some (before ++ range ++ after)) :
    ∃ m1 tl1 tr1, erase_left_range fuel m b ((range ++ after).headD (end_left b))
        (after.headD (end_left b)) = some (m1, after.headD (end_left b)) ∧
      Inv m1 b tl1 tr1 ∧ FrameOf m m1 b tl.toList ∧ (∀ y ∈ tl1.toList, y ∈ tl.toList) ∧
      m1.next = m.next ∧ m1.size b + range.length = m.size b := by
  rw [left_cursors_spec hi.shape (by omega)] at hcs
  obtain ⟨P, M, S, hsplit, -, rfl, rfl⟩ := split_map_ptr (Option.some.inj hcs)
  have hlen : M.length ≤ m.size b := by
    rw [hi.shape.size_eq, hsplit]; simp; omega
  obtain ⟨m1, tl1, tr1, he, hi1, e1, hfr, hn, hsz, -⟩ :=
    erase_left_range_loop_spec hi hf P M S hsplit (by omega : _ < fuel)
  refine ⟨m1, tl1, tr1, ?_, hi1, hfr, ?_, hn, ?_⟩
  · rw [← List.map_append]
    simp only [end_left, end_node, left_sentinel, headD_map_ptr, erase_left_range, he]
  · intro y hy
    rw [e1] at hy
    rw [hsplit]
    rcases List.mem_append.1 hy with e | e
    · simp [e]
    · simp [e]
  · rw [hsz, List.length_map]; omega

/-- The method `erase_right(first, last)` on a segment of the right traversal. -/
theorem erase_right_range_spec {m : Mem α β} {b : Nat} {tl tr : Tree} (hi : Inv m b tl tr)
    {fuel : Nat} (hf : m.size b + 1 < fuel) {before range after : List NPtr}
    (hcs : right_cursors fuel m b = some (before ++ range ++ after)) :
    ∃ m1 tl1 tr1, erase_right_range fuel m b ((range ++ after).headD (end_right b))
        (after.headD (end_right b)) = some (m1, after.headD (end_right b)) ∧
      Inv m1 b tl1 tr1 ∧ FrameOf m m1 b tl.toList ∧ (∀ y ∈ tl1.toList, y ∈ tl.toList) ∧
      m1.next = m.next ∧ m1.size b + range.length = m.size b := by
  rw [right_cursors_spec hi.shape (by omega)] at hcs
  obtain ⟨P, M, S, hsplit, -, rfl, rfl⟩ := split_map_ptr (Option.some.inj hcs)
  have hlen : M.length ≤ m.size b := by
    rw [hi.shape.size_eq, hi.shape.perm.length_eq, hsplit]; simp; omega
  obtain ⟨m1, tl1, tr1, he, hi1, e1, hfr, hn, hsz, hsub, -⟩ :=
    erase_right_range_loop_spec hi hf P M S hsplit (by omega : _ < fuel)
  refine ⟨m1, tl1, tr1, ?_, hi1, hfr, hsub, hn, ?_⟩
  · rw [← List.map_append]
    simp only [end_right, end_node, right_sentinel, headD_map_ptr, erase_right_range, he]
  · rw [hsz, List.length_map]; omega

/-- The destructor erases every node of the object. -/
theorem destroy_spec {m : Mem α β} {b : Nat} {tl tr : Tree} (hi : Inv m b tl tr)
    {fuel : Nat} (hf : m.size b + 1 < fuel) :
    ∃ m1, destroy fuel m b = some m1 ∧ Inv m1 b .nil .nil ∧ FrameOf m m1 b tl.toList ∧
      m1.next = m.next ∧ m1.size b = 0 := by
  have hcs := left_cursors_spec hi.shape (by omega : m.size b < fuel)
  have hcs' : left_cursors fuel m b =
      some ([] ++ tl.toList.map (fun x => (some ⟨.left, x⟩ : NPtr)) ++ []) := by simpa using hcs
  obtain ⟨m1, tl1, tr1, he, hi1, hfr, hsub, hn, hsz⟩ := erase_left_range_spec hi hf hcs'
  have hb := begin_node_spec hi.shape.repL hi.shape.linkL hi.shape.linkR
    (by rw [hi.shape.size_left]; omega : tl.size < fuel)
  have hsz0 : m1.size b = 0 := by
    rw [List.length_map, hi.shape.size_eq] at hsz; omega
  have hnil : tl1 = .nil := by
    have := hi1.shape.size_eq
    rw [hsz0] at this
    cases tl1 with
    | nil => rfl
    | node l x r => simp [Tree.toList] at this; omega
  have hnilr : tr1 = .nil := by
    have := hi1.shape.perm.length_eq
    rw [hnil] at this
    cases tr1 with
    | nil => rfl
    | node l x r => simp [Tree.toList] at this; omega
  subst hnil hnilr
  refine ⟨m1, ?_, hi1, hfr, hn, hsz0⟩
  simp only [destroy, begin_left, left_sentinel, hb]
  simp only [List.append_nil, end_left, end_node, left_sentinel, headD_map_ptr, List.headD_nil]
    at he
  simp [end_left, end_node, left_sentinel, he]

end bimap

theorem ptr_ne (s : Side) {x y : Nat} (h : x ≠ y) : (⟨s, x⟩ : Ptr) ≠ ⟨s, y⟩ :=
  fun e => h (congrArg Ptr.id e)

theorem reparent_sentinel_none {h : Heap} {n q : Ptr}
    (hp : (h n)._parent = none) (hr : (h n)._right = none) : reparent h n q = h := by
  have hs : is_sentinel h n = true := by simp [is_sentinel, hp]
  unfold reparent
  cases hl : (h n)._left <;> simp [hs, hr]

theorem reparent_sentinel_some {h : Heap} {n q r : Ptr}
    (hp : (h n)._parent = none) (hr : (h n)._right = some r) :
    reparent h n q = h.set_parent r (some q) := by
  have hs : is_sentinel h n = true := by simp [is_sentinel, hp]
  unfold reparent
  cases hl : (h n)._left <;> simp [hs, hr]

/-- On two sentinels `swap_nodes` exchanges the roots and the service links. -/
theorem swap_sentinels {h : Heap} {s : Side} {a c : Nat} {ta tc : Tree}
    (ha : SetRep h s a ta) (hc : SetRep h s c tc) (hac : a ≠ c)
    (hca : c ∉ ta.toList) (hat : a ∉ tc.toList) (hdisj : ∀ y ∈ ta.toList, y ∉ tc.toList) :
    swap_nodes h ⟨s, a⟩ ⟨s, c⟩ = some (swappedHeap h s a c ta tc) := by
  have hpa := ha.parent
  have hpc := hc.parent
  have hne : (⟨s, a⟩ : Ptr) ≠ ⟨s, c⟩ := by
    intro e; exact hac (congrArg Ptr.id e)
  simp only [swap_nodes, hpa, hpc, reduceCtorEq, if_false, ne_eq, not_true_eq_false, and_self]
  congr 1
  simp only [swap_nodes_tail]
  funext p
  cases ta with
  | nil =>
    rw [reparent_sentinel_none hpa ha.root]
    cases tc with
    | nil =>
      rw [reparent_sentinel_none hpc hc.root]
      simp only [Tree.rootPtr_nil, swappedHeap, reduceCtorEq, if_false]
      by_cases e1 : p = ⟨s, a⟩
      · subst e1
        simp [Heap.set_parent, Heap.set_left, Heap.set_right, hne, hc.root, hpc]
      · by_cases e2 : p = ⟨s, c⟩
        · subst e2
          simp [Heap.set_parent, Heap.set_left, Heap.set_right, Ne.symm hne, ha.root, hpa]
        · simp [Heap.set_parent, Heap.set_left, Heap.set_right, e1, e2]
    | node l x r =>
      have hxa : (⟨s, x⟩ : Ptr) ≠ ⟨s, a⟩ :=
        ptr_ne s (ne_of_mem_of_not_mem (Tree.mem_node_self _ _ _) hat)
      have hxc : (⟨s, x⟩ : Ptr) ≠ ⟨s, c⟩ :=
        ptr_ne s (ne_of_mem_of_not_mem (Tree.mem_node_self _ _ _) hc.notin)
      rw [reparent_sentinel_some hpc hc.root]
      simp only [Tree.rootPtr_nil, Tree.rootPtr_node, swappedHeap, reduceCtorEq, if_false]
      by_cases e1 : p = ⟨s, a⟩
      · subst e1
        simp [Heap.set_parent, Heap.set_left, Heap.set_right, hne, hc.root, hpc, Ne.symm hxa]
      · by_cases e2 : p = ⟨s, c⟩
        · subst e2
          simp [Heap.set_parent, Heap.set_left, Heap.set_right, Ne.symm hne, ha.root, hpa,
            Ne.symm hxc]
        · by_cases e3 : p = ⟨s, x⟩
          · subst e3
            simp [Heap.set_parent, Heap.set_left, Heap.set_right, e1, e2]
          · simp [Heap.set_parent, Heap.set_left, Heap.set_right, e1, e2, e3, Ne.symm e3]
  | node l x r =>
    have hxa : (⟨s, x⟩ : Ptr) ≠ ⟨s, a⟩ :=
        ptr_ne s (ne_of_mem_of_not_mem (Tree.mem_node_self _ _ _) ha.notin)
    have hxc : (⟨s, x⟩ : Ptr) ≠ ⟨s, c⟩ :=
        ptr_ne s (ne_of_mem_of_not_mem (Tree.mem_node_self _ _ _) hca)
    rw [reparent_sentinel_some hpa ha.root]
    have hc1 : (h.set_parent ⟨s, x⟩ (some ⟨s, c⟩) ⟨s, c⟩)._parent = none := by
      rw [set_parent_other _ _ _ _ (Ne.symm hxc)]; exact hpc
    have hc2 : (h.set_parent ⟨s, x⟩ (some ⟨s, c⟩) ⟨s, c⟩)._right = tc.rootPtr s := by
      rw [set_parent_other _ _ _ _ (Ne.symm hxc)]; exact hc.root
    cases tc with
    | nil =>
      rw [reparent_sentinel_none hc1 hc2]
      simp only [Tree.rootPtr_nil, Tree.rootPtr_node, swappedHeap, reduceCtorEq, if_false]
      by_cases e1 : p = ⟨s, a⟩
      · subst e1
        simp [Heap.set_parent, Heap.set_left, Heap.set_right, hne, hc.root, hpc, Ne.symm hxa]
      · by_cases e2 : p = ⟨s, c⟩
        · subst e2
          simp [Heap.set_parent, Heap.set_left, Heap.set_right, Ne.symm hne, ha.root, hpa,
            Ne.symm hxc]
        · by_cases e3 : p = ⟨s, x⟩
          · subst e3
            simp [Heap.set_parent, Heap.set_left, Heap.set_right, e1, e2]
          · simp [Heap.set_parent, Heap.set_left, Heap.set_right, e1, e2, e3, Ne.symm e3]
    | node l2 x2 r2 =>
      have hx2a : (⟨s, x2⟩ : Ptr) ≠ ⟨s, a⟩ :=
        ptr_ne s (ne_of_mem_of_not_mem (Tree.mem_node_self _ _ _) hat)
      have hx2c : (⟨s, x2⟩ : Ptr) ≠ ⟨s, c⟩ :=
        ptr_ne s (ne_of_mem_of_not_mem (Tree.mem_node_self _ _ _) hc.notin)
      have hxx0 : x ≠ x2 := Ne.symm (ne_of_mem_of_not_mem (Tree.mem_node_self _ _ _)
          (hdisj x (Tree.mem_node_self _ _ _)))
      have hxx : (⟨s, x⟩ : Ptr) ≠ ⟨s, x2⟩ := ptr_ne s hxx0
      rw [reparent_sentinel_some hc1 hc2]
      simp only [Tree.rootPtr_node, swappedHeap]
      by_cases e1 : p = ⟨s, a⟩
      · subst e1
        simp [Heap.set_parent, Heap.set_left, Heap.set_right, hne, hc.root, hpc, Ne.symm hxa,
          Ne.symm hx2a, Ne.symm hxc, Ne.symm hx2c]
      · by_cases e2 : p = ⟨s, c⟩
        · subst e2
          simp [Heap.set_parent, Heap.set_left, Heap.set_right, Ne.symm hne, ha.root, hpa,
            Ne.symm hxc, Ne.symm hx2c, Ne.symm hxa, Ne.symm hx2a]
        · by_cases e3 : p = ⟨s, x⟩
          · subst e3
            simp [Heap.set_parent, Heap.set_left, Heap.set_right, e1, e2, hxx, hxx0]
          · by_cases e4 : p = ⟨s, x2⟩
            · subst e4
              simp [Heap.set_parent, Heap.set_left, Heap.set_right, e1, e2, e3, Ne.symm hxx, hxx0]
            · simp [Heap.set_parent, Heap.set_left, Heap.set_right, e1, e2, e3, e4,
                Ne.symm e3, Ne.symm e4]

theorem swappedHeap_fst {h : Heap} {s : Side} {a c : Nat} {ta tc : Tree} :
    swappedHeap h s a c ta tc ⟨s, a⟩ = ⟨(h ⟨s, c⟩)._left, tc.rootPtr s, none⟩ := by
  simp [swappedHeap]

theorem swappedHeap_snd {h : Heap} {s : Side} {a c : Nat} {ta tc : Tree} (hac : a ≠ c) :
    swappedHeap h s a c ta tc ⟨s, c⟩ = ⟨(h ⟨s, a⟩)._left, ta.rootPtr s, none⟩ := by
  simp [swappedHeap, Ne.symm hac]

theorem swappedHeap_frame {h : Heap} {s : Side} {a c : Nat} {ta tc : Tree} {p : Ptr}
    (h1 : p ≠ ⟨s, a⟩) (h2 : p ≠ ⟨s, c⟩) (h3 : ta.rootPtr s ≠ some p)
    (h4 : tc.rootPtr s ≠ some p) : swappedHeap h s a c ta tc p = h p := by
  simp [swappedHeap, h1, h2, h3, h4]

theorem swappedHeap_side {h : Heap} {s : Side} {a c : Nat} {ta tc : Tree} {p : Ptr}
    (hp : p.over ≠ s) : swappedHeap h s a c ta tc p = h p := by
  apply swappedHeap_frame
  · intro e; exact hp (by rw [e])
  · intro e; exact hp (by rw [e])
  · intro e; exact hp (Tree.rootPtr_over e).1
  · intro e; exact hp (Tree.rootPtr_over e).1

theorem swappedHeap_ids {h : Heap} {s : Side} {a c : Nat} {ta tc : Tree} {p : Ptr}
    (h1 : p.id ≠ a) (h2 : p.id ≠ c) (h3 : p.id ∉ ta.toList) (h4 : p.id ∉ tc.toList) :
    swappedHeap h s a c ta tc p = h p := by
  apply swappedHeap_frame
  · intro e; exact h1 (by rw [e])
  · intro e; exact h2 (by rw [e])
  · intro e; exact h3 (Tree.rootPtr_over e).2
  · intro e; exact h4 (Tree.rootPtr_over e).2

/-- After the exchange the tree of `c` hangs below the sentinel of `a`. -/
theorem swappedHeap_wf_fst {h : Heap} {s : Side} {a c : Nat} {ta tc : Tree}
    (hc : SetRep h s c tc) (hat : a ∉ tc.toList) (hdisj : ∀ y ∈ ta.toList, y ∉ tc.toList) :
    Wf (swappedHeap h s a c ta tc) s tc ⟨s, a⟩ := by
  have hna : ∀ y ∈ tc.toList, (⟨s, y⟩ : Ptr) ≠ ⟨s, a⟩ :=
    fun y hy => ptr_ne s (ne_of_mem_of_not_mem hy hat)
  have hnc : ∀ y ∈ tc.toList, (⟨s, y⟩ : Ptr) ≠ ⟨s, c⟩ :=
    fun y hy => ptr_ne s (ne_of_mem_of_not_mem hy hc.notin)
  have hnr : ∀ y ∈ tc.toList, ta.rootPtr s ≠ some ⟨s, y⟩ :=
    fun y hy e => hdisj y (Tree.rootPtr_over e).2 hy
  refine hc.wf.reparent hc.nodup ?_ ?_
  · intro p hp
    obtain ⟨ho, hm⟩ := Tree.rootPtr_over hp
    obtain ⟨o, y⟩ := p
    simp only at ho hm
    subst ho
    simp [swappedHeap, hna y hm, hnc y hm, hnr y hm, hp]
  · intro y hy hroot
    exact swappedHeap_frame (hna y hy) (hnc y hy) (hnr y hy) hroot

/-- After the exchange the tree of `a` hangs below the sentinel of `c`. -/
theorem swappedHeap_wf_snd {h : Heap} {s : Side} {a c : Nat} {ta tc : Tree}
    (ha : SetRep h s a ta) (hca : c ∉ ta.toList) (hdisj : ∀ y ∈ ta.toList, y ∉ tc.toList) :
    Wf (swappedHeap h s a c ta tc) s ta ⟨s, c⟩ := by
  have hna : ∀ y ∈ ta.toList, (⟨s, y⟩ : Ptr) ≠ ⟨s, a⟩ :=
    fun y hy => ptr_ne s (ne_of_mem_of_not_mem hy ha.notin)
  have hnc : ∀ y ∈ ta.toList, (⟨s, y⟩ : Ptr) ≠ ⟨s, c⟩ :=
    fun y hy => ptr_ne s (ne_of_mem_of_not_mem hy hca)
  have hnr : ∀ y ∈ ta.toList, tc.rootPtr s ≠ some ⟨s, y⟩ :=
    fun y hy e => hdisj y hy (Tree.rootPtr_over e).2
  refine ha.wf.reparent ha.nodup ?_ ?_
  · intro p hp
    obtain ⟨ho, hm⟩ := Tree.rootPtr_over hp
    obtain ⟨o, y⟩ := p
    simp only at ho hm
    subst ho
    simp [swappedHeap, hna y hm, hnc y hm, hp]
  · intro y hy hroot
    exact swappedHeap_frame (hna y hy) (hnc y hy) hroot (hnr y hy)

theorem link_sets_left (h : Heap) (b : Nat) :
    link_sets h b ⟨.left, b⟩ = { h ⟨.left, b⟩ with _left := some ⟨.right, b⟩ } := by
  simp [link_sets, set_service, left_sentinel, right_sentinel, Heap.set_left]

theorem link_sets_right (h : Heap) (b : Nat) :
    link_sets h b ⟨.right, b⟩ = { h ⟨.right, b⟩ with _left := some ⟨.left, b⟩ } := by
  simp [link_sets, set_service, left_sentinel, right_sentinel, Heap.set_left]

theorem link_sets_other (h : Heap) (b : Nat) {p : Ptr} (hp : p.id ≠ b) :
    link_sets h b p = h p := by
  have e1 : p ≠ ⟨.left, b⟩ := fun e => hp (by rw [e])
  have e2 : p ≠ ⟨.right, b⟩ := fun e => hp (by rw [e])
  simp [link_sets, set_service, left_sentinel, right_sentinel, Heap.set_left, e1, e2]

section transfer
variable {α β : Type}

/-- The invariant of an object `a` whose sentinels hold the trees that
satisfied the invariant of `c`. -/
theorem Inv.transfer {m m1 : Mem α β} {a c : Nat} {tl tr : Tree} (hi : Inv m c tl tr)
    (hLs : m1.heap ⟨.left, a⟩ = ⟨some ⟨.right, a⟩, tl.rootPtr .left, none⟩)
    (hRs : m1.heap ⟨.right, a⟩ = ⟨some ⟨.left, a⟩, tr.rootPtr .right, none⟩)
    (hwL : Wf m1.heap .left tl ⟨.left, a⟩) (hwR : Wf m1.heap .right tr ⟨.right, a⟩)
    (ha : a ∉ tl.toList) (hsz : m1.size a = m.size c) (hcl : m1.cmpL a = m.cmpL c)
    (hcr : m1.cmpR a = m.cmpR c) (hlv : ∀ x ∈ tl.toList, m1.lval x = m.lval x)
    (hrv : ∀ x ∈ tl.toList, m1.rval x = m.rval x) (hn : m.next ≤ m1.next)
    (han : a < m1.next) : Inv m1 a tl tr := by
  have hs := hi.shape
  have har : a ∉ tr.toList := fun hm => ha (hs.mem_right.1 hm)
  refine ⟨⟨⟨by rw [hLs], by rw [hLs], ?_, hwL, hs.repL.nodup, ha⟩,
    ⟨by rw [hRs], by rw [hRs], ?_, hwR, hs.repR.nodup, har⟩, by rw [hLs], by rw [hRs], hs.perm,
    by rw [hsz]; exact hs.size_eq, fun x hx => lt_of_lt_of_le (hs.lt_next x hx) hn, han, ?_, ?_⟩,
    by rw [hcl]; exact hi.swoL, by rw [hcr]; exact hi.swoR, ?_, ?_⟩
  · intro x; rw [hLs]; simp
  · intro x; rw [hRs]; simp
  · intro x hx; rw [hlv x hx]; exact hs.valL x hx
  · intro x hx; rw [hrv x hx]; exact hs.valR x hx
  · rw [hcl]
    refine hi.sortedL.imp_of_mem ?_
    intro x y hx hy ⟨u, v, h1, h2, h3⟩
    exact ⟨u, v, by rw [hlv x hx]; exact h1, by rw [hlv y hy]; exact h2, h3⟩
  · rw [hcr]
    refine hi.sortedR.imp_of_mem ?_
    intro x y hx hy ⟨u, v, h1, h2, h3⟩
    exact ⟨u, v, by rw [hrv x (hs.mem_right.1 hx)]; exact h1,
      by rw [hrv y (hs.mem_right.1 hy)]; exact h2, h3⟩

/-- The invariant of an object whose two trees are empty. -/
theorem Inv.of_empty {m1 : Mem α β} {a : Nat}
    (hLs : m1.heap ⟨.left, a⟩ = ⟨some ⟨.right, a⟩, none, none⟩)
    (hRs : m1.heap ⟨.right, a⟩ = ⟨some ⟨.left, a⟩, none, none⟩)
    (hsz : m1.size a = 0) (hcl : StrictWeakOrder (m1.cmpL a)) (hcr : StrictWeakOrder (m1.cmpR a))
    (han : a < m1.next) : Inv m1 a .nil .nil := by
  refine ⟨⟨⟨by rw [hLs], by rw [hLs]; rfl, ?_, trivial, List.nodup_nil, by simp [Tree.toList]⟩,
    ⟨by rw [hRs], by rw [hRs]; rfl, ?_, trivial, List.nodup_nil, by simp [Tree.toList]⟩,
    by rw [hLs], by rw [hRs], List.Perm.refl _, by rw [hsz]; rfl, ?_, han, ?_, ?_⟩,
    hcl, hcr, by simp [Tree.toList], by simp [Tree.toList]⟩
  · intro x; rw [hLs]; simp
  · intro x; rw [hRs]; simp
  · intro x hx; simp [Tree.toList] at hx
  · intro x hx; simp [Tree.toList] at hx
  · intro x hx; simp [Tree.toList] at hx

end transfer

section swapping
variable {α β : Type}

theorem swapTrees_mem {T : Nat → Tree} {lhs rhs b y : Nat} (hne : lhs ≠ rhs)
    (hy : y ∈ (swapTrees T lhs rhs b).toList) :
    ∃ c, y ∈ (T c).toList ∧ (b = lhs → c = rhs) ∧ (b = rhs → c = lhs) ∧
      (b ≠ lhs → b ≠ rhs → c = b) := by
  unfold swapTrees at hy
  by_cases h1 : b = lhs
  · rw [if_pos h1] at hy
    exact ⟨rhs, hy, fun _ => rfl, fun e => absurd (h1.symm.trans e) hne, fun e => absurd h1 e⟩
  · rw [if_neg h1] at hy
    by_cases h2 : b = rhs
    · rw [if_pos h2] at hy
      exact ⟨lhs, hy, fun e => absurd e h1, fun _ => rfl, fun _ e => absurd h2 e⟩
    · rw [if_neg h2] at hy
      exact ⟨b, hy, fun e => absurd e h1, fun e => absurd e h2, fun _ _ => rfl⟩

/-- The friend function `swap` exchanges the contents of two distinct live
objects and keeps the invariant of the memory. -/
theorem swap_winv {m : Mem α β} {live : List Nat} {TL TR : Nat → Tree}
    (hw : WInv m live TL TR) {lhs rhs : Nat} (hl : lhs ∈ live) (hr : rhs ∈ live)
    (hne : lhs ≠ rhs) :
    ∃ m1, swap m lhs rhs = some m1 ∧
      WInv m1 live (swapTrees TL lhs rhs) (swapTrees TR lhs rhs) ∧
      m1.next = m.next ∧ m1.lval = m.lval ∧ m1.rval = m.rval ∧
      m1.size lhs = m.size rhs ∧ m1.size rhs = m.size lhs ∧
      (∀ b, b ≠ lhs → b ≠ rhs → m1.size b = m.size b) := by
  have hil := hw.inv lhs hl
  have hir := hw.inv rhs hr
  have hsl := hil.shape
  have hsr := hir.shape
  have d1 : rhs ∉ (TL lhs).toList := hw.notin lhs hl rhs hr
  have d2 : lhs ∉ (TL rhs).toList := hw.notin rhs hr lhs hl
  have d3 : ∀ y ∈ (TL lhs).toList, y ∉ (TL rhs).toList := hw.disj lhs hl rhs hr hne
  have d1r : rhs ∉ (TR lhs).toList := fun hm => d1 (hsl.mem_right.1 hm)
  have d2r : lhs ∉ (TR rhs).toList := fun hm => d2 (hsr.mem_right.1 hm)
  have d3r : ∀ y ∈ (TR lhs).toList, y ∉ (TR rhs).toList :=
    fun y hy hm => d3 y (hsl.mem_right.1 hy) (hsr.mem_right.1 hm)
  have hlr : Side.right ≠ Side.left := by decide
  have e1 := swap_sentinels hsl.repL hsr.repL hne d1 d2 d3
  have rl : SetRep (swappedHeap m.heap .left lhs rhs (TL lhs) (TL rhs)) .right lhs (TR lhs) :=
    hsl.repR.congr_rep (swappedHeap_side hlr) (fun x _ => swappedHeap_side hlr)
  have rr : SetRep (swappedHeap m.heap .left lhs rhs (TL lhs) (TL rhs)) .right rhs (TR rhs) :=
    hsr.repR.congr_rep (swappedHeap_side hlr) (fun x _ => swappedHeap_side hlr)
  have e2 := swap_sentinels rl rr hne d1r d2r d3r
  have hrl : Side.left ≠ Side.right := by decide
  refine ⟨m.swapped lhs rhs (link_sets (link_sets (swappedHeap (swappedHeap m.heap .left lhs rhs
    (TL lhs) (TL rhs)) .right lhs rhs (TR lhs) (TR rhs)) lhs) rhs),
    by simp only [swap, swap_set, left_sentinel, right_sentinel, e1, e2, Mem.swapped], ?_, rfl,
    rfl, rfl, by simp [Mem.swapped], by simp [Mem.swapped, Ne.symm hne],
    fun b h1 h2 => by simp [Mem.swapped, h1, h2]⟩
  generalize hH : link_sets (link_sets (swappedHeap (swappedHeap m.heap .left lhs rhs (TL lhs)
    (TL rhs)) .right lhs rhs (TR lhs) (TR rhs)) lhs) rhs = H
  have hHnode : ∀ p : Ptr, p.id ≠ lhs → p.id ≠ rhs →
      H p = swappedHeap (swappedHeap m.heap .left lhs rhs (TL lhs) (TL rhs)) .right lhs rhs
        (TR lhs) (TR rhs) p := by
    intro p h1 h2
    rw [← hH, link_sets_other _ _ h2, link_sets_other _ _ h1]
  have hHL : ∀ x, x ≠ lhs → x ≠ rhs →
      H ⟨.left, x⟩ = swappedHeap m.heap .left lhs rhs (TL lhs) (TL rhs) ⟨.left, x⟩ := by
    intro x h1 h2
    rw [hHnode _ h1 h2, swappedHeap_side hrl]
  have hframe : ∀ p : Ptr, p.id ≠ lhs → p.id ≠ rhs → p.id ∉ (TL lhs).toList →
      p.id ∉ (TL rhs).toList → H p = m.heap p := by
    intro p h1 h2 h3 h4
    rw [hHnode p h1 h2, swappedHeap_ids h1 h2 (fun hm => h3 (hsl.mem_right.1 hm))
      (fun hm => h4 (hsr.mem_right.1 hm)), swappedHeap_ids h1 h2 h3 h4]
  have invL : Inv (m.swapped lhs rhs H) lhs (TL rhs) (TR rhs) := by
    refine hir.transfer ?_ ?_ ?_ ?_ d2 (by simp [Mem.swapped]) (by simp [Mem.swapped])
      (by simp [Mem.swapped]) (fun _ _ => rfl)
      (fun _ _ => rfl) (le_refl _) hsl.self_lt
    · show H ⟨.left, lhs⟩ = _
      rw [← hH, link_sets_other _ _ (by exact hne), link_sets_left,
        swappedHeap_side hrl, swappedHeap_fst]
    · show H ⟨.right, lhs⟩ = _
      rw [← hH, link_sets_other _ _ (by exact hne), link_sets_right, swappedHeap_fst]
    · show Wf H .left (TL rhs) ⟨.left, lhs⟩
      refine (swappedHeap_wf_fst hsr.repL d2 d3).congr ?_
      intro x hx
      exact hHL x (ne_of_mem_of_not_mem hx d2) (hsr.ne_self hx)
    · show Wf H .right (TR rhs) ⟨.right, lhs⟩
      refine (swappedHeap_wf_fst rr d2r d3r).congr ?_
      intro x hx
      exact hHnode _ (ne_of_mem_of_not_mem hx d2r) (hsr.ne_self (hsr.mem_right.1 hx))
  have invR : Inv (m.swapped lhs rhs H) rhs (TL lhs) (TR lhs) := by
    refine hil.transfer ?_ ?_ ?_ ?_ d1 (by simp [Mem.swapped, Ne.symm hne])
      (by simp [Mem.swapped, Ne.symm hne]) (by simp [Mem.swapped, Ne.symm hne]) (fun _ _ => rfl) (fun _ _ => rfl) (le_refl _) hsr.self_lt
    · show H ⟨.left, rhs⟩ = _
      rw [← hH, link_sets_left, link_sets_other _ _ (by exact Ne.symm hne),
        swappedHeap_side hrl, swappedHeap_snd hne]
    · show H ⟨.right, rhs⟩ = _
      rw [← hH, link_sets_right, link_sets_other _ _ (by exact Ne.symm hne),
        swappedHeap_snd hne]
    · show Wf H .left (TL lhs) ⟨.left, rhs⟩
      refine (swappedHeap_wf_snd hsl.repL d1 d3).congr ?_
      intro x hx
      exact hHL x (hsl.ne_self hx) (ne_of_mem_of_not_mem hx d1)
    · show Wf H .right (TR lhs) ⟨.right, rhs⟩
      refine (swappedHeap_wf_snd rl d1r d3r).congr ?_
      intro x hx
      exact hHnode _ (hsl.ne_self (hsl.mem_right.1 hx)) (ne_of_mem_of_not_mem hx d1r)
  refine ⟨hw.nodup, ?_, ?_, ?_⟩
  · intro b hb
    by_cases h1 : b = lhs
    · subst h1
      simp only [swapTrees, if_true]
      exact invL
    · by_cases h2 : b = rhs
      · subst h2
        simp only [swapTrees, if_neg h1, if_true]
        exact invR
      · simp only [swapTrees, if_neg h1, if_neg h2]
        refine (hw.inv b hb).congr_inv ⟨?_, fun _ _ => rfl, fun _ _ => rfl,
          by simp [Mem.swapped, h1, h2], by simp [Mem.swapped, h1, h2],
          by simp [Mem.swapped, h1, h2], le_refl _⟩
        intro p hp
        show H p = m.heap p
        rcases hp with e | e
        · exact hframe p (by rw [e]; exact h1) (by rw [e]; exact h2)
            (by rw [e]; exact hw.notin lhs hl b hb) (by rw [e]; exact hw.notin rhs hr b hb)
        · exact hframe p (fun e1 => hw.notin b hb lhs hl (e1 ▸ e))
            (fun e1 => hw.notin b hb rhs hr (e1 ▸ e))
            (fun hm => hw.disj b hb lhs hl h1 _ e hm) (fun hm => hw.disj b hb rhs hr h2 _ e hm)
  · intro b hb c hc hm
    obtain ⟨d, hd, f1, f2, f3⟩ := swapTrees_mem hne hm
    have hdl : d ∈ live := by
      by_cases h1 : b = lhs
      · rw [f1 h1]; exact hr
      · by_cases h2 : b = rhs
        · rw [f2 h2]; exact hl
        · rw [f3 h1 h2]; exact hb
    exact hw.notin d hdl c hc hd
  · intro b hb c hc hbc y hy hm
    obtain ⟨d, hd, f1, f2, f3⟩ := swapTrees_mem hne hy
    obtain ⟨d', hd', g1, g2, g3⟩ := swapTrees_mem hne hm
    have hdl : d ∈ live := by
      by_cases h1 : b = lhs
      · rw [f1 h1]; exact hr
      · by_cases h2 : b = rhs
        · rw [f2 h2]; exact hl
        · rw [f3 h1 h2]; exact hb
    have hdl' : d' ∈ live := by
      by_cases h1 : c = lhs
      · rw [g1 h1]; exact hr
      · by_cases h2 : c = rhs
        · rw [g2 h2]; exact hl
        · rw [g3 h1 h2]; exact hc
    have hdd : d ≠ d' := by
      intro e
      by_cases h1 : b = lhs
      · by_cases k1 : c = lhs
        · exact hbc (h1.trans k1.symm)
        · by_cases k2 : c = rhs
          · exact hne ((g2 k2).symm.trans (e.symm.trans (f1 h1)))
          · exact k2 ((g3 k1 k2).symm.trans (e.symm.trans (f1 h1)))
      · by_cases h2 : b = rhs
        · by_cases k1 : c = lhs
          · exact hne ((f2 h2).symm.trans (e.trans (g1 k1)))
          · by_cases k2 : c = rhs
            · exact hbc (h2.trans k2.symm)
            · exact k1 ((g3 k1 k2).symm.trans (e.symm.trans (f2 h2)))
        · by_cases k1 : c = lhs
          · exact h2 ((f3 h1 h2).symm.trans (e.trans (g1 k1)))
          · by_cases k2 : c = rhs
            · exact h1 ((f3 h1 h2).symm.trans (e.trans (g2 k2)))
            · exact hbc ((f3 h1 h2).symm.trans (e.trans (g3 k1 k2)))
    exact hw.disj d hdl d' hdl' hdd y hd hd'

end swapping

/-- The move constructor of one set engine: the fresh sentinel `a` takes the
tree of `c`, and `c` is left empty with its service link kept. -/
theorem set_move_construct_spec {h : Heap} {s : Side} {a c : Nat} {tc : Tree}
    (hc : SetRep h s c tc) (hac : a ≠ c) (hat : a ∉ tc.toList) :
    ∃ h1, set_over.move_construct h ⟨s, a⟩ ⟨s, c⟩ = some h1 ∧
      h1 ⟨s, a⟩ = ⟨(h ⟨s, c⟩)._left, tc.rootPtr s, none⟩ ∧
      h1 ⟨s, c⟩ = ⟨(h ⟨s, c⟩)._left, none, none⟩ ∧
      Wf h1 s tc ⟨s, a⟩ ∧ (∀ p : Ptr, p.over ≠ s → h1 p = h p) ∧
      (∀ p : Ptr, p.id ≠ a → p.id ≠ c → p.id ∉ tc.toList → h1 p = h p) := by
  have hne : (⟨s, c⟩ : Ptr) ≠ ⟨s, a⟩ := ptr_ne s (Ne.symm hac)
  have hc0 : SetRep (clear h ⟨s, a⟩) s c tc :=
    hc.congr_rep (clear_other _ _ _ hne)
      (fun x hx => clear_other _ _ _ (ptr_ne s (ne_of_mem_of_not_mem hx hat)))
  have ha0 : SetRep (clear h ⟨s, a⟩) s a .nil :=
    ⟨by rw [clear_same]; rfl, by rw [clear_same]; rfl,
      fun x => by rw [clear_same]; simp [node_base.null], trivial, List.nodup_nil,
      by simp [Tree.toList]⟩
  have e := swap_sentinels ha0 hc0 hac (by simp [Tree.toList]) hat
    (by intro y hy; simp [Tree.toList] at hy)
  have hcc : clear h ⟨s, a⟩ ⟨s, c⟩ = h ⟨s, c⟩ := clear_other _ _ _ hne
  refine ⟨(clear (swappedHeap (clear h ⟨s, a⟩) s a c .nil tc) ⟨s, c⟩).set_left ⟨s, c⟩
    (clear h ⟨s, a⟩ ⟨s, c⟩)._left, by simp only [set_over.move_construct, e], ?_, ?_, ?_, ?_, ?_⟩
  · rw [set_left_other _ _ _ _ (Ne.symm hne), clear_other _ _ _ (Ne.symm hne), swappedHeap_fst,
      hcc]
  · simp [Heap.set_left, clear, node_base.null, hne]
  · have w : Wf (swappedHeap (clear h ⟨s, a⟩) s a c .nil tc) s tc ⟨s, a⟩ :=
      swappedHeap_wf_fst hc0 hat (by intro y hy; simp [Tree.toList] at hy)
    refine w.congr ?_
    intro x hx
    have hxc : (⟨s, x⟩ : Ptr) ≠ ⟨s, c⟩ := ptr_ne s (ne_of_mem_of_not_mem hx hc.notin)
    rw [set_left_other _ _ _ _ hxc, clear_other _ _ _ hxc]
  · intro p hp
    have h1 : p ≠ ⟨s, c⟩ := fun e => hp (by rw [e])
    have h2 : p ≠ ⟨s, a⟩ := fun e => hp (by rw [e])
    rw [set_left_other _ _ _ _ h1, clear_other _ _ _ h1, swappedHeap_side hp,
      clear_other _ _ _ h2]
  · intro p h1 h2 h3
    have k1 : p ≠ ⟨s, c⟩ := fun e => h2 (by rw [e])
    have k2 : p ≠ ⟨s, a⟩ := fun e => h1 (by rw [e])
    rw [set_left_other _ _ _ _ k1, clear_other _ _ _ k1,
      swappedHeap_ids h1 h2 (by simp [Tree.toList]) h3, clear_other _ _ _ k2]

section moving
variable {α β : Type}

/-- The move constructor `bimap(bimap&&)` hands the contents of `other` to the
new object, leaves `other` empty and keeps the invariant of the memory. -/
theorem move_construct_winv {m : Mem α β} {live : List Nat} {TL TR : Nat → Tree}
    (hw : WInv m live TL TR) {other : Nat} (ho : other ∈ live) :
    ∃ m1, move_construct m other = some (m1, m.next) ∧
      WInv m1 (m.next :: live) (moveTrees TL m.next other) (moveTrees TR m.next other) ∧
      m1.next = m.next + 1 ∧ m1.lval = m.lval ∧ m1.rval = m.rval ∧
      m1.size m.next = m.size other ∧ m1.size other = 0 ∧
      (∀ b, b ≠ m.next → b ≠ other → m1.size b = m.size b) := by
  have hio := hw.inv other ho
  have hso := hio.shape
  have hlt : ∀ c ∈ live, c < m.next := fun c hc => (hw.inv c hc).shape.self_lt
  have hltn : ∀ c ∈ live, ∀ y ∈ (TL c).toList, y < m.next :=
    fun c hc y hy => (hw.inv c hc).shape.lt_next y hy
  have hne : m.next ≠ other := fun e => by have := hlt other ho; omega
  have hnl : m.next ∉ live := fun hm => by have := hlt _ hm; omega
  have hat : m.next ∉ (TL other).toList := fun hm => by have := hltn other ho _ hm; omega
  have hatr : m.next ∉ (TR other).toList := fun hm => hat (hso.mem_right.1 hm)
  have hlr : Side.right ≠ Side.left := by decide
  have hrl : Side.left ≠ Side.right := by decide
  obtain ⟨h1, e1, a1, c1, w1, s1, f1⟩ := set_move_construct_spec hso.repL hne hat
  have rr : SetRep h1 .right other (TR other) :=
    hso.repR.congr_rep (s1 _ hlr) (fun x _ => s1 _ hlr)
  obtain ⟨h2, e2, a2, c2, w2, s2, f2⟩ := set_move_construct_spec rr hne hatr
  have hsz0 : (fun b => if b = other then 0 else if b = m.next then m.size other else m.size b)
      m.next = m.size other := by simp [hne]
  refine ⟨{ m with
      heap := link_sets h2 m.next
      cmpL := fun b => if b = m.next then m.cmpL other else m.cmpL b
      cmpR := fun b => if b = m.next then m.cmpR other else m.cmpR b
      size := fun b => if b = other then 0 else if b = m.next then m.size other else m.size b
      next := m.next + 1 },
    by simp only [move_construct, left_sentinel, right_sentinel, e1, e2], ?_, rfl, rfl, rfl,
    hsz0, by simp, fun b k1 k2 => by simp [k1, k2]⟩
  generalize hH : link_sets h2 m.next = H
  have hframe : ∀ p : Ptr, p.id ≠ m.next → p.id ≠ other → p.id ∉ (TL other).toList →
      H p = m.heap p := by
    intro p k1 k2 k3
    rw [← hH, link_sets_other _ _ k1, f2 p k1 k2 (fun hm => k3 (hso.mem_right.1 hm)),
      f1 p k1 k2 k3]
  have invN : Inv { m with
      heap := H
      cmpL := fun b => if b = m.next then m.cmpL other else m.cmpL b
      cmpR := fun b => if b = m.next then m.cmpR other else m.cmpR b
      size := fun b => if b = other then 0 else if b = m.next then m.size other else m.size b
      next := m.next + 1 } m.next (TL other) (TR other) := by
    refine hio.transfer ?_ ?_ ?_ ?_ hat hsz0 (by simp) (by simp) (fun _ _ => rfl)
      (fun _ _ => rfl) (Nat.le_succ _) (Nat.lt_succ_self _)
    · show H ⟨.left, m.next⟩ = _
      rw [← hH, link_sets_left, s2 _ hrl, a1]
    · show H ⟨.right, m.next⟩ = _
      rw [← hH, link_sets_right, a2]
    · show Wf H .left (TL other) ⟨.left, m.next⟩
      refine w1.congr ?_
      intro x hx
      rw [← hH, link_sets_other _ _ (by exact ne_of_mem_of_not_mem hx hat), s2 _ hrl]
    · show Wf H .right (TR other) ⟨.right, m.next⟩
      refine w2.congr ?_
      intro x hx
      rw [← hH, link_sets_other _ _ (by exact ne_of_mem_of_not_mem hx hatr)]
  have invO : Inv { m with
      heap := H
      cmpL := fun b => if b = m.next then m.cmpL other else m.cmpL b
      cmpR := fun b => if b = m.next then m.cmpR other else m.cmpR b
      size := fun b => if b = other then 0 else if b = m.next then m.size other else m.size b
      next := m.next + 1 } other .nil .nil := by
    refine Inv.of_empty ?_ ?_ (by simp) ?_ ?_ (Nat.lt_succ_of_lt hso.self_lt)
    · show H ⟨.left, other⟩ = _
      rw [← hH, link_sets_other _ _ (by exact Ne.symm hne), s2 _ hrl, c1, hso.linkL]
    · show H ⟨.right, other⟩ = _
      rw [← hH, link_sets_other _ _ (by exact Ne.symm hne), c2, s1 _ hlr, hso.linkR]
    · simpa [Ne.symm hne] using hio.swoL
    · simpa [Ne.symm hne] using hio.swoR
  have hmem : ∀ {T : Nat → Tree} {b y : Nat}, y ∈ (moveTrees T m.next other b).toList →
      (b = m.next ∧ y ∈ (T other).toList) ∨ (b ≠ m.next ∧ b ≠ other ∧ y ∈ (T b).toList) := by
    intro T b y hy
    unfold moveTrees at hy
    by_cases k1 : b = m.next
    · rw [if_pos k1] at hy; exact Or.inl ⟨k1, hy⟩
    · rw [if_neg k1] at hy
      by_cases k2 : b = other
      · rw [if_pos k2] at hy; simp [Tree.toList] at hy
      · rw [if_neg k2] at hy; exact Or.inr ⟨k1, k2, hy⟩
  refine ⟨List.nodup_cons.2 ⟨hnl, hw.nodup⟩, ?_, ?_, ?_⟩
  · intro b hb
    by_cases k1 : b = m.next
    · subst k1
      simp only [moveTrees, if_true]
      exact invN
    · have hbl : b ∈ live := by
        rcases List.mem_cons.1 hb with e | e
        · exact absurd e k1
        · exact e
      by_cases k2 : b = other
      · subst k2
        simp only [moveTrees, if_neg k1, if_true]
        exact invO
      · simp only [moveTrees, if_neg k1, if_neg k2]
        refine (hw.inv b hbl).congr_inv ⟨?_, fun _ _ => rfl, fun _ _ => rfl, by simp [k1, k2],
          by simp [k1], by simp [k1], Nat.le_succ _⟩
        intro p hp
        show H p = m.heap p
        rcases hp with e | e
        · exact hframe p (by rw [e]; exact k1) (by rw [e]; exact k2)
            (by rw [e]; exact hw.notin other ho b hbl)
        · exact hframe p (fun e1 => by have := hltn b hbl _ e; omega)
            (fun e1 => hw.notin b hbl other ho (e1 ▸ e))
            (fun hm => hw.disj b hbl other ho k2 _ e hm)
  · intro b hb c hc hm
    have hy : c < m.next → False := by
      intro hc1
      rcases hmem hm with ⟨_, k⟩ | ⟨k1, k2, k⟩
      · rcases List.mem_cons.1 hc with e | e
        · omega
        · exact hw.notin other ho c e k
      · have hbl : b ∈ live := (List.mem_cons.1 hb).resolve_left k1
        rcases List.mem_cons.1 hc with e | e
        · omega
        · exact hw.notin b hbl c e k
    rcases List.mem_cons.1 hc with e | e
    · rcases hmem hm with ⟨_, k⟩ | ⟨k1, k2, k⟩
      · rw [e] at k; exact hat k
      · have hbl : b ∈ live := (List.mem_cons.1 hb).resolve_left k1
        have := hltn b hbl _ k; omega
    · exact hy (hlt c e)
  · intro b hb c hc hbc y hy hm
    rcases hmem hy with ⟨k0, k⟩ | ⟨k1, k2, k⟩
    · rcases hmem hm with ⟨j0, j⟩ | ⟨j1, j2, j⟩
      · exact hbc (k0.trans j0.symm)
      · have hcl : c ∈ live := (List.mem_cons.1 hc).resolve_left j1
        exact hw.disj other ho c hcl (Ne.symm j2) y k j
    · have hbl : b ∈ live := (List.mem_cons.1 hb).resolve_left k1
      rcases hmem hm with ⟨j0, j⟩ | ⟨j1, j2, j⟩
      · exact hw.disj b hbl other ho k2 y k j
      · have hcl : c ∈ live := (List.mem_cons.1 hc).resolve_left j1
        exact hw.disj b hbl c hcl hbc y k j

end moving

section copying
variable {α β : Type}

/-- One `insert` on an object that satisfies its invariant: it returns, keeps
the invariant and touches nothing outside the object. -/
theorem insert_step {m : Mem α β} {b : Nat} {tl tr : Tree} (hi : Inv m b tl tr) (l : α) (r : β)
    {fuel : Nat} (hf : m.size b < fuel) :
    ∃ m1 it tl1 tr1, insert fuel m b l r = some (m1, it) ∧ Inv m1 b tl1 tr1 ∧
      FrameOf m m1 b tl.toList ∧ (∀ y ∈ tl1.toList, y ∈ tl.toList ∨ m.next ≤ y) ∧
      m.next ≤ m1.next ∧ m1.size b ≤ m.size b + 1 := by
  by_cases hok : lookupL m b tl l = none ∧ lookupR m b tr r = none
  · obtain ⟨e, hs1, hfr⟩ := forwarding_insert_accept hi l r false hf (Or.inr hok)
    refine ⟨_, _, _, _, e, insert_inv hi l r hs1 hok.1 hok.2, attached_frame l r hfr, ?_,
      by rw [attached_next]; omega, by rw [attached_size]⟩
    intro y hy
    rcases List.mem_cons.1 ((Tree.ins_perm _ _ _).mem_iff.1 hy) with e1 | e1
    · exact Or.inr (by omega)
    · exact Or.inl e1
  · have hdup : (lookupL m b tl l).isSome ∨ (lookupR m b tr r).isSome := by
      by_cases h1 : lookupL m b tl l = none
      · by_cases h2 : lookupR m b tr r = none
        · exact absurd ⟨h1, h2⟩ hok
        · exact Or.inr (Option.ne_none_iff_isSome.1 h2)
      · exact Or.inl (Option.ne_none_iff_isSome.1 h1)
    exact ⟨m, _, tl, tr, forwarding_insert_reject hi l r hf hdup, hi, FrameOf.refl _ _ _,
      fun y hy => Or.inl hy, le_refl _, by omega⟩

/-- The loop of the copy constructor, started at the suffix `S` of the left
traversal of `other`, returns and keeps the invariant of `this`. -/
theorem copy_loop_spec {inner : Nat} (S : List Nat) :
    ∀ {m : Mem α β} {this other : Nat} {tl tr tlo tro : Tree} (_ : Inv m this tl tr)
      (_ : Inv m other tlo tro) (_ : this ≠ other) (_ : other ∉ tl.toList)
      (_ : this ∉ tlo.toList) (_ : ∀ y ∈ tlo.toList, y ∉ tl.toList) (P : List Nat)
      (_ : tlo.toList = P ++ S) (_ : m.size this + S.length + 1 < inner)
      (_ : m.size other < inner) {fuel : Nat} (_ : S.length < fuel),
      ∃ m1 tl1 tr1, copy_loop inner fuel m this other (some (headPtr .left other S)) = some m1 ∧
        Inv m1 this tl1 tr1 ∧ FrameOf m m1 this tl.toList ∧
        (∀ y ∈ tl1.toList, y ∈ tl.toList ∨ m.next ≤ y) ∧ m.next ≤ m1.next := by
  induction S with
  | nil =>
    intro m this other tl tr tlo tro hi hio hne h1 h2 h3 P hsplit hsz hin fuel hf
    obtain ⟨f, rfl⟩ : ∃ g, fuel = g + 1 := ⟨fuel - 1, by omega⟩
    exact ⟨m, tl, tr, by simp [copy_loop, headPtr, end_left, end_node, left_sentinel], hi,
      FrameOf.refl _ _ _, fun y hy => Or.inl hy, le_refl _⟩
  | cons y S ih =>
    intro m this other tl tr tlo tro hi hio hne h1 h2 h3 P hsplit hsz hin fuel hf
    obtain ⟨f, rfl⟩ : ∃ g, fuel = g + 1 := ⟨fuel - 1, by omega⟩
    have hso := hio.shape
    have hy : y ∈ tlo.toList := by rw [hsplit]; simp
    obtain ⟨l, hl⟩ := hso.valL y hy
    obtain ⟨r, hr⟩ := hso.valR y hy
    have hnd : (P ++ y :: S).Nodup := hsplit ▸ hso.repL.nodup
    obtain ⟨m', it, tl', tr', he, hi', hfr, hids, hnx, hsz'⟩ :=
      insert_step hi l r (by omega : m.size this < inner)
    have hsame : SameOn m m' other tlo.toList :=
      hfr other tlo.toList hso.self_lt (Ne.symm hne) h1
        (fun z hz => ⟨hso.lt_next z hz, fun e => h2 (e ▸ hz), h3 z hz⟩)
    have hio' : Inv m' other tlo tro := hio.congr_inv hsame
    have hnext : increment inner m'.heap (some ⟨.left, y⟩) =
        some (some (headPtr .left other S)) := by
      have := next_node_spec hio'.shape.repL hy
        (by rw [hio'.shape.size_left, hsame.size]; exact hin : tlo.size < inner)
      rw [hsplit, succPtr_split .left other hnd] at this
      exact this
    have hlen : S.length < f := by simp at hf; omega
    have hszl : (y :: S).length = S.length + 1 := rfl
    obtain ⟨m1, tl1, tr1, he1, hi1, hfr1, hids1, hnx1⟩ := ih hi' hio' hne
      (fun hm => by
        rcases hids other hm with e | e
        · exact h1 e
        · have := hso.self_lt; omega)
      h2
      (fun z hz hm => by
        rcases hids z hm with e | e
        · exact h3 z hz e
        · have := hso.lt_next z hz; omega)
      (P ++ [y]) (by rw [hsplit]; simp) (by rw [hszl] at hsz; omega)
      (by rw [hsame.size]; exact hin) hlen
    refine ⟨m1, tl1, tr1, ?_, hi1, hfr.trans hfr1 hnx hids, ?_, le_trans hnx hnx1⟩
    · have e0 : headPtr .left other (y :: S) = ⟨.left, y⟩ := rfl
      have hflip := flip_node hso.repL hy
      have hdl : deref_left m (some ⟨.left, y⟩) = some l := by
        simp only [deref_left, get_over_left_mk, hl]
      have hdr : deref_right m (some ⟨.right, y⟩) = some r := by
        simp only [deref_right, get_over_right_mk, hr]
      rw [e0]
      simp only [copy_loop, if_neg (node_ne_end_left hso hy), hdl, hflip, Side.opp, hdr, he,
        hnext, he1]
    · intro z hz
      rcases hids1 z hz with e | e
      · exact hids z e
      · exact Or.inr (le_trans hnx e)

/-- The copy constructor `bimap(const bimap&)` returns a new object and keeps
the invariant of the memory; the other objects keep their trees and sizes. -/
theorem copy_construct_winv {m : Mem α β} {live : List Nat} {TL TR : Nat → Tree}
    (hw : WInv m live TL TR) {other : Nat} (ho : other ∈ live) {fuel : Nat}
    (hf : m.size other + 1 < fuel) :
    ∃ m1 tl1 tr1, copy_construct fuel m other = some (m1, m.next) ∧
      WInv m1 (m.next :: live) (Function.update TL m.next tl1) (Function.update TR m.next tr1) ∧
      m.next < m1.next ∧ (∀ b ∈ live, m1.size b = m.size b) := by
  have hio := hw.inv other ho
  have hlt : ∀ c ∈ live, c < m.next := fun c hc => (hw.inv c hc).shape.self_lt
  have hne : m.next ≠ other := fun e => by have := hlt other ho; omega
  have hw0 := construct_inv hw hlt hio.swoL hio.swoR
  generalize hm0 : (construct m (m.cmpL other) (m.cmpR other)).1 = m0 at hw0
  have hthis : (construct m (m.cmpL other) (m.cmpR other)).2 = m.next := rfl
  rw [hthis] at hw0
  have hn0 : m0.next = m.next + 1 := by rw [← hm0]; rfl
  have hsz0 : ∀ b, b ≠ m.next → m0.size b = m.size b := by
    intro b hb; rw [← hm0]; simp [construct, hb]
  have hszn : m0.size m.next = 0 := by rw [← hm0]; simp [construct]
  have hin := hw0.inv m.next (List.mem_cons_self _ _)
  have hio0 := hw0.inv other (List.mem_cons_of_mem _ ho)
  simp only [Function.update_same] at hin
  simp only [Function.update_noteq (Ne.symm hne)] at hio0
  have hb := begin_node_spec hio0.shape.repL hio0.shape.linkL hio0.shape.linkR
    (by rw [hio0.shape.size_left, hsz0 _ (Ne.symm hne)]; omega : (TL other).size < fuel)
  have hlen : (TL other).toList.length = m.size other := by
    rw [← hsz0 _ (Ne.symm hne)]; exact hio0.shape.size_eq.symm
  obtain ⟨m1, tl1, tr1, he, hi1, hfr, hids, hnx⟩ := copy_loop_spec (TL other).toList hin hio0
    hne (by simp [Tree.toList])
    (fun hm => by have := hio.shape.lt_next _ hm; omega)
    (fun y _ => by simp [Tree.toList]) [] (by simp)
    (by rw [hszn, hlen]; omega : m0.size m.next + (TL other).toList.length + 1 < fuel)
    (by rw [hsz0 _ (Ne.symm hne)]; omega) (by rw [hlen]; omega : (TL other).toList.length < fuel)
  have hstep := hw0.step (List.mem_cons_self _ _) hi1
    (by simpa only [Function.update_same] using hfr)
    (by simpa only [Function.update_same] using hids)
  simp only [Function.update_idem] at hstep
  refine ⟨m1, tl1, tr1, ?_, hstep, by omega, ?_⟩
  · simp only [copy_construct, begin_left, left_sentinel, hm0, hthis]
    simp only [hb, he]
  · intro b hbl
    have hbn : b ≠ m.next := fun e => by have := hlt b hbl; omega
    have := hfr b [] (by rw [hn0]; have := hlt b hbl; omega) hbn (by simp [Tree.toList])
      (by simp)
    rw [this.size, hsz0 b hbn]

end copying

section steps
variable {α β : Type}

theorem ObjStep.refl_step {m : Mem α β} {b : Nat} {tl tr : Tree} (hi : Inv m b tl tr) :
    ObjStep m m b tl :=
  ⟨tl, tr, hi, FrameOf.refl _ _ _, fun _ hy => Or.inl hy, le_refl _⟩

theorem ObjStep.to_winv {m m1 : Mem α β} {live : List Nat} {TL TR : Nat → Tree} {b : Nat}
    (hw : WInv m live TL TR) (hb : b ∈ live) (hs : ObjStep m m1 b (TL b)) :
    ∃ TL1 TR1, WInv m1 live TL1 TR1 := by
  obtain ⟨tl1, tr1, hi1, hfr, hids, -⟩ := hs
  exact ⟨_, _, hw.step hb hi1 hfr hids⟩

theorem ObjStep.size_other {m m1 : Mem α β} {b : Nat} {tl : Tree} (hs : ObjStep m m1 b tl)
    {c : Nat} (hc : c < m.next) (hcb : c ≠ b) (hct : c ∉ tl.toList) : m1.size c = m.size c := by
  obtain ⟨tl1, tr1, -, hfr, -, -⟩ := hs
  exact (hfr c [] hc hcb hct (by simp)).size

theorem ObjStep.of_erased {m : Mem α β} {b : Nat} {tl tl1 tr1 : Tree} {x : Nat} {h2 : Heap}
    (hx : x ∈ tl.toList) (hi1 : Inv (m.erased b x h2) b tl1 tr1)
    (hl : tl1.toList = tl.toList.erase x)
    (hfr : ∀ p : Ptr, p.id ≠ b → p.id ∉ tl.toList → h2 p = m.heap p) :
    ObjStep m (m.erased b x h2) b tl :=
  ⟨tl1, tr1, hi1, erased_frame hx hfr,
    fun _ hy => Or.inl (List.mem_of_mem_erase (hl ▸ hy)), le_refl _⟩

theorem ObjStep.of_attached {m : Mem α β} {b : Nat} {tl tr : Tree} {l : α} {r : β}
    (hi1 : Inv (m.attached b tl tr l r) b (tl.ins (goL m b l) m.next)
      (tr.ins (goR m b r) m.next))
    (hfr : ∀ p : Ptr, p.id ≠ m.next → p.id ≠ b → p.id ∉ tl.toList →
      (m.attached b tl tr l r).heap p = m.heap p) :
    ObjStep m (m.attached b tl tr l r) b tl := by
  refine ⟨_, _, hi1, attached_frame l r hfr, ?_, by rw [attached_next]; omega⟩
  intro y hy
  rcases List.mem_cons.1 ((Tree.ins_perm _ _ _).mem_iff.1 hy) with e1 | e1
  · exact Or.inr (by omega)
  · exact Or.inl e1

theorem ObjStep.of_relocated {m : Mem α β} {b : Nat} {tl tr tl2 tr2 : Tree} {l : α} {r : β}
    {f : Nat} {h2 : Heap} (hf : f ∈ tl.toList)
    (hi2 : Inv ((m.attached b tl tr l r).erased b f h2) b tl2 tr2)
    (hl : tl2.toList = (tl.ins (goL m b l) m.next).toList.erase f)
    (hfr : ∀ p : Ptr, p.id ≠ b → p.id ≠ m.next → p.id ∉ tl.toList → h2 p = m.heap p) :
    ObjStep m ((m.attached b tl tr l r).erased b f h2) b tl := by
  refine ⟨tl2, tr2, hi2, ?_, ?_, by simp [Mem.erased, Mem.attached]⟩
  · intro c cs hc1 hc2 hc3 hcs
    refine ⟨?_, ?_, ?_, ?_, rfl, rfl, by simp [Mem.erased, Mem.attached]⟩
    · intro p hp
      show h2 p = m.heap p
      rcases hp with e | e
      · exact hfr p (by rw [e]; exact hc2) (by rw [e]; omega) (by rw [e]; exact hc3)
      · exact hfr p (hcs _ e).2.1 (by have := (hcs _ e).1; omega) (hcs _ e).2.2
    · intro y hy
      have k1 : y ≠ f := fun e => (hcs _ hy).2.2 (e ▸ hf)
      have k2 : y ≠ m.next := by have := (hcs _ hy).1; omega
      simp [Mem.erased, Mem.attached, k1, k2]
    · intro y hy
      have k1 : y ≠ f := fun e => (hcs _ hy).2.2 (e ▸ hf)
      have k2 : y ≠ m.next := by have := (hcs _ hy).1; omega
      simp [Mem.erased, Mem.attached, k1, k2]
    · simp [Mem.erased, Mem.attached, hc2]
  · intro y hy
    rw [hl] at hy
    rcases List.mem_cons.1 ((Tree.ins_perm _ _ _).mem_iff.1 (List.mem_of_mem_erase hy))
      with e1 | e1
    · exact Or.inr (by omega)
    · exact Or.inl e1

theorem insert_objstep {m m1 : Mem α β} {b : Nat} {tl tr : Tree} (hi : Inv m b tl tr)
    {l : α} {r : β} {it : NPtr} {fuel : Nat} (hf : m.size b < fuel)
    (he : insert fuel m b l r = some (m1, it)) : ObjStep m m1 b tl := by
  obtain ⟨m', it', tl1, tr1, e, hi1, hfr, hids, hnx, -⟩ := insert_step hi l r hf
  rw [e] at he
  obtain ⟨rfl, -⟩ := Prod.mk.inj (Option.some.inj he)
  exact ⟨tl1, tr1, hi1, hfr, hids, hnx⟩

theorem erase_left_objstep {m m1 : Mem α β} {b : Nat} {tl tr : Tree} (hi : Inv m b tl tr)
    {fuel : Nat} (hf : m.size b + 1 < fuel) {cs : List NPtr} {it ret : NPtr}
    (hcs : left_cursors fuel m b = some cs) (hit : it ∈ cs)
    (he : erase_left fuel m b it = some (m1, ret)) : ObjStep m m1 b tl := by
  rw [left_cursors_spec hi.shape (by omega)] at hcs
  rw [← Option.some.inj hcs] at hit
  obtain ⟨x, hx, rfl⟩ := List.mem_map.1 hit
  obtain ⟨h2, tl1, tr1, e, hi1, e1, -, hfr⟩ := erase_left_inv hi hx hf
  rw [e] at he
  obtain ⟨rfl, -⟩ := Prod.mk.inj (Option.some.inj he)
  exact ObjStep.of_erased hx hi1 e1 hfr

theorem erase_right_objstep {m m1 : Mem α β} {b : Nat} {tl tr : Tree} (hi : Inv m b tl tr)
    {fuel : Nat} (hf : m.size b + 1 < fuel) {cs : List NPtr} {it ret : NPtr}
    (hcs : right_cursors fuel m b = some cs) (hit : it ∈ cs)
    (he : erase_right fuel m b it = some (m1, ret)) : ObjStep m m1 b tl := by
  rw [right_cursors_spec hi.shape (by omega)] at hcs
  rw [← Option.some.inj hcs] at hit
  obtain ⟨x, hx, rfl⟩ := List.mem_map.1 hit
  have hx' := hi.shape.mem_right.1 hx
  obtain ⟨h2, tl1, tr1, e, hi1, e1, -, hfr⟩ := erase_right_inv hi hx' hf
  rw [e] at he
  obtain ⟨rfl, -⟩ := Prod.mk.inj (Option.some.inj he)
  exact ObjStep.of_erased hx' hi1 e1 hfr

theorem erase_left_key_objstep {m m1 : Mem α β} {b : Nat} {tl tr : Tree} (hi : Inv m b tl tr)
    {fuel : Nat} (hf : m.size b + 1 < fuel) {k : α} {ret : Bool}
    (he : erase_left_key fuel m b k = some (m1, ret)) : ObjStep m m1 b tl := by
  cases hl : lookupL m b tl k with
  | none =>
    rw [erase_left_key_none hi k (by omega) hl] at he
    obtain ⟨rfl, -⟩ := Prod.mk.inj (Option.some.inj he)
    exact ObjStep.refl_step hi
  | some x =>
    obtain ⟨h2, tl1, tr1, e, hi1, e1, -, hfr⟩ := erase_left_key_some hi k hf hl
    rw [e] at he
    obtain ⟨rfl, -⟩ := Prod.mk.inj (Option.some.inj he)
    exact ObjStep.of_erased (lookupL_some hl).1 hi1 e1 hfr

theorem erase_right_key_objstep {m m1 : Mem α β} {b : Nat} {tl tr : Tree} (hi : Inv m b tl tr)
    {fuel : Nat} (hf : m.size b + 1 < fuel) {k : β} {ret : Bool}
    (he : erase_right_key fuel m b k = some (m1, ret)) : ObjStep m m1 b tl := by
  cases hl : lookupR m b tr k with
  | none =>
    rw [erase_right_key_none hi k (by omega) hl] at he
    obtain ⟨rfl, -⟩ := Prod.mk.inj (Option.some.inj he)
    exact ObjStep.refl_step hi
  | some x =>
    obtain ⟨h2, tl1, tr1, e, hi1, e1, -, hfr⟩ := erase_right_key_some hi k hf hl
    rw [e] at he
    obtain ⟨rfl, -⟩ := Prod.mk.inj (Option.some.inj he)
    exact ObjStep.of_erased (hi.shape.mem_right.1 (lookupR_some hl).1) hi1 e1 hfr

theorem erase_left_range_objstep {m m1 : Mem α β} {b : Nat} {tl tr : Tree} (hi : Inv m b tl tr)
    {fuel : Nat} (hf : m.size b + 1 < fuel) {before range after : List NPtr} {ret : NPtr}
    (hcs : left_cursors fuel m b = some (before ++ range ++ after))
    (he : erase_left_range fuel m b ((range ++ after).headD (end_left b))
      (after.headD (end_left b)) = some (m1, ret)) : ObjStep m m1 b tl := by
  obtain ⟨m', tl1, tr1, e, hi1, hfr, hsub, hn, -⟩ := erase_left_range_spec hi hf hcs
  rw [e] at he
  obtain ⟨rfl, -⟩ := Prod.mk.inj (Option.some.inj he)
  exact ⟨tl1, tr1, hi1, hfr, fun y hy => Or.inl (hsub y hy), by omega⟩

theorem erase_right_range_objstep {m m1 : Mem α β} {b : Nat} {tl tr : Tree}
    (hi : Inv m b tl tr) {fuel : Nat} (hf : m.size b + 1 < fuel)
    {before range after : List NPtr} {ret : NPtr}
    (hcs : right_cursors fuel m b = some (before ++ range ++ after))
    (he : erase_right_range fuel m b ((range ++ after).headD (end_right b))
      (after.headD (end_right b)) = some (m1, ret)) : ObjStep m m1 b tl := by
  obtain ⟨m', tl1, tr1, e, hi1, hfr, hsub, hn, -⟩ := erase_right_range_spec hi hf hcs
  rw [e] at he
  obtain ⟨rfl, -⟩ := Prod.mk.inj (Option.some.inj he)
  exact ⟨tl1, tr1, hi1, hfr, fun y hy => Or.inl (hsub y hy), by omega⟩

theorem destroy_objstep {m m1 : Mem α β} {b : Nat} {tl tr : Tree} (hi : Inv m b tl tr)
    {fuel : Nat} (hf : m.size b + 1 < fuel) (he : destroy fuel m b = some m1) :
    ObjStep m m1 b tl := by
  obtain ⟨m', e, hi1, hfr, hn, -⟩ := destroy_spec hi hf
  rw [e] at he
  obtain rfl := Option.some.inj he
  exact ⟨.nil, .nil, hi1, hfr, fun y hy => by simp [Tree.toList] at hy, by omega⟩

theorem at_left_or_default_objstep [Inhabited β] {m m1 : Mem α β} {b : Nat} {tl tr : Tree}
    (hi : Inv m b tl tr) {fuel : Nat} (hf : m.size b + 2 < fuel) {key : α} {ret : β}
    (he : at_left_or_default fuel m b key = some (m1, ret)) : ObjStep m m1 b tl := by
  cases hl : lookupL m b tl key with
  | some x =>
    obtain ⟨r, -, e⟩ := at_left_or_default_found hi key (by omega : m.size b < fuel) hl
    rw [e] at he
    obtain ⟨rfl, -⟩ := Prod.mk.inj (Option.some.inj he)
    exact ObjStep.refl_step hi
  | none =>
    cases hr : lookupR m b tr default with
    | none =>
      obtain ⟨e, hi1, hfr⟩ := at_left_or_default_fresh hi key (by omega : m.size b < fuel) hl hr
      rw [e] at he
      obtain ⟨rfl, -⟩ := Prod.mk.inj (Option.some.inj he)
      exact ObjStep.of_attached hi1 hfr
    | some f =>
      obtain ⟨h2, tl2, tr2, e, hi2, e1, -, hfr⟩ := at_left_or_default_relocate hi key hf hl hr
      rw [e] at he
      obtain ⟨rfl, -⟩ := Prod.mk.inj (Option.some.inj he)
      exact ObjStep.of_relocated (hi.shape.mem_right.1 (lookupR_some hr).1) hi2 e1 hfr

theorem at_right_or_default_objstep [Inhabited α] {m m1 : Mem α β} {b : Nat} {tl tr : Tree}
    (hi : Inv m b tl tr) {fuel : Nat} (hf : m.size b + 2 < fuel) {key : β} {ret : α}
    (he : at_right_or_default fuel m b key = some (m1, ret)) : ObjStep m m1 b tl := by
  cases hr : lookupR m b tr key with
  | some x =>
    obtain ⟨r, -, e⟩ := at_right_or_default_found hi key (by omega : m.size b < fuel) hr
    rw [e] at he
    obtain ⟨rfl, -⟩ := Prod.mk.inj (Option.some.inj he)
    exact ObjStep.refl_step hi
  | none =>
    cases hl : lookupL m b tl default with
    | none =>
      obtain ⟨e, hi1, hfr⟩ := at_right_or_default_fresh hi key (by omega : m.size b < fuel) hr hl
      rw [e] at he
      obtain ⟨rfl, -⟩ := Prod.mk.inj (Option.some.inj he)
      exact ObjStep.of_attached hi1 hfr
    | some f =>
      obtain ⟨h2, tl2, tr2, e, hi2, e1, -, hfr⟩ := at_right_or_default_relocate hi key hf hr hl
      rw [e] at he
      obtain ⟨rfl, -⟩ := Prod.mk.inj (Option.some.inj he)
      exact ObjStep.of_relocated (lookupL_some hl).1 hi2 e1 hfr

end steps

section world
variable {α β : Type}

theorem WInv.sublist {m : Mem α β} {live live1 : List Nat} {TL TR : Nat → Tree}
    (hw : WInv m live TL TR) (hs : live1.Sublist live) : WInv m live1 TL TR :=
  ⟨hw.nodup.sublist hs, fun b hb => hw.inv b (hs.subset hb),
    fun b hb c hc => hw.notin b (hs.subset hb) c (hs.subset hc),
    fun b hb c hc => hw.disj b (hs.subset hb) c (hs.subset hc)⟩

theorem WInv.lt_next {m : Mem α β} {live : List Nat} {TL TR : Nat → Tree}
    (hw : WInv m live TL TR) : ∀ c ∈ live, c < m.next :=
  fun c hc => (hw.inv c hc).shape.self_lt

/-- The copy assignment keeps the invariant of the memory. -/
theorem copy_assign_winv {m m1 : Mem α β} {live : List Nat} {TL TR : Nat → Tree}
    (hw : WInv m live TL TR) {this other : Nat} (ht : this ∈ live) (ho : other ∈ live)
    {fuel : Nat} (hf : m.size this + 1 < fuel) (hfo : m.size other + 1 < fuel)
    (he : copy_assign fuel m this other = some m1) : ∃ TL1 TR1, WInv m1 live TL1 TR1 := by
  unfold copy_assign at he
  by_cases hto : this = other
  · rw [if_pos hto] at he
    obtain rfl := Option.some.inj he
    exact ⟨TL, TR, hw⟩
  · rw [if_neg hto] at he
    obtain ⟨ma, tl1, tr1, e1, hwa, -, hsza⟩ := copy_construct_winv hw ho hfo
    have htn : this ≠ m.next := fun e => by have := hw.lt_next this ht; omega
    obtain ⟨mb, e2, hwb, -, -, -, -, hszb, -⟩ :=
      swap_winv hwa (List.mem_cons_of_mem _ ht) (List.mem_cons_self _ _) htn
    simp only [e1, e2] at he
    have hsz : mb.size m.next + 1 < fuel := by rw [hszb, hsza this ht]; exact hf
    have hst := destroy_objstep (hwb.inv m.next (List.mem_cons_self _ _)) hsz he
    obtain ⟨TL1, TR1, hwc⟩ := hst.to_winv hwb (List.mem_cons_self _ _)
    exact ⟨TL1, TR1, hwc.sublist (List.sublist_cons_self _ _)⟩

/-- The move assignment keeps the invariant of the memory. -/
theorem move_assign_winv {m m1 : Mem α β} {live : List Nat} {TL TR : Nat → Tree}
    (hw : WInv m live TL TR) {this other : Nat} (ht : this ∈ live) (ho : other ∈ live)
    {fuel : Nat} (hf : m.size this + 1 < fuel)
    (he : move_assign fuel m this other = some m1) : ∃ TL1 TR1, WInv m1 live TL1 TR1 := by
  unfold move_assign at he
  by_cases hto : this = other
  · rw [if_pos hto] at he
    obtain rfl := Option.some.inj he
    exact ⟨TL, TR, hw⟩
  · rw [if_neg hto] at he
    obtain ⟨ma, e1, hwa, -, -, -, -, -, hsza⟩ := move_construct_winv hw ho
    have htn : this ≠ m.next := fun e => by have := hw.lt_next this ht; omega
    obtain ⟨mb, e2, hwb, -, -, -, hszb, -, -⟩ :=
      swap_winv hwa (List.mem_cons_self _ _) (List.mem_cons_of_mem _ ht) (Ne.symm htn)
    simp only [e1, e2] at he
    have hsz : mb.size m.next + 1 < fuel := by rw [hszb, hsza this htn hto]; exact hf
    have hst := destroy_objstep (hwb.inv m.next (List.mem_cons_self _ _)) hsz he
    obtain ⟨TL1, TR1, hwc⟩ := hst.to_winv hwb (List.mem_cons_self _ _)
    exact ⟨TL1, TR1, hwc.sublist (List.sublist_cons_self _ _)⟩

/-- Every reachable memory satisfies the invariant: each live object is a
pair of well-formed, strictly sorted search trees over the same paired nodes. -/
theorem Reach.winv [Inhabited α] [Inhabited β] {m : Mem α β} {live : List Nat}
    (hr : Reach m live) : ∃ TL TR, WInv m live TL TR := by
  induction hr with
  | init cl cr =>
    exact ⟨fun _ => .nil, fun _ => .nil, List.nodup_nil, fun b hb => by simp at hb,
      fun b hb => by simp at hb, fun b hb => by simp at hb⟩
  | construct cl cr _ hl hr ih =>
    obtain ⟨TL, TR, hw⟩ := ih
    exact ⟨_, _, construct_inv hw hw.lt_next hl hr⟩
  | copy_construct other this fuel _ ho hf he ih =>
    obtain ⟨TL, TR, hw⟩ := ih
    obtain ⟨ma, tl1, tr1, e1, hwa, -, -⟩ :=
      copy_construct_winv hw ho (by omega : _ + 1 < fuel)
    rw [e1] at he
    obtain ⟨rfl, rfl⟩ := Prod.mk.inj (Option.some.inj he)
    exact ⟨_, _, hwa⟩
  | move_construct other this _ ho he ih =>
    obtain ⟨TL, TR, hw⟩ := ih
    obtain ⟨ma, e1, hwa, -⟩ := move_construct_winv hw ho
    rw [e1] at he
    obtain ⟨rfl, rfl⟩ := Prod.mk.inj (Option.some.inj he)
    exact ⟨_, _, hwa⟩
  | copy_assign this other fuel _ ht ho hf hfo he ih =>
    obtain ⟨TL, TR, hw⟩ := ih
    exact copy_assign_winv hw ht ho (by omega) (by omega) he
  | move_assign this other fuel _ ht ho hf he ih =>
    obtain ⟨TL, TR, hw⟩ := ih
    exact move_assign_winv hw ht ho (by omega) he
  | swap lhs rhs _ hl hr hne he ih =>
    obtain ⟨TL, TR, hw⟩ := ih
    obtain ⟨mb, e2, hwb, -⟩ := swap_winv hw hl hr hne
    rw [e2] at he
    obtain rfl := Option.some.inj he
    exact ⟨_, _, hwb⟩
  | destroy this fuel _ ht hf he ih =>
    obtain ⟨TL, TR, hw⟩ := ih
    obtain ⟨TL1, TR1, hw1⟩ := (destroy_objstep (hw.inv this ht) (by omega) he).to_winv hw ht
    exact ⟨TL1, TR1, hw1.sublist (List.erase_sublist _ _)⟩
  | insert this fuel l r it _ ht hf he ih =>
    obtain ⟨TL, TR, hw⟩ := ih
    exact (insert_objstep (hw.inv this ht) (by omega) he).to_winv hw ht
  | erase_left this fuel cs it ret _ ht hf hcs hit he ih =>
    obtain ⟨TL, TR, hw⟩ := ih
    exact (erase_left_objstep (hw.inv this ht) (by omega) hcs hit he).to_winv hw ht
  | erase_right this fuel cs it ret _ ht hf hcs hit he ih =>
    obtain ⟨TL, TR, hw⟩ := ih
    exact (erase_right_objstep (hw.inv this ht) (by omega) hcs hit he).to_winv hw ht
  | erase_left_key this fuel l ret _ ht hf he ih =>
    obtain ⟨TL, TR, hw⟩ := ih
    exact (erase_left_key_objstep (hw.inv this ht) (by omega) he).to_winv hw ht
  | erase_right_key this fuel r ret _ ht hf he ih =>
    obtain ⟨TL, TR, hw⟩ := ih
    exact (erase_right_key_objstep (hw.inv this ht) (by omega) he).to_winv hw ht
  | erase_left_range this fuel before range after ret _ ht hf hcs he ih =>
    obtain ⟨TL, TR, hw⟩ := ih
    exact (erase_left_range_objstep (hw.inv this ht) (by omega) hcs he).to_winv hw ht
  | erase_right_range this fuel before range after ret _ ht hf hcs he ih =>
    obtain ⟨TL, TR, hw⟩ := ih
    exact (erase_right_range_objstep (hw.inv this ht) (by omega) hcs he).to_winv hw ht
  | at_left_or_default this fuel key ret _ ht hf he ih =>
    obtain ⟨TL, TR, hw⟩ := ih
    exact (at_left_or_default_objstep (hw.inv this ht) (by omega) he).to_winv hw ht
  | at_right_or_default this fuel key ret _ ht hf he ih =>
    obtain ⟨TL, TR, hw⟩ := ih
    exact (at_right_or_default_objstep (hw.inv this ht) (by omega) he).to_winv hw ht

/-- Every live object of a reachable memory satisfies its representation invariant. -/
theorem Reach.inv [Inhabited α] [Inhabited β] {m : Mem α β} {live : List Nat}
    (hr : Reach m live) {b : Nat} (hb : b ∈ live) : ∃ tl tr, Inv m b tl tr := by
  obtain ⟨TL, TR, hw⟩ := hr.winv
  exact ⟨TL b, TR b, hw.inv b hb⟩

end world

section lookup
variable {α β : Type}

theorem equiv_refl {K : Type} {cmp : K → K → Bool} (hs : StrictWeakOrder cmp) (a : K) :
    equiv cmp a a = true := by
  simp [equiv, hs.irrefl]

/-- In a strictly increasing sequence at most one node holds a value
equivalent to a given key. -/
theorem sorted_unique {K : Type} {cmp : K → K → Bool} (hs : StrictWeakOrder cmp)
    {val : Nat → Option K} {L : List Nat} (hsorted : L.Pairwise (VLt cmp val)) {x y : Nat}
    (hx : x ∈ L) (hy : y ∈ L) {vx vy k : K} (hvx : val x = some vx) (hvy : val y = some vy)
    (ex : equiv cmp vx k = true) (ey : equiv cmp vy k = true) : x = y := by
  by_contra hne
  have hsym : Symmetric (fun a c => VLt cmp val a c ∨ VLt cmp val c a) :=
    fun a c h => h.symm
  have hxy : equiv cmp vx vy = true := hs.equiv_trans _ _ _ ex (StrictWeakOrder.equiv_symm ey)
  simp only [equiv, Bool.and_eq_true, Bool.not_eq_true'] at hxy
  rcases (hsorted.imp (fun h => Or.inl h)).forall hsym hx hy hne with
    ⟨u, v, h1, h2, h3⟩ | ⟨u, v, h1, h2, h3⟩
  · rw [hvx] at h1; rw [hvy] at h2
    cases h1; cases h2
    rw [hxy.1] at h3; cases h3
  · rw [hvy] at h1; rw [hvx] at h2
    cases h1; cases h2
    rw [hxy.2] at h3; cases h3

/-- The lookup on the left returns the node whose left value is equivalent to the key. -/
theorem Inv.lookupL_of_mem {m : Mem α β} {b : Nat} {tl tr : Tree} (hi : Inv m b tl tr)
    {x : Nat} (hx : x ∈ tl.toList) {v k : α} (hv : m.lval x = some v)
    (he : equiv (m.cmpL b) v k = true) : lookupL m b tl k = some x := by
  cases h : lookupL m b tl k with
  | none => rw [lookupL_eq_none h x hx v hv] at he; cases he
  | some y =>
    obtain ⟨hy, w, hw, hew⟩ := lookupL_some h
    rw [sorted_unique hi.swoL hi.sortedL hx hy hv hw he hew]

/-- The lookup on the right returns the node whose right value is equivalent to the key. -/
theorem Inv.lookupR_of_mem {m : Mem α β} {b : Nat} {tl tr : Tree} (hi : Inv m b tl tr)
    {x : Nat} (hx : x ∈ tl.toList) {v k : β} (hv : m.rval x = some v)
    (he : equiv (m.cmpR b) v k = true) : lookupR m b tr k = some x := by
  have hxr := hi.shape.mem_right.2 hx
  cases h : lookupR m b tr k with
  | none => rw [lookupR_eq_none h x hxr v hv] at he; cases he
  | some y =>
    obtain ⟨hy, w, hw, hew⟩ := lookupR_some h
    rw [sorted_unique hi.swoR hi.sortedR hxr hy hv hw he hew]

theorem lookupL_none_of {m : Mem α β} {b : Nat} {tl : Tree} {k : α}
    (h : ∀ x ∈ tl.toList, ∀ v, m.lval x = some v → equiv (m.cmpL b) v k = false) :
    lookupL m b tl k = none := by
  simp only [lookupL, List.find?_eq_none]
  intro x hx
  simp only [onVal]
  split
  · next v hv => simp [h x hx v hv]
  · simp

theorem lookupR_none_of {m : Mem α β} {b : Nat} {tr : Tree} {k : β}
    (h : ∀ x ∈ tr.toList, ∀ v, m.rval x = some v → equiv (m.cmpR b) v k = false) :
    lookupR m b tr k = none := by
  simp only [lookupR, List.find?_eq_none]
  intro x hx
  simp only [onVal]
  split
  · next v hv => simp [h x hx v hv]
  · simp

/-- No stored pair has a left value equivalent to `k`: the lookup finds nothing. -/
theorem Inv.lookupL_none {m : Mem α β} {b : Nat} {tl tr : Tree} (hi : Inv m b tl tr) {k : α}
    (h : ∀ p ∈ pairList m tl.toList, equiv (m.cmpL b) p.1 k = false) :
    lookupL m b tl k = none := by
  refine lookupL_none_of ?_
  intro x hx v hv
  obtain ⟨r, hr⟩ := hi.shape.valR x hx
  exact h (v, r) (mem_pairList.2 ⟨x, hx, hv, hr⟩)

/-- No stored pair has a right value equivalent to `k`: the lookup finds nothing. -/
theorem Inv.lookupR_none {m : Mem α β} {b : Nat} {tl tr : Tree} (hi : Inv m b tl tr) {k : β}
    (h : ∀ p ∈ pairList m tl.toList, equiv (m.cmpR b) p.2 k = false) :
    lookupR m b tr k = none := by
  refine lookupR_none_of ?_
  intro x hx v hv
  have hx' := hi.shape.mem_right.1 hx
  obtain ⟨l, hl⟩ := hi.shape.valL x hx'
  exact h (l, v) (mem_pairList.2 ⟨x, hx', hl, hv⟩)

/-- A stored pair whose left value is equivalent to `k` is the one the lookup finds. -/
theorem Inv.lookupL_pair {m : Mem α β} {b : Nat} {tl tr : Tree} (hi : Inv m b tl tr) {k : α}
    {p : α × β} (hp : p ∈ pairList m tl.toList) (he : equiv (m.cmpL b) p.1 k = true) :
    ∃ x ∈ tl.toList, lookupL m b tl k = some x ∧ m.lval x = some p.1 ∧ m.rval x = some p.2 := by
  obtain ⟨x, hx, hl, hr⟩ := mem_pairList.1 hp
  exact ⟨x, hx, hi.lookupL_of_mem hx hl he, hl, hr⟩

/-- A stored pair whose right value is equivalent to `k` is the one the lookup finds. -/
theorem Inv.lookupR_pair {m : Mem α β} {b : Nat} {tl tr : Tree} (hi : Inv m b tl tr) {k : β}
    {p : α × β} (hp : p ∈ pairList m tl.toList) (he : equiv (m.cmpR b) p.2 k = true) :
    ∃ x ∈ tl.toList, lookupR m b tr k = some x ∧ m.lval x = some p.1 ∧ m.rval x = some p.2 := by
  obtain ⟨x, hx, hl, hr⟩ := mem_pairList.1 hp
  exact ⟨x, hx, hi.lookupR_of_mem hx hr he, hl, hr⟩

theorem pairList_congr {m m1 : Mem α β} {L : List Nat}
    (h : ∀ x ∈ L, m1.lval x = m.lval x ∧ m1.rval x = m.rval x) :
    pairList m1 L = pairList m L := by
  induction L with
  | nil => rfl
  | cons a L ih =>
    have ha := h a (List.mem_cons_self _ _)
    have ih1 := ih (fun x hx => h x (List.mem_cons_of_mem _ hx))
    simp only [pairList] at ih1 ⊢
    simp only [List.filterMap_cons, pairOf, ha.1, ha.2, ih1]

theorem pairList_perm (m : Mem α β) {L L1 : List Nat} (h : L.Perm L1) :
    (pairList m L).Perm (pairList m L1) :=
  h.filterMap _

theorem pairList_append (m : Mem α β) (L L1 : List Nat) :
    pairList m (L ++ L1) = pairList m L ++ pairList m L1 := by
  simp [pairList, List.filterMap_append]

theorem pairList_cons {m : Mem α β} {x : Nat} {l : α} {r : β} (hl : m.lval x = some l)
    (hr : m.rval x = some r) (L : List Nat) : pairList m (x :: L) = (l, r) :: pairList m L := by
  simp [pairList, List.filterMap_cons, pairOf, hl, hr]

/-- The pairs of the right traversal are the pairs of the left traversal, reordered. -/
theorem Shape.pairs_perm {m : Mem α β} {b : Nat} {tl tr : Tree} (hs : Shape m b tl tr) :
    (pairList m tr.toList).Perm (pairList m tl.toList) :=
  pairList_perm m hs.perm.symm

theorem pairList_length {m : Mem α β} {b : Nat} {tl tr : Tree} (hs : Shape m b tl tr) :
    (pairList m tl.toList).length = m.size b := by
  rw [hs.size_eq]
  have : ∀ L : List Nat, (∀ x ∈ L, x ∈ tl.toList) → (pairList m L).length = L.length := by
    intro L
    induction L with
    | nil => intro _; rfl
    | cons a L ih =>
      intro h
      obtain ⟨l, r, hl, hr, -⟩ := pairOf_some hs (h a (List.mem_cons_self _ _))
      rw [pairList_cons hl hr, List.length_cons, List.length_cons,
        ih (fun x hx => h x (List.mem_cons_of_mem _ hx))]
  exact this _ (fun _ h => h)

end lookup

section cursors
variable {α β : Type}

theorem deref_left_node (m : Mem α β) (x : Nat) :
    deref_left m (some ⟨.left, x⟩) = m.lval x := by
  simp only [deref_left, get_over_left_mk]

theorem deref_right_node (m : Mem α β) (x : Nat) :
    deref_right m (some ⟨.right, x⟩) = m.rval x := by
  simp only [deref_right, get_over_right_mk]

theorem Shape.flip_left {m : Mem α β} {b : Nat} {tl tr : Tree} (hs : Shape m b tl tr) {x : Nat}
    (hx : x ∈ tl.toList) : flip m.heap (some ⟨.left, x⟩) = some (some ⟨.right, x⟩) :=
  flip_node hs.repL hx

theorem Shape.flip_right {m : Mem α β} {b : Nat} {tl tr : Tree} (hs : Shape m b tl tr) {x : Nat}
    (hx : x ∈ tl.toList) : flip m.heap (some ⟨.right, x⟩) = some (some ⟨.left, x⟩) :=
  flip_node hs.repR (hs.mem_right.2 hx)

theorem Shape.flip_end_left {m : Mem α β} {b : Nat} {tl tr : Tree} (hs : Shape m b tl tr) :
    flip m.heap (end_left b) = some (end_right b) :=
  flip_sentinel hs.repL.parent hs.linkL

theorem Shape.flip_end_right {m : Mem α β} {b : Nat} {tl tr : Tree} (hs : Shape m b tl tr) :
    flip m.heap (end_right b) = some (end_left b) :=
  flip_sentinel hs.repR.parent hs.linkR

/-- The cursor `find_left` returns for a key equivalent to the left value of the node `x`. -/
theorem Inv.find_left_node {m : Mem α β} {b : Nat} {tl tr : Tree} (hi : Inv m b tl tr)
    {x : Nat} (hx : x ∈ tl.toList) {v k : α} (hv : m.lval x = some v)
    (he : equiv (m.cmpL b) v k = true) {fuel : Nat} (hf : m.size b < fuel) :
    find_left fuel m b k = some (some ⟨.left, x⟩) := by
  rw [find_left_spec hi k hf, hi.lookupL_of_mem hx hv he]

/-- The cursor `find_right` returns for a key equivalent to the right value of the node `x`. -/
theorem Inv.find_right_node {m : Mem α β} {b : Nat} {tl tr : Tree} (hi : Inv m b tl tr)
    {x : Nat} (hx : x ∈ tl.toList) {v k : β} (hv : m.rval x = some v)
    (he : equiv (m.cmpR b) v k = true) {fuel : Nat} (hf : m.size b < fuel) :
    find_right fuel m b k = some (some ⟨.right, x⟩) := by
  rw [find_right_spec hi k hf, hi.lookupR_of_mem hx hv he]

/-- The cursor `find_left` returns when no stored left value is equivalent to the key. -/
theorem Inv.find_left_end {m : Mem α β} {b : Nat} {tl tr : Tree} (hi : Inv m b tl tr) {k : α}
    (h : ∀ p ∈ pairList m tl.toList, equiv (m.cmpL b) p.1 k = false) {fuel : Nat}
    (hf : m.size b < fuel) : find_left fuel m b k = some (end_left b) := by
  rw [find_left_spec hi k hf, hi.lookupL_none h]
  rfl

/-- The cursor `find_right` returns when no stored right value is equivalent to the key. -/
theorem Inv.find_right_end {m : Mem α β} {b : Nat} {tl tr : Tree} (hi : Inv m b tl tr) {k : β}
    (h : ∀ p ∈ pairList m tl.toList, equiv (m.cmpR b) p.2 k = false) {fuel : Nat}
    (hf : m.size b < fuel) : find_right fuel m b k = some (end_right b) := by
  rw [find_right_spec hi k hf, hi.lookupR_none h]
  rfl

theorem Inv.left_pairs {m : Mem α β} {b : Nat} {tl tr : Tree} (hi : Inv m b tl tr)
    {fuel : Nat} (hf : m.size b < fuel) {ps : List (α × β)}
    (hps : left_pairs fuel m b = some ps) : ps = pairList m tl.toList := by
  rw [left_pairs_spec hi.shape hf] at hps
  exact (Option.some.inj hps).symm

/-- The pairs of the memory after `forwarding_insert` attached `(l, r)`. -/
theorem attached_pairs {m : Mem α β} {b : Nat} {tl tr : Tree} (hs : Shape m b tl tr) (l : α)
    (r : β) :
    (pairList (m.attached b tl tr l r) (tl.ins (goL m b l) m.next).toList).Perm
      ((l, r) :: pairList m tl.toList) := by
  refine (pairList_perm _ (Tree.ins_perm _ _ _)).trans ?_
  rw [pairList_cons (attached_lval_new m b tl tr l r) (attached_rval_new m b tl tr l r),
    pairList_congr (fun x hx => ⟨attached_lval_old m b tl tr l r (hs.ne_next hx),
      attached_rval_old m b tl tr l r (hs.ne_next hx)⟩)]

end cursors

/-- A comparator that decides a relation which is a strict total order up to
the key `f` is a strict weak ordering. -/
theorem swo_of_key {K K1 : Type} [LinearOrder K1] (f : K → K1) (cmp : K → K → Bool)
    (h : ∀ a b, cmp a b = true ↔ f a < f b) : StrictWeakOrder cmp := by
  have hf : ∀ a b, cmp a b = false ↔ f b ≤ f a := by
    intro a b
    rw [← not_lt, ← h a b]
    simp
  have he : ∀ a b, equiv cmp a b = true ↔ f a = f b := by
    intro a b
    simp only [equiv, Bool.and_eq_true, Bool.not_eq_true', hf]
    exact ⟨fun ⟨h1, h2⟩ => le_antisymm h2 h1, fun e => ⟨e.ge, e.le⟩⟩
  refine ⟨fun a => (hf a a).2 (le_refl _), ?_, ?_⟩
  · intro a b c h1 h2
    exact (h a c).2 (lt_trans ((h a b).1 h1) ((h b c).1 h2))
  · intro a b c h1 h2
    exact (he a c).2 (((he a b).1 h1).trans ((he b c).1 h2))

theorem swo_ltNat : StrictWeakOrder ltNat :=
  swo_of_key id ltNat (fun a b => by simp [ltNat])

theorem swo_ltInt : StrictWeakOrder ltInt :=
  swo_of_key id ltInt (fun a b => by simp [ltInt])

theorem swo_ltString : StrictWeakOrder ltString :=
  swo_of_key id ltString (fun a b => by
    simp only [ltString, decide_eq_true_eq, id]
    exact String.lt_iff_toList_lt.symm)

theorem reach_scene0 : Reach scene0 [0] :=
  Reach.construct ltNat ltString (Reach.init ltNat ltString) swo_ltNat swo_ltString

set_option maxRecDepth 100000 in
theorem reach_scene1 : Reach scene1 [0] :=
  Reach.insert 0 8 1 "a" (some ⟨.left, 1⟩) reach_scene0 (by decide) (by decide) (by rfl)

set_option maxRecDepth 100000 in
theorem reach_scene2 : Reach scene2 [0] :=
  Reach.insert 0 8 2 "b" (some ⟨.left, 2⟩) reach_scene1 (by decide) (by decide) (by rfl)

section claims
variable {α β : Type} [Inhabited α] [Inhabited β]

/-- C1: on a reachable bimap, `insert(l, r)` of a pair whose left value is
equivalent to no stored left value and whose right value is equivalent to no
stored right value returns a left cursor that dereferences to `l`, increases
`size()` by exactly one, and afterwards `find_left(l)` is that cursor and its
flip dereferences to `r`, `find_right(r).flip()` dereferences to `l`, and the
stored pairs are the pairs stored before together with `(l, r)`. -/
theorem insert_fresh_pair {m : Mem α β} {live : List Nat} (hr : Reach m live) {b : Nat}
    (hb : b ∈ live) {fuel : Nat} (hf : m.size b + 3 ≤ fuel) {ps : List (α × β)}
    (hps : left_pairs fuel m b = some ps) (l : α) (r : β)
    (hl : ∀ p ∈ ps, equiv (m.cmpL b) p.1 l = false)
    (hrr : ∀ p ∈ ps, equiv (m.cmpR b) p.2 r = false) :
    ∃ m1 it, insert fuel m b l r = some (m1, it) ∧
      it ≠ end_left b ∧ deref_left m1 it = some l ∧
      size m1 b = size m b + 1 ∧
      find_left fuel m1 b l = some it ∧
      (∃ f, flip m1.heap it = some f ∧ deref_right m1 f = some r) ∧
      (∃ fr f, find_right fuel m1 b r = some fr ∧ flip m1.heap fr = some f ∧
        deref_left m1 f = some l) ∧
      ∃ ps1, left_pairs fuel m1 b = some ps1 ∧ ps1.Perm ((l, r) :: ps) := by
  obtain ⟨tl, tr, hi⟩ := hr.inv hb
  have hfl : m.size b < fuel := by omega
  obtain rfl := hi.left_pairs hfl hps
  have h1 := hi.lookupL_none hl
  have h2 := hi.lookupR_none hrr
  obtain ⟨e, hs1, -⟩ := forwarding_insert_accept hi l r false hfl (Or.inr ⟨h1, h2⟩)
  have hi1 := insert_inv hi l r hs1 h1 h2
  have hmem : m.next ∈ (tl.ins (goL m b l) m.next).toList :=
    (Tree.ins_perm _ _ _).mem_iff.2 (List.mem_cons_self _ _)
  have hf1 : (m.attached b tl tr l r).size b < fuel := by rw [attached_size]; omega
  have hlv := attached_lval_new m b tl tr l r
  have hrv := attached_rval_new m b tl tr l r
  refine ⟨_, _, e, node_ne_end_left hs1 hmem, by rw [deref_left_node, hlv],
    attached_size m b tl tr l r, hi1.find_left_node hmem hlv (equiv_refl hi1.swoL l) hf1,
    ⟨_, hs1.flip_left hmem, by rw [deref_right_node, hrv]⟩,
    ⟨_, _, hi1.find_right_node hmem hrv (equiv_refl hi1.swoR r) hf1, hs1.flip_right hmem,
      by rw [deref_left_node, hlv]⟩,
    _, left_pairs_spec hs1 hf1, attached_pairs hi.shape l r⟩

set_option maxRecDepth 100000 in
/-- The bimap that holds `(1, "a")` accepts `insert(2, "b")`. -/
theorem insert_fresh_pair_witness :
    Reach scene1 [0] ∧ 0 ∈ [0] ∧ scene1.size 0 + 3 ≤ 8 ∧
    left_pairs 8 scene1 0 = some [(1, "a")] ∧
    (∀ p ∈ [((1 : Nat), "a")], equiv (scene1.cmpL 0) p.1 2 = false) ∧
    (∀ p ∈ [((1 : Nat), "a")], equiv (scene1.cmpR 0) p.2 "b" = false) ∧
    ∃ m1 it, insert 8 scene1 0 2 "b" = some (m1, it) ∧
      it ≠ end_left 0 ∧ deref_left m1 it = some 2 ∧
      size m1 0 = size scene1 0 + 1 ∧
      find_left 8 m1 0 2 = some it ∧
      (∃ f, flip m1.heap it = some f ∧ deref_right m1 f = some "b") ∧
      (∃ fr f, find_right 8 m1 0 "b" = some fr ∧ flip m1.heap fr = some f ∧
        deref_left m1 f = some 2) ∧
      ∃ ps1, left_pairs 8 m1 0 = some ps1 ∧ ps1.Perm ((2, "b") :: [(1, "a")]) :=
  ⟨reach_scene1, by decide, by decide, by decide, by decide, by decide,
    insert_fresh_pair reach_scene1 (List.mem_cons_self _ _) (by decide)
      (by decide : left_pairs 8 scene1 0 = some [(1, "a")]) 2 "b" (by decide) (by decide)⟩

/-- C2: on a reachable bimap, `insert(l, r)` of a pair whose left value is
equivalent to a stored left value, or whose right value is equivalent to a
stored right value, returns `end_left()` and changes nothing: the memory, hence
`size()`, both sequences of pairs and every lookup, is the one before the call. -/
theorem insert_duplicate_noop {m : Mem α β} {live : List Nat} (hr : Reach m live) {b : Nat}
    (hb : b ∈ live) {fuel : Nat} (hf : m.size b + 3 ≤ fuel) {ps : List (α × β)}
    (hps : left_pairs fuel m b = some ps) (l : α) (r : β)
    (hdup : (∃ p ∈ ps, equiv (m.cmpL b) p.1 l = true) ∨
      (∃ p ∈ ps, equiv (m.cmpR b) p.2 r = true)) :
    ∃ m1, insert fuel m b l r = some (m1, end_left b) ∧ m1 = m ∧
      size m1 b = size m b ∧
      left_pairs fuel m1 b = left_pairs fuel m b ∧
      right_pairs fuel m1 b = right_pairs fuel m b ∧
      (∀ k, at_left fuel m1 b k = at_left fuel m b k) ∧
      (∀ k, at_right fuel m1 b k = at_right fuel m b k) := by
  obtain ⟨tl, tr, hi⟩ := hr.inv hb
  have hfl : m.size b < fuel := by omega
  obtain rfl := hi.left_pairs hfl hps
  have hd : (lookupL m b tl l).isSome ∨ (lookupR m b tr r).isSome := by
    rcases hdup with ⟨p, hp, he⟩ | ⟨p, hp, he⟩
    · obtain ⟨x, -, hx, -⟩ := hi.lookupL_pair hp he
      exact Or.inl (by rw [hx]; rfl)
    · obtain ⟨x, -, hx, -⟩ := hi.lookupR_pair hp he
      exact Or.inr (by rw [hx]; rfl)
  exact ⟨m, forwarding_insert_reject hi l r hfl hd, rfl, rfl, rfl, rfl, fun _ => rfl,
    fun _ => rfl⟩

set_option maxRecDepth 100000 in
/-- The bimap that holds `(1, "a")` and `(2, "b")` rejects `insert(3, "a")`. -/
theorem insert_duplicate_noop_witness :
    Reach scene2 [0] ∧ 0 ∈ [0] ∧ scene2.size 0 + 3 ≤ 8 ∧
    left_pairs 8 scene2 0 = some [(1, "a"), (2, "b")] ∧
    ((∃ p ∈ [((1 : Nat), "a"), (2, "b")], equiv (scene2.cmpL 0) p.1 3 = true) ∨
      (∃ p ∈ [((1 : Nat), "a"), (2, "b")], equiv (scene2.cmpR 0) p.2 "a" = true)) ∧
    ∃ m1, insert 8 scene2 0 3 "a" = some (m1, end_left 0) ∧ m1 = scene2 ∧
      size m1 0 = size scene2 0 ∧
      left_pairs 8 m1 0 = left_pairs 8 scene2 0 ∧
      right_pairs 8 m1 0 = right_pairs 8 scene2 0 ∧
      (∀ k, at_left 8 m1 0 k = at_left 8 scene2 0 k) ∧
      (∀ k, at_right 8 m1 0 k = at_right 8 scene2 0 k) :=
  ⟨reach_scene2, by decide, by decide, by decide, by decide,
    insert_duplicate_noop reach_scene2 (List.mem_cons_self _ _) (by decide)
      (by decide : left_pairs 8 scene2 0 = some [(1, "a"), (2, "b")]) 3 "a" (by decide)⟩

end claims

section erasing
variable {α β : Type}

theorem erased_lval {m : Mem α β} {b x y : Nat} {h2 : Heap} (hy : y ≠ x) :
    (m.erased b x h2).lval y = m.lval y := by
  simp [Mem.erased, hy]

theorem erased_rval {m : Mem α β} {b x y : Nat} {h2 : Heap} (hy : y ≠ x) :
    (m.erased b x h2).rval y = m.rval y := by
  simp [Mem.erased, hy]

theorem split_of_mem_nodup {L : List Nat} (hnd : L.Nodup) {x : Nat} (hx : x ∈ L) :
    ∃ A B, L = A ++ x :: B ∧ L.erase x = A ++ B ∧ x ∉ A ∧ x ∉ B := by
  obtain ⟨A, B, rfl⟩ := List.append_of_mem hx
  have hA : x ∉ A := fun hm => List.disjoint_of_nodup_append hnd hm (List.mem_cons_self _ _)
  have hB : x ∉ B := (List.nodup_cons.1 (List.nodup_append.1 hnd).2.1).1
  refine ⟨A, B, rfl, ?_, hA, hB⟩
  rw [List.erase_append_right _ hA, List.erase_cons_head]

/-- The pairs of a sequence of nodes after the paired node `x` was erased are
the pairs before without the pair of `x`, in the same order. -/
theorem erased_pairs {m : Mem α β} {b : Nat} {L : List Nat} (hnd : L.Nodup) {x : Nat}
    (hx : x ∈ L) {h2 : Heap} {l : α} {r : β} (hl : m.lval x = some l) (hr : m.rval x = some r) :
    ∃ A B, pairList m L = A ++ (l, r) :: B ∧ pairList (m.erased b x h2) (L.erase x) = A ++ B := by
  obtain ⟨A, B, e1, e2, hA, hB⟩ := split_of_mem_nodup hnd hx
  refine ⟨pairList m A, pairList m B, ?_, ?_⟩
  · rw [e1, pairList_append, pairList_cons hl hr]
  · rw [e2, pairList_append]
    rw [pairList_congr (fun y hy => ⟨erased_lval (ne_of_mem_of_not_mem hy hA),
      erased_rval (ne_of_mem_of_not_mem hy hA)⟩),
      pairList_congr (fun y hy => ⟨erased_lval (ne_of_mem_of_not_mem hy hB),
      erased_rval (ne_of_mem_of_not_mem hy hB)⟩)]

theorem bool_eq_false_of_not {c : Bool} (h : c = true → False) : c = false := by
  cases c
  · rfl
  · exact absurd rfl h

/-- After the node `x` was erased no stored left value is equivalent to a
key equivalent to the left value of `x`. -/
theorem erased_absent_left {m : Mem α β} {b : Nat} {tl tr tl1 tr1 : Tree} (hi : Inv m b tl tr)
    {x : Nat} {h2 : Heap} (hi1 : Inv (m.erased b x h2) b tl1 tr1)
    (hl1 : tl1.toList = tl.toList.erase x) (hx : x ∈ tl.toList) {v k : α}
    (hv : m.lval x = some v) (he : equiv (m.cmpL b) v k = true) {fuel : Nat}
    (hf : (m.erased b x h2).size b < fuel) :
    find_left fuel (m.erased b x h2) b k = some (end_left b) := by
  refine hi1.find_left_end ?_ hf
  intro q hq
  obtain ⟨y, hy, hly, -⟩ := mem_pairList.1 hq
  rw [hl1] at hy
  obtain ⟨hy1, hy2⟩ := mem_erase_nodup hi.shape.repL.nodup hy
  rw [erased_lval hy2] at hly
  refine bool_eq_false_of_not (fun ht => hy2 ?_)
  exact sorted_unique hi.swoL hi.sortedL hy1 hx hly hv ht he

/-- After the node `x` was erased no stored right value is equivalent to a
key equivalent to the right value of `x`. -/
theorem erased_absent_right {m : Mem α β} {b : Nat} {tl tr tl1 tr1 : Tree} (hi : Inv m b tl tr)
    {x : Nat} {h2 : Heap} (hi1 : Inv (m.erased b x h2) b tl1 tr1)
    (hl1 : tl1.toList = tl.toList.erase x) (hx : x ∈ tl.toList) {v k : β}
    (hv : m.rval x = some v) (he : equiv (m.cmpR b) v k = true) {fuel : Nat}
    (hf : (m.erased b x h2).size b < fuel) :
    find_right fuel (m.erased b x h2) b k = some (end_right b) := by
  refine hi1.find_right_end ?_ hf
  intro q hq
  obtain ⟨y, hy, -, hry⟩ := mem_pairList.1 hq
  rw [hl1] at hy
  obtain ⟨hy1, hy2⟩ := mem_erase_nodup hi.shape.repL.nodup hy
  rw [erased_rval hy2] at hry
  refine bool_eq_false_of_not (fun ht => hy2 ?_)
  exact sorted_unique hi.swoR hi.sortedR (hi.shape.mem_right.2 hy1) (hi.shape.mem_right.2 hx)
    hry hv ht he

theorem Shape.size_pos {m : Mem α β} {b : Nat} {tl tr : Tree} (hs : Shape m b tl tr) {x : Nat}
    (hx : x ∈ tl.toList) : 0 < m.size b := by
  rw [hs.size_eq]
  exact List.length_pos_of_mem hx

end erasing

section claims
variable {α β : Type} [Inhabited α] [Inhabited β]

/-- C3: on a reachable bimap, `erase_left(l)` by key returns true exactly when
a stored left value is equivalent to `l`.  When it returns true, with `p` the
stored pair whose left value is equivalent to `l`, afterwards `find_left(l)` is
`end_left()`, `find_right` of the right value of `p` is `end_right()`, `size()`
is smaller by one and the stored pairs are the pairs before without `p`, in the
same order; when it returns false the memory is unchanged. -/
theorem erase_left_by_key {m : Mem α β} {live : List Nat} (hr : Reach m live) {b : Nat}
    (hb : b ∈ live) {fuel : Nat} (hf : m.size b + 3 ≤ fuel) {ps : List (α × β)}
    (hps : left_pairs fuel m b = some ps) (l : α) :
    ∃ m1 ret, erase_left_key fuel m b l = some (m1, ret) ∧
      (ret = true ↔ ∃ p ∈ ps, equiv (m.cmpL b) p.1 l = true) ∧
      (ret = false → m1 = m) ∧
      (ret = true → ∃ p ∈ ps, equiv (m.cmpL b) p.1 l = true ∧
        find_left fuel m1 b l = some (end_left b) ∧
        find_right fuel m1 b p.2 = some (end_right b) ∧
        size m1 b + 1 = size m b ∧
        ∃ A B, ps = A ++ p :: B ∧ left_pairs fuel m1 b = some (A ++ B)) := by
  obtain ⟨tl, tr, hi⟩ := hr.inv hb
  have hfl : m.size b < fuel := by omega
  obtain rfl := hi.left_pairs hfl hps
  cases hlk : lookupL m b tl l with
  | none =>
    have hno : ¬ ∃ p ∈ pairList m tl.toList, equiv (m.cmpL b) p.1 l = true := by
      rintro ⟨p, hp, he⟩
      obtain ⟨x, -, hx, -⟩ := hi.lookupL_pair hp he
      rw [hlk] at hx; cases hx
    exact ⟨m, false, erase_left_key_none hi l hfl hlk, ⟨fun h => (by cases h), fun h => absurd h hno⟩,
      fun _ => rfl, fun h => (by cases h)⟩
  | some x =>
    obtain ⟨hx, v, hv, he⟩ := lookupL_some hlk
    obtain ⟨w, hw⟩ := hi.shape.valR x hx
    obtain ⟨h2, tl1, tr1, e, hi1, e1, -, -⟩ := erase_left_key_some hi l
      (by omega : m.size b + 1 < fuel) hlk
    have hmem : (v, w) ∈ pairList m tl.toList := mem_pairList.2 ⟨x, hx, hv, hw⟩
    have hsz : (m.erased b x h2).size b + 1 = m.size b := by
      rw [erased_size]; have := hi.shape.size_pos hx; omega
    have hf1 : (m.erased b x h2).size b < fuel := by omega
    have hE : ∃ A B, pairList m tl.toList = A ++ (v, w) :: B ∧
        pairList (m.erased b x h2) (tl.toList.erase x) = A ++ B :=
      erased_pairs hi.shape.repL.nodup hx hv hw
    obtain ⟨A, B, hA, hB⟩ := hE
    refine ⟨_, true, e, ⟨fun _ => ⟨_, hmem, he⟩, fun _ => rfl⟩, fun h => (by cases h),
      fun _ => ⟨_, hmem, he, erased_absent_left hi hi1 e1 hx hv he hf1,
        erased_absent_right hi hi1 e1 hx hw (equiv_refl hi.swoR w) hf1, hsz, A, B, hA, ?_⟩⟩
    rw [left_pairs_spec hi1.shape hf1, e1, hB]

set_option maxRecDepth 100000 in
/-- After `insert(1, "a"); insert(2, "b")`, the call `erase_left(1)` returns true,
`find_right("a")` is `end_right()` and `size()` is 1. -/
theorem erase_left_by_key_witness :
    Reach scene2 [0] ∧ 0 ∈ [0] ∧ scene2.size 0 + 3 ≤ 8 ∧
    left_pairs 8 scene2 0 = some [(1, "a"), (2, "b")] ∧
    (∃ m1 ret, erase_left_key 8 scene2 0 1 = some (m1, ret) ∧
      (ret = true ↔ ∃ p ∈ [((1 : Nat), "a"), (2, "b")], equiv (scene2.cmpL 0) p.1 1 = true) ∧
      (ret = false → m1 = scene2) ∧
      (ret = true → ∃ p ∈ [((1 : Nat), "a"), (2, "b")], equiv (scene2.cmpL 0) p.1 1 = true ∧
        find_left 8 m1 0 1 = some (end_left 0) ∧
        find_right 8 m1 0 p.2 = some (end_right 0) ∧
        size m1 0 + 1 = size scene2 0 ∧
        ∃ A B, [((1 : Nat), "a"), (2, "b")] = A ++ p :: B ∧
          left_pairs 8 m1 0 = some (A ++ B))) ∧
    erase_left_key 8 scene2 0 1 = some (scene3, true) ∧
    find_right 8 scene3 0 "a" = some (end_right 0) ∧ size scene3 0 = 1 :=
  ⟨reach_scene2, by decide, by decide, by decide,
    erase_left_by_key reach_scene2 (List.mem_cons_self _ _) (by decide)
      (by decide : left_pairs 8 scene2 0 = some [(1, "a"), (2, "b")]) 1,
    by rfl, by decide, by decide⟩

end claims

section defs
variable {α β : Type}

end defs

section counting
variable {α β : Type}

/-- The left-order pairs are strictly increasing in their left values. -/
theorem Inv.left_sorted {m : Mem α β} {b : Nat} {tl tr : Tree} (hi : Inv m b tl tr) :
    (pairList m tl.toList).Pairwise (fun p q => m.cmpL b p.1 q.1 = true) := by
  rw [pairList, List.pairwise_filterMap]
  refine hi.sortedL.imp ?_
  rintro x y ⟨u, v, h1, h2, h3⟩ p hp q hq
  obtain ⟨_, _, hl, -⟩ : ∃ z ∈ [x], m.lval z = some p.1 ∧ m.rval z = some p.2 :=
    mem_pairList.1 (by simpa [pairList] using hp)
  obtain ⟨_, _, hl', -⟩ : ∃ z ∈ [y], m.lval z = some q.1 ∧ m.rval z = some q.2 :=
    mem_pairList.1 (by simpa [pairList] using hq)
  simp_all

/-- The right-order pairs are strictly increasing in their right values. -/
theorem Inv.right_sorted {m : Mem α β} {b : Nat} {tl tr : Tree} (hi : Inv m b tl tr) :
    (pairList m tr.toList).Pairwise (fun p q => m.cmpR b p.2 q.2 = true) := by
  rw [pairList, List.pairwise_filterMap]
  refine hi.sortedR.imp ?_
  rintro x y ⟨u, v, h1, h2, h3⟩ p hp q hq
  obtain ⟨_, _, -, hl⟩ : ∃ z ∈ [x], m.lval z = some p.1 ∧ m.rval z = some p.2 :=
    mem_pairList.1 (by simpa [pairList] using hp)
  obtain ⟨_, _, -, hl'⟩ : ∃ z ∈ [y], m.lval z = some q.1 ∧ m.rval z = some q.2 :=
    mem_pairList.1 (by simpa [pairList] using hq)
  simp_all

/-- Under a strict weak ordering a strictly increasing pair is non-decreasing
and not equivalent. -/
theorem lt_facts {K : Type} {cmp : K → K → Bool} (hs : StrictWeakOrder cmp) {a c : K}
    (h : cmp a c = true) : cmp c a = false ∧ equiv cmp a c = false := by
  have := hs.asymm h
  simp [equiv, h, this]

/-- Repeated `insert` of pairs that are new and pairwise non-equivalent
accepts every one of them. -/
theorem insert_all_spec {fuel : Nat} (qs : List (α × β)) :
    ∀ {m : Mem α β} {b : Nat} {tl tr : Tree} (_ : Inv m b tl tr)
      (_ : m.size b + qs.length < fuel + 1)
      (_ : ∀ q ∈ qs, ∀ p ∈ pairList m tl.toList,
        equiv (m.cmpL b) p.1 q.1 = false ∧ equiv (m.cmpR b) p.2 q.2 = false)
      (_ : qs.Pairwise (fun p q =>
        equiv (m.cmpL b) p.1 q.1 = false ∧ equiv (m.cmpR b) p.2 q.2 = false)),
      ∃ m1 tl1 tr1, insert_all fuel m b qs = some m1 ∧ Inv m1 b tl1 tr1 ∧
        m1.size b = m.size b + qs.length ∧
        (pairList m1 tl1.toList).Perm (qs.reverse ++ pairList m tl.toList) := by
  induction qs with
  | nil =>
    intro m b tl tr hi _ _ _
    exact ⟨m, tl, tr, rfl, hi, rfl, List.Perm.refl _⟩
  | cons q qs ih =>
    intro m b tl tr hi hf hnew hpw
    obtain ⟨l, r⟩ := q
    have hq := hnew (l, r) (List.mem_cons_self _ _)
    have h1 := hi.lookupL_none (fun p hp => (hq p hp).1)
    have h2 := hi.lookupR_none (fun p hp => (hq p hp).2)
    have hfl : m.size b < fuel := by simp at hf; omega
    obtain ⟨e, hs1, -⟩ := forwarding_insert_accept hi l r false hfl (Or.inr ⟨h1, h2⟩)
    have hi1 := insert_inv hi l r hs1 h1 h2
    have hpairs := attached_pairs hi.shape l r
    obtain ⟨hq1, hq2⟩ := List.pairwise_cons.1 hpw
    obtain ⟨m1, tl1, tr1, e1, hi2, hsz, hperm⟩ := ih hi1
      (by rw [attached_size]; simp at hf ⊢; omega)
      (by
        intro q' hq' p hp
        rcases List.mem_cons.1 (hpairs.mem_iff.1 hp) with e0 | e0
        · rw [e0]; exact hq1 q' hq'
        · exact hnew q' (List.mem_cons_of_mem _ hq') p e0)
      hq2
    refine ⟨m1, tl1, tr1, ?_, hi2, by rw [hsz, attached_size]; simp; omega, ?_⟩
    · simp only [insert_all, insert, e]
      exact e1
    · refine hperm.trans ?_
      rw [List.reverse_cons, List.append_assoc]
      exact List.Perm.append_left _ (hpairs.trans (by simp))

end counting

section claims
variable {α β : Type} [Inhabited α] [Inhabited β]

/-- C4: on a reachable bimap the left-order traversal from `begin_left()` to
`end_left()` is non-decreasing under the left comparator and holds no two
equivalent left values (it is strictly increasing), and the right-order
traversal is non-decreasing under the right comparator and holds no two
equivalent right values. -/
theorem traversals_sorted {m : Mem α β} {live : List Nat} (hr : Reach m live) {b : Nat}
    (hb : b ∈ live) {fuel : Nat} (hf : m.size b + 3 ≤ fuel) :
    ∃ pl pr, left_pairs fuel m b = some pl ∧ right_pairs fuel m b = some pr ∧
      pl.Pairwise (fun p q => m.cmpL b q.1 p.1 = false ∧ equiv (m.cmpL b) p.1 q.1 = false) ∧
      pr.Pairwise (fun p q => m.cmpR b q.2 p.2 = false ∧ equiv (m.cmpR b) p.2 q.2 = false) ∧
      pl.Pairwise (fun p q => m.cmpL b p.1 q.1 = true) ∧
      pr.Pairwise (fun p q => m.cmpR b p.2 q.2 = true) := by
  obtain ⟨tl, tr, hi⟩ := hr.inv hb
  have hfl : m.size b < fuel := by omega
  exact ⟨_, _, left_pairs_spec hi.shape hfl, right_pairs_spec hi.shape hfl,
    hi.left_sorted.imp (fun h => lt_facts hi.swoL h),
    hi.right_sorted.imp (fun h => lt_facts hi.swoR h), hi.left_sorted, hi.right_sorted⟩

end claims

set_option maxRecDepth 100000 in
theorem reach_scene4 : Reach scene4 [3, 0] :=
  Reach.move_construct 0 3 reach_scene2 (by decide) (by rfl)

theorem reach_tally0 : Reach tally0 [0] :=
  Reach.construct ltInt ltInt (Reach.init ltInt ltInt) swo_ltInt swo_ltInt

set_option maxRecDepth 100000 in
theorem reach_tally1 : Reach tally1 [0] :=
  Reach.insert 0 12 5 50 (some ⟨.left, 1⟩) reach_tally0 (by decide) (by decide) (by rfl)

set_option maxRecDepth 100000 in
theorem reach_tally2 : Reach tally2 [0] :=
  Reach.insert 0 12 3 70 (some ⟨.left, 2⟩) reach_tally1 (by decide) (by decide) (by rfl)

set_option maxRecDepth 100000 in
theorem reach_tally3 : Reach tally3 [0] :=
  Reach.insert 0 12 8 20 (some ⟨.left, 3⟩) reach_tally2 (by decide) (by decide) (by rfl)

set_option maxRecDepth 100000 in
theorem reach_tally4 : Reach tally4 [0] :=
  Reach.insert 0 12 4 10 (some ⟨.left, 4⟩) reach_tally3 (by decide) (by decide) (by rfl)

set_option maxRecDepth 100000 in
theorem reach_tally5 : Reach tally5 [0] :=
  Reach.insert 0 12 9 60 (some ⟨.left, 5⟩) reach_tally4 (by decide) (by decide) (by rfl)

set_option maxRecDepth 100000 in
theorem reach_tally6 : Reach tally6 [0] :=
  Reach.erase_left_key 0 12 5 true reach_tally5 (by decide) (by decide) (by rfl)

set_option maxRecDepth 100000 in
theorem reach_tally7 : Reach tally7 [0] :=
  Reach.at_left_or_default 0 12 7 0 reach_tally6 (by decide) (by decide) (by rfl)

set_option maxRecDepth 100000 in
/-- Both traversals after five inserts, an erase of a node with two children and
one `at_left_or_default`. -/
theorem traversals_sorted_witness :
    Reach tally7 [0] ∧ 0 ∈ [0] ∧ tally7.size 0 + 3 ≤ 12 ∧
    (∃ pl pr, left_pairs 12 tally7 0 = some pl ∧ right_pairs 12 tally7 0 = some pr ∧
      pl.Pairwise (fun p q =>
        tally7.cmpL 0 q.1 p.1 = false ∧ equiv (tally7.cmpL 0) p.1 q.1 = false) ∧
      pr.Pairwise (fun p q =>
        tally7.cmpR 0 q.2 p.2 = false ∧ equiv (tally7.cmpR 0) p.2 q.2 = false) ∧
      pl.Pairwise (fun p q => tally7.cmpL 0 p.1 q.1 = true) ∧
      pr.Pairwise (fun p q => tally7.cmpR 0 p.2 q.2 = true)) ∧
    left_pairs 12 tally7 0 = some [(3, 70), (4, 10), (7, 0), (8, 20), (9, 60)] ∧
    right_pairs 12 tally7 0 = some [(7, 0), (4, 10), (8, 20), (9, 60), (3, 70)] :=
  ⟨reach_tally7, by decide, by decide,
    traversals_sorted reach_tally7 (List.mem_cons_self _ _) (by decide), by decide, by decide⟩

section claims
variable {α β : Type} [Inhabited α] [Inhabited β]

/-- C5: on a reachable bimap the left-order traversal and the right-order
traversal both visit exactly `size()` cursors, none twice, and flipping the
cursors of the left traversal gives the cursors of the right traversal,
reordered.  When the bimap is empty, inserting pairs whose left values are
pairwise non-equivalent and whose right values are pairwise non-equivalent
accepts them all: `size()` and both traversal counts are the number of pairs. -/
theorem traversal_counts {m : Mem α β} {live : List Nat} (hr : Reach m live) {b : Nat}
    (hb : b ∈ live) {fuel : Nat} (hf : m.size b + 3 ≤ fuel) :
    (∃ cl cr, left_cursors fuel m b = some cl ∧ right_cursors fuel m b = some cr ∧
      cl.length = size m b ∧ cr.length = size m b ∧ cl.Nodup ∧ cr.Nodup ∧
      (cl.map (flip m.heap)).Perm (cr.map some)) ∧
    (size m b = 0 → ∀ qs : List (α × β), qs.length + 3 ≤ fuel →
      qs.Pairwise (fun p q =>
        equiv (m.cmpL b) p.1 q.1 = false ∧ equiv (m.cmpR b) p.2 q.2 = false) →
      ∃ m1, insert_all fuel m b qs = some m1 ∧ size m1 b = qs.length ∧
        ∃ cl cr, left_cursors fuel m1 b = some cl ∧ right_cursors fuel m1 b = some cr ∧
          cl.length = qs.length ∧ cr.length = qs.length) := by
  obtain ⟨tl, tr, hi⟩ := hr.inv hb
  have hs := hi.shape
  have hfl : m.size b < fuel := by omega
  have injL : Function.Injective (fun x => (some ⟨.left, x⟩ : NPtr)) := by
    intro x y e
    simpa using e
  have injR : Function.Injective (fun x => (some ⟨.right, x⟩ : NPtr)) := by
    intro x y e
    simpa using e
  refine ⟨⟨_, _, left_cursors_spec hs hfl, right_cursors_spec hs hfl, ?_, ?_,
    hs.repL.nodup.map injL, hs.repR.nodup.map injR, ?_⟩, ?_⟩
  · rw [List.length_map]; exact hs.size_eq.symm
  · rw [List.length_map, ← hs.perm.length_eq]; exact hs.size_eq.symm
  · rw [List.map_map, List.map_map]
    refine (List.Perm.of_eq ?_).trans
      (hs.perm.map (fun x => (some (some ⟨.right, x⟩) : Option NPtr)))
    refine List.map_congr_left ?_
    intro x hx
    exact hs.flip_left hx
  · intro h0 qs hq hpw
    have hnil : pairList m tl.toList = [] := by
      have := pairList_length hs
      rw [show m.size b = 0 from h0] at this
      exact List.length_eq_zero.1 this
    obtain ⟨m1, tl1, tr1, e, hi1, hsz, -⟩ := insert_all_spec qs hi
      (by rw [show m.size b = 0 from h0]; omega : m.size b + qs.length < fuel + 1)
      (by intro q _ p hp; rw [hnil] at hp; cases hp) hpw
    have hsz1 : m1.size b = qs.length := by rw [hsz, show m.size b = 0 from h0]; omega
    have hf1 : m1.size b < fuel := by omega
    refine ⟨m1, e, hsz1, _, _, left_cursors_spec hi1.shape hf1,
      right_cursors_spec hi1.shape hf1, ?_, ?_⟩
    · rw [List.length_map, ← hsz1]; exact hi1.shape.size_eq.symm
    · rw [List.length_map, ← hi1.shape.perm.length_eq, ← hsz1]; exact hi1.shape.size_eq.symm

set_option maxRecDepth 100000 in
/-- The counts on the bimap of five pairs, and three inserts into an empty bimap. -/
theorem traversal_counts_witness :
    Reach tally7 [0] ∧ 0 ∈ [0] ∧ tally7.size 0 + 3 ≤ 12 ∧
    (∃ cl cr, left_cursors 12 tally7 0 = some cl ∧ right_cursors 12 tally7 0 = some cr ∧
      cl.length = size tally7 0 ∧ cr.length = size tally7 0 ∧ cl.Nodup ∧ cr.Nodup ∧
      (cl.map (flip tally7.heap)).Perm (cr.map some)) ∧
    Reach tally0 [0] ∧ tally0.size 0 + 3 ≤ 12 ∧ size tally0 0 = 0 ∧
    ([((4 : Int), (7 : Int)), (2, 9), (6, 1)].Pairwise (fun p q =>
        equiv (tally0.cmpL 0) p.1 q.1 = false ∧ equiv (tally0.cmpR 0) p.2 q.2 = false)) ∧
    (∃ m1, insert_all 12 tally0 0 [(4, 7), (2, 9), (6, 1)] = some m1 ∧
      size m1 0 = [((4 : Int), (7 : Int)), (2, 9), (6, 1)].length ∧
      ∃ cl cr, left_cursors 12 m1 0 = some cl ∧ right_cursors 12 m1 0 = some cr ∧
        cl.length = [((4 : Int), (7 : Int)), (2, 9), (6, 1)].length ∧
        cr.length = [((4 : Int), (7 : Int)), (2, 9), (6, 1)].length) :=
  ⟨reach_tally7, by decide, by decide,
    (traversal_counts reach_tally7 (List.mem_cons_self _ _) (by decide : _ ≤ 12)).1,
    reach_tally0, by decide, by decide, by decide,
    (traversal_counts reach_tally0 (List.mem_cons_self _ _) (by decide : _ ≤ 12)).2 (by decide)
      [(4, 7), (2, 9), (6, 1)] (by decide) (by decide)⟩

/-- C6: on a reachable bimap, whatever operations built it, every cursor of
the left traversal and `end_left()`, and every cursor of the right traversal
and `end_right()`, is its own double flip; a cursor of one traversal flips to a
cursor of the other; `end_left()` flips to `end_right()` and `end_right()` to
`end_left()`. -/
theorem flip_involution {m : Mem α β} {live : List Nat} (hr : Reach m live) {b : Nat}
    (hb : b ∈ live) {fuel : Nat} (hf : m.size b + 3 ≤ fuel) :
    ∃ cl cr, left_cursors fuel m b = some cl ∧ right_cursors fuel m b = some cr ∧
      (∀ it ∈ cl ++ [end_left b], ∃ f, flip m.heap it = some f ∧ flip m.heap f = some it) ∧
      (∀ it ∈ cr ++ [end_right b], ∃ f, flip m.heap it = some f ∧ flip m.heap f = some it) ∧
      (∀ it ∈ cl, ∃ f ∈ cr, flip m.heap it = some f) ∧
      (∀ it ∈ cr, ∃ f ∈ cl, flip m.heap it = some f) ∧
      flip m.heap (end_left b) = some (end_right b) ∧
      flip m.heap (end_right b) = some (end_left b) := by
  obtain ⟨tl, tr, hi⟩ := hr.inv hb
  have hs := hi.shape
  have hfl : m.size b < fuel := by omega
  refine ⟨_, _, left_cursors_spec hs hfl, right_cursors_spec hs hfl, ?_, ?_, ?_, ?_,
    hs.flip_end_left, hs.flip_end_right⟩
  · intro it hit
    rcases List.mem_append.1 hit with h | h
    · obtain ⟨x, hx, rfl⟩ := List.mem_map.1 h
      exact ⟨_, hs.flip_left hx, hs.flip_right hx⟩
    · rw [List.mem_singleton.1 h]
      exact ⟨_, hs.flip_end_left, hs.flip_end_right⟩
  · intro it hit
    rcases List.mem_append.1 hit with h | h
    · obtain ⟨x, hx, rfl⟩ := List.mem_map.1 h
      have hx' := hs.mem_right.1 hx
      exact ⟨_, hs.flip_right hx', hs.flip_left hx'⟩
    · rw [List.mem_singleton.1 h]
      exact ⟨_, hs.flip_end_right, hs.flip_end_left⟩
  · intro it hit
    obtain ⟨x, hx, rfl⟩ := List.mem_map.1 hit
    exact ⟨_, List.mem_map.2 ⟨x, hs.mem_right.2 hx, rfl⟩, hs.flip_left hx⟩
  · intro it hit
    obtain ⟨x, hx, rfl⟩ := List.mem_map.1 hit
    have hx' := hs.mem_right.1 hx
    exact ⟨_, List.mem_map.2 ⟨x, hx', rfl⟩, hs.flip_right hx'⟩

set_option maxRecDepth 100000 in
/-- The double flip on a moved-into and on a moved-from bimap. -/
theorem flip_involution_witness :
    Reach scene4 [3, 0] ∧ 3 ∈ [3, 0] ∧ 0 ∈ [3, 0] ∧ scene4.size 3 + 3 ≤ 8 ∧
    scene4.size 0 + 3 ≤ 8 ∧
    (∃ cl cr, left_cursors 8 scene4 3 = some cl ∧ right_cursors 8 scene4 3 = some cr ∧
      (∀ it ∈ cl ++ [end_left 3],
        ∃ f, flip scene4.heap it = some f ∧ flip scene4.heap f = some it) ∧
      (∀ it ∈ cr ++ [end_right 3],
        ∃ f, flip scene4.heap it = some f ∧ flip scene4.heap f = some it) ∧
      (∀ it ∈ cl, ∃ f ∈ cr, flip scene4.heap it = some f) ∧
      (∀ it ∈ cr, ∃ f ∈ cl, flip scene4.heap it = some f) ∧
      flip scene4.heap (end_left 3) = some (end_right 3) ∧
      flip scene4.heap (end_right 3) = some (end_left 3)) ∧
    (∃ cl cr, left_cursors 8 scene4 0 = some cl ∧ right_cursors 8 scene4 0 = some cr ∧
      (∀ it ∈ cl ++ [end_left 0],
        ∃ f, flip scene4.heap it = some f ∧ flip scene4.heap f = some it) ∧
      (∀ it ∈ cr ++ [end_right 0],
        ∃ f, flip scene4.heap it = some f ∧ flip scene4.heap f = some it) ∧
      (∀ it ∈ cl, ∃ f ∈ cr, flip scene4.heap it = some f) ∧
      (∀ it ∈ cr, ∃ f ∈ cl, flip scene4.heap it = some f) ∧
      flip scene4.heap (end_left 0) = some (end_right 0) ∧
      flip scene4.heap (end_right 0) = some (end_left 0)) ∧
    left_pairs 8 scene4 3 = some [(1, "a"), (2, "b")] ∧ left_pairs 8 scene4 0 = some [] :=
  ⟨reach_scene4, by decide, by decide, by decide, by decide,
    flip_involution reach_scene4 (List.mem_cons_self _ _) (by decide),
    flip_involution reach_scene4 (List.mem_cons_of_mem _ (List.mem_cons_self _ _)) (by decide),
    by decide, by decide⟩

end claims

section finding
variable {α β : Type}

/-- The results of `find_left` and `at_left` for a key equivalent to the left
value of a stored pair. -/
theorem Inv.find_at_left {m : Mem α β} {b : Nat} {tl tr : Tree} (hi : Inv m b tl tr) {k : α}
    {p : α × β} (hp : p ∈ pairList m tl.toList) (he : equiv (m.cmpL b) p.1 k = true)
    {fuel : Nat} (hf : m.size b < fuel) :
    ∃ it, find_left fuel m b k = some it ∧ it ≠ end_left b ∧ pair_at_left m it = some p ∧
      at_left fuel m b k = some (.ok p.2) := by
  obtain ⟨x, hx, hlk, hl, hr⟩ := hi.lookupL_pair hp he
  refine ⟨_, hi.find_left_node hx hl he hf, node_ne_end_left hi.shape hx, ?_, ?_⟩
  · rw [pair_at_left_node hi.shape hx]
    simp [pairOf, hl, hr]
  · rw [at_left_spec hi k hf, hlk]
    simp only [hr]

/-- The results of `find_right` and `at_right` for a key equivalent to the
right value of a stored pair. -/
theorem Inv.find_at_right {m : Mem α β} {b : Nat} {tl tr : Tree} (hi : Inv m b tl tr) {k : β}
    {p : α × β} (hp : p ∈ pairList m tl.toList) (he : equiv (m.cmpR b) p.2 k = true)
    {fuel : Nat} (hf : m.size b < fuel) :
    ∃ it, find_right fuel m b k = some it ∧ it ≠ end_right b ∧ pair_at_right m it = some p ∧
      at_right fuel m b k = some (.ok p.1) := by
  obtain ⟨x, hx, hlk, hl, hr⟩ := hi.lookupR_pair hp he
  refine ⟨_, hi.find_right_node hx hr he hf, node_ne_end_right hi.shape hx, ?_, ?_⟩
  · rw [pair_at_right_node hi.shape hx]
    simp [pairOf, hl, hr]
  · rw [at_right_spec hi k hf, hlk]
    simp only [hl]

/-- The results of `find_left` and `at_left` for a key equivalent to no stored left value. -/
theorem Inv.find_at_left_absent {m : Mem α β} {b : Nat} {tl tr : Tree} (hi : Inv m b tl tr)
    {k : α} (h : ∀ p ∈ pairList m tl.toList, equiv (m.cmpL b) p.1 k = false) {fuel : Nat}
    (hf : m.size b < fuel) :
    find_left fuel m b k = some (end_left b) ∧
      at_left fuel m b k = some (.error "invalid key") := by
  refine ⟨hi.find_left_end h hf, ?_⟩
  rw [at_left_spec hi k hf, hi.lookupL_none h]

/-- The results of `find_right` and `at_right` for a key equivalent to no stored right value. -/
theorem Inv.find_at_right_absent {m : Mem α β} {b : Nat} {tl tr : Tree} (hi : Inv m b tl tr)
    {k : β} (h : ∀ p ∈ pairList m tl.toList, equiv (m.cmpR b) p.2 k = false) {fuel : Nat}
    (hf : m.size b < fuel) :
    find_right fuel m b k = some (end_right b) ∧
      at_right fuel m b k = some (.error "invalid key") := by
  refine ⟨hi.find_right_end h hf, ?_⟩
  rw [at_right_spec hi k hf, hi.lookupR_none h]

/-- Either some element of a list passes a test or every element fails it. -/
theorem exists_or_forall_false {γ : Type} (test : γ → Bool) (L : List γ) :
    (∃ p ∈ L, test p = true) ∨ ∀ p ∈ L, test p = false := by
  by_cases h : ∃ p ∈ L, test p = true
  · exact Or.inl h
  · refine Or.inr (fun p hp => bool_eq_false_of_not (fun ht => h ⟨p, hp, ht⟩))

end finding

section claims
variable {α β : Type} [Inhabited α] [Inhabited β]

/-- C7: on a reachable bimap, for every left key `k`, `find_left(k)` is
`end_left()` exactly when no stored left value is equivalent to `k`, and
`at_left(k)` throws `std::out_of_range` exactly then; when the stored pair `p`
has a left value equivalent to `k`, `find_left(k)` is a cursor that denotes `p`
and `at_left(k)` returns the right value of `p`.  The same holds for
`find_right` and `at_right` with the sides exchanged.  The four functions
return no memory: they are `const` and change nothing. -/
theorem find_and_at {m : Mem α β} {live : List Nat} (hr : Reach m live) {b : Nat}
    (hb : b ∈ live) {fuel : Nat} (hf : m.size b + 3 ≤ fuel) {ps : List (α × β)}
    (hps : left_pairs fuel m b = some ps) :
    (∀ k : α, ∃ it res, find_left fuel m b k = some it ∧ at_left fuel m b k = some res ∧
      (it = end_left b ↔ ∀ p ∈ ps, equiv (m.cmpL b) p.1 k = false) ∧
      (res = .error "invalid key" ↔ ∀ p ∈ ps, equiv (m.cmpL b) p.1 k = false) ∧
      (∀ p ∈ ps, equiv (m.cmpL b) p.1 k = true →
        pair_at_left m it = some p ∧ res = .ok p.2)) ∧
    (∀ k : β, ∃ it res, find_right fuel m b k = some it ∧ at_right fuel m b k = some res ∧
      (it = end_right b ↔ ∀ p ∈ ps, equiv (m.cmpR b) p.2 k = false) ∧
      (res = .error "invalid key" ↔ ∀ p ∈ ps, equiv (m.cmpR b) p.2 k = false) ∧
      (∀ p ∈ ps, equiv (m.cmpR b) p.2 k = true →
        pair_at_right m it = some p ∧ res = .ok p.1)) := by
  obtain ⟨tl, tr, hi⟩ := hr.inv hb
  have hfl : m.size b < fuel := by omega
  obtain rfl := hi.left_pairs hfl hps
  constructor
  · intro k
    rcases exists_or_forall_false (fun p => equiv (m.cmpL b) p.1 k) (pairList m tl.toList)
      with ⟨p, hp, he⟩ | hno
    · obtain ⟨it, e1, e2, e3, e4⟩ := hi.find_at_left hp he hfl
      have hne : ¬ ∀ q ∈ pairList m tl.toList, equiv (m.cmpL b) q.1 k = false := by
        intro h; rw [h p hp] at he; cases he
      refine ⟨it, _, e1, e4, ⟨fun h => absurd h e2, fun h => absurd h hne⟩,
        ⟨fun h => (by cases h), fun h => absurd h hne⟩, ?_⟩
      intro q hq heq
      obtain ⟨it', f1, -, f3, f4⟩ := hi.find_at_left hq heq hfl
      rw [e1] at f1; rw [e4] at f4
      obtain rfl := Option.some.inj f1
      exact ⟨f3, Option.some.inj f4⟩
    · obtain ⟨e1, e2⟩ := hi.find_at_left_absent hno hfl
      refine ⟨_, _, e1, e2, ⟨fun _ => hno, fun _ => rfl⟩, ⟨fun _ => hno, fun _ => rfl⟩, ?_⟩
      intro q hq heq
      rw [hno q hq] at heq; cases heq
  · intro k
    rcases exists_or_forall_false (fun p => equiv (m.cmpR b) p.2 k) (pairList m tl.toList)
      with ⟨p, hp, he⟩ | hno
    · obtain ⟨it, e1, e2, e3, e4⟩ := hi.find_at_right hp he hfl
      have hne : ¬ ∀ q ∈ pairList m tl.toList, equiv (m.cmpR b) q.2 k = false := by
        intro h; rw [h p hp] at he; cases he
      refine ⟨it, _, e1, e4, ⟨fun h => absurd h e2, fun h => absurd h hne⟩,
        ⟨fun h => (by cases h), fun h => absurd h hne⟩, ?_⟩
      intro q hq heq
      obtain ⟨it', f1, -, f3, f4⟩ := hi.find_at_right hq heq hfl
      rw [e1] at f1; rw [e4] at f4
      obtain rfl := Option.some.inj f1
      exact ⟨f3, Option.some.inj f4⟩
    · obtain ⟨e1, e2⟩ := hi.find_at_right_absent hno hfl
      refine ⟨_, _, e1, e2, ⟨fun _ => hno, fun _ => rfl⟩, ⟨fun _ => hno, fun _ => rfl⟩, ?_⟩
      intro q hq heq
      rw [hno q hq] at heq; cases heq

set_option maxRecDepth 100000 in
/-- The lookups on the bimap of five pairs. -/
theorem find_and_at_witness :
    Reach tally7 [0] ∧ 0 ∈ [0] ∧ tally7.size 0 + 3 ≤ 12 ∧
    left_pairs 12 tally7 0 = some [(3, 70), (4, 10), (7, 0), (8, 20), (9, 60)] ∧
    ((∀ k : Int, ∃ it res, find_left 12 tally7 0 k = some it ∧
        at_left 12 tally7 0 k = some res ∧
      (it = end_left 0 ↔ ∀ p ∈ [((3 : Int), (70 : Int)), (4, 10), (7, 0), (8, 20), (9, 60)],
        equiv (tally7.cmpL 0) p.1 k = false) ∧
      (res = .error "invalid key" ↔
        ∀ p ∈ [((3 : Int), (70 : Int)), (4, 10), (7, 0), (8, 20), (9, 60)],
          equiv (tally7.cmpL 0) p.1 k = false) ∧
      (∀ p ∈ [((3 : Int), (70 : Int)), (4, 10), (7, 0), (8, 20), (9, 60)],
        equiv (tally7.cmpL 0) p.1 k = true →
        pair_at_left tally7 it = some p ∧ res = .ok p.2)) ∧
    (∀ k : Int, ∃ it res, find_right 12 tally7 0 k = some it ∧
        at_right 12 tally7 0 k = some res ∧
      (it = end_right 0 ↔ ∀ p ∈ [((3 : Int), (70 : Int)), (4, 10), (7, 0), (8, 20), (9, 60)],
        equiv (tally7.cmpR 0) p.2 k = false) ∧
      (res = .error "invalid key" ↔
        ∀ p ∈ [((3 : Int), (70 : Int)), (4, 10), (7, 0), (8, 20), (9, 60)],
          equiv (tally7.cmpR 0) p.2 k = false) ∧
      (∀ p ∈ [((3 : Int), (70 : Int)), (4, 10), (7, 0), (8, 20), (9, 60)],
        equiv (tally7.cmpR 0) p.2 k = true →
        pair_at_right tally7 it = some p ∧ res = .ok p.1))) ∧
    at_left 12 tally7 0 8 = some (.ok 20) ∧ at_right 12 tally7 0 70 = some (.ok 3) ∧
    at_left 12 tally7 0 5 = some (.error "invalid key") ∧
    find_left 12 tally7 0 5 = some (end_left 0) :=
  ⟨reach_tally7, by decide, by decide, by decide,
    find_and_at reach_tally7 (List.mem_cons_self _ _) (by decide)
      (by decide : left_pairs 12 tally7 0 = some [(3, 70), (4, 10), (7, 0), (8, 20), (9, 60)]),
    by rfl, by rfl, by rfl, by decide⟩

end claims

section erasing
variable {α β : Type}

theorem pairOf_erased {m : Mem α β} {b x y : Nat} {h2 : Heap} (hy : y ≠ x) :
    pairOf (m.erased b x h2) y = pairOf m y := by
  simp only [pairOf, erased_lval hy, erased_rval hy]

theorem erase_append_mid {L P S : List Nat} {x : Nat} (hnd : L.Nodup) (h : L = P ++ x :: S) :
    L.erase x = P ++ S := by
  subst h
  have hP : x ∉ P := fun hm => List.disjoint_of_nodup_append hnd hm (List.mem_cons_self _ _)
  rw [List.erase_append_right _ hP, List.erase_cons_head]

theorem mem_split_ne {L P S : List Nat} {x y : Nat} (hnd : L.Nodup) (h : L = P ++ x :: S)
    (hy : y ∈ P ++ S) : y ∈ L ∧ y ≠ x := by
  rw [← erase_append_mid hnd h] at hy
  exact mem_erase_nodup hnd hy

/-- The memory after the node `x` was erased by `erase_left(it)` or
`erase_right(it)`: both traversals lose the cursor of `x` and nothing else, and
the other cursors denote the pairs they denoted. -/
theorem erase_cursor_core {m : Mem α β} {b : Nat} {tl tr : Tree} (hi : Inv m b tl tr)
    {x : Nat} (hx : x ∈ tl.toList) {fuel : Nat} (hf : m.size b + 2 < fuel) {h2 : Heap}
    {tl1 tr1 : Tree} (hi1 : Inv (m.erased b x h2) b tl1 tr1)
    (e1 : tl1.toList = tl.toList.erase x) (e2 : tr1.toList = tr.toList.erase x)
    {P S P2 S2 : List Nat} (hl : tl.toList = P ++ x :: S) (hr : tr.toList = P2 ++ x :: S2) :
    left_cursors fuel (m.erased b x h2) b =
        some (P.map (fun y => some ⟨.left, y⟩) ++ S.map (fun y => some ⟨.left, y⟩)) ∧
      right_cursors fuel (m.erased b x h2) b =
        some (P2.map (fun y => some ⟨.right, y⟩) ++ S2.map (fun y => some ⟨.right, y⟩)) ∧
      size (m.erased b x h2) b + 1 = size m b ∧
      (∀ c ∈ P.map (fun y => (some ⟨.left, y⟩ : NPtr)) ++ S.map (fun y => some ⟨.left, y⟩),
        pair_at_left (m.erased b x h2) c = pair_at_left m c) ∧
      (∀ c ∈ P2.map (fun y => (some ⟨.right, y⟩ : NPtr)) ++ S2.map (fun y => some ⟨.right, y⟩),
        pair_at_right (m.erased b x h2) c = pair_at_right m c) := by
  have hs := hi.shape
  have hsz : (m.erased b x h2).size b + 1 = m.size b := by
    rw [erased_size]; have := hs.size_pos hx; omega
  have hf1 : (m.erased b x h2).size b < fuel := by omega
  have e1' : tl1.toList = P ++ S := by rw [e1, erase_append_mid hs.repL.nodup hl]
  have e2' : tr1.toList = P2 ++ S2 := by rw [e2, erase_append_mid hs.repR.nodup hr]
  refine ⟨?_, ?_, hsz, ?_, ?_⟩
  · rw [left_cursors_spec hi1.shape hf1, e1', List.map_append]
  · rw [right_cursors_spec hi1.shape hf1, e2', List.map_append]
  · intro c hc
    rw [← List.map_append] at hc
    obtain ⟨y, hy, rfl⟩ := List.mem_map.1 hc
    obtain ⟨hy0, hyx⟩ := mem_split_ne hs.repL.nodup hl hy
    rw [pair_at_left_node hi1.shape (e1' ▸ hy), pair_at_left_node hs hy0, pairOf_erased hyx]
  · intro c hc
    rw [← List.map_append] at hc
    obtain ⟨y, hy, rfl⟩ := List.mem_map.1 hc
    obtain ⟨hy0, hyx⟩ := mem_split_ne hs.repR.nodup hr hy
    have hy1 : y ∈ tl1.toList := hi1.shape.mem_right.1 (e2' ▸ hy)
    rw [pair_at_right_node hi1.shape hy1, pair_at_right_node hs (hs.mem_right.1 hy0),
      pairOf_erased hyx]

theorem map_ptr_split {s : Side} {L : List Nat} {P S : List NPtr} {it : NPtr}
    (h : L.map (fun y => (some ⟨s, y⟩ : NPtr)) = P ++ it :: S) :
    ∃ P1 x S1, L = P1 ++ x :: S1 ∧ P = P1.map (fun y => some ⟨s, y⟩) ∧ it = some ⟨s, x⟩ ∧
      S = S1.map (fun y => some ⟨s, y⟩) := by
  obtain ⟨P1, R1, e0, eP, eR⟩ := List.map_eq_append_iff.1 h
  obtain ⟨x, S1, rfl, ex, eS⟩ := List.map_eq_cons_iff.1 eR
  exact ⟨P1, x, S1, e0, eP.symm, ex.symm, eS.symm⟩

end erasing

section claims
variable {α β : Type} [Inhabited α] [Inhabited β]

/-- C8: on a reachable bimap, `erase_left(it)` at a cursor `it` of the left
traversal returns the cursor that followed `it` (`end_left()` after the last
one); afterwards the left traversal is the previous one without `it`, the right
traversal is the previous one without `it.flip()`, `size()` is smaller by one,
and every remaining cursor denotes the pair it denoted before.  The same holds
for `erase_right` with the sides exchanged.  The node may have no child, one
child or two children. -/
theorem erase_at_cursor {m : Mem α β} {live : List Nat} (hr : Reach m live) {b : Nat}
    (hb : b ∈ live) {fuel : Nat} (hf : m.size b + 3 ≤ fuel) {cl cr : List NPtr}
    (hcl : left_cursors fuel m b = some cl) (hcr : right_cursors fuel m b = some cr) :
    (∀ P it S, cl = P ++ it :: S → ∃ m1 f P2 S2, flip m.heap it = some f ∧
      cr = P2 ++ f :: S2 ∧
      erase_left fuel m b it = some (m1, S.headD (end_left b)) ∧
      left_cursors fuel m1 b = some (P ++ S) ∧ right_cursors fuel m1 b = some (P2 ++ S2) ∧
      size m1 b + 1 = size m b ∧
      (∀ c ∈ P ++ S, pair_at_left m1 c = pair_at_left m c) ∧
      (∀ c ∈ P2 ++ S2, pair_at_right m1 c = pair_at_right m c)) ∧
    (∀ P it S, cr = P ++ it :: S → ∃ m1 f P2 S2, flip m.heap it = some f ∧
      cl = P2 ++ f :: S2 ∧
      erase_right fuel m b it = some (m1, S.headD (end_right b)) ∧
      right_cursors fuel m1 b = some (P ++ S) ∧ left_cursors fuel m1 b = some (P2 ++ S2) ∧
      size m1 b + 1 = size m b ∧
      (∀ c ∈ P ++ S, pair_at_right m1 c = pair_at_right m c) ∧
      (∀ c ∈ P2 ++ S2, pair_at_left m1 c = pair_at_left m c)) := by
  obtain ⟨tl, tr, hi⟩ := hr.inv hb
  have hs := hi.shape
  have hfl : m.size b < fuel := by omega
  rw [left_cursors_spec hs hfl] at hcl
  rw [right_cursors_spec hs hfl] at hcr
  obtain rfl := Option.some.inj hcl
  obtain rfl := Option.some.inj hcr
  constructor
  · intro P it S hsplit
    obtain ⟨P1, x, S1, e0, rfl, rfl, rfl⟩ := map_ptr_split hsplit
    have hx : x ∈ tl.toList := by rw [e0]; simp
    obtain ⟨P2, S2, er⟩ := List.append_of_mem (hs.mem_right.2 hx)
    obtain ⟨h2, tl1, tr1, e, hi1, e1, e2, -⟩ :=
      erase_left_inv hi hx (by omega : m.size b + 1 < fuel)
    obtain ⟨c1, c2, c3, c4, c5⟩ :=
      erase_cursor_core hi hx (by omega : m.size b + 2 < fuel) hi1 e1 e2 e0 er
    have hsucc : succPtr .left b tl.toList x = headPtr .left b S1 := by
      rw [e0]; exact succPtr_split .left b (e0 ▸ hs.repL.nodup)
    refine ⟨_, _, _, _, hs.flip_left hx, by rw [er]; simp, ?_, c1, c2, c3, c4, c5⟩
    rw [e, hsucc]
    simp only [end_left, end_node, left_sentinel, headD_map_ptr]
  · intro P it S hsplit
    obtain ⟨P1, x, S1, e0, rfl, rfl, rfl⟩ := map_ptr_split hsplit
    have hxr : x ∈ tr.toList := by rw [e0]; simp
    have hx : x ∈ tl.toList := hs.mem_right.1 hxr
    obtain ⟨P2, S2, el⟩ := List.append_of_mem hx
    obtain ⟨h2, tl1, tr1, e, hi1, e1, e2, -⟩ :=
      erase_right_inv hi hx (by omega : m.size b + 1 < fuel)
    obtain ⟨c1, c2, c3, c4, c5⟩ :=
      erase_cursor_core hi hx (by omega : m.size b + 2 < fuel) hi1 e1 e2 el e0
    have hsucc : succPtr .right b tr.toList x = headPtr .right b S1 := by
      rw [e0]; exact succPtr_split .right b (e0 ▸ hs.repR.nodup)
    refine ⟨_, _, _, _, hs.flip_right hx, by rw [el]; simp, ?_, c2, c1, c3, c5, c4⟩
    rw [e, hsucc]
    simp only [end_right, end_node, right_sentinel, headD_map_ptr]

set_option maxRecDepth 100000 in
/-- The erase by cursor on the bimap of five pairs: at the root, which has two
children, at a node with one child and at a leaf. -/
theorem erase_at_cursor_witness :
    Reach tally5 [0] ∧ 0 ∈ [0] ∧ tally5.size 0 + 3 ≤ 12 ∧
    left_cursors 12 tally5 0 = some tally5_left ∧
    right_cursors 12 tally5 0 = some tally5_right ∧
    ((∀ P it S, tally5_left = P ++ it :: S → ∃ m1 f P2 S2, flip tally5.heap it = some f ∧
      tally5_right = P2 ++ f :: S2 ∧
      erase_left 12 tally5 0 it = some (m1, S.headD (end_left 0)) ∧
      left_cursors 12 m1 0 = some (P ++ S) ∧ right_cursors 12 m1 0 = some (P2 ++ S2) ∧
      size m1 0 + 1 = size tally5 0 ∧
      (∀ c ∈ P ++ S, pair_at_left m1 c = pair_at_left tally5 c) ∧
      (∀ c ∈ P2 ++ S2, pair_at_right m1 c = pair_at_right tally5 c)) ∧
    (∀ P it S, tally5_right = P ++ it :: S → ∃ m1 f P2 S2, flip tally5.heap it = some f ∧
      tally5_left = P2 ++ f :: S2 ∧
      erase_right 12 tally5 0 it = some (m1, S.headD (end_right 0)) ∧
      right_cursors 12 m1 0 = some (P ++ S) ∧ left_cursors 12 m1 0 = some (P2 ++ S2) ∧
      size m1 0 + 1 = size tally5 0 ∧
      (∀ c ∈ P ++ S, pair_at_right m1 c = pair_at_right tally5 c) ∧
      (∀ c ∈ P2 ++ S2, pair_at_left m1 c = pair_at_left tally5 c))) ∧
    (tally5.heap ⟨.left, 1⟩)._left = some ⟨.left, 2⟩ ∧
    (tally5.heap ⟨.left, 1⟩)._right = some ⟨.left, 3⟩ ∧
    (erase_left 12 tally5 0 (some ⟨.left, 1⟩)).map Prod.snd = some (some ⟨.left, 3⟩) ∧
    (tally5.heap ⟨.left, 2⟩)._left = none ∧
    (tally5.heap ⟨.left, 2⟩)._right = some ⟨.left, 4⟩ ∧
    (erase_left 12 tally5 0 (some ⟨.left, 2⟩)).map Prod.snd = some (some ⟨.left, 4⟩) ∧
    (tally5.heap ⟨.left, 5⟩)._left = none ∧ (tally5.heap ⟨.left, 5⟩)._right = none ∧
    (erase_left 12 tally5 0 (some ⟨.left, 5⟩)).map Prod.snd = some (end_left 0) :=
  ⟨reach_tally5, by decide, by decide, by decide, by decide,
    erase_at_cursor reach_tally5 (List.mem_cons_self _ _) (by decide)
      (by decide : left_cursors 12 tally5 0 = some tally5_left)
      (by decide : right_cursors 12 tally5 0 = some tally5_right),
    by decide, by decide, by decide, by decide, by decide, by decide, by decide, by decide,
    by decide⟩

end claims

set_option maxRecDepth 100000 in
theorem reach_ledger1 : Reach ledger1 [0] :=
  Reach.at_left_or_default 0 8 1 0 reach_tally0 (by decide) (by decide) (by rfl)

section relocation
variable {α β : Type}

theorem relocated_mem {m : Mem α β} {tl tl2 : Tree} {g : Nat → Bool} {f y : Nat}
    (hnd : tl.toList.Nodup) (hn : m.next ∉ tl.toList)
    (e1 : tl2.toList = (tl.ins g m.next).toList.erase f) (hy : y ∈ tl2.toList) :
    y ≠ f ∧ (y = m.next ∨ y ∈ tl.toList) := by
  have hnd1 : (tl.ins g m.next).toList.Nodup :=
    (Tree.ins_perm g m.next tl).nodup_iff.2 (List.nodup_cons.2 ⟨hn, hnd⟩)
  rw [e1] at hy
  obtain ⟨h1, h2⟩ := mem_erase_nodup hnd1 hy
  exact ⟨h2, List.mem_cons.1 ((Tree.ins_perm g m.next tl).mem_iff.1 h1)⟩

theorem relocated_next_mem {m : Mem α β} {tl tl2 : Tree} {g : Nat → Bool} {f : Nat}
    (hf : f ∈ tl.toList) (hn : m.next ∉ tl.toList)
    (e1 : tl2.toList = (tl.ins g m.next).toList.erase f) : m.next ∈ tl2.toList := by
  rw [e1]
  exact (List.mem_erase_of_ne (ne_of_mem_of_not_mem hf hn).symm).2
    ((Tree.ins_perm g m.next tl).mem_iff.2 (List.mem_cons_self _ _))

theorem relocated_lval_new {m : Mem α β} {b : Nat} {tl tr : Tree} {l : α} {r : β} {f : Nat}
    {h2 : Heap} (hf : f ≠ m.next) :
    ((m.attached b tl tr l r).erased b f h2).lval m.next = some l ∧
    ((m.attached b tl tr l r).erased b f h2).rval m.next = some r := by
  simp [Mem.erased, Mem.attached, Ne.symm hf]

theorem relocated_val_old {m : Mem α β} {b : Nat} {tl tr : Tree} {l : α} {r : β} {f y : Nat}
    {h2 : Heap} (hyf : y ≠ f) (hyn : y ≠ m.next) :
    ((m.attached b tl tr l r).erased b f h2).lval y = m.lval y ∧
    ((m.attached b tl tr l r).erased b f h2).rval y = m.rval y := by
  simp [Mem.erased, Mem.attached, hyf, hyn]

theorem relocated_size {m : Mem α β} {b : Nat} {tl tr : Tree} {l : α} {r : β} {f : Nat}
    {h2 : Heap} : ((m.attached b tl tr l r).erased b f h2).size b = m.size b := by
  simp [Mem.erased, Mem.attached]

/-- The pairs after a relocation: the pair of the erased node `f` is replaced
by the new pair `(l, r)`. -/
theorem relocated_pairs {m : Mem α β} {b : Nat} {tl tr tl2 : Tree} (hs : Shape m b tl tr)
    {l : α} {r : β} {f : Nat} {h2 : Heap} (hf : f ∈ tl.toList) {lf : α} {rf : β}
    (hlf : m.lval f = some lf) (hrf : m.rval f = some rf) {g : Nat → Bool}
    (e1 : tl2.toList = (tl.ins g m.next).toList.erase f) :
    ∃ A B, pairList m tl.toList = A ++ (lf, rf) :: B ∧
      (pairList ((m.attached b tl tr l r).erased b f h2) tl2.toList).Perm
        ((l, r) :: (A ++ B)) := by
  have hfn : f ≠ m.next := hs.ne_next hf
  obtain ⟨A0, B0, e0, e0', hA, hB⟩ := split_of_mem_nodup hs.repL.nodup hf
  refine ⟨pairList m A0, pairList m B0, by rw [e0, pairList_append, pairList_cons hlf hrf], ?_⟩
  have hperm : tl2.toList.Perm (m.next :: (A0 ++ B0)) := by
    rw [e1, ← e0']
    refine ((Tree.ins_perm g m.next tl).erase f).trans ?_
    rw [List.erase_cons_tail (by simpa using Ne.symm hfn)]
  refine (pairList_perm _ hperm).trans ?_
  rw [pairList_cons (relocated_lval_new hfn).1 (relocated_lval_new hfn).2, ← pairList_append]
  rw [pairList_congr (m := m)]
  intro y hy
  have hy0 : y ∈ tl.toList := by rw [e0]; rcases List.mem_append.1 hy with h | h <;> simp [h]
  have hyf : y ≠ f := by
    rcases List.mem_append.1 hy with h | h
    · exact ne_of_mem_of_not_mem h hA
    · exact ne_of_mem_of_not_mem h hB
  exact relocated_val_old hyf (hs.ne_next hy0)

end relocation

theorem equiv_comm {K : Type} (cmp : K → K → Bool) (a c : K) : equiv cmp a c = equiv cmp c a := by
  simp only [equiv, Bool.and_comm]

section claims
variable {α β : Type} [Inhabited α] [Inhabited β]

/-- C9: on a reachable bimap, when the left key `k` is equivalent to no stored
left value and the stored pair `p0` holds a right value equivalent to the
default-constructed right value, `at_left_or_default(k)` returns the default,
and afterwards `(k, default)` is stored, `find_left` of the left value of `p0`
is `end_left()`, `p0` is stored no more, `size()` is what it was, and the other
pairs are the ones stored before. -/
theorem at_left_or_default_relocates {m : Mem α β} {live : List Nat} (hr : Reach m live)
    {b : Nat} (hb : b ∈ live) {fuel : Nat} (hf : m.size b + 3 ≤ fuel) {ps : List (α × β)}
    (hps : left_pairs fuel m b = some ps) (k : α)
    (hk : ∀ p ∈ ps, equiv (m.cmpL b) p.1 k = false) (p0 : α × β) (hp0 : p0 ∈ ps)
    (hd : equiv (m.cmpR b) p0.2 default = true) :
    ∃ m1, at_left_or_default fuel m b k = some (m1, default) ∧
      find_left fuel m1 b p0.1 = some (end_left b) ∧
      at_left fuel m1 b k = some (.ok default) ∧
      size m1 b = size m b ∧
      ∃ A B ps1, ps = A ++ p0 :: B ∧ left_pairs fuel m1 b = some ps1 ∧
        ps1.Perm ((k, default) :: (A ++ B)) ∧ p0 ∉ ps1 := by
  obtain ⟨tl, tr, hi⟩ := hr.inv hb
  have hs := hi.shape
  have hfl : m.size b < fuel := by omega
  obtain rfl := hi.left_pairs hfl hps
  have hl := hi.lookupL_none hk
  obtain ⟨f, hfm, hlr, hlf, hrf⟩ := hi.lookupR_pair hp0 hd
  obtain ⟨h2, tl2, tr2, e, hi2, e1, -, -⟩ :=
    at_left_or_default_relocate hi k (by omega : m.size b + 2 < fuel) hl hlr
  have hfn : f ≠ m.next := hs.ne_next hfm
  have hsz : ((m.attached b tl tr k default).erased b f h2).size b = m.size b := relocated_size
  have hf2 : ((m.attached b tl tr k default).erased b f h2).size b < fuel := by
    rw [hsz]; exact hfl
  have hend : find_left fuel ((m.attached b tl tr k default).erased b f h2) b p0.1 =
      some (end_left b) := by
    refine hi2.find_left_end ?_ hf2
    intro q hq
    obtain ⟨y, hy, hly, -⟩ := mem_pairList.1 hq
    obtain ⟨hyf, hy1⟩ := relocated_mem hs.repL.nodup hs.next_not_mem e1 hy
    rcases hy1 with rfl | hy1
    · rw [(relocated_lval_new hfn).1] at hly
      cases hly
      have := hk p0 hp0
      rw [equiv_comm] at this
      exact this
    · rw [(relocated_val_old hyf (hs.ne_next hy1)).1] at hly
      refine bool_eq_false_of_not (fun ht => hyf ?_)
      exact sorted_unique hi.swoL hi.sortedL hy1 hfm hly hlf ht (equiv_refl hi.swoL _)
  have hnew : (k, (default : β)) ∈
      pairList ((m.attached b tl tr k default).erased b f h2) tl2.toList :=
    mem_pairList.2 ⟨m.next, relocated_next_mem hfm hs.next_not_mem e1,
      (relocated_lval_new hfn).1, (relocated_lval_new hfn).2⟩
  obtain ⟨it, -, -, -, hat⟩ := hi2.find_at_left hnew (equiv_refl hi2.swoL k) hf2
  obtain ⟨A, B, hA, hB⟩ := relocated_pairs (l := k) (r := default) (g := goL m b k) hs hfm
    hlf hrf e1
  refine ⟨_, e, hend, hat, hsz, A, B, _, hA, left_pairs_spec hi2.shape hf2, hB, ?_⟩
  intro hmem
  obtain ⟨it', e3, e4, -⟩ := hi2.find_at_left hmem (equiv_refl hi2.swoL p0.1) hf2
  rw [hend] at e3
  exact e4 (Option.some.inj e3).symm

set_option maxRecDepth 100000 in
/-- On an empty `bimap<int, int>`, `at_left_or_default(1)` then
`at_left_or_default(2)` leaves exactly `(2, 0)`, and `find_left(1)` is `end_left()`. -/
theorem at_left_or_default_relocates_witness :
    Reach ledger1 [0] ∧ 0 ∈ [0] ∧ ledger1.size 0 + 3 ≤ 8 ∧
    left_pairs 8 ledger1 0 = some [(1, 0)] ∧
    (∀ p ∈ [((1 : Int), (0 : Int))], equiv (ledger1.cmpL 0) p.1 2 = false) ∧
    ((1 : Int), (0 : Int)) ∈ [((1 : Int), (0 : Int))] ∧
    equiv (ledger1.cmpR 0) ((1 : Int), (0 : Int)).2 default = true ∧
    (∃ m1, at_left_or_default 8 ledger1 0 2 = some (m1, default) ∧
      find_left 8 m1 0 ((1 : Int), (0 : Int)).1 = some (end_left 0) ∧
      at_left 8 m1 0 2 = some (.ok default) ∧
      size m1 0 = size ledger1 0 ∧
      ∃ A B ps1, [((1 : Int), (0 : Int))] = A ++ (1, 0) :: B ∧
        left_pairs 8 m1 0 = some ps1 ∧
        ps1.Perm ((2, default) :: (A ++ B)) ∧ ((1 : Int), (0 : Int)) ∉ ps1) ∧
    at_left_or_default 8 tally0 0 1 = some (ledger1, 0) ∧
    at_left_or_default 8 ledger1 0 2 = some (ledger2, 0) ∧
    left_pairs 8 ledger2 0 = some [(2, 0)] ∧ right_pairs 8 ledger2 0 = some [(2, 0)] ∧
    find_left 8 ledger2 0 1 = some (end_left 0) :=
  ⟨reach_ledger1, by decide, by decide, by decide, by decide, by decide, by decide,
    at_left_or_default_relocates reach_ledger1 (List.mem_cons_self _ _) (by decide)
      (by decide : left_pairs 8 ledger1 0 = some [(1, 0)]) 2 (by decide) (1, 0) (by decide)
      (by decide),
    by rfl, by rfl, by decide, by decide, by decide⟩

end claims

set_option maxRecDepth 100000 in
theorem reach_ledger3 : Reach ledger3 [0] :=
  Reach.at_right_or_default 0 8 5 0 reach_ledger1 (by decide) (by decide) (by rfl)

section filtering
variable {K γ : Type} {cmp : K → K → Bool}

theorem not_equiv_of_lt {a c : K} (h : cmp a c = true) : equiv cmp a c = false := by
  simp [equiv, h]

theorem not_equiv_of_gt {a c : K} (h : cmp c a = true) : equiv cmp a c = false := by
  simp [equiv, h]

/-- In a strictly increasing sequence the elements equivalent to `d` are the
one element known to be equivalent to it. -/
theorem filter_not_equiv (hs : StrictWeakOrder cmp) (key : γ → K) {A B : List γ} {p0 : γ}
    (hpw : (A ++ p0 :: B).Pairwise (fun p q => cmp (key p) (key q) = true)) {d : K}
    (he : equiv cmp (key p0) d = true) :
    (A ++ p0 :: B).filter (fun q => !equiv cmp (key q) d) = A ++ B := by
  obtain ⟨hA, hB0, hAB⟩ := List.pairwise_append.1 hpw
  obtain ⟨hB1, hB⟩ := List.pairwise_cons.1 hB0
  have h1 : ∀ q ∈ A, (!equiv cmp (key q) d) = true := by
    intro q hq
    have hlt := hAB q hq p0 (List.mem_cons_self _ _)
    have : equiv cmp (key q) d = false := by
      refine bool_eq_false_of_not (fun ht => ?_)
      have := hs.equiv_trans _ _ _ ht (StrictWeakOrder.equiv_symm he)
      rw [not_equiv_of_lt hlt] at this
      cases this
    simp [this]
  have h2 : ∀ q ∈ B, (!equiv cmp (key q) d) = true := by
    intro q hq
    have hlt := hB1 q hq
    have : equiv cmp (key q) d = false := by
      refine bool_eq_false_of_not (fun ht => ?_)
      have := hs.equiv_trans _ _ _ ht (StrictWeakOrder.equiv_symm he)
      rw [not_equiv_of_gt hlt] at this
      cases this
    simp [this]
  rw [List.filter_append, List.filter_cons, List.filter_eq_self.2 h1, List.filter_eq_self.2 h2]
  simp [he]

end filtering

section claims
variable {α β : Type} [Inhabited α] [Inhabited β]

/-- C10: on a reachable bimap, `at_right_or_default(k)` returns the left value
`v` that is paired with `k` after the call: `find_right(k).flip()` dereferences
to `v`.  When a stored right value is equivalent to `k` the memory is unchanged.
Otherwise `v` is the default-constructed left value, `(v, k)` is stored
afterwards, the stored pairs are `(v, k)` and the former pairs whose left value
is not equivalent to the default, and a former pair whose left value is
equivalent to the default is gone from both traversals. -/
theorem at_right_or_default_mirror {m : Mem α β} {live : List Nat} (hr : Reach m live)
    {b : Nat} (hb : b ∈ live) {fuel : Nat} (hf : m.size b + 3 ≤ fuel) {ps : List (α × β)}
    (hps : left_pairs fuel m b = some ps) (k : β) :
    ∃ m1 v, at_right_or_default fuel m b k = some (m1, v) ∧
      (∃ fr f, find_right fuel m1 b k = some fr ∧ flip m1.heap fr = some f ∧
        deref_left m1 f = some v) ∧
      ((∃ p ∈ ps, equiv (m.cmpR b) p.2 k = true) → m1 = m) ∧
      ((∀ p ∈ ps, equiv (m.cmpR b) p.2 k = false) →
        v = default ∧
        ∃ ps1 pr1, left_pairs fuel m1 b = some ps1 ∧ right_pairs fuel m1 b = some pr1 ∧
          pr1.Perm ps1 ∧ (default, k) ∈ ps1 ∧
          ps1.Perm ((default, k) :: ps.filter (fun q => !equiv (m.cmpL b) q.1 default)) ∧
          ∀ q ∈ ps, equiv (m.cmpL b) q.1 default = true →
            q ∉ ps1 ∧ q ∉ pr1 ∧ find_right fuel m1 b q.2 = some (end_right b)) := by
  obtain ⟨tl, tr, hi⟩ := hr.inv hb
  have hs := hi.shape
  have hfl : m.size b < fuel := by omega
  obtain rfl := hi.left_pairs hfl hps
  cases hlr : lookupR m b tr k with
  | some x =>
    obtain ⟨hx, w, hw, hew⟩ := lookupR_some hlr
    have hx' := hs.mem_right.1 hx
    obtain ⟨l, hl, e⟩ := at_right_or_default_found hi k hfl hlr
    refine ⟨m, l, e, ⟨_, _, hi.find_right_node hx' hw hew hfl, hs.flip_right hx',
      by rw [deref_left_node, hl]⟩, fun _ => rfl, ?_⟩
    intro hno
    have := hno (l, w) (mem_pairList.2 ⟨x, hx', hl, hw⟩)
    rw [show equiv (m.cmpR b) (l, w).2 k = true from hew] at this
    cases this
  | none =>
    have hnoR : (∃ p ∈ pairList m tl.toList, equiv (m.cmpR b) p.2 k = true) →
        ∀ m1 : Mem α β, m1 = m := by
      rintro ⟨p, hp, he⟩
      obtain ⟨x, -, hx, -⟩ := hi.lookupR_pair hp he
      rw [hlr] at hx; cases hx
    cases hll : lookupL m b tl (default : α) with
    | none =>
      obtain ⟨e, hi1, -⟩ := at_right_or_default_fresh hi k hfl hlr hll
      have hs1 := hi1.shape
      have hmem : m.next ∈ (tl.ins (goL m b default) m.next).toList :=
        (Tree.ins_perm _ _ _).mem_iff.2 (List.mem_cons_self _ _)
      have hf1 : (m.attached b tl tr default k).size b < fuel := by rw [attached_size]; omega
      have hlv := attached_lval_new m b tl tr (default : α) k
      have hrv := attached_rval_new m b tl tr (default : α) k
      have hperm := attached_pairs hs (default : α) k
      have hfilter : (pairList m tl.toList).filter (fun q => !equiv (m.cmpL b) q.1 default) =
          pairList m tl.toList := by
        refine List.filter_eq_self.2 ?_
        intro q hq
        obtain ⟨y, hy, hly, -⟩ := mem_pairList.1 hq
        simp [lookupL_eq_none hll y hy q.1 hly]
      refine ⟨_, default, e, ⟨_, _, hi1.find_right_node hmem hrv (equiv_refl hi1.swoR k) hf1,
        hs1.flip_right hmem, by rw [deref_left_node, hlv]⟩, fun h => hnoR h _, fun _ => ⟨rfl,
        _, _, left_pairs_spec hs1 hf1, right_pairs_spec hs1 hf1, hs1.pairs_perm,
        hperm.mem_iff.2 (List.mem_cons_self _ _), by rw [hfilter]; exact hperm, ?_⟩⟩
      intro q hq he
      obtain ⟨y, hy, hly, -⟩ := mem_pairList.1 hq
      rw [lookupL_eq_none hll y hy q.1 hly] at he
      cases he
    | some f =>
      obtain ⟨hfm, lf, hlf, helf⟩ := lookupL_some hll
      obtain ⟨rf, hrf⟩ := hs.valR f hfm
      obtain ⟨h2, tl2, tr2, e, hi2, e1, -, -⟩ :=
        at_right_or_default_relocate hi k (by omega : m.size b + 2 < fuel) hlr hll
      have hs2 := hi2.shape
      have hfn : f ≠ m.next := hs.ne_next hfm
      have hsz : ((m.attached b tl tr default k).erased b f h2).size b = m.size b :=
        relocated_size
      have hf2 : ((m.attached b tl tr default k).erased b f h2).size b < fuel := by
        rw [hsz]; exact hfl
      have hnext := relocated_next_mem (g := goL m b default) hfm hs.next_not_mem e1
      have hnv : ((m.attached b tl tr default k).erased b f h2).lval m.next = some default ∧
          ((m.attached b tl tr default k).erased b f h2).rval m.next = some k :=
        relocated_lval_new hfn
      obtain ⟨hlv, hrv⟩ := hnv
      have hE : ∃ A B, pairList m tl.toList = A ++ (lf, rf) :: B ∧
          (pairList ((m.attached b tl tr default k).erased b f h2) tl2.toList).Perm
            ((default, k) :: (A ++ B)) :=
        relocated_pairs hs hfm hlf hrf e1
      obtain ⟨A, B, hA, hB⟩ := hE
      have hfilter : (pairList m tl.toList).filter (fun q => !equiv (m.cmpL b) q.1 default) =
          A ++ B := by
        rw [hA]
        exact filter_not_equiv hi.swoL Prod.fst (hA ▸ hi.left_sorted) helf
      have hendR : find_right fuel ((m.attached b tl tr default k).erased b f h2) b rf =
          some (end_right b) := by
        refine hi2.find_right_end ?_ hf2
        intro q hq
        obtain ⟨y, hy, -, hry⟩ := mem_pairList.1 hq
        obtain ⟨hyf, hy1⟩ := relocated_mem hs.repL.nodup hs.next_not_mem e1 hy
        rcases hy1 with rfl | hy1
        · rw [hrv] at hry
          cases hry
          have := lookupR_eq_none hlr f (hs.mem_right.2 hfm) rf hrf
          rw [equiv_comm] at this
          exact this
        · rw [(relocated_val_old hyf (hs.ne_next hy1)).2] at hry
          refine bool_eq_false_of_not (fun ht => hyf ?_)
          exact sorted_unique hi.swoR hi.sortedR (hs.mem_right.2 hy1) (hs.mem_right.2 hfm) hry
            hrf ht (equiv_refl hi.swoR _)
      have hgone : (lf, rf) ∉
          pairList ((m.attached b tl tr default k).erased b f h2) tl2.toList := by
        intro hmem
        obtain ⟨it', e3, e4, -⟩ := hi2.find_at_right hmem (equiv_refl hi2.swoR rf) hf2
        rw [hendR] at e3
        exact e4 (Option.some.inj e3).symm
      refine ⟨_, default, e, ⟨_, _, hi2.find_right_node hnext hrv (equiv_refl hi2.swoR k) hf2,
        hs2.flip_right hnext, by rw [deref_left_node, hlv]⟩, fun h => hnoR h _, fun _ => ⟨rfl,
        _, _, left_pairs_spec hs2 hf2, right_pairs_spec hs2 hf2, hs2.pairs_perm,
        mem_pairList.2 ⟨m.next, hnext, hlv, hrv⟩, by rw [hfilter]; exact hB, ?_⟩⟩
      intro q hq he
      obtain ⟨y, hy, hly, hry⟩ := mem_pairList.1 hq
      have hyf : y = f := sorted_unique hi.swoL hi.sortedL hy hfm hly hlf he helf
      subst hyf
      have hq' : q = (lf, rf) := by
        rw [hlf] at hly; rw [hrf] at hry
        exact Prod.ext (Option.some.inj hly).symm (Option.some.inj hry).symm
      subst hq'
      exact ⟨hgone, fun h => hgone (hs2.pairs_perm.mem_iff.1 h), hendR⟩

set_option maxRecDepth 100000 in
/-- The bimap that holds `(1, 0)` receives `at_right_or_default(5)`, then
`at_right_or_default(7)` relocates the default left value. -/
theorem at_right_or_default_mirror_witness :
    Reach ledger1 [0] ∧ 0 ∈ [0] ∧ ledger1.size 0 + 3 ≤ 8 ∧
    left_pairs 8 ledger1 0 = some [(1, 0)] ∧
    (∃ m1 v, at_right_or_default 8 ledger1 0 5 = some (m1, v) ∧
      (∃ fr f, find_right 8 m1 0 5 = some fr ∧ flip m1.heap fr = some f ∧
        deref_left m1 f = some v) ∧
      ((∃ p ∈ [((1 : Int), (0 : Int))], equiv (ledger1.cmpR 0) p.2 5 = true) → m1 = ledger1) ∧
      ((∀ p ∈ [((1 : Int), (0 : Int))], equiv (ledger1.cmpR 0) p.2 5 = false) →
        v = default ∧
        ∃ ps1 pr1, left_pairs 8 m1 0 = some ps1 ∧ right_pairs 8 m1 0 = some pr1 ∧
          pr1.Perm ps1 ∧ (default, 5) ∈ ps1 ∧
          ps1.Perm ((default, 5) ::
            [((1 : Int), (0 : Int))].filter (fun q => !equiv (ledger1.cmpL 0) q.1 default)) ∧
          ∀ q ∈ [((1 : Int), (0 : Int))], equiv (ledger1.cmpL 0) q.1 default = true →
            q ∉ ps1 ∧ q ∉ pr1 ∧ find_right 8 m1 0 q.2 = some (end_right 0))) ∧
    at_right_or_default 8 ledger1 0 5 = some (ledger3, 0) ∧
    left_pairs 8 ledger3 0 = some [(0, 5), (1, 0)] ∧
    right_pairs 8 ledger3 0 = some [(1, 0), (0, 5)] ∧
    (at_right_or_default 8 ledger3 0 7).map Prod.snd = some 0 ∧
    (at_right_or_default 8 ledger3 0 7).bind (fun s => left_pairs 8 s.1 0) =
      some [(0, 7), (1, 0)] ∧
    (at_right_or_default 8 ledger3 0 7).bind (fun s => find_right 8 s.1 0 5) =
      some (end_right 0) :=
  ⟨reach_ledger1, by decide, by decide, by decide,
    at_right_or_default_mirror reach_ledger1 (List.mem_cons_self _ _) (by decide)
      (by decide : left_pairs 8 ledger1 0 = some [(1, 0)]) 5,
    by rfl, by decide, by decide, by decide, by decide, by decide⟩

end claims

section bounds
variable {α β : Type}

/-- The nodes behind a split of the pairs of a sequence of nodes. -/
theorem pairList_split {m : Mem α β} {L : List Nat}
    (hall : ∀ x ∈ L, ∃ p, pairOf m x = some p) {A B : List (α × β)} {p : α × β}
    (h : pairList m L = A ++ p :: B) :
    ∃ A0 y B0, L = A0 ++ y :: B0 ∧ pairList m A0 = A ∧ pairOf m y = some p ∧
      pairList m B0 = B ∧ A0.length = A.length := by
  induction L generalizing A with
  | nil => simp [pairList] at h
  | cons a L ih =>
    obtain ⟨q, hq⟩ := hall a (List.mem_cons_self _ _)
    have hcons : pairList m (a :: L) = q :: pairList m L := by
      simp [pairList, List.filterMap_cons, hq]
    rw [hcons] at h
    cases A with
    | nil =>
      simp only [List.nil_append, List.cons.injEq] at h
      obtain ⟨rfl, hB⟩ := h
      exact ⟨[], a, L, rfl, rfl, hq, hB, rfl⟩
    | cons a1 A =>
      simp only [List.cons_append, List.cons.injEq] at h
      obtain ⟨rfl, hB⟩ := h
      obtain ⟨A0, y, B0, e, eA, ey, eB, el⟩ :=
        ih (fun x hx => hall x (List.mem_cons_of_mem _ hx)) hB
      refine ⟨a :: A0, y, B0, by rw [e]; rfl, ?_, ey, eB, by simp [el]⟩
      have : pairList m (a :: A0) = q :: pairList m A0 := by
        simp [pairList, List.filterMap_cons, hq]
      rw [this, eA]

theorem Shape.pair_all {m : Mem α β} {b : Nat} {tl tr : Tree} (hs : Shape m b tl tr) :
    ∀ x ∈ tl.toList, ∃ p, pairOf m x = some p := by
  intro x hx
  obtain ⟨l, r, -, -, h⟩ := pairOf_some hs hx
  exact ⟨_, h⟩

theorem Shape.pair_all_right {m : Mem α β} {b : Nat} {tl tr : Tree} (hs : Shape m b tl tr) :
    ∀ x ∈ tr.toList, ∃ p, pairOf m x = some p :=
  fun x hx => hs.pair_all x (hs.mem_right.1 hx)

theorem pairOf_fst {m : Mem α β} {x : Nat} {p : α × β} (h : pairOf m x = some p) :
    m.lval x = some p.1 ∧ m.rval x = some p.2 := by
  simp only [pairOf] at h
  split at h
  · next l r hl hr => cases h; exact ⟨hl, hr⟩
  · cases h

/-- The first node that passes a test, given the split of the sequence at it. -/
theorem find_split {test : Nat → Bool} {A0 B0 : List Nat} {y : Nat}
    (hA : ∀ x ∈ A0, test x = false) (hy : test y = true) :
    (A0 ++ y :: B0).find? test = some y := by
  induction A0 with
  | nil => simp [hy]
  | cons a A0 ih =>
    have ha := hA a (List.mem_cons_self _ _)
    simp only [List.cons_append, List.find?_cons, ha]
    exact ih (fun x hx => hA x (List.mem_cons_of_mem _ hx))

/-- The result of `lower_bound_left`, in terms of the left sequence of nodes. -/
theorem Inv.lower_bound_left {m : Mem α β} {b : Nat} {tl tr : Tree} (hi : Inv m b tl tr)
    (k : α) {fuel : Nat} (hf : m.size b < fuel) :
    lower_bound_left fuel m b k =
      some (some (match tl.toList.find? (onVal m.lval (fun v => !m.cmpL b v k)) with
        | some y => ⟨.left, y⟩
        | none => ⟨.left, b⟩)) :=
  lower_bound_spec hi.swoL k hi.shape.repL hi.shape.valL hi.sortedL
    (by rw [hi.shape.size_left]; exact hf)

/-- The result of `lower_bound_right`, in terms of the right sequence of nodes. -/
theorem Inv.lower_bound_right {m : Mem α β} {b : Nat} {tl tr : Tree} (hi : Inv m b tl tr)
    (k : β) {fuel : Nat} (hf : m.size b < fuel) :
    lower_bound_right fuel m b k =
      some (some (match tr.toList.find? (onVal m.rval (fun v => !m.cmpR b v k)) with
        | some y => ⟨.right, y⟩
        | none => ⟨.right, b⟩)) :=
  lower_bound_spec hi.swoR k hi.shape.repR hi.shape.valR_right hi.sortedR
    (by rw [hi.shape.size_right]; exact hf)

/-- The first node of a sequence whose value passes a test, read off the pairs
of the sequence. -/
theorem first_passing {K : Type} (test : K → Bool) (val : Nat → Option K) (key : α × β → K)
    {m : Mem α β} {L : List Nat} (hall : ∀ x ∈ L, ∃ p, pairOf m x = some p)
    (hkey : ∀ x p, pairOf m x = some p → val x = some (key p)) (s : Side) :
    (L.find? (onVal val test) = none ↔ ∀ p ∈ pairList m L, test (key p) = false) ∧
    (∀ A p B, pairList m L = A ++ p :: B → (∀ q ∈ A, test (key q) = false) →
      test (key p) = true →
      ∃ y ∈ L, L.find? (onVal val test) = some y ∧ pairOf m y = some p ∧
        (L.map (fun x => (some ⟨s, x⟩ : NPtr)))[A.length]? = some (some ⟨s, y⟩)) := by
  have hon : ∀ x p, pairOf m x = some p → onVal val test x = test (key p) := by
    intro x p hp
    simp [onVal, hkey x p hp]
  constructor
  · rw [List.find?_eq_none]
    constructor
    · intro h p hp
      obtain ⟨x, hx, hl, hr⟩ := mem_pairList.1 hp
      have hpx : pairOf m x = some p := by simp [pairOf, hl, hr]
      have := h x hx
      rw [hon x p hpx] at this
      simpa using this
    · intro h x hx
      obtain ⟨p, hp⟩ := hall x hx
      obtain ⟨hl, hr⟩ := pairOf_fst hp
      rw [hon x p hp, h p (mem_pairList.2 ⟨x, hx, hl, hr⟩)]
      simp
  · intro A p B hsplit hA hp
    obtain ⟨A0, y, B0, e, eA, ey, -, el⟩ := pairList_split hall hsplit
    have hA0 : ∀ x ∈ A0, onVal val test x = false := by
      intro x hx
      obtain ⟨q, hq⟩ := hall x (by rw [e]; simp [hx])
      obtain ⟨hl, hr⟩ := pairOf_fst hq
      rw [hon x q hq]
      exact hA q (eA ▸ mem_pairList.2 ⟨x, hx, hl, hr⟩)
    refine ⟨y, by rw [e]; simp, ?_, ey, ?_⟩
    · rw [e]
      exact find_split hA0 (by rw [hon y p ey]; exact hp)
    · rw [e, List.map_append, List.map_cons, ← el,
        List.getElem?_append_right (by simp), List.length_map, Nat.sub_self]
      simp

end bounds

section claims
variable {α β : Type} [Inhabited α] [Inhabited β]

/-- C11: on a reachable bimap, for every left key `k`, `lower_bound_left(k)` is
the cursor of the first pair in left order whose left value is not less than
`k` under the left comparator, and it is `end_left()` exactly when every stored
left value is less than `k`.  The same holds for `lower_bound_right` with the
right order, the right values and the right comparator. -/
theorem lower_bound_first_not_less {m : Mem α β} {live : List Nat} (hr : Reach m live)
    {b : Nat} (hb : b ∈ live) {fuel : Nat} (hf : m.size b + 3 ≤ fuel)
    {pl pr : List (α × β)} {cl cr : List NPtr}
    (hpl : left_pairs fuel m b = some pl) (hpr : right_pairs fuel m b = some pr)
    (hcl : left_cursors fuel m b = some cl) (hcr : right_cursors fuel m b = some cr) :
    (∀ k : α, ∃ it, lower_bound_left fuel m b k = some it ∧
      (it = end_left b ↔ ∀ p ∈ pl, m.cmpL b p.1 k = true) ∧
      (∀ A p B, pl = A ++ p :: B → (∀ q ∈ A, m.cmpL b q.1 k = true) →
        m.cmpL b p.1 k = false →
        it ≠ end_left b ∧ cl[A.length]? = some it ∧ pair_at_left m it = some p)) ∧
    (∀ k : β, ∃ it, lower_bound_right fuel m b k = some it ∧
      (it = end_right b ↔ ∀ p ∈ pr, m.cmpR b p.2 k = true) ∧
      (∀ A p B, pr = A ++ p :: B → (∀ q ∈ A, m.cmpR b q.2 k = true) →
        m.cmpR b p.2 k = false →
        it ≠ end_right b ∧ cr[A.length]? = some it ∧ pair_at_right m it = some p)) := by
  obtain ⟨tl, tr, hi⟩ := hr.inv hb
  have hs := hi.shape
  have hfl : m.size b < fuel := by omega
  rw [left_pairs_spec hs hfl] at hpl
  rw [right_pairs_spec hs hfl] at hpr
  rw [left_cursors_spec hs hfl] at hcl
  rw [right_cursors_spec hs hfl] at hcr
  obtain rfl := Option.some.inj hpl
  obtain rfl := Option.some.inj hpr
  obtain rfl := Option.some.inj hcl
  obtain rfl := Option.some.inj hcr
  constructor
  · intro k
    obtain ⟨h1, h2⟩ := first_passing (fun v => !m.cmpL b v k) m.lval Prod.fst hs.pair_all
      (fun x p hp => (pairOf_fst hp).1) .left
    refine ⟨_, hi.lower_bound_left k hfl, ?_, ?_⟩
    · constructor
      · intro he
        have hnone : tl.toList.find? (onVal m.lval (fun v => !m.cmpL b v k)) = none := by
          cases hfind : tl.toList.find? (onVal m.lval (fun v => !m.cmpL b v k)) with
          | none => rfl
          | some y =>
            rw [hfind] at he
            have hy := List.mem_of_find?_eq_some hfind
            exact absurd he (node_ne_end_left hs hy)
        intro p hp
        simpa using h1.1 hnone p hp
      · intro hall
        rw [h1.2 (fun p hp => by simp [hall p hp])]
        rfl
    · intro A p B hsplit hA hp
      obtain ⟨y, hy, hfind, hpy, hget⟩ := h2 A p B hsplit (fun q hq => by simp [hA q hq])
        (by simp [hp])
      rw [hfind]
      exact ⟨node_ne_end_left hs hy, hget, by rw [pair_at_left_node hs hy, hpy]⟩
  · intro k
    obtain ⟨h1, h2⟩ := first_passing (fun v => !m.cmpR b v k) m.rval Prod.snd hs.pair_all_right
      (fun x p hp => (pairOf_fst hp).2) .right
    refine ⟨_, hi.lower_bound_right k hfl, ?_, ?_⟩
    · constructor
      · intro he
        have hnone : tr.toList.find? (onVal m.rval (fun v => !m.cmpR b v k)) = none := by
          cases hfind : tr.toList.find? (onVal m.rval (fun v => !m.cmpR b v k)) with
          | none => rfl
          | some y =>
            rw [hfind] at he
            have hy := List.mem_of_find?_eq_some hfind
            exact absurd he (node_ne_end_right hs (hs.mem_right.1 hy))
        intro p hp
        simpa using h1.1 hnone p hp
      · intro hall
        rw [h1.2 (fun p hp => by simp [hall p hp])]
        rfl
    · intro A p B hsplit hA hp
      obtain ⟨y, hy, hfind, hpy, hget⟩ := h2 A p B hsplit (fun q hq => by simp [hA q hq])
        (by simp [hp])
      rw [hfind]
      exact ⟨node_ne_end_right hs (hs.mem_right.1 hy), hget,
        by rw [pair_at_right_node hs (hs.mem_right.1 hy), hpy]⟩

set_option maxRecDepth 100000 in
/-- The lower bounds on the bimap of five pairs. -/
theorem lower_bound_first_not_less_witness :
    Reach tally7 [0] ∧ 0 ∈ [0] ∧ tally7.size 0 + 3 ≤ 12 ∧
    left_pairs 12 tally7 0 = some [(3, 70), (4, 10), (7, 0), (8, 20), (9, 60)] ∧
    right_pairs 12 tally7 0 = some [(7, 0), (4, 10), (8, 20), (9, 60), (3, 70)] ∧
    left_cursors 12 tally7 0 = some [some ⟨.left, 2⟩, some ⟨.left, 4⟩, some ⟨.left, 6⟩,
      some ⟨.left, 3⟩, some ⟨.left, 5⟩] ∧
    right_cursors 12 tally7 0 = some [some ⟨.right, 6⟩, some ⟨.right, 4⟩, some ⟨.right, 3⟩,
      some ⟨.right, 5⟩, some ⟨.right, 2⟩] ∧
    ((∀ k : Int, ∃ it, lower_bound_left 12 tally7 0 k = some it ∧
      (it = end_left 0 ↔ ∀ p ∈ [((3 : Int), (70 : Int)), (4, 10), (7, 0), (8, 20), (9, 60)],
        tally7.cmpL 0 p.1 k = true) ∧
      (∀ A p B, [((3 : Int), (70 : Int)), (4, 10), (7, 0), (8, 20), (9, 60)] = A ++ p :: B →
        (∀ q ∈ A, tally7.cmpL 0 q.1 k = true) → tally7.cmpL 0 p.1 k = false →
        it ≠ end_left 0 ∧
        ([some ⟨.left, 2⟩, some ⟨.left, 4⟩, some ⟨.left, 6⟩, some ⟨.left, 3⟩,
          some ⟨.left, 5⟩] : List NPtr)[A.length]? = some it ∧
        pair_at_left tally7 it = some p)) ∧
    (∀ k : Int, ∃ it, lower_bound_right 12 tally7 0 k = some it ∧
      (it = end_right 0 ↔ ∀ p ∈ [((7 : Int), (0 : Int)), (4, 10), (8, 20), (9, 60), (3, 70)],
        tally7.cmpR 0 p.2 k = true) ∧
      (∀ A p B, [((7 : Int), (0 : Int)), (4, 10), (8, 20), (9, 60), (3, 70)] = A ++ p :: B →
        (∀ q ∈ A, tally7.cmpR 0 q.2 k = true) → tally7.cmpR 0 p.2 k = false →
        it ≠ end_right 0 ∧
        ([some ⟨.right, 6⟩, some ⟨.right, 4⟩, some ⟨.right, 3⟩, some ⟨.right, 5⟩,
          some ⟨.right, 2⟩] : List NPtr)[A.length]? = some it ∧
        pair_at_right tally7 it = some p))) ∧
    lower_bound_left 12 tally7 0 6 = some (some ⟨.left, 6⟩) ∧
    lower_bound_left 12 tally7 0 10 = some (end_left 0) ∧
    lower_bound_right 12 tally7 0 15 = some (some ⟨.right, 3⟩) :=
  ⟨reach_tally7, by decide, by decide, by decide, by decide, by decide, by decide,
    lower_bound_first_not_less reach_tally7 (List.mem_cons_self _ _) (by decide)
      (by decide : left_pairs 12 tally7 0 = some [(3, 70), (4, 10), (7, 0), (8, 20), (9, 60)])
      (by decide : right_pairs 12 tally7 0 =
        some [(7, 0), (4, 10), (8, 20), (9, 60), (3, 70)])
      (by decide : left_cursors 12 tally7 0 = some [some ⟨.left, 2⟩, some ⟨.left, 4⟩,
        some ⟨.left, 6⟩, some ⟨.left, 3⟩, some ⟨.left, 5⟩])
      (by decide : right_cursors 12 tally7 0 = some [some ⟨.right, 6⟩, some ⟨.right, 4⟩,
        some ⟨.right, 3⟩, some ⟨.right, 5⟩, some ⟨.right, 2⟩]),
    by decide, by decide, by decide⟩

end claims

theorem swo_ltTens : StrictWeakOrder ltTens :=
  swo_of_key (fun a => a / 10) ltTens (fun a b => by simp [ltTens])

theorem reach_decade0 : Reach decade0 [0] :=
  Reach.construct ltTens ltNat (Reach.init ltTens ltNat) swo_ltTens swo_ltNat

set_option maxRecDepth 100000 in
theorem reach_decade1 : Reach decade1 [0] :=
  Reach.insert 0 8 15 1 (some ⟨.left, 1⟩) reach_decade0 (by decide) (by decide) (by rfl)

set_option maxRecDepth 100000 in
/-- C12: on the reachable `bimap<unsigned, unsigned, ByTens>` holding the single
pair `(15, 1)`, whose left comparator orders keys by their tens, no stored left
value is strictly greater than `12` (`cmp(12, 15)` is false), yet
`upper_bound_left(12)` is not `end_left()`: it is the cursor of `(15, 1)`,
because `upper_bound` tests `get_over(n) == key` where `find` on the same key
tests the equivalence of the comparator and finds `(15, 1)`. -/
theorem upper_bound_left_equivalent_key :
    Reach decade1 [0] ∧ StrictWeakOrder (decade1.cmpL 0) ∧
    left_pairs 8 decade1 0 = some [(15, 1)] ∧
    (∀ p ∈ [((15 : Nat), (1 : Nat))], decade1.cmpL 0 12 p.1 = false) ∧
    upper_bound_left 8 decade1 0 12 = some (some ⟨.left, 1⟩) ∧
    (some ⟨.left, 1⟩ : NPtr) ≠ end_left 0 ∧
    pair_at_left decade1 (some ⟨.left, 1⟩) = some (15, 1) ∧
    equiv (decade1.cmpL 0) 15 12 = true ∧
    find_left 8 decade1 0 12 = some (some ⟨.left, 1⟩) ∧
    upper_bound_left 8 decade1 0 15 = some (end_left 0) :=
  ⟨reach_decade1, swo_ltTens, by decide, by decide, by decide, by decide, by decide, by decide,
    by decide, by decide⟩

section emptiness
variable {α β : Type}

theorem Shape.begin_left_head {m : Mem α β} {b : Nat} {tl tr : Tree} (hs : Shape m b tl tr)
    {fuel : Nat} (hf : m.size b < fuel) :
    begin_left fuel m b = some (some (headPtr .left b tl.toList)) :=
  begin_node_spec hs.repL hs.linkL hs.linkR (by rw [hs.size_left]; exact hf)

theorem Shape.begin_right_head {m : Mem α β} {b : Nat} {tl tr : Tree} (hs : Shape m b tl tr)
    {fuel : Nat} (hf : m.size b < fuel) :
    begin_right fuel m b = some (some (headPtr .right b tr.toList)) :=
  begin_node_spec hs.repR hs.linkR hs.linkL (by rw [hs.size_right]; exact hf)

theorem headPtr_eq_end {s : Side} {b : Nat} {L : List Nat} (hn : b ∉ L) :
    headPtr s b L = ⟨s, b⟩ ↔ L = [] := by
  cases L with
  | nil => simp [headPtr]
  | cons y L =>
    simp only [headPtr, Ptr.mk.injEq, true_and, reduceCtorEq, iff_false]
    intro e
    exact hn (e ▸ List.mem_cons_self _ _)

theorem Shape.empty_iff {m : Mem α β} {b : Nat} {tl tr : Tree} (hs : Shape m b tl tr) :
    empty m b = true ↔ tl.toList = [] := by
  simp only [empty, set_over.empty, left_sentinel, hs.repL.root]
  cases tl with
  | nil => simp [Tree.rootPtr, Tree.toList]
  | node l y r => simp [Tree.rootPtr, Tree.toList]

end emptiness

section claims
variable {α β : Type} [Inhabited α] [Inhabited β]

/-- C20: on a reachable bimap the emptiness observations agree: `empty()` is
true iff `size() == 0`, iff `begin_left() == end_left()`, iff
`begin_right() == end_right()`; both `begin` calls return a cursor, and on an
empty bimap `begin_left()` is the left sentinel itself, which is the service
link of the service link of that sentinel. -/
theorem emptiness_agrees {m : Mem α β} {live : List Nat} (hr : Reach m live)
    {b : Nat} (hb : b ∈ live) {fuel : Nat} (hf : m.size b + 3 ≤ fuel) :
    ∃ bl br, begin_left fuel m b = some bl ∧ begin_right fuel m b = some br ∧
      (empty m b = true ↔ size m b = 0) ∧
      (size m b = 0 ↔ bl = end_left b) ∧
      (size m b = 0 ↔ br = end_right b) ∧
      (empty m b = true → bl = some (left_sentinel b) ∧
        ∃ o, (m.heap (left_sentinel b))._left = some o ∧
          (m.heap o)._left = some (left_sentinel b)) := by
  obtain ⟨tl, tr, hi⟩ := hr.inv hb
  have hs := hi.shape
  have hfl : m.size b < fuel := by omega
  have hsz : size m b = 0 ↔ tl.toList = [] := by
    simp only [size, hs.size_eq, List.length_eq_zero]
  have hlr : tl.toList = [] ↔ tr.toList = [] := by
    constructor
    · intro h
      exact List.Perm.eq_nil (h ▸ hs.perm.symm)
    · intro h
      exact List.Perm.eq_nil (h ▸ hs.perm)
  refine ⟨_, _, hs.begin_left_head hfl, hs.begin_right_head hfl, ?_, ?_, ?_, ?_⟩
  · rw [hs.empty_iff, hsz]
  · rw [hsz, end_left, end_node, left_sentinel, Option.some_inj, headPtr_eq_end hs.repL.notin]
  · rw [hsz, hlr, end_right, end_node, right_sentinel, Option.some_inj,
      headPtr_eq_end hs.repR.notin]
  · intro he
    rw [hs.empty_iff] at he
    rw [he]
    exact ⟨rfl, _, hs.linkL, hs.linkR⟩

set_option maxRecDepth 100000 in
/-- The emptiness observations on a moved-from bimap and on the bimap that took
its two pairs. -/
theorem emptiness_agrees_witness :
    Reach scene4 [3, 0] ∧ 0 ∈ [3, 0] ∧ scene4.size 0 + 3 ≤ 8 ∧
    (∃ bl br, begin_left 8 scene4 0 = some bl ∧ begin_right 8 scene4 0 = some br ∧
      (empty scene4 0 = true ↔ size scene4 0 = 0) ∧
      (size scene4 0 = 0 ↔ bl = end_left 0) ∧
      (size scene4 0 = 0 ↔ br = end_right 0) ∧
      (empty scene4 0 = true → bl = some (left_sentinel 0) ∧
        ∃ o, (scene4.heap (left_sentinel 0))._left = some o ∧
          (scene4.heap o)._left = some (left_sentinel 0))) ∧
    empty scene4 0 = true ∧ size scene4 0 = 0 ∧
    begin_left 8 scene4 0 = some (end_left 0) ∧ begin_right 8 scene4 0 = some (end_right 0) ∧
    empty scene4 3 = false ∧ size scene4 3 = 2 ∧
    begin_left 8 scene4 3 = some (some ⟨.left, 1⟩) ∧
    begin_right 8 scene4 3 = some (some ⟨.right, 1⟩) ∧
    empty scene0 0 = true ∧ size scene0 0 = 0 ∧
    begin_left 8 scene0 0 = some (end_left 0) ∧ begin_right 8 scene0 0 = some (end_right 0) :=
  ⟨reach_scene4, by decide, by decide,
    emptiness_agrees reach_scene4 (by decide : 0 ∈ [3, 0]) (by decide),
    by decide, by decide, by decide, by decide, by decide, by decide, by decide, by decide,
    by decide, by decide, by decide, by decide⟩

end claims

section trees
variable {α β : Type}

theorem moveTrees_this (T : Nat → Tree) (this other : Nat) : moveTrees T this other this = T other := by
  simp [moveTrees]

theorem moveTrees_other (T : Nat → Tree) {this other : Nat} (h : other ≠ this) :
    moveTrees T this other other = .nil := by
  simp [moveTrees, h]

theorem swapTrees_lhs (T : Nat → Tree) (lhs rhs : Nat) : swapTrees T lhs rhs lhs = T rhs := by
  simp [swapTrees]

theorem swapTrees_rhs (T : Nat → Tree) {lhs rhs : Nat} (h : lhs ≠ rhs) :
    swapTrees T lhs rhs rhs = T lhs := by
  simp [swapTrees, h.symm]

theorem pairList_same {m m1 : Mem α β} (hl : m1.lval = m.lval) (hr : m1.rval = m.rval)
    (L : List Nat) : pairList m1 L = pairList m L :=
  pairList_congr (fun x _ => ⟨by rw [hl], by rw [hr]⟩)

end trees

section claims
variable {α β : Type} [Inhabited α] [Inhabited β]

/-- C15: after move-constructing `d` from a reachable bimap `other`, the source
has size `0`, is empty, its `begin` cursors are its `end` cursors and its
traversals are empty; `d` is a new object whose size is the former size of the
source and whose left-order and right-order sequences of pairs are exactly the
former sequences of the source. -/
theorem move_construct_takes {m : Mem α β} {live : List Nat} (hr : Reach m live)
    {other : Nat} (ho : other ∈ live) {fuel : Nat} (hf : m.size other + 3 ≤ fuel)
    {pl pr : List (α × β)}
    (hpl : left_pairs fuel m other = some pl) (hpr : right_pairs fuel m other = some pr) :
    ∃ m1 d, move_construct m other = some (m1, d) ∧ d ∉ live ∧ Reach m1 (d :: live) ∧
      size m1 other = 0 ∧ empty m1 other = true ∧
      begin_left fuel m1 other = some (end_left other) ∧
      begin_right fuel m1 other = some (end_right other) ∧
      left_pairs fuel m1 other = some [] ∧ right_pairs fuel m1 other = some [] ∧
      size m1 d = size m other ∧
      left_pairs fuel m1 d = some pl ∧ right_pairs fuel m1 d = some pr := by
  obtain ⟨TL, TR, hw⟩ := hr.winv
  obtain ⟨m1, e, hw1, -, hlv, hrv, hsd, hso, -⟩ := move_construct_winv hw ho
  have hs := (hw.inv other ho).shape
  have hlt : other < m.next := hs.self_lt
  have hne : other ≠ m.next := by omega
  have hnl : m.next ∉ live := fun hm => by
    have := (hw.inv _ hm).shape.self_lt
    omega
  have hfl : m.size other < fuel := by omega
  rw [left_pairs_spec hs hfl] at hpl
  rw [right_pairs_spec hs hfl] at hpr
  obtain rfl := Option.some.inj hpl
  obtain rfl := Option.some.inj hpr
  have hid := (hw1.inv m.next (List.mem_cons_self _ _)).shape
  rw [moveTrees_this, moveTrees_this] at hid
  have hio := (hw1.inv other (List.mem_cons_of_mem _ ho)).shape
  rw [moveTrees_other _ hne, moveTrees_other _ hne] at hio
  have hf0 : m1.size other < fuel := by omega
  have hfd : m1.size m.next < fuel := by omega
  refine ⟨m1, m.next, e, hnl, Reach.move_construct other m.next hr ho e, hso, ?_, ?_, ?_, ?_, ?_,
    hsd, ?_, ?_⟩
  · exact hio.empty_iff.2 rfl
  · rw [hio.begin_left_head hf0]; rfl
  · rw [hio.begin_right_head hf0]; rfl
  · rw [left_pairs_spec hio hf0]; rfl
  · rw [right_pairs_spec hio hf0]; rfl
  · rw [left_pairs_spec hid hfd, pairList_same hlv hrv]
  · rw [right_pairs_spec hid hfd, pairList_same hlv hrv]

set_option maxRecDepth 100000 in
/-- The move construction of a bimap from the bimap of two pairs. -/
theorem move_construct_takes_witness :
    Reach scene2 [0] ∧ 0 ∈ [0] ∧ scene2.size 0 + 3 ≤ 8 ∧
    left_pairs 8 scene2 0 = some [(1, "a"), (2, "b")] ∧
    right_pairs 8 scene2 0 = some [(1, "a"), (2, "b")] ∧
    (∃ m1 d, move_construct scene2 0 = some (m1, d) ∧ d ∉ [0] ∧ Reach m1 (d :: [0]) ∧
      size m1 0 = 0 ∧ empty m1 0 = true ∧
      begin_left 8 m1 0 = some (end_left 0) ∧
      begin_right 8 m1 0 = some (end_right 0) ∧
      left_pairs 8 m1 0 = some [] ∧ right_pairs 8 m1 0 = some [] ∧
      size m1 d = size scene2 0 ∧
      left_pairs 8 m1 d = some [(1, "a"), (2, "b")] ∧
      right_pairs 8 m1 d = some [(1, "a"), (2, "b")]) ∧
    (move_construct scene2 0).map Prod.snd = some 3 ∧
    size scene4 3 = 2 ∧ size scene4 0 = 0 ∧
    left_pairs 8 scene4 3 = some [(1, "a"), (2, "b")] :=
  ⟨reach_scene2, by decide, by decide, by decide, by decide,
    move_construct_takes reach_scene2 (List.mem_cons_self _ _) (by decide)
      (by decide : left_pairs 8 scene2 0 = some [(1, "a"), (2, "b")])
      (by decide : right_pairs 8 scene2 0 = some [(1, "a"), (2, "b")]),
    by decide, by decide, by decide, by decide⟩

/-- C16: after `swap(a, b)` of two distinct reachable bimaps, the size and the
left-order and right-order sequences of pairs of `a` are the former ones of `b`
and those of `b` the former ones of `a`; in each object `end_left().flip()` is
its own `end_right()` and `end_right().flip()` its own `end_left()`; and a
second `swap(a, b)` restores the sizes, the sequences of pairs and the cursors
of both bimaps. -/
theorem swap_exchanges {m : Mem α β} {live : List Nat} (hr : Reach m live)
    {a b : Nat} (ha : a ∈ live) (hb : b ∈ live) (hne : a ≠ b) {fuel : Nat}
    (hfa : m.size a + 3 ≤ fuel) (hfb : m.size b + 3 ≤ fuel)
    {pla pra plb prb : List (α × β)}
    (hpla : left_pairs fuel m a = some pla) (hpra : right_pairs fuel m a = some pra)
    (hplb : left_pairs fuel m b = some plb) (hprb : right_pairs fuel m b = some prb) :
    ∃ m1, swap m a b = some m1 ∧ Reach m1 live ∧
      size m1 a = size m b ∧ size m1 b = size m a ∧
      left_pairs fuel m1 a = some plb ∧ right_pairs fuel m1 a = some prb ∧
      left_pairs fuel m1 b = some pla ∧ right_pairs fuel m1 b = some pra ∧
      flip m1.heap (end_left a) = some (end_right a) ∧
      flip m1.heap (end_right a) = some (end_left a) ∧
      flip m1.heap (end_left b) = some (end_right b) ∧
      flip m1.heap (end_right b) = some (end_left b) ∧
      ∃ m2, swap m1 a b = some m2 ∧
        size m2 a = size m a ∧ size m2 b = size m b ∧
        left_pairs fuel m2 a = some pla ∧ right_pairs fuel m2 a = some pra ∧
        left_pairs fuel m2 b = some plb ∧ right_pairs fuel m2 b = some prb ∧
        left_cursors fuel m2 a = left_cursors fuel m a ∧
        right_cursors fuel m2 a = right_cursors fuel m a ∧
        left_cursors fuel m2 b = left_cursors fuel m b ∧
        right_cursors fuel m2 b = right_cursors fuel m b := by
  obtain ⟨TL, TR, hw⟩ := hr.winv
  obtain ⟨m1, e1, hw1, -, hlv1, hrv1, hsa1, hsb1, -⟩ := swap_winv hw ha hb hne
  obtain ⟨m2, e2, hw2, -, hlv2, hrv2, hsa2, hsb2, -⟩ := swap_winv hw1 ha hb hne
  have hsa := (hw.inv a ha).shape
  have hsb := (hw.inv b hb).shape
  have h1a := (hw1.inv a ha).shape
  have h1b := (hw1.inv b hb).shape
  have h2a := (hw2.inv a ha).shape
  have h2b := (hw2.inv b hb).shape
  rw [swapTrees_lhs, swapTrees_lhs] at h1a h2a
  rw [swapTrees_rhs _ hne, swapTrees_rhs _ hne] at h1b h2b
  rw [swapTrees_rhs _ hne, swapTrees_rhs _ hne] at h2a
  rw [swapTrees_lhs, swapTrees_lhs] at h2b
  have ga : m.size a < fuel := by omega
  have gb : m.size b < fuel := by omega
  have g1a : m1.size a < fuel := by omega
  have g1b : m1.size b < fuel := by omega
  have g2a : m2.size a < fuel := by omega
  have g2b : m2.size b < fuel := by omega
  rw [left_pairs_spec hsa ga] at hpla
  rw [right_pairs_spec hsa ga] at hpra
  rw [left_pairs_spec hsb gb] at hplb
  rw [right_pairs_spec hsb gb] at hprb
  obtain rfl := Option.some.inj hpla
  obtain rfl := Option.some.inj hpra
  obtain rfl := Option.some.inj hplb
  obtain rfl := Option.some.inj hprb
  have hlv2m : m2.lval = m.lval := hlv2.trans hlv1
  have hrv2m : m2.rval = m.rval := hrv2.trans hrv1
  refine ⟨m1, e1, Reach.swap a b hr ha hb hne e1, hsa1, hsb1, ?_, ?_, ?_, ?_,
    h1a.flip_end_left, h1a.flip_end_right, h1b.flip_end_left, h1b.flip_end_right,
    m2, e2, ?_, ?_, ?_, ?_, ?_, ?_, ?_, ?_, ?_, ?_⟩
  · rw [left_pairs_spec h1a g1a, pairList_same hlv1 hrv1]
  · rw [right_pairs_spec h1a g1a, pairList_same hlv1 hrv1]
  · rw [left_pairs_spec h1b g1b, pairList_same hlv1 hrv1]
  · rw [right_pairs_spec h1b g1b, pairList_same hlv1 hrv1]
  · show m2.size a = m.size a
    omega
  · show m2.size b = m.size b
    omega
  · rw [left_pairs_spec h2a g2a, pairList_same hlv2m hrv2m]
  · rw [right_pairs_spec h2a g2a, pairList_same hlv2m hrv2m]
  · rw [left_pairs_spec h2b g2b, pairList_same hlv2m hrv2m]
  · rw [right_pairs_spec h2b g2b, pairList_same hlv2m hrv2m]
  · rw [left_cursors_spec h2a g2a, left_cursors_spec hsa ga]
  · rw [right_cursors_spec h2a g2a, right_cursors_spec hsa ga]
  · rw [left_cursors_spec h2b g2b, left_cursors_spec hsb gb]
  · rw [right_cursors_spec h2b g2b, right_cursors_spec hsb gb]

theorem reach_duo0 : Reach duo0 [3, 0] :=
  Reach.construct ltNat ltString reach_scene2 swo_ltNat swo_ltString

set_option maxRecDepth 100000 in
theorem reach_duo1 : Reach duo1 [3, 0] :=
  Reach.insert 3 8 7 "x" (some ⟨.left, 4⟩) reach_duo0 (by decide) (by decide) (by rfl)

set_option maxRecDepth 100000 in
theorem reach_duo2 : Reach duo2 [3, 0] :=
  Reach.swap 0 3 reach_duo1 (by decide) (by decide) (by decide) (by rfl)

set_option maxRecDepth 100000 in
/-- The swap of the bimap of two pairs with a bimap of one pair, and back. -/
theorem swap_exchanges_witness :
    Reach duo1 [3, 0] ∧ 0 ∈ [3, 0] ∧ 3 ∈ [3, 0] ∧ 0 ≠ 3 ∧
    duo1.size 0 + 3 ≤ 8 ∧ duo1.size 3 + 3 ≤ 8 ∧
    left_pairs 8 duo1 0 = some [(1, "a"), (2, "b")] ∧
    right_pairs 8 duo1 0 = some [(1, "a"), (2, "b")] ∧
    left_pairs 8 duo1 3 = some [(7, "x")] ∧ right_pairs 8 duo1 3 = some [(7, "x")] ∧
    (∃ m1, swap duo1 0 3 = some m1 ∧ Reach m1 [3, 0] ∧
      size m1 0 = size duo1 3 ∧ size m1 3 = size duo1 0 ∧
      left_pairs 8 m1 0 = some [(7, "x")] ∧ right_pairs 8 m1 0 = some [(7, "x")] ∧
      left_pairs 8 m1 3 = some [(1, "a"), (2, "b")] ∧
      right_pairs 8 m1 3 = some [(1, "a"), (2, "b")] ∧
      flip m1.heap (end_left 0) = some (end_right 0) ∧
      flip m1.heap (end_right 0) = some (end_left 0) ∧
      flip m1.heap (end_left 3) = some (end_right 3) ∧
      flip m1.heap (end_right 3) = some (end_left 3) ∧
      ∃ m2, swap m1 0 3 = some m2 ∧
        size m2 0 = size duo1 0 ∧ size m2 3 = size duo1 3 ∧
        left_pairs 8 m2 0 = some [(1, "a"), (2, "b")] ∧
        right_pairs 8 m2 0 = some [(1, "a"), (2, "b")] ∧
        left_pairs 8 m2 3 = some [(7, "x")] ∧ right_pairs 8 m2 3 = some [(7, "x")] ∧
        left_cursors 8 m2 0 = left_cursors 8 duo1 0 ∧
        right_cursors 8 m2 0 = right_cursors 8 duo1 0 ∧
        left_cursors 8 m2 3 = left_cursors 8 duo1 3 ∧
        right_cursors 8 m2 3 = right_cursors 8 duo1 3) ∧
    size duo2 0 = 1 ∧ size duo2 3 = 2 ∧
    left_pairs 8 duo2 3 = some [(1, "a"), (2, "b")] ∧
    left_pairs 8 duo3 0 = some [(1, "a"), (2, "b")] ∧ left_pairs 8 duo3 3 = some [(7, "x")] :=
  ⟨reach_duo1, by decide, by decide, by decide, by decide, by decide, by decide, by decide,
    by decide, by decide,
    swap_exchanges reach_duo1 (by decide : 0 ∈ [3, 0]) (by decide : 3 ∈ [3, 0]) (by decide)
      (by decide) (by decide)
      (by decide : left_pairs 8 duo1 0 = some [(1, "a"), (2, "b")])
      (by decide : right_pairs 8 duo1 0 = some [(1, "a"), (2, "b")])
      (by decide : left_pairs 8 duo1 3 = some [(7, "x")])
      (by decide : right_pairs 8 duo1 3 = some [(7, "x")]),
    by decide, by decide, by decide, by decide, by decide⟩

end claims

section equality
variable {α β : Type}

theorem zip_all_iff {γ : Type} (f : γ × γ → Bool) :
    ∀ (A B : List γ), (List.zip A B).all f = true ↔
      ∀ (i : Nat) (p q : γ), A[i]? = some p → B[i]? = some q → f (p, q) = true := by
  intro A
  induction A with
  | nil => intro B; simp
  | cons a A ih =>
    intro B
    cases B with
    | nil => simp
    | cons b B =>
      rw [List.zip_cons_cons, List.all_cons, Bool.and_eq_true, ih B]
      constructor
      · rintro ⟨h0, h1⟩ i p q hp hq
        cases i with
        | zero =>
          simp only [List.getElem?_cons_zero, Option.some.injEq] at hp hq
          rw [← hp, ← hq]; exact h0
        | succ i =>
          simp only [List.getElem?_cons_succ] at hp hq
          exact h1 i p q hp hq
      · intro h
        exact ⟨h 0 a b (by simp) (by simp),
          fun i p q hp hq => h (i + 1) p q (by simpa using hp) (by simpa using hq)⟩

/-- The loop of `operator==` compares the remaining pairs of the two left
traversals position by position. -/
theorem equals_loop_spec {m : Mem α β} {a b : Nat} {tla tra tlb trb : Tree}
    (ha : Shape m a tla tra) (hb : Shape m b tlb trb) {inner : Nat}
    (hia : m.size a < inner) (hib : m.size b < inner) (Sa : List Nat) :
    ∀ (Sb Pa Pb : List Nat) (_ : tla.toList = Pa ++ Sa) (_ : tlb.toList = Pb ++ Sb)
      (_ : Sa.length = Sb.length) {fuel : Nat} (_ : Sa.length < fuel),
      equals_loop inner fuel m a (some (headPtr .left a Sa)) (some (headPtr .left b Sb)) =
        some ((List.zip (pairList m Sa) (pairList m Sb)).all
          (fun pq => left_equals m a pq.1.1 pq.2.1 && right_equals m a pq.1.2 pq.2.2)) := by
  induction Sa with
  | nil =>
    intro Sb Pa Pb _ _ _ fuel hf
    obtain ⟨f, rfl⟩ : ∃ g, fuel = g + 1 := ⟨fuel - 1, by omega⟩
    simp [equals_loop, headPtr, end_left, end_node, left_sentinel, pairList]
  | cons x Sa ih =>
    intro Sb Pa Pb hsa hsb hlen fuel hf
    obtain ⟨f, rfl⟩ : ∃ g, fuel = g + 1 := ⟨fuel - 1, by omega⟩
    cases Sb with
    | nil => simp at hlen
    | cons y Sb =>
      have hx : x ∈ tla.toList := by rw [hsa]; simp
      have hy : y ∈ tlb.toList := by rw [hsb]; simp
      obtain ⟨lx, hlx⟩ := ha.valL x hx
      obtain ⟨rx, hrx⟩ := ha.valR x hx
      obtain ⟨ly, hly⟩ := hb.valL y hy
      obtain ⟨ry, hry⟩ := hb.valR y hy
      have hnda : (Pa ++ x :: Sa).Nodup := hsa ▸ ha.repL.nodup
      have hndb : (Pb ++ y :: Sb).Nodup := hsb ▸ hb.repL.nodup
      have hna : increment inner m.heap (some ⟨.left, x⟩) = some (some (headPtr .left a Sa)) := by
        have := next_node_spec ha.repL hx (by rw [ha.size_left]; exact hia : tla.size < inner)
        rw [hsa, succPtr_split .left a hnda] at this
        exact this
      have hnb : increment inner m.heap (some ⟨.left, y⟩) = some (some (headPtr .left b Sb)) := by
        have := next_node_spec hb.repL hy (by rw [hb.size_left]; exact hib : tlb.size < inner)
        rw [hsb, succPtr_split .left b hndb] at this
        exact this
      have e0 : headPtr .left a (x :: Sa) = ⟨.left, x⟩ := rfl
      have e1 : headPtr .left b (y :: Sb) = ⟨.left, y⟩ := rfl
      have hrec := ih Sb (Pa ++ [x]) (Pb ++ [y]) (by rw [hsa]; simp) (by rw [hsb]; simp)
        (by simpa using hlen) (by simp at hf; omega : Sa.length < f)
      rw [e0, e1, pairList_cons hlx hrx, pairList_cons hly hry, List.zip_cons_cons, List.all_cons]
      simp only [equals_loop, if_neg (node_ne_end_left ha hx), deref_left_node, hlx, hly,
        ha.flip_left hx, hb.flip_left hy, deref_right_node, hrx, hry, hna, hnb, hrec]
      cases left_equals m a lx ly <;> cases right_equals m a rx ry <;> simp

/-- The friend `operator==`: the sizes agree and the pairs of the two left
traversals agree position by position under the comparators of the first
operand. -/
theorem equals_spec {m : Mem α β} {a b : Nat} {tla tra tlb trb : Tree}
    (ha : Shape m a tla tra) (hb : Shape m b tlb trb) {fuel : Nat}
    (hia : m.size a < fuel) (hib : m.size b < fuel) :
    equals fuel m a b = some (decide (m.size a = m.size b) &&
      (List.zip (pairList m tla.toList) (pairList m tlb.toList)).all
        (fun pq => left_equals m a pq.1.1 pq.2.1 && right_equals m a pq.1.2 pq.2.2)) := by
  by_cases hsz : m.size a = m.size b
  · have hlen : tla.toList.length = tlb.toList.length := by
      rw [← ha.size_eq, ← hb.size_eq, hsz]
    have := equals_loop_spec ha hb hia hib tla.toList tlb.toList [] [] rfl rfl hlen
      (by rw [← ha.size_eq]; exact hia : tla.toList.length < fuel)
    simp only [equals, size, hsz, ne_eq, not_true_eq_false, if_false, ha.begin_left_head hia,
      hb.begin_left_head hib, this, decide_True, Bool.true_and]
  · simp [equals, size, hsz]

end equality

section claims
variable {α β : Type} [Inhabited α] [Inhabited β]

/-- C13: for two reachable bimaps `a` and `b`, `a == b` returns true if and
only if `a.size() == b.size()` and, for every index `i`, the `i`-th pair of `a`
and the `i`-th pair of `b` in left order have equivalent left values and
equivalent right values under the comparators of `a` (the common comparators
when both are over the same ones); `a != b` returns the negation. -/
theorem equals_iff_indexwise {m : Mem α β} {live : List Nat} (hr : Reach m live)
    {a b : Nat} (ha : a ∈ live) (hb : b ∈ live) {fuel : Nat}
    (hfa : m.size a + 3 ≤ fuel) (hfb : m.size b + 3 ≤ fuel) {pa pb : List (α × β)}
    (hpa : left_pairs fuel m a = some pa) (hpb : left_pairs fuel m b = some pb) :
    ∃ r, equals fuel m a b = some r ∧ not_equals fuel m a b = some (!r) ∧
      (r = true ↔ size m a = size m b ∧
        ∀ (i : Nat) (p q : α × β), pa[i]? = some p → pb[i]? = some q →
          equiv (m.cmpL a) p.1 q.1 = true ∧ equiv (m.cmpR a) p.2 q.2 = true) := by
  obtain ⟨tla, tra, hia⟩ := hr.inv ha
  obtain ⟨tlb, trb, hib⟩ := hr.inv hb
  have hsa := hia.shape
  have hsb := hib.shape
  have ga : m.size a < fuel := by omega
  have gb : m.size b < fuel := by omega
  rw [left_pairs_spec hsa ga] at hpa
  rw [left_pairs_spec hsb gb] at hpb
  obtain rfl := Option.some.inj hpa
  obtain rfl := Option.some.inj hpb
  have he := equals_spec hsa hsb ga gb
  refine ⟨_, he, by rw [not_equals, he]; rfl, ?_⟩
  rw [Bool.and_eq_true, decide_eq_true_eq, zip_all_iff]
  simp only [size, left_equals, right_equals, equiv, Bool.and_eq_true]

set_option maxRecDepth 100000 in
theorem reach_twin1 : Reach twin1 [3, 0] :=
  Reach.insert 3 8 2 "b" (some ⟨.left, 4⟩) reach_duo0 (by decide) (by decide) (by rfl)

set_option maxRecDepth 100000 in
theorem reach_twin2 : Reach twin2 [3, 0] :=
  Reach.insert 3 8 1 "a" (some ⟨.left, 5⟩) reach_twin1 (by decide) (by decide) (by rfl)

set_option maxRecDepth 100000 in
/-- The comparison of two bimaps holding the same two pairs, inserted in
different orders, and comparisons of bimaps of different contents. -/
theorem equals_iff_indexwise_witness :
    Reach twin2 [3, 0] ∧ 0 ∈ [3, 0] ∧ 3 ∈ [3, 0] ∧
    twin2.size 0 + 3 ≤ 8 ∧ twin2.size 3 + 3 ≤ 8 ∧
    left_pairs 8 twin2 0 = some [(1, "a"), (2, "b")] ∧
    left_pairs 8 twin2 3 = some [(1, "a"), (2, "b")] ∧
    (∃ r, equals 8 twin2 0 3 = some r ∧ not_equals 8 twin2 0 3 = some (!r) ∧
      (r = true ↔ size twin2 0 = size twin2 3 ∧
        ∀ (i : Nat) (p q : Nat × String),
          [((1 : Nat), "a"), (2, "b")][i]? = some p → [((1 : Nat), "a"), (2, "b")][i]? = some q →
          equiv (twin2.cmpL 0) p.1 q.1 = true ∧ equiv (twin2.cmpR 0) p.2 q.2 = true)) ∧
    equals 8 twin2 0 3 = some true ∧ not_equals 8 twin2 0 3 = some false ∧
    equals 8 twin1 0 3 = some false ∧ not_equals 8 twin1 0 3 = some true ∧
    equals 8 duo1 3 3 = some true ∧
    left_pairs 8 duo2 0 = some [(7, "x")] ∧ left_pairs 8 duo2 3 = some [(1, "a"), (2, "b")] ∧
    equals 8 duo2 0 3 = some false :=
  ⟨reach_twin2, by decide, by decide, by decide, by decide, by decide, by decide,
    equals_iff_indexwise reach_twin2 (by decide : 0 ∈ [3, 0]) (by decide : 3 ∈ [3, 0])
      (by decide) (by decide)
      (by decide : left_pairs 8 twin2 0 = some [(1, "a"), (2, "b")])
      (by decide : left_pairs 8 twin2 3 = some [(1, "a"), (2, "b")]),
    by decide, by decide, by decide, by decide, by decide, by decide, by decide, by decide⟩

end claims

section ranges
variable {α β : Type}

theorem filter_erase_notin {L : List Nat} (hnd : L.Nodup) (y : Nat) (M : List Nat) :
    (L.erase y).filter (fun z => decide (z ∉ M)) = L.filter (fun z => decide (z ∉ y :: M)) := by
  rw [hnd.erase_eq_filter, List.filter_filter]
  apply List.filter_congr
  intro z _
  by_cases h1 : z = y <;> by_cases h2 : z ∈ M <;> simp [h1, h2]

theorem filter_notin_split {P M S : List Nat} (hnd : (P ++ M ++ S).Nodup) :
    (P ++ M ++ S).filter (fun z => decide (z ∉ M)) = P ++ S := by
  have h1 := List.nodup_append.1 hnd
  have h2 := List.nodup_append.1 h1.1
  rw [List.filter_append, List.filter_append]
  have eP : P.filter (fun z => decide (z ∉ M)) = P :=
    List.filter_eq_self.2 (fun z hz => by simpa using fun hm => h2.2.2 hz hm)
  have eM : M.filter (fun z => decide (z ∉ M)) = [] :=
    List.filter_eq_nil_iff.2 (fun z hz => by simpa using hz)
  have eS : S.filter (fun z => decide (z ∉ M)) = S :=
    List.filter_eq_self.2 (fun z hz => by
      simpa using fun hm => h1.2.2 (List.mem_append_right _ hm) hz)
  rw [eP, eM, eS, List.append_nil]

/-- The loop of `erase_left(first, last)` on a segment `M` of the left
traversal: both traversals lose exactly the nodes of `M`, and the values of
every other node stay. -/
theorem erase_left_range_loop_full {m : Mem α β} {b : Nat} {tl tr : Tree} (hi : Inv m b tl tr)
    {inner : Nat} (hin : m.size b + 1 < inner) (P M S : List Nat)
    (hsplit : tl.toList = P ++ M ++ S) {fuel : Nat} (hf : M.length < fuel) :
    ∃ m1 tl1 tr1, erase_left_range_loop inner fuel m b (some (headPtr .left b (M ++ S)))
        (some (headPtr .left b S)) = some m1 ∧
      Inv m1 b tl1 tr1 ∧ tl1.toList = tl.toList.filter (fun z => decide (z ∉ M)) ∧
      tr1.toList = tr.toList.filter (fun z => decide (z ∉ M)) ∧
      m1.size b + M.length = m.size b ∧
      (∀ z, z ∉ M → m1.lval z = m.lval z ∧ m1.rval z = m.rval z) := by
  induction M generalizing m tl tr fuel with
  | nil =>
    obtain ⟨f, rfl⟩ : ∃ g, fuel = g + 1 := ⟨fuel - 1, by omega⟩
    exact ⟨m, tl, tr, by simp [erase_left_range_loop], hi, by simp, by simp, rfl,
      fun _ _ => ⟨rfl, rfl⟩⟩
  | cons y M ih =>
    obtain ⟨f, rfl⟩ : ∃ g, fuel = g + 1 := ⟨fuel - 1, by omega⟩
    have hs := hi.shape
    have hy : y ∈ tl.toList := by rw [hsplit]; simp
    have hnd := hs.repL.nodup
    rw [hsplit] at hnd
    have hnd' : (P ++ y :: (M ++ S)).Nodup := by simpa using hnd
    have hyS : y ∉ S := by
      intro hm
      have := (List.nodup_append.1 hnd').2.1
      exact (List.nodup_cons.1 this).1 (by simp [hm])
    obtain ⟨h2, tl1, tr1, he, hi1, e1, e2, -⟩ := erase_left_inv hi hy hin
    have hsucc : succPtr .left b tl.toList y = headPtr .left b (M ++ S) := by
      rw [hsplit]
      have : P ++ (y :: M) ++ S = P ++ y :: (M ++ S) := by simp
      rw [this]
      exact succPtr_split .left b hnd'
    have hsplit1 : tl1.toList = P ++ M ++ S := by
      rw [e1, hsplit]
      have : P ++ (y :: M) ++ S = P ++ ([] ++ y :: (M ++ S)) ++ [] := by simp
      rw [this, erase_eq_of_nodup (by simpa using hnd')]
      simp
    have hpos := hs.size_pos hy
    obtain ⟨m1, tl2, tr2, he2, hi2, e3, e4, hsz2, hv2⟩ := ih hi1
      (by rw [erased_size]; omega) hsplit1 (by simp at hf; omega : _ < f)
    refine ⟨m1, tl2, tr2, ?_, hi2, ?_, ?_, ?_, ?_⟩
    · have e : headPtr .left b ((y :: M) ++ S) = ⟨.left, y⟩ := rfl
      rw [e]
      simp only [erase_left_range_loop, if_neg (headPtr_ne_of_nodup (hs.ne_self hy) hyS), he,
        hsucc]
      exact he2
    · rw [e3, e1, filter_erase_notin hs.repL.nodup]
    · rw [e4, e2, filter_erase_notin hs.repR.nodup]
    · rw [erased_size] at hsz2
      simp only [List.length_cons]
      omega
    · intro z hz
      obtain ⟨a1, a2⟩ := hv2 z (fun hm => hz (List.mem_cons_of_mem _ hm))
      have hzy : z ≠ y := fun e => hz (e ▸ List.mem_cons_self _ _)
      rw [a1, a2]
      simp [Mem.erased, hzy]

/-- The loop of `erase_right(first, last)` on a segment `M` of the right
traversal: both traversals lose exactly the nodes of `M`, and the values of
every other node stay. -/
theorem erase_right_range_loop_full {m : Mem α β} {b : Nat} {tl tr : Tree} (hi : Inv m b tl tr)
    {inner : Nat} (hin : m.size b + 1 < inner) (P M S : List Nat)
    (hsplit : tr.toList = P ++ M ++ S) {fuel : Nat} (hf : M.length < fuel) :
    ∃ m1 tl1 tr1, erase_right_range_loop inner fuel m b (some (headPtr .right b (M ++ S)))
        (some (headPtr .right b S)) = some m1 ∧
      Inv m1 b tl1 tr1 ∧ tl1.toList = tl.toList.filter (fun z => decide (z ∉ M)) ∧
      tr1.toList = tr.toList.filter (fun z => decide (z ∉ M)) ∧
      m1.size b + M.length = m.size b ∧
      (∀ z, z ∉ M → m1.lval z = m.lval z ∧ m1.rval z = m.rval z) := by
  induction M generalizing m tl tr fuel with
  | nil =>
    obtain ⟨f, rfl⟩ : ∃ g, fuel = g + 1 := ⟨fuel - 1, by omega⟩
    exact ⟨m, tl, tr, by simp [erase_right_range_loop], hi, by simp, by simp, rfl,
      fun _ _ => ⟨rfl, rfl⟩⟩
  | cons y M ih =>
    obtain ⟨f, rfl⟩ : ∃ g, fuel = g + 1 := ⟨fuel - 1, by omega⟩
    have hs := hi.shape
    have hyr : y ∈ tr.toList := by rw [hsplit]; simp
    have hy : y ∈ tl.toList := hs.mem_right.1 hyr
    have hnd := hs.repR.nodup
    rw [hsplit] at hnd
    have hnd' : (P ++ y :: (M ++ S)).Nodup := by simpa using hnd
    have hyS : y ∉ S := by
      intro hm
      have := (List.nodup_append.1 hnd').2.1
      exact (List.nodup_cons.1 this).1 (by simp [hm])
    obtain ⟨h2, tl1, tr1, he, hi1, e1, e2, -⟩ := erase_right_inv hi hy hin
    have hsucc : succPtr .right b tr.toList y = headPtr .right b (M ++ S) := by
      rw [hsplit]
      have : P ++ (y :: M) ++ S = P ++ y :: (M ++ S) := by simp
      rw [this]
      exact succPtr_split .right b hnd'
    have hsplit1 : tr1.toList = P ++ M ++ S := by
      rw [e2, hsplit]
      have : P ++ (y :: M) ++ S = P ++ ([] ++ y :: (M ++ S)) ++ [] := by simp
      rw [this, erase_eq_of_nodup (by simpa using hnd')]
      simp
    have hpos := hs.size_pos hy
    obtain ⟨m1, tl2, tr2, he2, hi2, e3, e4, hsz2, hv2⟩ := ih hi1
      (by rw [erased_size]; omega) hsplit1 (by simp at hf; omega : _ < f)
    refine ⟨m1, tl2, tr2, ?_, hi2, ?_, ?_, ?_, ?_⟩
    · have e : headPtr .right b ((y :: M) ++ S) = ⟨.right, y⟩ := rfl
      rw [e]
      simp only [erase_right_range_loop, if_neg (headPtr_ne_of_nodup (hs.ne_self hy) hyS), he,
        hsucc]
      exact he2
    · rw [e3, e1, filter_erase_notin hs.repL.nodup]
    · rw [e4, e2, filter_erase_notin hs.repR.nodup]
    · rw [erased_size] at hsz2
      simp only [List.length_cons]
      omega
    · intro z hz
      obtain ⟨a1, a2⟩ := hv2 z (fun hm => hz (List.mem_cons_of_mem _ hm))
      have hzy : z ≠ y := fun e => hz (e ▸ List.mem_cons_self _ _)
      rw [a1, a2]
      simp [Mem.erased, hzy]

theorem pairOf_same {m m1 : Mem α β} {z : Nat}
    (h : m1.lval z = m.lval z ∧ m1.rval z = m.rval z) : pairOf m1 z = pairOf m z := by
  simp only [pairOf, h.1, h.2]

/-- The cursors of one side that survive the erasure of the nodes `M`, given by
their flips: the cursors of the other side that are the flip of no erased one. -/
theorem filter_flipped {m : Mem α β} {b : Nat} {tl tr : Tree} (hs : Shape m b tl tr)
    (s : Side) {M : List Nat} (hM : ∀ y ∈ M, y ∈ tl.toList) (L : List Nat) :
    (L.filter (fun z => decide (z ∉ M))).map (fun x => (some ⟨s.opp, x⟩ : NPtr)) =
      (L.map (fun x => (some ⟨s.opp, x⟩ : NPtr))).filter (fun c =>
        decide (∀ it ∈ M.map (fun x => (some ⟨s, x⟩ : NPtr)), flip m.heap it ≠ some c)) := by
  rw [List.filter_map]
  congr 1
  apply List.filter_congr
  intro z _
  have hflip : ∀ y ∈ M, flip m.heap (some ⟨s, y⟩) = some (some ⟨s.opp, y⟩) := by
    intro y hy
    cases s with
    | left => exact hs.flip_left (hM y hy)
    | right => exact hs.flip_right (hM y hy)
  simp only [Function.comp, decide_eq_decide, List.mem_map, forall_exists_index, and_imp,
    forall_apply_eq_imp_iff₂]
  constructor
  · intro hz y hy
    rw [hflip y hy]
    intro e
    simp only [Option.some.injEq, Ptr.mk.injEq, true_and] at e
    exact hz (e ▸ hy)
  · intro h hz
    exact h z hz (hflip z hz)

end ranges

section ranges
variable {α β : Type}

/-- The method `erase_left(first, last)` on a segment of the left traversal,
observed through the cursors. -/
theorem erase_left_range_cursors {m : Mem α β} {b : Nat} {tl tr : Tree} (hi : Inv m b tl tr)
    {fuel : Nat} (hf : m.size b + 1 < fuel) {before range after : List NPtr}
    (hcs : tl.toList.map (fun x => (some ⟨.left, x⟩ : NPtr)) = before ++ range ++ after) :
    ∃ m1 cr1, erase_left_range fuel m b ((range ++ after).headD (end_left b))
        (after.headD (end_left b)) = some (m1, after.headD (end_left b)) ∧
      left_cursors fuel m1 b = some (before ++ after) ∧
      right_cursors fuel m1 b = some cr1 ∧
      cr1 = (tr.toList.map (fun x => (some ⟨.right, x⟩ : NPtr))).filter
        (fun c => decide (∀ it ∈ range, flip m.heap it ≠ some c)) ∧
      size m1 b + range.length = size m b ∧
      (∀ c ∈ before ++ after, pair_at_left m1 c = pair_at_left m c) ∧
      (∀ c ∈ cr1, pair_at_right m1 c = pair_at_right m c) := by
  have hs := hi.shape
  obtain ⟨P, M, S, hsplit, rfl, rfl, rfl⟩ := split_map_ptr hcs
  have hlen : M.length ≤ m.size b := by
    rw [hs.size_eq, hsplit]; simp; omega
  have hM : ∀ y ∈ M, y ∈ tl.toList := fun y hy => by rw [hsplit]; simp [hy]
  obtain ⟨m1, tl1, tr1, he, hi1, e1, e2, hsz, hv⟩ :=
    erase_left_range_loop_full hi hf P M S hsplit (by omega : _ < fuel)
  have hs1 := hi1.shape
  have hf1 : m1.size b < fuel := by omega
  have e1' : tl1.toList = P ++ S := by
    rw [e1, hsplit, filter_notin_split (hsplit ▸ hs.repL.nodup)]
  have hmem1 : ∀ z, z ∈ tl1.toList → z ∈ tl.toList ∧ z ∉ M := by
    intro z hz
    rw [e1, List.mem_filter] at hz
    exact ⟨hz.1, by simpa using hz.2⟩
  refine ⟨m1, _, ?_, ?_, right_cursors_spec hs1 hf1, ?_, ?_, ?_, ?_⟩
  · rw [← List.map_append]
    simp only [end_left, end_node, left_sentinel, headD_map_ptr, erase_left_range, he]
  · rw [left_cursors_spec hs1 hf1, e1', List.map_append]
  · rw [e2]
    exact filter_flipped hs .left hM tr.toList
  · rw [List.length_map]
    exact hsz
  · intro c hc
    rw [← List.map_append, ← e1'] at hc
    obtain ⟨z, hz, rfl⟩ := List.mem_map.1 hc
    obtain ⟨h1, h2⟩ := hmem1 z hz
    rw [pair_at_left_node hs1 hz, pair_at_left_node hs h1, pairOf_same (hv z h2)]
  · intro c hc
    obtain ⟨z, hz, rfl⟩ := List.mem_map.1 hc
    have hz1 := hs1.mem_right.1 hz
    obtain ⟨h1, h2⟩ := hmem1 z hz1
    rw [pair_at_right_node hs1 hz1, pair_at_right_node hs h1, pairOf_same (hv z h2)]

/-- The method `erase_right(first, last)` on a segment of the right traversal,
observed through the cursors. -/
theorem erase_right_range_cursors {m : Mem α β} {b : Nat} {tl tr : Tree} (hi : Inv m b tl tr)
    {fuel : Nat} (hf : m.size b + 1 < fuel) {before range after : List NPtr}
    (hcs : tr.toList.map (fun x => (some ⟨.right, x⟩ : NPtr)) = before ++ range ++ after) :
    ∃ m1 cl1, erase_right_range fuel m b ((range ++ after).headD (end_right b))
        (after.headD (end_right b)) = some (m1, after.headD (end_right b)) ∧
      right_cursors fuel m1 b = some (before ++ after) ∧
      left_cursors fuel m1 b = some cl1 ∧
      cl1 = (tl.toList.map (fun x => (some ⟨.left, x⟩ : NPtr))).filter
        (fun c => decide (∀ it ∈ range, flip m.heap it ≠ some c)) ∧
      size m1 b + range.length = size m b ∧
      (∀ c ∈ before ++ after, pair_at_right m1 c = pair_at_right m c) ∧
      (∀ c ∈ cl1, pair_at_left m1 c = pair_at_left m c) := by
  have hs := hi.shape
  obtain ⟨P, M, S, hsplit, rfl, rfl, rfl⟩ := split_map_ptr hcs
  have hlen : M.length ≤ m.size b := by
    rw [hs.size_eq, hs.perm.length_eq, hsplit]; simp; omega
  have hM : ∀ y ∈ M, y ∈ tl.toList := fun y hy => hs.mem_right.1 (by rw [hsplit]; simp [hy])
  obtain ⟨m1, tl1, tr1, he, hi1, e1, e2, hsz, hv⟩ :=
    erase_right_range_loop_full hi hf P M S hsplit (by omega : _ < fuel)
  have hs1 := hi1.shape
  have hf1 : m1.size b < fuel := by omega
  have e2' : tr1.toList = P ++ S := by
    rw [e2, hsplit, filter_notin_split (hsplit ▸ hs.repR.nodup)]
  have hmem1 : ∀ z, z ∈ tl1.toList → z ∈ tl.toList ∧ z ∉ M := by
    intro z hz
    rw [e1, List.mem_filter] at hz
    exact ⟨hz.1, by simpa using hz.2⟩
  refine ⟨m1, _, ?_, ?_, left_cursors_spec hs1 hf1, ?_, ?_, ?_, ?_⟩
  · rw [← List.map_append]
    simp only [end_right, end_node, right_sentinel, headD_map_ptr, erase_right_range, he]
  · rw [right_cursors_spec hs1 hf1, e2', List.map_append]
  · rw [e1]
    exact filter_flipped hs .right hM tl.toList
  · rw [List.length_map]
    exact hsz
  · intro c hc
    rw [← List.map_append, ← e2'] at hc
    obtain ⟨z, hz, rfl⟩ := List.mem_map.1 hc
    have hz1 := hs1.mem_right.1 hz
    obtain ⟨h1, h2⟩ := hmem1 z hz1
    rw [pair_at_right_node hs1 hz1, pair_at_right_node hs h1, pairOf_same (hv z h2)]
  · intro c hc
    obtain ⟨z, hz, rfl⟩ := List.mem_map.1 hc
    obtain ⟨h1, h2⟩ := hmem1 z hz
    rw [pair_at_left_node hs1 hz, pair_at_left_node hs h1, pairOf_same (hv z h2)]

/-- The destructor runs `erase_left(begin_left(), end_left())`, which empties the bimap. -/
theorem destroy_drains {m : Mem α β} {b : Nat} {tl tr : Tree} (hi : Inv m b tl tr)
    {fuel : Nat} (hf : m.size b + 1 < fuel) :
    ∃ bl m2, begin_left fuel m b = some bl ∧
      erase_left_range fuel m b bl (end_left b) = some (m2, end_left b) ∧
      destroy fuel m b = some m2 ∧ size m2 b = 0 ∧ empty m2 b = true ∧
      left_cursors fuel m2 b = some [] ∧ right_cursors fuel m2 b = some [] := by
  obtain ⟨m2, hd, hi2, -, -, hsz⟩ := destroy_spec hi hf
  have hbl := hi.shape.begin_left_head (by omega : m.size b < fuel)
  have hf2 : m2.size b < fuel := by omega
  refine ⟨_, m2, hbl, ?_, hd, hsz, hi2.shape.empty_iff.2 rfl, ?_, ?_⟩
  · simp only [destroy, hbl] at hd
    simp only [erase_left_range] at hd ⊢
    cases hl : erase_left_range_loop fuel fuel m b (some (headPtr .left b tl.toList))
        (end_left b) with
    | none => rw [hl] at hd; simp at hd
    | some m3 =>
      rw [hl] at hd
      simp only [Option.map_some', Option.some.injEq] at hd
      rw [hd]
  · rw [left_cursors_spec hi2.shape hf2]; rfl
  · rw [right_cursors_spec hi2.shape hf2]; rfl

end ranges

section claims
variable {α β : Type} [Inhabited α] [Inhabited β]

/-- C17: on a reachable bimap, for every segment `range` of the left
traversal, from the cursor `first` up to the cursor `last` that follows it
(`end_left()` at the end; `first == last` for the empty segment),
`erase_left(first, last)` returns `last`; afterwards the left traversal is the
previous one without the segment, the right traversal is the previous one
without the flips of the segment, `size()` is smaller by the length of the
segment, and every remaining cursor denotes the pair it denoted.  The same
holds for `erase_right(first, last)` with the sides exchanged.  In particular
`erase_left(begin_left(), end_left())`, which is what the destructor runs,
leaves `size() == 0`, `empty()` true and both traversals empty. -/
theorem erase_range_removes {m : Mem α β} {live : List Nat} (hr : Reach m live) {b : Nat}
    (hb : b ∈ live) {fuel : Nat} (hf : m.size b + 3 ≤ fuel) {cl cr : List NPtr}
    (hcl : left_cursors fuel m b = some cl) (hcr : right_cursors fuel m b = some cr) :
    (∀ before range after, cl = before ++ range ++ after →
      ∃ m1 cr1, erase_left_range fuel m b ((range ++ after).headD (end_left b))
          (after.headD (end_left b)) = some (m1, after.headD (end_left b)) ∧
        Reach m1 live ∧
        left_cursors fuel m1 b = some (before ++ after) ∧
        right_cursors fuel m1 b = some cr1 ∧
        cr1 = cr.filter (fun c => decide (∀ it ∈ range, flip m.heap it ≠ some c)) ∧
        size m1 b + range.length = size m b ∧
        (∀ c ∈ before ++ after, pair_at_left m1 c = pair_at_left m c) ∧
        (∀ c ∈ cr1, pair_at_right m1 c = pair_at_right m c)) ∧
    (∀ before range after, cr = before ++ range ++ after →
      ∃ m1 cl1, erase_right_range fuel m b ((range ++ after).headD (end_right b))
          (after.headD (end_right b)) = some (m1, after.headD (end_right b)) ∧
        Reach m1 live ∧
        right_cursors fuel m1 b = some (before ++ after) ∧
        left_cursors fuel m1 b = some cl1 ∧
        cl1 = cl.filter (fun c => decide (∀ it ∈ range, flip m.heap it ≠ some c)) ∧
        size m1 b + range.length = size m b ∧
        (∀ c ∈ before ++ after, pair_at_right m1 c = pair_at_right m c) ∧
        (∀ c ∈ cl1, pair_at_left m1 c = pair_at_left m c)) ∧
    (∃ bl m2, begin_left fuel m b = some bl ∧
      erase_left_range fuel m b bl (end_left b) = some (m2, end_left b) ∧
      destroy fuel m b = some m2 ∧ size m2 b = 0 ∧ empty m2 b = true ∧
      left_cursors fuel m2 b = some [] ∧ right_cursors fuel m2 b = some []) := by
  obtain ⟨tl, tr, hi⟩ := hr.inv hb
  have hs := hi.shape
  have hfl : m.size b < fuel := by omega
  have hf1 : m.size b + 1 < fuel := by omega
  have hcl0 := hcl
  have hcr0 := hcr
  rw [left_cursors_spec hs hfl] at hcl
  rw [right_cursors_spec hs hfl] at hcr
  obtain rfl := Option.some.inj hcl
  obtain rfl := Option.some.inj hcr
  refine ⟨?_, ?_, destroy_drains hi hf1⟩
  · intro before range after hsplit
    obtain ⟨m1, cr1, h1, h2, h3, h4, h5, h6, h7⟩ := erase_left_range_cursors hi hf1 hsplit
    exact ⟨m1, cr1, h1,
      Reach.erase_left_range b fuel before range after _ hr hb hf (hsplit ▸ hcl0) h1,
      h2, h3, h4, h5, h6, h7⟩
  · intro before range after hsplit
    obtain ⟨m1, cl1, h1, h2, h3, h4, h5, h6, h7⟩ := erase_right_range_cursors hi hf1 hsplit
    exact ⟨m1, cl1, h1,
      Reach.erase_right_range b fuel before range after _ hr hb hf (hsplit ▸ hcr0) h1,
      h2, h3, h4, h5, h6, h7⟩

set_option maxRecDepth 100000 in
/-- The range erasures on the bimap of five pairs. -/
theorem erase_range_removes_witness :
    Reach tally5 [0] ∧ 0 ∈ [0] ∧ tally5.size 0 + 3 ≤ 12 ∧
    left_cursors 12 tally5 0 = some tally5_left ∧
    right_cursors 12 tally5 0 = some tally5_right ∧
    ((∀ before range after, tally5_left = before ++ range ++ after →
      ∃ m1 cr1, erase_left_range 12 tally5 0 ((range ++ after).headD (end_left 0))
          (after.headD (end_left 0)) = some (m1, after.headD (end_left 0)) ∧
        Reach m1 [0] ∧
        left_cursors 12 m1 0 = some (before ++ after) ∧
        right_cursors 12 m1 0 = some cr1 ∧
        cr1 = tally5_right.filter
          (fun c => decide (∀ it ∈ range, flip tally5.heap it ≠ some c)) ∧
        size m1 0 + range.length = size tally5 0 ∧
        (∀ c ∈ before ++ after, pair_at_left m1 c = pair_at_left tally5 c) ∧
        (∀ c ∈ cr1, pair_at_right m1 c = pair_at_right tally5 c)) ∧
    (∀ before range after, tally5_right = before ++ range ++ after →
      ∃ m1 cl1, erase_right_range 12 tally5 0 ((range ++ after).headD (end_right 0))
          (after.headD (end_right 0)) = some (m1, after.headD (end_right 0)) ∧
        Reach m1 [0] ∧
        right_cursors 12 m1 0 = some (before ++ after) ∧
        left_cursors 12 m1 0 = some cl1 ∧
        cl1 = tally5_left.filter
          (fun c => decide (∀ it ∈ range, flip tally5.heap it ≠ some c)) ∧
        size m1 0 + range.length = size tally5 0 ∧
        (∀ c ∈ before ++ after, pair_at_right m1 c = pair_at_right tally5 c) ∧
        (∀ c ∈ cl1, pair_at_left m1 c = pair_at_left tally5 c)) ∧
    (∃ bl m2, begin_left 12 tally5 0 = some bl ∧
      erase_left_range 12 tally5 0 bl (end_left 0) = some (m2, end_left 0) ∧
      destroy 12 tally5 0 = some m2 ∧ size m2 0 = 0 ∧ empty m2 0 = true ∧
      left_cursors 12 m2 0 = some [] ∧ right_cursors 12 m2 0 = some [])) ∧
    left_pairs 12 tally5 0 = some [(3, 70), (4, 10), (5, 50), (8, 20), (9, 60)] ∧
    (erase_left_range 12 tally5 0 (some ⟨.left, 4⟩) (some ⟨.left, 3⟩)).map Prod.snd =
      some (some ⟨.left, 3⟩) ∧
    size tally8 0 = 3 ∧
    left_pairs 12 tally8 0 = some [(3, 70), (8, 20), (9, 60)] ∧
    right_pairs 12 tally8 0 = some [(8, 20), (9, 60), (3, 70)] ∧
    size tally9 0 = 1 ∧
    left_pairs 12 tally9 0 = some [(4, 10)] ∧ right_pairs 12 tally9 0 = some [(4, 10)] ∧
    (destroy 12 tally5 0).map (fun m2 => (size m2 0, empty m2 0)) = some (0, true) :=
  ⟨reach_tally5, by decide, by decide, by decide, by decide,
    erase_range_removes reach_tally5 (List.mem_cons_self _ _) (by decide)
      (by decide : left_cursors 12 tally5 0 = some tally5_left)
      (by decide : right_cursors 12 tally5 0 = some tally5_right),
    by decide, by decide, by decide, by decide, by decide, by decide, by decide, by decide,
    by decide⟩

end claims

theorem Tree.mirror_toList (t : Tree) : t.mirror.toList = t.toList.reverse := by
  induction t with
  | nil => rfl
  | node l x r ihl ihr => simp [Tree.mirror, Tree.toList, ihl, ihr]

theorem Tree.mirror_rootPtr (s : Side) (t : Tree) : t.mirror.rootPtr s = t.rootPtr s := by
  cases t <;> rfl

theorem Tree.mirror_size (t : Tree) : t.mirror.size = t.size := by
  rw [Tree.size_eq_length, Tree.size_eq_length, Tree.mirror_toList, List.length_reverse]

theorem Wf.mirrored {h : Heap} {s : Side} {t : Tree} {par : Ptr} (hw : Wf h s t par) :
    Wf (mirrorHeap h) s t.mirror par := by
  induction t generalizing par with
  | nil => trivial
  | node l x r ihl ihr =>
    obtain ⟨hx, hl, hr⟩ := hw
    refine ⟨?_, ihr hr, ihl hl⟩
    simp only [mirrorHeap, hx, Tree.mirror_rootPtr]

theorem prev_node_loop_mirror (fuel : Nat) (h : Heap) (n : Ptr) :
    prev_node_loop fuel h n = next_node_loop fuel (mirrorHeap h) n := by
  induction fuel generalizing n with
  | zero => rfl
  | succ f ih =>
    simp only [prev_node_loop, next_node_loop, is_sentinel, mirrorHeap]
    cases (h n)._parent with
    | none => rfl
    | some p =>
      simp only [ih]

theorem rightmost_loop_mirror (fuel : Nat) (h : Heap) (n : Ptr) :
    rightmost_loop fuel h n = leftmost_loop fuel (mirrorHeap h) n := by
  induction fuel generalizing n with
  | zero => rfl
  | succ f ih =>
    simp only [rightmost_loop, leftmost_loop, mirrorHeap]
    cases (h n)._right with
    | none => rfl
    | some r => simp only [ih]

/-- On a node that is not a sentinel, `prev_node` is `next_node` read in the mirror. -/
theorem prev_node_mirror {h : Heap} {n : Ptr} (hp : (h n)._parent ≠ none) (fuel : Nat) :
    prev_node fuel h n = next_node fuel (mirrorHeap h) n := by
  have hs : is_sentinel h n = false := by
    simp only [is_sentinel]
    cases hq : (h n)._parent with
    | none => exact absurd hq hp
    | some _ => rfl
  simp only [prev_node, hs, Bool.false_eq_true, if_false, next_node, rightmost, leftmost,
    rightmost_loop_mirror, prev_node_loop_mirror]
  rfl

theorem headD_reverse {γ : Type} (l : List γ) (a : γ) : l.reverse.headD a = l.getLastD a := by
  rw [List.headD_eq_head?_getD, List.head?_reverse, List.getLastD_eq_getLast?]

theorem getLastD_map_ptr (s : Side) (b : Nat) (L : List Nat) :
    (L.map (fun x => (some ⟨s, x⟩ : NPtr))).getLastD (some ⟨s, b⟩) =
      some (headPtr s b L.reverse) := by
  rw [← headD_reverse, ← List.map_reverse, headD_map_ptr]

/-- The method `prev_node` on a stored node: the node before it in the in-order
sequence, the sentinel for the first node. -/
theorem prev_node_spec {h : Heap} {s : Side} {b : Nat} {t : Tree} (hr : SetRep h s b t)
    {P S : List Nat} {x : Nat} (hsplit : t.toList = P ++ x :: S) {fuel : Nat}
    (hf : t.size < fuel) :
    prev_node fuel h ⟨s, x⟩ = some (some (headPtr s b P.reverse)) := by
  have hx : x ∈ t.toList := by rw [hsplit]; simp
  have hxm : x ∈ t.mirror.toList := by rw [Tree.mirror_toList]; simpa using hx
  have hndm : t.mirror.toList.Nodup := by
    rw [Tree.mirror_toList]; exact List.nodup_reverse.2 hr.nodup
  rw [prev_node_mirror (hr.wf.parent_ne_none hx)]
  have := @next_node_sub (mirrorHeap h) s t.mirror ⟨s, b⟩ ⟨s, b⟩ 1 hr.wf.mirrored hndm x hxm
    (by
      intro p hp f hf1
      rw [Tree.mirror_rootPtr] at hp
      cases t with
      | nil => simp [Tree.rootPtr] at hp
      | node l y r =>
        simp only [Tree.rootPtr, Option.some.injEq] at hp
        subst hp
        obtain ⟨hy, -, -⟩ := hr.wf
        obtain ⟨f, rfl⟩ : ∃ g, f = g + 1 := ⟨f - 1, by omega⟩
        exact climb_stop (by simp only [mirrorHeap, hy])
          (Or.inl (by simp only [mirrorHeap, hr.parent])) f)
    fuel (by rw [Tree.mirror_size]; omega)
  rw [this]
  have e : t.mirror.toList = S.reverse ++ x :: P.reverse := by
    rw [Tree.mirror_toList, hsplit]; simp
  have hnd2 : (S.reverse ++ x :: P.reverse).Nodup := e ▸ hndm
  have := succPtr_split s b hnd2
  simp only [succPtr] at this
  rw [e, this]

theorem Tree.minId_mirror (l r : Tree) (x : Nat) :
    some (r.mirror.minId x) = (Tree.node l x r).toList.getLast? := by
  have h := Tree.toList_node_head r.mirror l.mirror x
  have e : (Tree.node r.mirror x l.mirror).toList = (Tree.node l x r).toList.reverse := by
    simp [Tree.toList, Tree.mirror_toList]
  rw [e, List.head?_reverse] at h
  exact h.symm

/-- The method `prev_node` on the sentinel of a non-empty set: the last node
of the in-order sequence. -/
theorem prev_node_end {h : Heap} {s : Side} {b : Nat} {t : Tree} (hr : SetRep h s b t)
    (hne : t.toList ≠ []) {fuel : Nat} (hf : t.size < fuel) :
    prev_node fuel h ⟨s, b⟩ = some (some (headPtr s b t.toList.reverse)) := by
  have hs : is_sentinel h ⟨s, b⟩ = true := by simp [is_sentinel, hr.parent]
  cases t with
  | nil => exact absurd rfl hne
  | node l y r =>
    have hw := hr.wf.mirrored
    have hl := @leftmost_loop_spec (mirrorHeap h) s r.mirror l.mirror y ⟨s, b⟩ hw fuel
      (by rw [Tree.mirror_size]; simp only [Tree.size] at hf; omega)
    have hm := Tree.minId_mirror l r y
    simp only [prev_node, hs, if_true, hr.root, Tree.rootPtr, rightmost, rightmost_loop_mirror,
      hl, Option.map_some', Option.some.injEq]
    cases hrev : (Tree.node l y r).toList.reverse with
    | nil => simp [Tree.toList] at hrev
    | cons z rest =>
      have : (Tree.node l y r).toList.getLast? = some z := by
        rw [← List.head?_reverse, hrev]; rfl
      rw [this] at hm
      simp only [headPtr, Option.some.inj hm]

section claims
variable {α β : Type} [Inhabited α] [Inhabited β]

/-- The successor and predecessor of every cursor of one side of a set. -/
theorem cursor_steps {h : Heap} {s : Side} {b : Nat} {t : Tree} (hr : SetRep h s b t)
    {fuel : Nat} (hf : t.size < fuel) :
    (∀ P it S, t.toList.map (fun x => (some ⟨s, x⟩ : NPtr)) = P ++ it :: S →
      increment fuel h it = some (S.headD (some ⟨s, b⟩)) ∧
      decrement fuel h it = some (P.getLastD (some ⟨s, b⟩)) ∧
      decrement fuel h (S.headD (some ⟨s, b⟩)) = some it ∧
      (P ≠ [] → increment fuel h (P.getLastD (some ⟨s, b⟩)) = some it)) ∧
    (t.toList ≠ [] →
      decrement fuel h (some ⟨s, b⟩) =
        some ((t.toList.map (fun x => (some ⟨s, x⟩ : NPtr))).getLastD (some ⟨s, b⟩)) ∧
      (t.toList.map (fun x => (some ⟨s, x⟩ : NPtr))).getLastD (some ⟨s, b⟩) ≠ some ⟨s, b⟩ ∧
      increment fuel h ((t.toList.map (fun x => (some ⟨s, x⟩ : NPtr))).getLastD (some ⟨s, b⟩)) =
        some (some ⟨s, b⟩)) := by
  have hinc : ∀ P x S, t.toList = P ++ x :: S →
      increment fuel h (some ⟨s, x⟩) = some (some (headPtr s b S)) := by
    intro P x S e
    have := next_node_spec hr (by rw [e]; simp : x ∈ t.toList) hf
    rw [e, succPtr_split s b (e ▸ hr.nodup)] at this
    exact this
  have hdec : ∀ P x S, t.toList = P ++ x :: S →
      decrement fuel h (some ⟨s, x⟩) = some (some (headPtr s b P.reverse)) :=
    fun P x S e => prev_node_spec hr e hf
  constructor
  · intro P it S hsplit
    obtain ⟨P1, x, S1, e0, rfl, rfl, rfl⟩ := map_ptr_split hsplit
    refine ⟨?_, ?_, ?_, ?_⟩
    · rw [headD_map_ptr]; exact hinc P1 x S1 e0
    · rw [getLastD_map_ptr]; exact hdec P1 x S1 e0
    · cases S1 with
      | nil =>
        have hne : t.toList ≠ [] := by rw [e0]; simp
        have := prev_node_end hr hne hf
        rw [e0] at this
        simpa [headPtr] using this
      | cons z S2 =>
        have e1 : t.toList = (P1 ++ [x]) ++ z :: S2 := by rw [e0]; simp
        have := hdec _ z S2 e1
        simpa [headPtr] using this
    · intro hP
      cases hrev : P1.reverse with
      | nil =>
        have : P1 = [] := by simpa using hrev
        subst this
        exact absurd rfl hP
      | cons z P2 =>
        have hP1 : P1 = P2.reverse ++ [z] := by
          have := congrArg List.reverse hrev
          simpa using this
        have e1 : t.toList = P2.reverse ++ z :: (x :: S1) := by rw [e0, hP1]; simp
        have := hinc _ z _ e1
        rw [getLastD_map_ptr, hrev]
        simpa [headPtr] using this
  · intro hne
    have hd := prev_node_end hr hne hf
    rw [getLastD_map_ptr]
    refine ⟨hd, ?_, ?_⟩
    · cases hrev : t.toList.reverse with
      | nil => exact absurd (by simpa using hrev) hne
      | cons z rest =>
        have hz : z ∈ t.toList := by
          have : z ∈ t.toList.reverse := by rw [hrev]; simp
          simpa using this
        simp only [headPtr, ne_eq, Option.some.injEq, Ptr.mk.injEq, true_and]
        intro e
        exact hr.notin (e ▸ hz)
    · cases hrev : t.toList.reverse with
      | nil => exact absurd (by simpa using hrev) hne
      | cons z rest =>
        have e1 : t.toList = rest.reverse ++ z :: [] := by
          have := congrArg List.reverse hrev
          simpa using this
        have := hinc _ z _ e1
        simpa [headPtr] using this

/-- C18: on a reachable non-empty bimap, on each side, incrementing the cursor
of a stored element gives the cursor that follows it in the traversal
(`end` after the last one) and decrementing gives the cursor that precedes it
(the code gives `end` before the first one); decrementing `end` gives the
cursor of the last element.  Hence `--(++it) == it` for every cursor `it` of
the traversal, and `++(--it) == it` for every cursor other than the first one,
`end` included. -/
theorem increment_decrement {m : Mem α β} {live : List Nat} (hr : Reach m live) {b : Nat}
    (hb : b ∈ live) {fuel : Nat} (hf : m.size b + 3 ≤ fuel) (hne : empty m b = false)
    {cl cr : List NPtr}
    (hcl : left_cursors fuel m b = some cl) (hcr : right_cursors fuel m b = some cr) :
    ((∀ P it S, cl = P ++ it :: S →
      increment fuel m.heap it = some (S.headD (end_left b)) ∧
      decrement fuel m.heap it = some (P.getLastD (end_left b)) ∧
      decrement fuel m.heap (S.headD (end_left b)) = some it ∧
      (P ≠ [] → increment fuel m.heap (P.getLastD (end_left b)) = some it)) ∧
     decrement fuel m.heap (end_left b) = some (cl.getLastD (end_left b)) ∧
     cl.getLastD (end_left b) ≠ end_left b ∧
     increment fuel m.heap (cl.getLastD (end_left b)) = some (end_left b)) ∧
    ((∀ P it S, cr = P ++ it :: S →
      increment fuel m.heap it = some (S.headD (end_right b)) ∧
      decrement fuel m.heap it = some (P.getLastD (end_right b)) ∧
      decrement fuel m.heap (S.headD (end_right b)) = some it ∧
      (P ≠ [] → increment fuel m.heap (P.getLastD (end_right b)) = some it)) ∧
     decrement fuel m.heap (end_right b) = some (cr.getLastD (end_right b)) ∧
     cr.getLastD (end_right b) ≠ end_right b ∧
     increment fuel m.heap (cr.getLastD (end_right b)) = some (end_right b)) := by
  obtain ⟨tl, tr, hi⟩ := hr.inv hb
  have hs := hi.shape
  have hfl : m.size b < fuel := by omega
  rw [left_cursors_spec hs hfl] at hcl
  rw [right_cursors_spec hs hfl] at hcr
  obtain rfl := Option.some.inj hcl
  obtain rfl := Option.some.inj hcr
  have hnl : tl.toList ≠ [] := by
    intro e
    rw [hs.empty_iff.2 e] at hne
    exact absurd hne (by decide)
  have hnr : tr.toList ≠ [] := by
    intro e
    exact hnl (List.Perm.eq_nil (e ▸ hs.perm))
  obtain ⟨l1, l2⟩ := cursor_steps hs.repL (by rw [hs.size_left]; exact hfl : tl.size < fuel)
  obtain ⟨r1, r2⟩ := cursor_steps hs.repR (by rw [hs.size_right]; exact hfl : tr.size < fuel)
  exact ⟨⟨l1, l2 hnl⟩, ⟨r1, r2 hnr⟩⟩

set_option maxRecDepth 100000 in
/-- The cursor steps on the bimap of five pairs. -/
theorem increment_decrement_witness :
    Reach tally5 [0] ∧ 0 ∈ [0] ∧ tally5.size 0 + 3 ≤ 12 ∧ empty tally5 0 = false ∧
    left_cursors 12 tally5 0 = some tally5_left ∧
    right_cursors 12 tally5 0 = some tally5_right ∧
    (((∀ P it S, tally5_left = P ++ it :: S →
      increment 12 tally5.heap it = some (S.headD (end_left 0)) ∧
      decrement 12 tally5.heap it = some (P.getLastD (end_left 0)) ∧
      decrement 12 tally5.heap (S.headD (end_left 0)) = some it ∧
      (P ≠ [] → increment 12 tally5.heap (P.getLastD (end_left 0)) = some it)) ∧
     decrement 12 tally5.heap (end_left 0) = some (tally5_left.getLastD (end_left 0)) ∧
     tally5_left.getLastD (end_left 0) ≠ end_left 0 ∧
     increment 12 tally5.heap (tally5_left.getLastD (end_left 0)) = some (end_left 0)) ∧
    ((∀ P it S, tally5_right = P ++ it :: S →
      increment 12 tally5.heap it = some (S.headD (end_right 0)) ∧
      decrement 12 tally5.heap it = some (P.getLastD (end_right 0)) ∧
      decrement 12 tally5.heap (S.headD (end_right 0)) = some it ∧
      (P ≠ [] → increment 12 tally5.heap (P.getLastD (end_right 0)) = some it)) ∧
     decrement 12 tally5.heap (end_right 0) = some (tally5_right.getLastD (end_right 0)) ∧
     tally5_right.getLastD (end_right 0) ≠ end_right 0 ∧
     increment 12 tally5.heap (tally5_right.getLastD (end_right 0)) = some (end_right 0))) ∧
    increment 12 tally5.heap (some ⟨.left, 4⟩) = some (some ⟨.left, 1⟩) ∧
    decrement 12 tally5.heap (some ⟨.left, 1⟩) = some (some ⟨.left, 4⟩) ∧
    decrement 12 tally5.heap (end_left 0) = some (some ⟨.left, 5⟩) ∧
    increment 12 tally5.heap (some ⟨.left, 5⟩) = some (end_left 0) ∧
    decrement 12 tally5.heap (some ⟨.right, 1⟩) = some (some ⟨.right, 3⟩) ∧
    decrement 12 tally5.heap (end_right 0) = some (some ⟨.right, 2⟩) :=
  ⟨reach_tally5, by decide, by decide, by decide, by decide, by decide,
    increment_decrement reach_tally5 (List.mem_cons_self _ _) (by decide) (by decide)
      (by decide : left_cursors 12 tally5 0 = some tally5_left)
      (by decide : right_cursors 12 tally5 0 = some tally5_right),
    by decide, by decide, by decide, by decide, by decide, by decide⟩

end claims

set_option maxRecDepth 100000 in
/-- C19: the left tree of the reachable bimap `tally4` is well formed, with the
root `1`, its left child `2` (which has the right child `4`) and its right
child `3`, in-order `2, 4, 1, 3`.  `swap_nodes` on the two children `2` and `3`
of the root leaves `2` in the left slot and `3` in the right slot of the root
and only exchanges their subtrees: the in-order sequence becomes `2, 1, 3, 4`
and not `3, 4, 1, 2`.  The same call with the arguments in the other order
gives `3, 4, 1, 2`. -/
theorem swap_nodes_siblings :
    Reach tally4 [0] ∧
    Wf tally4.heap .left tally4_tree ⟨.left, 0⟩ ∧
    (tally4.heap ⟨.left, 0⟩)._right = tally4_tree.rootPtr .left ∧
    left_cursors 12 tally4 0 =
      some [some ⟨.left, 2⟩, some ⟨.left, 4⟩, some ⟨.left, 1⟩, some ⟨.left, 3⟩] ∧
    (sibling_swap 2 3).map (fun m1 => (m1.heap ⟨.left, 1⟩, m1.heap ⟨.left, 2⟩,
        m1.heap ⟨.left, 3⟩, m1.heap ⟨.left, 4⟩)) =
      some (⟨some ⟨.left, 2⟩, some ⟨.left, 3⟩, some ⟨.left, 0⟩⟩,
        ⟨none, none, some ⟨.left, 1⟩⟩,
        ⟨none, some ⟨.left, 4⟩, some ⟨.left, 1⟩⟩,
        ⟨none, none, some ⟨.left, 3⟩⟩) ∧
    (sibling_swap 2 3).map (fun m1 => left_cursors 12 m1 0) =
      some (some [some ⟨.left, 2⟩, some ⟨.left, 1⟩, some ⟨.left, 3⟩, some ⟨.left, 4⟩]) ∧
    (sibling_swap 3 2).map (fun m1 => left_cursors 12 m1 0) =
      some (some [some ⟨.left, 3⟩, some ⟨.left, 4⟩, some ⟨.left, 1⟩, some ⟨.left, 2⟩]) :=
  ⟨reach_tally4,
    ⟨by decide, ⟨by decide, trivial, ⟨by decide, trivial, trivial⟩⟩, ⟨by decide, trivial, trivial⟩⟩,
    by decide, by decide, by decide, by decide, by decide⟩

section copying
variable {α β : Type}

theorem SameOn.refl_same (m : Mem α β) (b : Nat) (ids : List Nat) : SameOn m m b ids :=
  ⟨fun _ _ => rfl, fun _ _ => rfl, fun _ _ => rfl, rfl, rfl, rfl, le_refl _⟩

/-- Two nodes of a bimap whose left values are equivalent are the same node:
a pair of another node is not equivalent on the left. -/
theorem Inv.left_distinct {m : Mem α β} {b : Nat} {tl tr : Tree} (hi : Inv m b tl tr)
    {x y : Nat} (hx : x ∈ tl.toList) (hy : y ∈ tl.toList) (hxy : x ≠ y) {vx vy : α}
    (hvx : m.lval x = some vx) (hvy : m.lval y = some vy) :
    equiv (m.cmpL b) vx vy = false := by
  cases he : equiv (m.cmpL b) vx vy with
  | false => rfl
  | true => exact absurd (sorted_unique hi.swoL hi.sortedL hx hy hvx hvy he
      (equiv_refl hi.swoL vy)) hxy

theorem Inv.right_distinct {m : Mem α β} {b : Nat} {tl tr : Tree} (hi : Inv m b tl tr)
    {x y : Nat} (hx : x ∈ tl.toList) (hy : y ∈ tl.toList) (hxy : x ≠ y) {vx vy : β}
    (hvx : m.rval x = some vx) (hvy : m.rval y = some vy) :
    equiv (m.cmpR b) vx vy = false := by
  cases he : equiv (m.cmpR b) vx vy with
  | false => rfl
  | true => exact absurd (sorted_unique hi.swoR hi.sortedR (hi.shape.mem_right.2 hx)
      (hi.shape.mem_right.2 hy) hvx hvy he (equiv_refl hi.swoR vy)) hxy

/-- The loop of the copy constructor inserts every remaining pair of `other`:
the pairs of the copy become the pairs of `other`, reordered. -/
theorem copy_loop_pairs {inner : Nat} (S : List Nat) :
    ∀ {m : Mem α β} {this other : Nat} {tl tr tlo tro : Tree} (_ : Inv m this tl tr)
      (_ : Inv m other tlo tro) (_ : this ≠ other) (_ : other ∉ tl.toList)
      (_ : this ∉ tlo.toList) (_ : ∀ y ∈ tlo.toList, y ∉ tl.toList)
      (_ : m.cmpL this = m.cmpL other) (_ : m.cmpR this = m.cmpR other) (P : List Nat)
      (_ : tlo.toList = P ++ S) (_ : (pairList m tl.toList).Perm (pairList m P))
      (_ : m.size this + S.length + 1 < inner)
      (_ : m.size other < inner) {fuel : Nat} (_ : S.length < fuel),
      ∃ m1 tl1 tr1, copy_loop inner fuel m this other (some (headPtr .left other S)) = some m1 ∧
        Inv m1 this tl1 tr1 ∧ FrameOf m m1 this tl.toList ∧
        (∀ y ∈ tl1.toList, y ∈ tl.toList ∨ m.next ≤ y) ∧ m.next ≤ m1.next ∧
        SameOn m m1 other tlo.toList ∧
        (pairList m1 tl1.toList).Perm (pairList m tlo.toList) ∧
        m1.cmpL = m.cmpL ∧ m1.cmpR = m.cmpR := by
  induction S with
  | nil =>
    intro m this other tl tr tlo tro hi hio hne h1 h2 h3 hcl hcr P hsplit hperm hsz hin fuel hf
    obtain ⟨f, rfl⟩ : ∃ g, fuel = g + 1 := ⟨fuel - 1, by omega⟩
    refine ⟨m, tl, tr, by simp [copy_loop, headPtr, end_left, end_node, left_sentinel], hi,
      FrameOf.refl _ _ _, fun y hy => Or.inl hy, le_refl _, SameOn.refl_same _ _ _, ?_, rfl, rfl⟩
    rw [hsplit, List.append_nil]
    exact hperm
  | cons y S ih =>
    intro m this other tl tr tlo tro hi hio hne h1 h2 h3 hcl hcr P hsplit hperm hsz hin fuel hf
    obtain ⟨f, rfl⟩ : ∃ g, fuel = g + 1 := ⟨fuel - 1, by omega⟩
    have hso := hio.shape
    have hy : y ∈ tlo.toList := by rw [hsplit]; simp
    obtain ⟨l, hl⟩ := hso.valL y hy
    obtain ⟨r, hr⟩ := hso.valR y hy
    have hnd : (P ++ y :: S).Nodup := hsplit ▸ hso.repL.nodup
    have hfresh : ∀ p ∈ pairList m tl.toList,
        equiv (m.cmpL this) p.1 l = false ∧ equiv (m.cmpR this) p.2 r = false := by
      intro p hp
      obtain ⟨x, hx, hxl, hxr⟩ := mem_pairList.1 (hperm.mem_iff.1 hp)
      have hxo : x ∈ tlo.toList := by rw [hsplit]; simp [hx]
      have hxy : x ≠ y := fun e =>
        List.disjoint_of_nodup_append hnd (e ▸ hx) (List.mem_cons_self _ _)
      rw [hcl, hcr]
      exact ⟨hio.left_distinct hxo hy hxy hxl hl, hio.right_distinct hxo hy hxy hxr hr⟩
    have hlk1 := hi.lookupL_none (fun p hp => (hfresh p hp).1)
    have hlk2 := hi.lookupR_none (fun p hp => (hfresh p hp).2)
    obtain ⟨he, hs', hheap⟩ := forwarding_insert_accept hi l r false
      (by omega : m.size this < inner) (Or.inr ⟨hlk1, hlk2⟩)
    have hi' := insert_inv hi l r hs' hlk1 hlk2
    have hfr := attached_frame l r hheap
    have hids : ∀ z ∈ (tl.ins (goL m this l) m.next).toList, z ∈ tl.toList ∨ m.next ≤ z := by
      intro z hz
      rcases List.mem_cons.1 ((Tree.ins_perm _ _ _).mem_iff.1 hz) with e1 | e1
      · exact Or.inr (by omega)
      · exact Or.inl e1
    have hnx : m.next ≤ (m.attached this tl tr l r).next := by rw [attached_next]; omega
    have hsz' : (m.attached this tl tr l r).size this = m.size this + 1 := attached_size _ _ _ _ _ _
    have hsame : SameOn m (m.attached this tl tr l r) other tlo.toList :=
      hfr other tlo.toList hso.self_lt (Ne.symm hne) h1
        (fun z hz => ⟨hso.lt_next z hz, fun e => h2 (e ▸ hz), h3 z hz⟩)
    have hio' : Inv (m.attached this tl tr l r) other tlo tro := hio.congr_inv hsame
    have hnext : increment inner (m.attached this tl tr l r).heap (some ⟨.left, y⟩) =
        some (some (headPtr .left other S)) := by
      have := next_node_spec hio'.shape.repL hy
        (by rw [hio'.shape.size_left, hsame.size]; exact hin : tlo.size < inner)
      rw [hsplit, succPtr_split .left other hnd] at this
      exact this
    have hlen : S.length < f := by simp at hf; omega
    have hszl : (y :: S).length = S.length + 1 := rfl
    have hpc : ∀ L : List Nat, (∀ z ∈ L, z ∈ tlo.toList) →
        pairList (m.attached this tl tr l r) L = pairList m L :=
      fun L hL => pairList_congr (fun z hz => ⟨hsame.lval z (hL z hz), hsame.rval z (hL z hz)⟩)
    have hperm' : (pairList (m.attached this tl tr l r)
        (tl.ins (goL m this l) m.next).toList).Perm
        (pairList (m.attached this tl tr l r) (P ++ [y])) := by
      rw [hpc (P ++ [y]) (fun z hz => by
        rw [hsplit]
        rcases List.mem_append.1 hz with e | e
        · simp [e]
        · simp only [List.mem_singleton] at e; simp [e])]
      rw [pairList_append, pairList_cons hl hr []]
      refine (attached_pairs hi.shape l r).trans ?_
      refine (List.Perm.cons _ hperm).trans ?_
      simpa [pairList] using (List.perm_append_singleton (l, r) (pairList m P)).symm
    obtain ⟨m1, tl1, tr1, he1, hi1, hfr1, hids1, hnx1, hsame1, hperm1, hcl1, hcr1⟩ := ih hi' hio' hne
      (fun hm => by
        rcases hids other hm with e | e
        · exact h1 e
        · have := hso.self_lt; omega)
      h2
      (fun z hz hm => by
        rcases hids z hm with e | e
        · exact h3 z hz e
        · have := hso.lt_next z hz; omega)
      hcl hcr
      (P ++ [y]) (by rw [hsplit]; simp) hperm' (by rw [hszl] at hsz; omega)
      (by rw [hsame.size]; exact hin) hlen
    refine ⟨m1, tl1, tr1, ?_, hi1, hfr.trans hfr1 hnx hids, ?_, le_trans hnx hnx1,
      hsame.trans_same hsame1, ?_, hcl1, hcr1⟩
    · have e0 : headPtr .left other (y :: S) = ⟨.left, y⟩ := rfl
      have hflip := flip_node hso.repL hy
      have hdl : deref_left m (some ⟨.left, y⟩) = some l := by
        simp only [deref_left, get_over_left_mk, hl]
      have hdr : deref_right m (some ⟨.right, y⟩) = some r := by
        simp only [deref_right, get_over_right_mk, hr]
      have he' : insert inner m this l r =
          some (m.attached this tl tr l r, some ⟨.left, m.next⟩) := he
      rw [e0]
      simp only [copy_loop, if_neg (node_ne_end_left hso hy), hdl, hflip, Side.opp, hdr, he',
        hnext, he1]
    · intro z hz
      rcases hids1 z hz with e | e
      · exact hids z e
      · exact Or.inr (le_trans hnx e)
    · rw [hpc tlo.toList (fun z hz => hz)] at hperm1
      exact hperm1

end copying

section copying
variable {α β : Type}

theorem construct_same (m : Mem α β) (cl : α → α → Bool) (cr : β → β → Bool) {c : Nat}
    {ids : List Nat} (hc : c ≠ m.next) (hids : ∀ y ∈ ids, y ≠ m.next) :
    SameOn m (construct m cl cr).1 c ids := by
  have hheap : ∀ p : Ptr, p.id ≠ m.next → (construct m cl cr).1.heap p = m.heap p := by
    intro p hp
    have e1 : p ≠ ⟨.left, m.next⟩ := fun e => hp (by rw [e])
    have e2 : p ≠ ⟨.right, m.next⟩ := fun e => hp (by rw [e])
    simp [construct, link_sets, set_service, left_sentinel, right_sentinel, Heap.set_left, clear,
      e1, e2]
  refine ⟨?_, fun _ _ => rfl, fun _ _ => rfl, ?_, ?_, ?_, ?_⟩
  · intro p hp
    apply hheap
    rcases hp with e | e
    · rw [e]; exact hc
    · exact hids _ e
  · simp [construct, hc]
  · simp [construct, hc]
  · simp [construct, hc]
  · simp [construct]

/-- The copy constructor: the new object holds the pairs of `other`, under the
comparators of `other`, and no live object changed. -/
theorem copy_construct_full {m : Mem α β} {live : List Nat} {TL TR : Nat → Tree}
    (hw : WInv m live TL TR) {other : Nat} (ho : other ∈ live) {fuel : Nat}
    (hf : m.size other + 1 < fuel) :
    ∃ m1 tl1 tr1, copy_construct fuel m other = some (m1, m.next) ∧
      WInv m1 (m.next :: live) (Function.update TL m.next tl1) (Function.update TR m.next tr1) ∧
      (∀ b ∈ live, SameOn m m1 b (TL b).toList) ∧
      (pairList m1 tl1.toList).Perm (pairList m (TL other).toList) ∧
      m1.cmpL m.next = m.cmpL other ∧ m1.cmpR m.next = m.cmpR other := by
  have hio := hw.inv other ho
  have hlt : ∀ c ∈ live, c < m.next := fun c hc => (hw.inv c hc).shape.self_lt
  have hne : m.next ≠ other := fun e => by have := hlt other ho; omega
  have hw0 := construct_inv hw hlt hio.swoL hio.swoR
  have hsame0 : ∀ b ∈ live, SameOn m (construct m (m.cmpL other) (m.cmpR other)).1 b
      (TL b).toList := fun b hb =>
    construct_same m _ _ (fun e => by have := hlt b hb; omega)
      (fun y hy e => by have := (hw.inv b hb).shape.lt_next y hy; omega)
  have hcl0 : (construct m (m.cmpL other) (m.cmpR other)).1.cmpL m.next = m.cmpL other := by
    simp [construct]
  have hcr0 : (construct m (m.cmpL other) (m.cmpR other)).1.cmpR m.next = m.cmpR other := by
    simp [construct]
  generalize hm0 : (construct m (m.cmpL other) (m.cmpR other)).1 = m0 at hw0 hsame0 hcl0 hcr0
  have hthis : (construct m (m.cmpL other) (m.cmpR other)).2 = m.next := rfl
  rw [hthis] at hw0
  have hn0 : m0.next = m.next + 1 := by rw [← hm0]; rfl
  have hsz0 : ∀ b, b ≠ m.next → m0.size b = m.size b := by
    intro b hb; rw [← hm0]; simp [construct, hb]
  have hszn : m0.size m.next = 0 := by rw [← hm0]; simp [construct]
  have hin := hw0.inv m.next (List.mem_cons_self _ _)
  have hio0 := hw0.inv other (List.mem_cons_of_mem _ ho)
  simp only [Function.update_same] at hin
  simp only [Function.update_noteq (Ne.symm hne)] at hio0
  have hb := begin_node_spec hio0.shape.repL hio0.shape.linkL hio0.shape.linkR
    (by rw [hio0.shape.size_left, hsz0 _ (Ne.symm hne)]; omega : (TL other).size < fuel)
  have hlen : (TL other).toList.length = m.size other := by
    rw [← hsz0 _ (Ne.symm hne)]; exact hio0.shape.size_eq.symm
  obtain ⟨m1, tl1, tr1, he, hi1, hfr, hids, hnx, -, hperm, hcl1, hcr1⟩ :=
    copy_loop_pairs (TL other).toList hin hio0
    hne (by simp [Tree.toList])
    (fun hm => by have := hio.shape.lt_next _ hm; omega)
    (fun y _ => by simp [Tree.toList])
    (by rw [hcl0, (hsame0 other ho).cmpL]) (by rw [hcr0, (hsame0 other ho).cmpR])
    [] (by simp) (by simp [Tree.toList, pairList])
    (by rw [hszn, hlen]; omega : m0.size m.next + (TL other).toList.length + 1 < fuel)
    (by rw [hsz0 _ (Ne.symm hne)]; omega) (by rw [hlen]; omega : (TL other).toList.length < fuel)
  have hstep := hw0.step (List.mem_cons_self _ _) hi1
    (by simpa only [Function.update_same] using hfr)
    (by simpa only [Function.update_same] using hids)
  simp only [Function.update_idem] at hstep
  refine ⟨m1, tl1, tr1, ?_, hstep, ?_, ?_, by rw [hcl1, hcl0], by rw [hcr1, hcr0]⟩
  · simp only [copy_construct, begin_left, left_sentinel, hm0, hthis]
    simp only [hb, he]
  · intro b hbl
    have hbn : b ≠ m.next := fun e => by have := hlt b hbl; omega
    refine (hsame0 b hbl).trans_same (hfr b _ (by rw [hn0]; have := hlt b hbl; omega) hbn
      (by simp [Tree.toList]) ?_)
    intro y hy
    have := (hw.inv b hbl).shape.lt_next y hy
    exact ⟨by omega, by omega, by simp [Tree.toList]⟩
  · refine hperm.trans (List.Perm.of_eq (pairList_congr (fun z hz =>
      ⟨(hsame0 other ho).lval z hz, (hsame0 other ho).rval z hz⟩)))

theorem swap_cmp {m m1 : Mem α β} {lhs rhs : Nat} (h : swap m lhs rhs = some m1) :
    (∀ b, m1.cmpL b = if b = lhs then m.cmpL rhs else if b = rhs then m.cmpL lhs else m.cmpL b) ∧
    (∀ b, m1.cmpR b = if b = lhs then m.cmpR rhs else if b = rhs then m.cmpR lhs else m.cmpR b) := by
  unfold swap at h
  split at h
  · exact absurd h (by simp)
  · split at h
    · exact absurd h (by simp)
    · obtain rfl := Option.some.inj h
      exact ⟨fun _ => rfl, fun _ => rfl⟩

/-- A step of the object `b` changes nothing another live object depends on. -/
theorem ObjStep.other_same {m m1 : Mem α β} {live : List Nat} {TL TR : Nat → Tree} {b c : Nat}
    (hw : WInv m live TL TR) (hb : b ∈ live) (hc : c ∈ live) (hcb : c ≠ b)
    (hs : ObjStep m m1 b (TL b)) : SameOn m m1 c (TL c).toList := by
  obtain ⟨tl1, tr1, -, hfr, -, -⟩ := hs
  refine hfr c _ (hw.inv c hc).shape.self_lt hcb (hw.notin b hb c hc) ?_
  intro y hy
  exact ⟨(hw.inv c hc).shape.lt_next y hy, fun e => hw.notin c hc b hb (e ▸ hy),
    fun hm => hw.disj b hb c hc (Ne.symm hcb) y hm hy⟩

theorem ObjStep.winv_update {m m1 : Mem α β} {live : List Nat} {TL TR : Nat → Tree} {b : Nat}
    (hw : WInv m live TL TR) (hb : b ∈ live) (hs : ObjStep m m1 b (TL b)) :
    ∃ tl1 tr1, WInv m1 live (Function.update TL b tl1) (Function.update TR b tr1) := by
  obtain ⟨tl1, tr1, hi1, hfr, hids, -⟩ := hs
  exact ⟨tl1, tr1, hw.step hb hi1 hfr hids⟩

/-- The copy assignment to another object: the target holds the pairs of
`other`, under the comparators of `other`, and `other` did not change. -/
theorem copy_assign_full {m : Mem α β} {live : List Nat} {TL TR : Nat → Tree}
    (hw : WInv m live TL TR) {this other : Nat} (ht : this ∈ live) (ho : other ∈ live)
    (hto : this ≠ other) {fuel : Nat} (hf : m.size this + 1 < fuel)
    (hfo : m.size other + 1 < fuel) :
    ∃ m3 TL3 TR3, copy_assign fuel m this other = some m3 ∧ WInv m3 live TL3 TR3 ∧
      TL3 other = TL other ∧ TR3 other = TR other ∧
      (∀ y ∈ (TL other).toList, m3.lval y = m.lval y ∧ m3.rval y = m.rval y) ∧
      m3.size other = m.size other ∧
      m3.cmpL other = m.cmpL other ∧ m3.cmpR other = m.cmpR other ∧
      m3.cmpL this = m.cmpL other ∧ m3.cmpR this = m.cmpR other ∧
      (pairList m3 (TL3 this).toList).Perm (pairList m (TL other).toList) := by
  obtain ⟨m1, tl1, tr1, e1, hw1, hsame1, hperm1, hcl1, hcr1⟩ := copy_construct_full hw ho hfo
  have htn : this ≠ m.next := fun e => by have := hw.lt_next this ht; omega
  have hon : other ≠ m.next := fun e => by have := hw.lt_next other ho; omega
  have ht1 : this ∈ m.next :: live := List.mem_cons_of_mem _ ht
  have ho1 : other ∈ m.next :: live := List.mem_cons_of_mem _ ho
  have hn1 : m.next ∈ m.next :: live := List.mem_cons_self _ _
  obtain ⟨m2, e2, hw2, -, hlv2, hrv2, -, hsz2, hszo2⟩ := swap_winv hw1 ht1 hn1 htn
  obtain ⟨hcl2, hcr2⟩ := swap_cmp e2
  have hsz : m2.size m.next + 1 < fuel := by rw [hsz2, (hsame1 this ht).size]; exact hf
  obtain ⟨m3, e3, hi3, hfr3, hn3, -⟩ := destroy_spec (hw2.inv m.next hn1) hsz
  have hst : ObjStep m2 m3 m.next (swapTrees (Function.update TL m.next tl1) this m.next m.next) :=
    ⟨.nil, .nil, hi3, hfr3, fun y hy => by simp [Tree.toList] at hy, by omega⟩
  obtain ⟨tl3, tr3, hw3⟩ := hst.winv_update hw2 hn1
  have hso := hst.other_same hw2 hn1 ho1 hon
  have hTo : swapTrees (Function.update TL m.next tl1) this m.next other = TL other := by
    simp [swapTrees, Ne.symm hto, hon]
  have hTRo : swapTrees (Function.update TR m.next tr1) this m.next other = TR other := by
    simp [swapTrees, Ne.symm hto, hon]
  have hTt : swapTrees (Function.update TL m.next tl1) this m.next this = tl1 := by
    simp [swapTrees]
  have hsth := hst.other_same hw2 hn1 ht1 htn
  rw [hTo] at hso
  rw [hTt] at hsth
  refine ⟨m3, _, _, ?_, hw3.sublist (List.sublist_cons_self _ _), ?_, ?_, ?_, ?_, ?_, ?_, ?_, ?_,
    ?_⟩
  · simp only [copy_assign, if_neg hto, e1, e2, e3]
  · rw [Function.update_noteq hon, hTo]
  · rw [Function.update_noteq hon, hTRo]
  · intro y hy
    rw [hso.lval y hy, hso.rval y hy, hlv2, hrv2]
    exact ⟨(hsame1 other ho).lval y hy, (hsame1 other ho).rval y hy⟩
  · rw [hso.size, hszo2 other (Ne.symm hto) hon, (hsame1 other ho).size]
  · rw [hso.cmpL, hcl2, if_neg (Ne.symm hto), if_neg hon, (hsame1 other ho).cmpL]
  · rw [hso.cmpR, hcr2, if_neg (Ne.symm hto), if_neg hon, (hsame1 other ho).cmpR]
  · rw [hsth.cmpL, hcl2, if_pos rfl, hcl1]
  · rw [hsth.cmpR, hcr2, if_pos rfl, hcr1]
  · rw [Function.update_noteq htn, hTt]
    refine List.Perm.trans (List.Perm.of_eq ?_) hperm1
    exact pairList_congr (fun z hz => by
      rw [hsth.lval z hz, hsth.rval z hz, hlv2, hrv2]
      exact ⟨rfl, rfl⟩)

end copying

section copying
variable {α β : Type}

/-- Two strictly sorted arrangements of the same elements are the same list. -/
theorem perm_sorted_eq {γ K : Type} {cmp : K → K → Bool} (hs : StrictWeakOrder cmp)
    (key : γ → K) {A B : List γ} (hp : A.Perm B)
    (hA : A.Pairwise (fun p q => cmp (key p) (key q) = true))
    (hB : B.Pairwise (fun p q => cmp (key p) (key q) = true)) : A = B := by
  haveI : IsAntisymm γ (fun p q => cmp (key p) (key q) = true) :=
    ⟨fun a b h1 h2 => absurd h2 (by rw [hs.asymm h1]; simp)⟩
  exact List.eq_of_perm_of_sorted hp hA hB

theorem zip_self_all {γ : Type} (f : γ × γ → Bool) (A : List γ) (h : ∀ p ∈ A, f (p, p) = true) :
    (List.zip A A).all f = true := by
  induction A with
  | nil => rfl
  | cons a A ih =>
    rw [List.zip_cons_cons, List.all_cons, h a (List.mem_cons_self _ _), Bool.true_and]
    exact ih (fun p hp => h p (List.mem_cons_of_mem _ hp))

theorem Mutation.objstep {m m1 : Mem α β} {b : Nat} {tl tr : Tree} (hi : Inv m b tl tr)
    {fuel : Nat} (hf : m.size b + 1 < fuel) (h : Mutation fuel m b m1) : ObjStep m m1 b tl := by
  cases h with
  | insert l r _ it he => exact insert_objstep hi (by omega) he
  | erase_left cs it ret _ hcs hit he => exact erase_left_objstep hi hf hcs hit he
  | erase_right cs it ret _ hcs hit he => exact erase_right_objstep hi hf hcs hit he
  | erase_left_key k ret _ he => exact erase_left_key_objstep hi hf he
  | erase_right_key k ret _ he => exact erase_right_key_objstep hi hf he
  | erase_left_range before range after ret _ hcs he =>
    exact erase_left_range_objstep hi hf hcs he
  | erase_right_range before range after ret _ hcs he =>
    exact erase_right_range_objstep hi hf hcs he

theorem SameOn.pairs {m m1 : Mem α β} {c : Nat} {tl tr : Tree} (hi : Inv m c tl tr)
    (hs : SameOn m m1 c tl.toList) {fuel : Nat} (hf : m.size c < fuel) :
    left_pairs fuel m1 c = left_pairs fuel m c ∧ right_pairs fuel m1 c = right_pairs fuel m c := by
  have hi1 := hi.congr_inv hs
  have hf1 : m1.size c < fuel := by rw [hs.size]; exact hf
  rw [left_pairs_spec hi1.shape hf1, left_pairs_spec hi.shape hf,
    right_pairs_spec hi1.shape hf1, right_pairs_spec hi.shape hf]
  exact ⟨congrArg some (pairList_congr (fun z hz => ⟨hs.lval z hz, hs.rval z hz⟩)),
    congrArg some (pairList_congr (fun z hz =>
      ⟨hs.lval z (hi.shape.mem_right.1 hz), hs.rval z (hi.shape.mem_right.1 hz)⟩))⟩

/-- A mutation of one live object leaves the sequences of another one as they were. -/
theorem Mutation.independent {m m1 : Mem α β} {live : List Nat} {TL TR : Nat → Tree}
    (hw : WInv m live TL TR) {b c : Nat} (hb : b ∈ live) (hc : c ∈ live) (hcb : c ≠ b)
    {fuel : Nat} (hf : m.size b + 1 < fuel) (h : Mutation fuel m b m1) {fuel1 : Nat}
    (hfc : m.size c < fuel1) :
    left_pairs fuel1 m1 c = left_pairs fuel1 m c ∧
      right_pairs fuel1 m1 c = right_pairs fuel1 m c :=
  SameOn.pairs (hw.inv c hc)
    ((Mutation.objstep (hw.inv b hb) hf h).other_same hw hb hc hcb) hfc

/-- What is observed of an object `c` that holds the pairs of the object
`other` of the memory `m` under the comparators of `other`. -/
theorem copy_observed {m m3 : Mem α β} {live3 : List Nat} {TL3 TR3 : Nat → Tree}
    {c other : Nat} {tlo tro : Tree} (hio : Inv m other tlo tro)
    (hw3 : WInv m3 live3 TL3 TR3) (hc : c ∈ live3) (ho : other ∈ live3) (hco : c ≠ other)
    (hTL : TL3 other = tlo) (hTR : TR3 other = tro)
    (hval : ∀ y ∈ tlo.toList, m3.lval y = m.lval y ∧ m3.rval y = m.rval y)
    (hsz : m3.size other = m.size other)
    (hclc : m3.cmpL c = m.cmpL other) (hcrc : m3.cmpR c = m.cmpR other)
    (hperm : (pairList m3 (TL3 c).toList).Perm (pairList m tlo.toList))
    {fuel : Nat} (hf : m.size other + 1 < fuel) :
    equals fuel m3 c other = some true ∧
    size m3 c = size m other ∧ size m3 other = size m other ∧
    left_pairs fuel m3 c = some (pairList m tlo.toList) ∧
    right_pairs fuel m3 c = some (pairList m tro.toList) ∧
    left_pairs fuel m3 other = some (pairList m tlo.toList) ∧
    right_pairs fuel m3 other = some (pairList m tro.toList) ∧
    (∀ m4, Mutation fuel m3 c m4 →
      left_pairs fuel m4 other = some (pairList m tlo.toList) ∧
      right_pairs fuel m4 other = some (pairList m tro.toList)) ∧
    (∀ m4, Mutation fuel m3 other m4 →
      left_pairs fuel m4 c = some (pairList m tlo.toList) ∧
      right_pairs fuel m4 c = some (pairList m tro.toList)) := by
  have hic := hw3.inv c hc
  have hio3 := hw3.inv other ho
  rw [hTL, hTR] at hio3
  have hsc := hic.shape
  have hso3 := hio3.shape
  have hL : pairList m3 (TL3 c).toList = pairList m tlo.toList := by
    refine perm_sorted_eq hio.swoL Prod.fst hperm ?_ hio.left_sorted
    have := hic.left_sorted
    rw [hclc] at this
    exact this
  have hR : pairList m3 (TR3 c).toList = pairList m tro.toList := by
    refine perm_sorted_eq hio.swoR Prod.snd
      ((hsc.pairs_perm.trans hperm).trans hio.shape.pairs_perm.symm) ?_ hio.right_sorted
    have := hic.right_sorted
    rw [hcrc] at this
    exact this
  have hLo : pairList m3 tlo.toList = pairList m tlo.toList := pairList_congr hval
  have hRo : pairList m3 tro.toList = pairList m tro.toList :=
    pairList_congr (fun z hz => hval z (hio.shape.mem_right.1 hz))
  have hszc : m3.size c = m.size other := by
    rw [← pairList_length hsc, hL, pairList_length hio.shape]
  have hfc : m3.size c < fuel := by omega
  have hfo : m3.size other < fuel := by omega
  have hlc : left_pairs fuel m3 c = some (pairList m tlo.toList) := by
    rw [left_pairs_spec hsc hfc, hL]
  have hrc : right_pairs fuel m3 c = some (pairList m tro.toList) := by
    rw [right_pairs_spec hsc hfc, hR]
  have hlo : left_pairs fuel m3 other = some (pairList m tlo.toList) := by
    rw [left_pairs_spec hso3 hfo, hLo]
  have hro : right_pairs fuel m3 other = some (pairList m tro.toList) := by
    rw [right_pairs_spec hso3 hfo, hRo]
  refine ⟨?_, hszc, hsz, hlc, hrc, hlo, hro, ?_, ?_⟩
  · rw [equals_spec hsc hso3 hfc hfo, hL, hLo]
    have h1 : decide (m3.size c = m3.size other) = true := by
      rw [decide_eq_true_eq, hszc, hsz]
    rw [h1, Bool.true_and]
    refine congrArg some (zip_self_all _ _ (fun p _ => ?_))
    have e1 := equiv_refl hic.swoL p.1
    have e2 := equiv_refl hic.swoR p.2
    simp only [equiv] at e1 e2
    simp only [left_equals, right_equals, e1, e2, Bool.and_self]
  · intro m4 hmut
    have := Mutation.independent hw3 hc ho (Ne.symm hco) (by omega) hmut hfo
    rw [this.1, this.2]
    exact ⟨hlo, hro⟩
  · intro m4 hmut
    have := Mutation.independent hw3 ho hc hco (by omega) hmut hfc
    rw [this.1, this.2]
    exact ⟨hlc, hrc⟩

end copying

section claims
variable {α β : Type} [Inhabited α] [Inhabited β]

/-- C14: for a reachable bimap `other`, the copy `c` constructed from it, and
likewise the target `this` of a copy assignment from it, equals the original
right after copying: `c == other` returns true, the sizes agree, and the
left-order and right-order sequences of pairs of `c` are those of `other`; the
source keeps its size and its sequences; and after a subsequent `insert` or
`erase` on the copy the sequences of the source are still the same, and after
one on the source the sequences of the copy are still the same.  A copy
assignment of a bimap to itself changes nothing. -/
theorem copy_equals_independent {m : Mem α β} {live : List Nat} (hr : Reach m live)
    {other : Nat} (ho : other ∈ live) {fuel : Nat} (hf : m.size other + 3 ≤ fuel)
    {pl pr : List (α × β)}
    (hpl : left_pairs fuel m other = some pl) (hpr : right_pairs fuel m other = some pr) :
    (∃ m1 c, copy_construct fuel m other = some (m1, c) ∧ c ∉ live ∧ Reach m1 (c :: live) ∧
      equals fuel m1 c other = some true ∧
      size m1 c = size m other ∧ size m1 other = size m other ∧
      left_pairs fuel m1 c = some pl ∧ right_pairs fuel m1 c = some pr ∧
      left_pairs fuel m1 other = some pl ∧ right_pairs fuel m1 other = some pr ∧
      (∀ m2, Mutation fuel m1 c m2 →
        left_pairs fuel m2 other = some pl ∧ right_pairs fuel m2 other = some pr) ∧
      (∀ m2, Mutation fuel m1 other m2 →
        left_pairs fuel m2 c = some pl ∧ right_pairs fuel m2 c = some pr)) ∧
    (∀ this ∈ live, this ≠ other → m.size this + 3 ≤ fuel →
      ∃ m3, copy_assign fuel m this other = some m3 ∧ Reach m3 live ∧
        equals fuel m3 this other = some true ∧
        size m3 this = size m other ∧ size m3 other = size m other ∧
        left_pairs fuel m3 this = some pl ∧ right_pairs fuel m3 this = some pr ∧
        left_pairs fuel m3 other = some pl ∧ right_pairs fuel m3 other = some pr ∧
        (∀ m4, Mutation fuel m3 this m4 →
          left_pairs fuel m4 other = some pl ∧ right_pairs fuel m4 other = some pr) ∧
        (∀ m4, Mutation fuel m3 other m4 →
          left_pairs fuel m4 this = some pl ∧ right_pairs fuel m4 this = some pr)) ∧
    copy_assign fuel m other other = some m := by
  obtain ⟨TL, TR, hw⟩ := hr.winv
  have hio := hw.inv other ho
  have hfl : m.size other < fuel := by omega
  rw [left_pairs_spec hio.shape hfl] at hpl
  rw [right_pairs_spec hio.shape hfl] at hpr
  obtain rfl := Option.some.inj hpl
  obtain rfl := Option.some.inj hpr
  have hon : other ≠ m.next := fun e => by have := hw.lt_next other ho; omega
  refine ⟨?_, ?_, by simp [copy_assign]⟩
  · obtain ⟨m1, tl1, tr1, e1, hw1, hsame1, hperm1, hcl1, hcr1⟩ :=
      copy_construct_full hw ho (by omega : m.size other + 1 < fuel)
    have hnl : m.next ∉ live := fun hm => by have := hw.lt_next _ hm; omega
    have hso := hsame1 other ho
    exact ⟨m1, m.next, e1, hnl, Reach.copy_construct other m.next fuel hr ho hf e1,
      copy_observed hio hw1 (List.mem_cons_self _ _) (List.mem_cons_of_mem _ ho) (Ne.symm hon)
        (Function.update_noteq hon _ _) (Function.update_noteq hon _ _)
        (fun y hy => ⟨hso.lval y hy, hso.rval y hy⟩) hso.size hcl1 hcr1
        (by rw [Function.update_same]; exact hperm1) (by omega : m.size other + 1 < fuel)⟩
  · intro this ht hto hft
    obtain ⟨m3, TL3, TR3, e3, hw3, hTL, hTR, hval, hsz, -, -, hclc, hcrc, hperm⟩ :=
      copy_assign_full hw ht ho hto (by omega : m.size this + 1 < fuel)
        (by omega : m.size other + 1 < fuel)
    exact ⟨m3, e3, Reach.copy_assign this other fuel hr ht ho hft hf e3,
      copy_observed hio hw3 ht ho hto hTL hTR hval hsz hclc hcrc hperm
        (by omega : m.size other + 1 < fuel)⟩

set_option maxRecDepth 100000 in
/-- The copy construction and the copy assignment from the bimap of two pairs. -/
theorem copy_equals_independent_witness :
    Reach duo1 [3, 0] ∧ 0 ∈ [3, 0] ∧ duo1.size 0 + 3 ≤ 8 ∧
    left_pairs 8 duo1 0 = some [(1, "a"), (2, "b")] ∧
    right_pairs 8 duo1 0 = some [(1, "a"), (2, "b")] ∧
    ((∃ m1 c, copy_construct 8 duo1 0 = some (m1, c) ∧ c ∉ [3, 0] ∧ Reach m1 (c :: [3, 0]) ∧
      equals 8 m1 c 0 = some true ∧
      size m1 c = size duo1 0 ∧ size m1 0 = size duo1 0 ∧
      left_pairs 8 m1 c = some [(1, "a"), (2, "b")] ∧
      right_pairs 8 m1 c = some [(1, "a"), (2, "b")] ∧
      left_pairs 8 m1 0 = some [(1, "a"), (2, "b")] ∧
      right_pairs 8 m1 0 = some [(1, "a"), (2, "b")] ∧
      (∀ m2, Mutation 8 m1 c m2 →
        left_pairs 8 m2 0 = some [(1, "a"), (2, "b")] ∧
        right_pairs 8 m2 0 = some [(1, "a"), (2, "b")]) ∧
      (∀ m2, Mutation 8 m1 0 m2 →
        left_pairs 8 m2 c = some [(1, "a"), (2, "b")] ∧
        right_pairs 8 m2 c = some [(1, "a"), (2, "b")])) ∧
    (∀ this ∈ [3, 0], this ≠ 0 → duo1.size this + 3 ≤ 8 →
      ∃ m3, copy_assign 8 duo1 this 0 = some m3 ∧ Reach m3 [3, 0] ∧
        equals 8 m3 this 0 = some true ∧
        size m3 this = size duo1 0 ∧ size m3 0 = size duo1 0 ∧
        left_pairs 8 m3 this = some [(1, "a"), (2, "b")] ∧
        right_pairs 8 m3 this = some [(1, "a"), (2, "b")] ∧
        left_pairs 8 m3 0 = some [(1, "a"), (2, "b")] ∧
        right_pairs 8 m3 0 = some [(1, "a"), (2, "b")] ∧
        (∀ m4, Mutation 8 m3 this m4 →
          left_pairs 8 m4 0 = some [(1, "a"), (2, "b")] ∧
          right_pairs 8 m4 0 = some [(1, "a"), (2, "b")]) ∧
        (∀ m4, Mutation 8 m3 0 m4 →
          left_pairs 8 m4 this = some [(1, "a"), (2, "b")] ∧
          right_pairs 8 m4 this = some [(1, "a"), (2, "b")])) ∧
    copy_assign 8 duo1 0 0 = some duo1) ∧
    (copy_construct 8 duo1 0).map Prod.snd = some 5 ∧
    left_pairs 8 copy1 5 = some [(1, "a"), (2, "b")] ∧ equals 8 copy1 5 0 = some true ∧
    left_pairs 8 copy2 5 = some [(1, "a"), (2, "b"), (9, "z")] ∧
    left_pairs 8 copy2 0 = some [(1, "a"), (2, "b")] ∧ equals 8 copy2 5 0 = some false ∧
    left_pairs 8 copy3 0 = some [(2, "b")] ∧
    left_pairs 8 copy3 5 = some [(1, "a"), (2, "b")] ∧
    left_pairs 8 duo1 3 = some [(7, "x")] ∧
    left_pairs 8 assign1 3 = some [(1, "a"), (2, "b")] ∧
    left_pairs 8 assign1 0 = some [(1, "a"), (2, "b")] ∧ equals 8 assign1 3 0 = some true :=
  ⟨reach_duo1, by decide, by decide, by decide, by decide,
    copy_equals_independent reach_duo1 (by decide : 0 ∈ [3, 0]) (by decide)
      (by decide : left_pairs 8 duo1 0 = some [(1, "a"), (2, "b")])
      (by decide : right_pairs 8 duo1 0 = some [(1, "a"), (2, "b")]),
    by decide, by decide, by decide, by decide, by decide, by decide, by decide, by decide,
    by decide, by decide, by decide, by decide⟩

end claims

section upper
variable {K : Type} [DecidableEq K] {cmp : K → K → Bool} {get_over : Ptr → Option K}

/-- What `set_over::upper_bound` computes: the node found by `lower_bound`,
replaced by its successor when its value `== key`. -/
theorem upper_bound_spec (hs : StrictWeakOrder cmp) {h : Heap} {s : Side} {b : Nat} {t : Tree}
    (key : K) (hr : SetRep h s b t)
    (hval : ∀ x ∈ t.toList, ∃ v, get_over ⟨s, x⟩ = some v)
    (hsorted : t.toList.Pairwise (VLt cmp (fun x => get_over ⟨s, x⟩)))
    {fuel : Nat} (hf : t.size < fuel) :
    upper_bound cmp get_over fuel h ⟨s, b⟩ key =
      some (some (match t.toList.find? (onVal (fun x => get_over ⟨s, x⟩) (fun v => !cmp v key)) with
        | some y => if get_over ⟨s, y⟩ = some key then succPtr s b t.toList y else ⟨s, y⟩
        | none => ⟨s, b⟩)) := by
  simp only [upper_bound, lower_bound_spec hs key hr hval hsorted hf]
  cases hF : t.toList.find? (onVal (fun x => get_over ⟨s, x⟩) (fun v => !cmp v key)) with
  | none => simp [end_node]
  | some y =>
    have hy : y ∈ t.toList := List.mem_of_find?_eq_some hF
    have hyb : y ≠ b := fun e => hr.notin (e ▸ hy)
    obtain ⟨v, hv⟩ := hval y hy
    have hne : (some (⟨s, y⟩ : Ptr) : NPtr) ≠ end_node ⟨s, b⟩ := by
      simp [end_node, hyb]
    simp only [if_neg hne, hv, Option.some.injEq]
    by_cases hvk : v = key
    · rw [if_pos hvk, if_pos hvk, next_node_spec hr hy hf]
    · rw [if_neg hvk, if_neg hvk]

/-- When every stored value equivalent to the key is `==` to it, the node
`upper_bound` computes is the first one strictly greater than the key. -/
theorem upper_bound_first_greater (hs : StrictWeakOrder cmp) {val : Nat → Option K}
    {L : List Nat} (hsorted : L.Pairwise (VLt cmp val)) (hnd : L.Nodup)
    (hval : ∀ x ∈ L, ∃ v, val x = some v) (key : K)
    (hagree : ∀ x ∈ L, ∀ v, val x = some v → equiv cmp v key = true → v = key)
    (s : Side) (b : Nat) :
    (match L.find? (onVal val (fun v => !cmp v key)) with
      | some y => if val y = some key then succPtr s b L y else ⟨s, y⟩
      | none => (⟨s, b⟩ : Ptr)) =
    (match L.find? (onVal val (fun v => cmp key v)) with
      | some y => ⟨s, y⟩
      | none => ⟨s, b⟩) := by
  cases hF : L.find? (onVal val (fun v => !cmp v key)) with
  | none =>
    have hnone : L.find? (onVal val (fun v => cmp key v)) = none := by
      rw [List.find?_eq_none] at hF ⊢
      intro x hx
      obtain ⟨v, hv⟩ := hval x hx
      have := hF x hx
      simp only [onVal, hv, Bool.not_eq_true, Bool.not_eq_false', Bool.not_not] at this ⊢
      rw [hs.asymm this]
    rw [hnone]
  | some y =>
    obtain ⟨hpy, A, B, e, hA⟩ := List.find?_eq_some.1 hF
    have hy : y ∈ L := by rw [e]; simp
    obtain ⟨v, hv⟩ := hval y hy
    have hvk : cmp v key = false := by simpa [onVal, hv] using hpy
    have hAu : ∀ x ∈ A, onVal val (fun v => cmp key v) x = false := by
      intro x hx
      obtain ⟨w, hw⟩ := hval x (by rw [e]; simp [hx])
      have := hA x hx
      simp only [onVal, hw, Bool.not_not] at this ⊢
      rw [hs.asymm this]
    simp only
    by_cases hk : v = key
    · subst hk
      rw [if_pos hv]
      have hyu : onVal val (fun w => cmp v w) y = false := by
        simp only [onVal, hv, hs.irrefl]
      have hfind : L.find? (onVal val (fun w => cmp v w)) = B.head? := by
        rw [e, List.find?_append, List.find?_eq_none.2 (fun x hx => by simp [hAu x hx]),
          Option.none_or, List.find?_cons_of_neg _ (by simp [hyu])]
        cases B with
        | nil => rfl
        | cons z B1 =>
          have hz : VLt cmp val y z := by
            rw [e] at hsorted
            have := (List.pairwise_append.1 hsorted).2.1
            exact List.rel_of_pairwise_cons this (List.mem_cons_self _ _)
          obtain ⟨a1, b1, ha1, hb1, hlt⟩ := hz
          rw [hv] at ha1
          obtain rfl := Option.some.inj ha1
          rw [List.find?_cons_of_pos _ (by simp [onVal, hb1, hlt])]
          rfl
      rw [hfind, e, succPtr_split s b (e ▸ hnd)]
      cases B <;> rfl
    · have hne : val y ≠ some key := by rw [hv]; exact fun e1 => hk (Option.some.inj e1)
      rw [if_neg hne]
      have hlt : cmp key v = true := by
        cases hc : cmp key v with
        | true => rfl
        | false =>
          exact absurd (hagree y hy v hv (by simp [equiv, hvk, hc])) hk
      rw [e, find_split hAu (by simp [onVal, hv, hlt])]

end upper

section upper_bimap
variable {α β : Type}

theorem Inv.upper_bound_left [DecidableEq α] {m : Mem α β} {b : Nat} {tl tr : Tree}
    (hi : Inv m b tl tr) (k : α) {fuel : Nat} (hf : m.size b < fuel)
    (hagree : ∀ x ∈ tl.toList, ∀ v, m.lval x = some v → equiv (m.cmpL b) v k = true → v = k) :
    upper_bound_left fuel m b k =
      some (some (match tl.toList.find? (onVal m.lval (fun v => m.cmpL b k v)) with
        | some y => ⟨.left, y⟩
        | none => ⟨.left, b⟩)) :=
  (upper_bound_spec hi.swoL k hi.shape.repL hi.shape.valL hi.sortedL
    (by rw [hi.shape.size_left]; exact hf)).trans
    (congrArg (fun p => some (some p))
      (upper_bound_first_greater hi.swoL hi.sortedL hi.shape.repL.nodup hi.shape.valL k hagree
        .left b))

theorem Inv.upper_bound_right [DecidableEq β] {m : Mem α β} {b : Nat} {tl tr : Tree}
    (hi : Inv m b tl tr) (k : β) {fuel : Nat} (hf : m.size b < fuel)
    (hagree : ∀ x ∈ tr.toList, ∀ v, m.rval x = some v → equiv (m.cmpR b) v k = true → v = k) :
    upper_bound_right fuel m b k =
      some (some (match tr.toList.find? (onVal m.rval (fun v => m.cmpR b k v)) with
        | some y => ⟨.right, y⟩
        | none => ⟨.right, b⟩)) :=
  (upper_bound_spec hi.swoR k hi.shape.repR hi.shape.valR_right hi.sortedR
    (by rw [hi.shape.size_right]; exact hf)).trans
    (congrArg (fun p => some (some p))
      (upper_bound_first_greater hi.swoR hi.sortedR hi.shape.repR.nodup hi.shape.valR_right k
        hagree .right b))

end upper_bimap

section claims
variable {α β : Type} [Inhabited α] [Inhabited β] [DecidableEq α] [DecidableEq β]

/-- On a reachable bimap, for a key `k` such that every stored value equivalent
to `k` under the comparator is also `==` to `k`, `upper_bound_left(k)` is the
cursor of the first pair in left order whose left value is strictly greater
than `k`, and it is `end_left()` exactly when no stored left value is strictly
greater than `k`; the same for `upper_bound_right`. -/
theorem upper_bound_where_eq_agrees {m : Mem α β} {live : List Nat} (hr : Reach m live)
    {b : Nat} (hb : b ∈ live) {fuel : Nat} (hf : m.size b + 3 ≤ fuel)
    {pl pr : List (α × β)} {cl cr : List NPtr}
    (hpl : left_pairs fuel m b = some pl) (hpr : right_pairs fuel m b = some pr)
    (hcl : left_cursors fuel m b = some cl) (hcr : right_cursors fuel m b = some cr) :
    (∀ k : α, (∀ p ∈ pl, equiv (m.cmpL b) p.1 k = true → p.1 = k) →
      ∃ it, upper_bound_left fuel m b k = some it ∧
      (it = end_left b ↔ ∀ p ∈ pl, m.cmpL b k p.1 = false) ∧
      (∀ A p B, pl = A ++ p :: B → (∀ q ∈ A, m.cmpL b k q.1 = false) →
        m.cmpL b k p.1 = true →
        it ≠ end_left b ∧ cl[A.length]? = some it ∧ pair_at_left m it = some p)) ∧
    (∀ k : β, (∀ p ∈ pr, equiv (m.cmpR b) p.2 k = true → p.2 = k) →
      ∃ it, upper_bound_right fuel m b k = some it ∧
      (it = end_right b ↔ ∀ p ∈ pr, m.cmpR b k p.2 = false) ∧
      (∀ A p B, pr = A ++ p :: B → (∀ q ∈ A, m.cmpR b k q.2 = false) →
        m.cmpR b k p.2 = true →
        it ≠ end_right b ∧ cr[A.length]? = some it ∧ pair_at_right m it = some p)) := by
  obtain ⟨tl, tr, hi⟩ := hr.inv hb
  have hs := hi.shape
  have hfl : m.size b < fuel := by omega
  rw [left_pairs_spec hs hfl] at hpl
  rw [right_pairs_spec hs hfl] at hpr
  rw [left_cursors_spec hs hfl] at hcl
  rw [right_cursors_spec hs hfl] at hcr
  obtain rfl := Option.some.inj hpl
  obtain rfl := Option.some.inj hpr
  obtain rfl := Option.some.inj hcl
  obtain rfl := Option.some.inj hcr
  constructor
  · intro k hagree
    have hag : ∀ x ∈ tl.toList, ∀ v, m.lval x = some v →
        equiv (m.cmpL b) v k = true → v = k := by
      intro x hx v hv he
      obtain ⟨l, r, hl, hrr, -⟩ := pairOf_some hs hx
      rw [hv] at hl
      obtain rfl := Option.some.inj hl
      exact hagree (v, r) (mem_pairList.2 ⟨x, hx, hv, hrr⟩) he
    obtain ⟨h1, h2⟩ := first_passing (fun v => m.cmpL b k v) m.lval Prod.fst hs.pair_all
      (fun x p hp => (pairOf_fst hp).1) .left
    refine ⟨_, hi.upper_bound_left k hfl hag, ?_, ?_⟩
    · constructor
      · intro he
        have hnone : tl.toList.find? (onVal m.lval (fun v => m.cmpL b k v)) = none := by
          cases hfind : tl.toList.find? (onVal m.lval (fun v => m.cmpL b k v)) with
          | none => rfl
          | some y =>
            rw [hfind] at he
            have hy := List.mem_of_find?_eq_some hfind
            exact absurd he (node_ne_end_left hs hy)
        exact h1.1 hnone
      · intro hall
        rw [h1.2 hall]
        rfl
    · intro A p B hsplit hA hp
      obtain ⟨y, hy, hfind, hpy, hget⟩ := h2 A p B hsplit hA hp
      rw [hfind]
      exact ⟨node_ne_end_left hs hy, hget, by rw [pair_at_left_node hs hy, hpy]⟩
  · intro k hagree
    have hag : ∀ x ∈ tr.toList, ∀ v, m.rval x = some v →
        equiv (m.cmpR b) v k = true → v = k := by
      intro x hx v hv he
      obtain ⟨l, r, hl, hrr, -⟩ := pairOf_some hs (hs.mem_right.1 hx)
      rw [hv] at hrr
      obtain rfl := Option.some.inj hrr
      exact hagree (l, v) (mem_pairList.2 ⟨x, hx, hl, hv⟩) he
    obtain ⟨h1, h2⟩ := first_passing (fun v => m.cmpR b k v) m.rval Prod.snd hs.pair_all_right
      (fun x p hp => (pairOf_fst hp).2) .right
    refine ⟨_, hi.upper_bound_right k hfl hag, ?_, ?_⟩
    · constructor
      · intro he
        have hnone : tr.toList.find? (onVal m.rval (fun v => m.cmpR b k v)) = none := by
          cases hfind : tr.toList.find? (onVal m.rval (fun v => m.cmpR b k v)) with
          | none => rfl
          | some y =>
            rw [hfind] at he
            have hy := List.mem_of_find?_eq_some hfind
            exact absurd he (node_ne_end_right hs (hs.mem_right.1 hy))
        exact h1.1 hnone
      · intro hall
        rw [h1.2 hall]
        rfl
    · intro A p B hsplit hA hp
      obtain ⟨y, hy, hfind, hpy, hget⟩ := h2 A p B hsplit hA hp
      rw [hfind]
      exact ⟨node_ne_end_right hs (hs.mem_right.1 hy), hget,
        by rw [pair_at_right_node hs (hs.mem_right.1 hy), hpy]⟩

end claims

end Bimap
